import Mathlib

/-!
# XFS simulator: allocation groups, extent-mapped file I/O

A shallow embedding of the simulator's block device (`xfs_disk.c`), allocation-group
layout (`xfs_ag.c`), free-space allocator (`xfs_alloc.c`), journal queue (`xfs_trans.c`)
and extent-mapped read/write path (`xfs_io.c`), followed by theorems about them.

Conventions.
* Bytes, `uint32_t`, `uint64_t` and `size_t` values are `Nat`; C `int` values are `Int`.
  Unsigned arithmetic that can wrap carries an explicit `% 2 ^ 32` or `% 2 ^ 64`.
* The device memory is a total function from byte addresses to bytes together with the
  device size; `none` stands for `DISK_MEMORY == NULL`.
* Structures are stored on the device in their x86-64 memory layout (little-endian,
  `sizeof(xfs_agf_t) = 2416`, `sizeof(xfs_agi_t) = 16`, `sizeof(xfs_sb_t) = 32`).
* The program is modelled sequentially: one client thread, and the journal worker
  drains the queue whenever the client waits on a barrier.  `malloc` and the pthread
  primitives are assumed not to fail.
* `off_t` file offsets are modelled by their non-negative values.
-/

namespace XfsSim

/-! ## Machine integers -/

/-- Conversion of a C `int` to `uint32_t`. -/
def to_u32 (x : Int) : Nat := (x % 4294967296).toNat

/-- Conversion of a C `int` to `uint64_t`. -/
def to_u64 (x : Int) : Nat := (x % 18446744073709551616).toNat

/-- Conversion of an unsigned value to a C `int` (two's complement narrowing). -/
def to_int (n : Nat) : Int :=
  if n % 4294967296 < 2147483648 then ((n % 4294967296 : Nat) : Int)
  else ((n % 4294967296 : Nat) : Int) - 4294967296

/-! ## Block device (`xfs_disk.c`) -/

/-- The pair `DISK_MEMORY` / `DISK_SIZE` when the device is initialised. -/
structure Disk where
  size : Nat
  mem : Nat → Nat

/-- Function `disk_init`: a zero-filled device of `size` bytes. -/
def disk_init (size : Nat) : Int × Option Disk :=
  (0, some { size := size, mem := fun _ => 0 })

/-- Function `disk_read`: `none` is the error return `-1`, otherwise the `len` bytes
copied into the caller's buffer.  The bounds check adds in 64-bit arithmetic. -/
def disk_read (d : Option Disk) (offset len : Nat) : Option (List Nat) :=
  match d with
  | none => none
  | some dk =>
    if (offset + len) % 18446744073709551616 > dk.size then none
    else some ((List.range len).map (fun k => dk.mem (offset + k)))

/-- Function `disk_write`: returns the status (`0` or `-1`) and the device afterwards.
Byte `k` of `buf` (for `k < len`) lands at address `offset + k`. -/
def disk_write (d : Option Disk) (offset : Nat) (buf : List Nat) (len : Nat) :
    Int × Option Disk :=
  match d with
  | none => (-1, none)
  | some dk =>
    if (offset + len) % 18446744073709551616 > dk.size then (-1, some dk)
    else (0, some { size := dk.size,
                    mem := fun a => if offset ≤ a ∧ a < offset + len
                                    then buf.getD (a - offset) 0 else dk.mem a })

/-- Function `disk_destroy`. -/
def disk_destroy (_d : Option Disk) : Option Disk := none

/-! ## On-disk records (`xfs_types.h`) -/

/-- Record `xfs_sb_t`. -/
structure xfs_sb_t where
  sb_magicnum : Nat
  sb_blocksize : Nat
  sb_dblocks : Nat
  sb_agcount : Nat
  sb_versionnum : Nat
deriving DecidableEq

/-- Record `xfs_agf_t`; `free_blocks` is the 2400-entry byte map (`0` free, `1` used). -/
structure xfs_agf_t where
  agf_magicnum : Nat
  agf_length : Nat
  agf_freeblks : Nat
  agf_longest : Nat
  free_blocks : List Nat
deriving DecidableEq

/-- Record `xfs_agi_t`. -/
structure xfs_agi_t where
  agi_magicnum : Nat
  agi_count : Nat
  agi_root : Nat
  agi_freecount : Nat
deriving DecidableEq

/-- The macro `XFS_BLOCK_SIZE`. -/
def XFS_BLOCK_SIZE : Nat := 4096

/-- The macro `NUM_AGS`. -/
def NUM_AGS : Nat := 10

/-- Number of entries of `free_blocks`. -/
def BITMAP_SLOTS : Nat := 2400

/-- The value `sizeof(xfs_agf_t)`: four `uint32_t` fields and 2400 bytes. -/
def SIZEOF_AGF : Nat := 2416

/-- The value `sizeof(xfs_agi_t)`. -/
def SIZEOF_AGI : Nat := 16

/-- The value `sizeof(xfs_sb_t)` (28 bytes of fields, padded to 8-byte alignment). -/
def SIZEOF_SB : Nat := 32

/-- Little-endian bytes of a `uint32_t`. -/
def bytes_of_u32 (x : Nat) : List Nat :=
  [x % 256, x / 256 % 256, x / 65536 % 256, x / 16777216 % 256]

/-- Little-endian bytes of a `uint64_t`. -/
def bytes_of_u64 (x : Nat) : List Nat :=
  bytes_of_u32 (x % 4294967296) ++ bytes_of_u32 (x / 4294967296)

/-- The `uint32_t` stored little-endian at position `p` of a byte list (every memory
cell contributes its low eight bits). -/
def u32_at (bs : List Nat) (p : Nat) : Nat :=
  bs.getD p 0 % 256 + 256 * (bs.getD (p + 1) 0 % 256) + 65536 * (bs.getD (p + 2) 0 % 256)
    + 16777216 * (bs.getD (p + 3) 0 % 256)

/-- The `uint64_t` stored little-endian at position `p` of a byte list. -/
def u64_at (bs : List Nat) (p : Nat) : Nat :=
  u32_at bs p + 4294967296 * u32_at bs (p + 4)

/-- Memory image of an `xfs_agf_t`. -/
def agf_to_bytes (a : xfs_agf_t) : List Nat :=
  bytes_of_u32 a.agf_magicnum ++ bytes_of_u32 a.agf_length ++ bytes_of_u32 a.agf_freeblks
    ++ bytes_of_u32 a.agf_longest ++ a.free_blocks

/-- The `xfs_agf_t` whose memory image is the given 2416 bytes. -/
def agf_of_bytes (bs : List Nat) : xfs_agf_t :=
  { agf_magicnum := u32_at bs 0
    agf_length := u32_at bs 4
    agf_freeblks := u32_at bs 8
    agf_longest := u32_at bs 12
    free_blocks := (bs.drop 16).take BITMAP_SLOTS }

/-- Memory image of an `xfs_agi_t`. -/
def agi_to_bytes (a : xfs_agi_t) : List Nat :=
  bytes_of_u32 a.agi_magicnum ++ bytes_of_u32 a.agi_count ++ bytes_of_u32 a.agi_root
    ++ bytes_of_u32 a.agi_freecount

/-- The `xfs_agi_t` whose memory image is the given 16 bytes. -/
def agi_of_bytes (bs : List Nat) : xfs_agi_t :=
  { agi_magicnum := u32_at bs 0
    agi_count := u32_at bs 4
    agi_root := u32_at bs 8
    agi_freecount := u32_at bs 12 }

/-- Memory image of an `xfs_sb_t`; `pad` is the content of the four trailing padding
bytes, which the program never initialises. -/
def sb_to_bytes (s : xfs_sb_t) (pad : List Nat) : List Nat :=
  bytes_of_u32 s.sb_magicnum ++ bytes_of_u32 s.sb_blocksize ++ bytes_of_u64 s.sb_dblocks
    ++ bytes_of_u64 s.sb_agcount ++ bytes_of_u32 s.sb_versionnum
    ++ (List.range 4).map (fun k => pad.getD k 0)

/-- The `xfs_sb_t` whose memory image is the given 32 bytes. -/
def sb_of_bytes (bs : List Nat) : xfs_sb_t :=
  { sb_magicnum := u32_at bs 0
    sb_blocksize := u32_at bs 4
    sb_dblocks := u64_at bs 8
    sb_agcount := u64_at bs 16
    sb_versionnum := u32_at bs 24 }

/-! ## Journal queue (`xfs_trans.c`), sequential view -/

/-- One `log_queue_node_t`: a data entry owns a copy of `len` bytes; a barrier entry
carries the `signaled` flag of its sync handle. -/
inductive LogNode where
  | data (bytes : List Nat) (len : Nat)
  | barrier (signaled : Bool)
deriving DecidableEq

/-- The journal globals: the queue from `log_head` to `log_tail`, and
`log_worker_running`. -/
structure Journal where
  queue : List LogNode
  running : Bool
deriving DecidableEq

/-- Function `trans_init`: the worker thread is started. -/
def trans_init (j : Journal) : Int × Journal :=
  (0, { j with running := true })

/-- Function `trans_add_item`: a data node with a copy of the first `len` bytes of `data`
is linked at the tail. -/
def trans_add_item (j : Journal) (data : List Nat) (len : Int) : Int × Journal :=
  (0, { j with queue := j.queue ++ [LogNode.data (data.take len.toNat) (to_u64 len)] })

/-- Function `trans_commit_barrier` as seen by a single client: the barrier node is linked
at the tail and the caller waits until the worker has removed every node up to and
including it.  Without a running worker the wait never ends (`none`). -/
def trans_commit_barrier (j : Journal) : Option (Int × Journal) :=
  if j.running then some (0, { j with queue := [] }) else none

/-- Function `get_log_queue_length`. -/
def get_log_queue_length (j : Journal) : Int := (j.queue.length : Int)

/-! ## Allocation groups (`xfs_ag.c`) -/

/-- Function `ag_lock` (the mutex itself is not modelled: one client). -/
def ag_lock (ag_id : Int) : Int :=
  if ag_id < 0 ∨ ag_id ≥ (NUM_AGS : Int) then -1 else 0

/-- Function `ag_unlock`. -/
def ag_unlock (ag_id : Int) : Int :=
  if ag_id < 0 ∨ ag_id ≥ (NUM_AGS : Int) then -1 else 0

/-- Function `ag_get_offset`. -/
def ag_get_offset (ag_id : Int) : Nat :=
  if ag_id < 0 ∨ ag_id ≥ (NUM_AGS : Int) then 0
  else ag_id.toNat * (10 * 1024 * 1024)

/-- The state shared by the allocator and the I/O path: device and journal. -/
structure FS where
  disk : Option Disk
  journal : Journal

/-! ## Free-space allocator (`xfs_alloc.c`) -/

/-- The inner loop of `xfs_alloc_blocks`, `for (j = 0; j < count; j++)`, with `n`
iterations left: the first `j` at which slot `i + j` holds `1` (the loop `break`s with
`is_free = 0`), or `none` when the loop runs to its end (`is_free` stays `1`). -/
def alloc_inner (free_blocks : List Nat) (i : Int) : Nat → Int → Option Int
  | 0, _ => none
  | n + 1, j =>
    if free_blocks.getD (i + j).toNat 0 = 1 then some j
    else alloc_inner free_blocks i n (j + 1)

/-- The outer loop of `xfs_alloc_blocks`, `for (i = 2; i < 2400 - count; i++)`, entered
at index `i` with a budget of `fuel` iterations: `some i` is `found = 1` with
`start_block = i`, `none` is `found = 0`.  After a blocker at `i + j` the loop body sets
`i = i + j` and the loop header increments it. -/
def alloc_scan (free_blocks : List Nat) (count : Int) : Nat → Int → Option Int
  | 0, _ => none
  | fuel + 1, i =>
    if i < 2400 - count then
      match alloc_inner free_blocks i count.toNat 0 with
      | some j => alloc_scan free_blocks count fuel (i + j + 1)
      | none => some i
    else none

/-- The loop `for (i = 0; i < count; i++) agf.free_blocks[start_block + i] = 1`. -/
def mark_used (free_blocks : List Nat) (start_block : Nat) (count : Int) : List Nat :=
  (List.range count.toNat).foldl (fun fb i => fb.set (start_block + i) 1) free_blocks

/-- The loop of `xfs_free_blocks`:
`for (i = 0; i < count; i++) if (start_block + i < 2400) agf.free_blocks[start_block + i] = 0`,
the sum being a `uint64_t`. -/
def mark_free (free_blocks : List Nat) (start_block : Nat) (count : Int) : List Nat :=
  (List.range count.toNat).foldl
    (fun fb i =>
      if (start_block + i) % 18446744073709551616 < 2400
      then fb.set ((start_block + i) % 18446744073709551616) 0 else fb)
    free_blocks

/-- The update `xfs_alloc_blocks` applies to the AGF once a run was found at
`start_block`: the run is marked used, `agf_freeblks -= count` in `uint32_t`, and
`agf_longest = agf_freeblks > 0 ? agf_freeblks : 0`. -/
def agf_allocate (agf : xfs_agf_t) (start_block : Nat) (count : Int) : xfs_agf_t :=
  let freeblks := (((agf.agf_freeblks : Int) - count) % 4294967296).toNat
  { agf with
    free_blocks := mark_used agf.free_blocks start_block count
    agf_freeblks := freeblks
    agf_longest := if freeblks > 0 then freeblks else 0 }

/-- The update `xfs_free_blocks` applies to the AGF: the run is marked free,
`agf_freeblks += count` in `uint32_t`, and `agf_longest` is raised to `count` when
`agf_longest < count` (compared as `uint32_t`). -/
def agf_release (agf : xfs_agf_t) (start_block : Nat) (count : Int) : xfs_agf_t :=
  { agf with
    free_blocks := mark_free agf.free_blocks start_block count
    agf_freeblks := (((agf.agf_freeblks : Int) + count) % 4294967296).toNat
    agf_longest := if agf.agf_longest < to_u32 count then to_u32 count
                   else agf.agf_longest }

/-- Function `xfs_alloc_blocks`: the returned block number and the state afterwards.
The scan visits indices below 2400 only, so 2400 iterations always suffice
(`alloc_scan_fuel`). -/
def xfs_alloc_blocks (fs : FS) (ag_id : Int) (count : Int) : Nat × FS :=
  if ag_lock ag_id ≠ 0 then (0, fs)
  else
    let ag_offset := ag_get_offset ag_id
    match disk_read fs.disk ag_offset SIZEOF_AGF with
    | none => (0, fs)
    | some bytes =>
      let agf := agf_of_bytes bytes
      match alloc_scan agf.free_blocks count 2400 2 with
      | none => (0, fs)
      | some i =>
        let start_block := to_u64 i
        let agf1 := agf_allocate agf start_block count
        match disk_write fs.disk ag_offset (agf_to_bytes agf1) SIZEOF_AGF with
        | (0, disk1) =>
          (start_block,
            { disk := disk1
              journal := (trans_add_item fs.journal (agf_to_bytes agf1) SIZEOF_AGF).2 })
        | (_, disk1) => (0, { fs with disk := disk1 })

/-- Function `xfs_free_blocks`: status and state afterwards. -/
def xfs_free_blocks (fs : FS) (ag_id : Int) (start_block : Nat) (count : Int) : Int × FS :=
  if ag_lock ag_id ≠ 0 then (-1, fs)
  else
    let ag_offset := ag_get_offset ag_id
    match disk_read fs.disk ag_offset SIZEOF_AGF with
    | none => (-1, fs)
    | some bytes =>
      let agf := agf_of_bytes bytes
      let agf1 := agf_release agf start_block count
      match disk_write fs.disk ag_offset (agf_to_bytes agf1) SIZEOF_AGF with
      | (0, disk1) =>
        (0, { disk := disk1
              journal := (trans_add_item fs.journal (agf_to_bytes agf1) SIZEOF_AGF).2 })
      | (_, disk1) => (-1, { fs with disk := disk1 })

/-- The two loops of `xfs_ag_init_alloc`: slots 0 and 1 used, slots 2..2399 free. -/
def init_bitmap (free_blocks : List Nat) : List Nat :=
  (List.range' 2 2398).foldl (fun fb i => fb.set i 0)
    ((List.range 2).foldl (fun fb i => fb.set i 1) free_blocks)

/-- The update `xfs_ag_init_alloc` applies to the AGF. -/
def agf_reset (agf : xfs_agf_t) : xfs_agf_t :=
  { agf with
    free_blocks := init_bitmap agf.free_blocks
    agf_freeblks := 2400 - 2
    agf_longest := 2400 - 2 }

/-- Function `xfs_ag_init_alloc`: status and state afterwards (no journal entry). -/
def xfs_ag_init_alloc (fs : FS) (ag_id : Int) : Int × FS :=
  if ag_lock ag_id ≠ 0 then (-1, fs)
  else
    let ag_offset := ag_get_offset ag_id
    match disk_read fs.disk ag_offset SIZEOF_AGF with
    | none => (-1, fs)
    | some bytes =>
      let agf := agf_of_bytes bytes
      let agf1 := agf_reset agf
      match disk_write fs.disk ag_offset (agf_to_bytes agf1) SIZEOF_AGF with
      | (0, disk1) => (0, { fs with disk := disk1 })
      | (_, disk1) => (-1, { fs with disk := disk1 })

/-! ## Format (`ag_write_headers`, `xfs_mkfs`) -/

/-- Contents of the stack memory that `ag_write_headers` copies to the device without
having initialised it: the padding of `sb` and the `free_blocks` array of `agf`. -/
structure StackJunk where
  sb_pad : List Nat
  agf_bitmap : List Nat

/-- The superblock assembled by `ag_write_headers`. -/
def format_sb : xfs_sb_t :=
  { sb_magicnum := 0x58465342
    sb_blocksize := 4096
    sb_dblocks := 100 * 1024 * 1024 / 4096
    sb_agcount := NUM_AGS
    sb_versionnum := 5 }

/-- The AGF assembled by `ag_write_headers`; its bitmap is whatever the stack held. -/
def format_agf (junk : StackJunk) : xfs_agf_t :=
  { agf_magicnum := 0x58414746
    agf_length := 10 * 1024 * 1024 / 4096
    agf_freeblks := 10 * 1024 * 1024 / 4096 - 2
    agf_longest := 10 * 1024 * 1024 / 4096 - 2
    free_blocks := (List.range BITMAP_SLOTS).map (fun k => junk.agf_bitmap.getD k 0) }

/-- The AGI assembled by `ag_write_headers`. -/
def format_agi : xfs_agi_t :=
  { agi_magicnum := 0x58414749, agi_count := 0, agi_root := 0, agi_freecount := 0 }

/-- The loop of `ag_write_headers` over the AGs `i, i+1, …` (`n` of them left). -/
def ag_write_headers_loop (junk : StackJunk) : Nat → Nat → Option Disk → Int × Option Disk
  | 0, _, d => (0, d)
  | n + 1, i, d =>
    let ag_offset := ag_get_offset i
    match disk_write d ag_offset (agf_to_bytes (format_agf junk)) SIZEOF_AGF with
    | (0, d1) =>
      match disk_write d1 (ag_offset + 4096) (agi_to_bytes format_agi) SIZEOF_AGI with
      | (0, d2) => ag_write_headers_loop junk n (i + 1) d2
      | (_, d2) => (-1, d2)
    | (_, d1) => (-1, d1)

/-- Function `ag_write_headers`. -/
def ag_write_headers (junk : StackJunk) (d : Option Disk) : Int × Option Disk :=
  match disk_write d 0 (sb_to_bytes format_sb junk.sb_pad) SIZEOF_SB with
  | (0, d1) => ag_write_headers_loop junk NUM_AGS 0 d1
  | (_, d1) => (-1, d1)

/-- The loop of `xfs_mkfs` calling `xfs_ag_init_alloc` for the AGs `i, i+1, …`. -/
def mkfs_init_loop : Nat → Nat → FS → Int × FS
  | 0, _, fs => (0, fs)
  | n + 1, i, fs =>
    match xfs_ag_init_alloc fs i with
    | (0, fs1) => mkfs_init_loop n (i + 1) fs1
    | (_, fs1) => (-1, fs1)

/-- Function `xfs_mkfs` (`ag_init_headers` only creates the mutexes). -/
def xfs_mkfs (junk : StackJunk) (fs : FS) (disk_size : Nat) : Int × FS :=
  match disk_init disk_size with
  | (0, d0) =>
    match ag_write_headers junk d0 with
    | (0, d1) => mkfs_init_loop NUM_AGS 0 { fs with disk := d1 }
    | (_, d1) => (-1, { fs with disk := d1 })
  | (_, d0) => (-1, { fs with disk := d0 })

/-- Function `xfs_mount`. -/
def xfs_mount (fs : FS) : Int × FS :=
  match trans_init fs.journal with
  | (0, j) => (0, { fs with journal := j })
  | (_, j) => (-1, { fs with journal := j })

/-- The AGF record currently stored on the device for AG `ag_id`. -/
def read_agf (d : Option Disk) (ag_id : Int) : Option xfs_agf_t :=
  (disk_read d (ag_get_offset ag_id) SIZEOF_AGF).map agf_of_bytes

/-- Number of zero entries among `free_blocks[0..2400)`. -/
def zero_slots (free_blocks : List Nat) : Nat :=
  (free_blocks.take BITMAP_SLOTS).count 0

/-! ## Inodes and extent-mapped I/O (`xfs_io.c`) -/

/-- Record `xfs_extent_t`. -/
structure xfs_extent_t where
  start_off : Nat
  start_block : Nat
  block_count : Nat
deriving DecidableEq

/-- Record `xfs_inode_t`; `extents` is the 16-slot array. -/
structure xfs_inode_t where
  inode_num : Nat
  di_mode : Nat
  di_uid : Nat
  di_gid : Nat
  di_nlink : Nat
  di_size : Nat
  extent_count : Int
  extents : List xfs_extent_t
deriving DecidableEq

/-- Function `find_extent_for_offset`: the first of the `extent_count` stored extents
that covers `logical_block`, or `none` for `NULL`. -/
def find_extent_for_offset (inode : xfs_inode_t) (logical_block : Nat) :
    Option xfs_extent_t :=
  (inode.extents.take inode.extent_count.toNat).find?
    (fun e => decide (logical_block ≥ e.start_off ∧
      logical_block < (e.start_off + e.block_count) % 18446744073709551616))

/-- Function `add_extent_to_inode`: status and inode afterwards. -/
def add_extent_to_inode (inode : xfs_inode_t) (logical_start physical_start block_count : Nat) :
    Int × xfs_inode_t :=
  if inode.extent_count ≥ 16 then (-1, inode)
  else
    (0, { inode with
          extents := inode.extents.set inode.extent_count.toNat
            { start_off := logical_start, start_block := physical_start,
              block_count := block_count }
          extent_count := inode.extent_count + 1 })

/-- The mapping loop of `xfs_sim_write`, `for (i = 0; i < num_blocks; i++)`, with `n`
iterations left: status (`0` when the loop ran to its end, `-1` for an early
`return -1`), inode and state afterwards. -/
def write_map_loop (block_start : Nat) :
    Nat → Nat → FS → xfs_inode_t → Int × xfs_inode_t × FS
  | 0, _, fs, inode => (0, inode, fs)
  | n + 1, i, fs, inode =>
    let logical_block := (block_start + i) % 18446744073709551616
    match find_extent_for_offset inode logical_block with
    | some _ => write_map_loop block_start n (i + 1) fs inode
    | none =>
      let ag_id := logical_block % NUM_AGS
      let r := xfs_alloc_blocks fs ag_id 1
      let physical_block := r.1
      if physical_block = 0 then (-1, inode, r.2)
      else
        match add_extent_to_inode inode logical_block physical_block 1 with
        | (0, inode1) => write_map_loop block_start n (i + 1) r.2 inode1
        | (_, inode1) => (-1, inode1, (xfs_free_blocks r.2 ag_id physical_block 1).2)

/-- The data loop of `xfs_sim_write`, `while (bytes_written < size)`, with a budget of
`fuel` iterations: status, `bytes_written` and device afterwards.  Every iteration
writes at least one byte, so `size` iterations always suffice
(`write_data_loop_fuel`). -/
def write_data_loop (inode : xfs_inode_t) (buffer : List Nat) (size offset : Nat) :
    Nat → Nat → Option Disk → Int × Nat × Option Disk
  | 0, bytes_written, d => (0, bytes_written, d)
  | fuel + 1, bytes_written, d =>
    if bytes_written < size then
      let pos := (offset + bytes_written) % 18446744073709551616
      let current_logical_block := pos / XFS_BLOCK_SIZE
      let offset_in_block := pos % XFS_BLOCK_SIZE
      match find_extent_for_offset inode current_logical_block with
      | none => (-1, bytes_written, d)
      | some extent =>
        let logical_block_offset := current_logical_block - extent.start_off
        let physical_block :=
          (extent.start_block + logical_block_offset) % 18446744073709551616
        let bytes_to_write_in_block :=
          if XFS_BLOCK_SIZE - offset_in_block > size - bytes_written
          then size - bytes_written else XFS_BLOCK_SIZE - offset_in_block
        let disk_offset := (physical_block * XFS_BLOCK_SIZE) % 18446744073709551616
        match disk_write d ((disk_offset + offset_in_block) % 18446744073709551616)
            (buffer.drop bytes_written) bytes_to_write_in_block with
        | (0, d1) =>
          write_data_loop inode buffer size offset fuel
            (bytes_written + bytes_to_write_in_block) d1
        | (_, d1) => (-1, bytes_written, d1)
    else (0, bytes_written, d)

/-- Function `xfs_sim_write`: the `int` result, the inode and the state afterwards;
`none` when the call never returns (barrier without a running worker). -/
def xfs_sim_write (fs : FS) (inode : xfs_inode_t) (buffer : List Nat) (size offset : Nat) :
    Option (Int × xfs_inode_t × FS) :=
  if size = 0 then some (-1, inode, fs)
  else
    let block_start := offset / XFS_BLOCK_SIZE
    let block_end := ((offset + size - 1) % 18446744073709551616) / XFS_BLOCK_SIZE
    let num_blocks := to_u64 ((block_end : Int) - (block_start : Int) + 1)
    match write_map_loop block_start num_blocks 0 fs inode with
    | (0, inode1, fs1) =>
      match trans_commit_barrier fs1.journal with
      | none => none
      | some (0, j) =>
        match write_data_loop inode1 buffer size offset size 0 fs1.disk with
        | (0, bytes_written, d) =>
          let new_size := (offset + size) % 18446744073709551616
          some (to_int bytes_written,
                { inode1 with
                  di_size := if new_size > inode1.di_size then new_size else inode1.di_size },
                { disk := d, journal := j })
        | (_, _, d) => some (-1, inode1, { disk := d, journal := j })
      | some (_, j) => some (-1, inode1, { fs1 with journal := j })
    | (_, inode1, fs1) => some (-1, inode1, fs1)

/-- The effect of `memcpy` / `memset` of `data` into the caller's buffer at `pos`. -/
def buf_store (buffer : List Nat) (pos : Nat) (data : List Nat) : List Nat :=
  buffer.take pos ++ data ++ buffer.drop (pos + data.length)

/-- The loop of `xfs_sim_read`, `while (bytes_read < size_to_read)`, with a budget of
`fuel` iterations: status, `bytes_read` and the caller's buffer afterwards.  Every
iteration delivers at least one byte, so `size_to_read` iterations always suffice
(`read_loop_fuel`). -/
def read_loop (d : Option Disk) (inode : xfs_inode_t) (size_to_read offset : Nat) :
    Nat → Nat → List Nat → Int × Nat × List Nat
  | 0, bytes_read, buffer => (0, bytes_read, buffer)
  | fuel + 1, bytes_read, buffer =>
    if bytes_read < size_to_read then
      let pos := (offset + bytes_read) % 18446744073709551616
      let current_logical_block := pos / XFS_BLOCK_SIZE
      let offset_in_block := pos % XFS_BLOCK_SIZE
      match find_extent_for_offset inode current_logical_block with
      | none =>
        let bytes_to_zero :=
          if XFS_BLOCK_SIZE - offset_in_block > size_to_read - bytes_read
          then size_to_read - bytes_read else XFS_BLOCK_SIZE - offset_in_block
        read_loop d inode size_to_read offset fuel (bytes_read + bytes_to_zero)
          (buf_store buffer bytes_read (List.replicate bytes_to_zero 0))
      | some extent =>
        let logical_block_offset := current_logical_block - extent.start_off
        let physical_block :=
          (extent.start_block + logical_block_offset) % 18446744073709551616
        let bytes_to_read_in_block :=
          if XFS_BLOCK_SIZE - offset_in_block > size_to_read - bytes_read
          then size_to_read - bytes_read else XFS_BLOCK_SIZE - offset_in_block
        let disk_offset := (physical_block * XFS_BLOCK_SIZE) % 18446744073709551616
        match disk_read d ((disk_offset + offset_in_block) % 18446744073709551616)
            bytes_to_read_in_block with
        | none => (-1, bytes_read, buffer)
        | some bytes =>
          read_loop d inode size_to_read offset fuel
            (bytes_read + bytes_to_read_in_block) (buf_store buffer bytes_read bytes)
    else (0, bytes_read, buffer)

/-- Function `xfs_sim_read`: the `int` result and the caller's buffer afterwards. -/
def xfs_sim_read (d : Option Disk) (inode : xfs_inode_t) (buffer : List Nat)
    (size offset : Nat) : Int × List Nat :=
  if size = 0 then (-1, buffer)
  else if offset ≥ inode.di_size then (0, buffer)
  else
    let size_to_read :=
      if (offset + size) % 18446744073709551616 > inode.di_size
      then inode.di_size - offset else size
    match read_loop d inode size_to_read offset size_to_read 0 buffer with
    | (0, bytes_read, buffer1) => (to_int bytes_read, buffer1)
    | (_, _, buffer1) => (-1, buffer1)

/-- The globals `inodes`, `inode_names`, `max_inode_num` and `initialized`. -/
structure InodeTable where
  inodes : List xfs_inode_t
  inode_names : List String
  max_inode_num : Int
  initialized : Bool

/-- An all-zero `xfs_inode_t`, as in zero-initialised static storage. -/
def zero_inode : xfs_inode_t :=
  { inode_num := 0, di_mode := 0, di_uid := 0, di_gid := 0, di_nlink := 0, di_size := 0,
    extent_count := 0, extents := List.replicate 16 ⟨0, 0, 0⟩ }

/-- The inode table at program start. -/
def initial_inode_table : InodeTable :=
  { inodes := List.replicate 100 zero_inode
    inode_names := List.replicate 100 ""
    max_inode_num := 0
    initialized := false }

/-- Function `initialize_inodes`. -/
def initialize_inodes (t : InodeTable) : InodeTable :=
  if t.initialized then t
  else
    { t with
      inodes := t.inodes.map (fun ino => { ino with inode_num := 0, di_size := 0,
                                                     extent_count := 0 })
      initialized := true }

/-- Function `xfs_create_named_file` (`filename = none` is the `NULL` argument): the new
inode number and the table afterwards.  The name is cut to 63 characters. -/
def xfs_create_named_file (t : InodeTable) (filename : Option String) : Int × InodeTable :=
  let t1 := initialize_inodes t
  let n := t1.max_inode_num + 1
  let ino := t1.inodes.getD n.toNat zero_inode
  let ino1 : xfs_inode_t :=
    { ino with inode_num := to_u32 n, di_mode := 0x1FF, di_uid := 1000, di_gid := 1000,
               di_nlink := 1, di_size := 0, extent_count := 0 }
  let name : String :=
    match filename with
    | some f => String.mk (f.toList.take 63)
    | none => "unnamed_" ++ toString n
  (n, { t1 with
        inodes := t1.inodes.set n.toNat ino1
        inode_names := t1.inode_names.set n.toNat name
        max_inode_num := n })

/-- Function `xfs_create_file`. -/
def xfs_create_file (t : InodeTable) : Int × InodeTable :=
  xfs_create_named_file t none

/-- Function `get_inode_ptr`: the inode a non-`NULL` result points to. -/
def get_inode_ptr (t : InodeTable) (inode_num : Int) : Option xfs_inode_t :=
  if inode_num ≤ 0 ∨ inode_num > (initialize_inodes t).max_inode_num then none
  else (initialize_inodes t).inodes.get? inode_num.toNat

/-! ## Vocabulary of the specification -/

/-- An allocation-group number the simulator accepts. -/
def valid_ag (ag_id : Int) : Prop := 0 ≤ ag_id ∧ ag_id < 10

instance (ag_id : Int) : Decidable (valid_ag ag_id) := by
  unfold valid_ag; infer_instance

/-- An `xfs_agf_t` value whose fields fit their C types. -/
def agf_wf (a : xfs_agf_t) : Prop :=
  a.agf_magicnum < 4294967296 ∧ a.agf_length < 4294967296 ∧ a.agf_freeblks < 4294967296 ∧
    a.agf_longest < 4294967296 ∧ a.free_blocks.length = 2400

instance (a : xfs_agf_t) : Decidable (agf_wf a) := by
  unfold agf_wf; infer_instance

/-- Every entry of the map is `0` (free) or `1` (used). -/
def bitmap_binary (free_blocks : List Nat) : Prop := ∀ x ∈ free_blocks, x ≤ 1

instance (fb : List Nat) : Decidable (bitmap_binary fb) := by
  unfold bitmap_binary; infer_instance

/-- The allocator invariant of the specification: `agf_freeblks` is the number of zero
slots, and the two reserved slots are marked used. -/
def agf_invariant (a : xfs_agf_t) : Prop :=
  a.agf_freeblks = zero_slots a.free_blocks ∧ a.free_blocks.getD 0 0 = 1 ∧
    a.free_blocks.getD 1 0 = 1

instance (a : xfs_agf_t) : Decidable (agf_invariant a) := by
  unfold agf_invariant; infer_instance

/-- A run of `count` slots starting at `i` in which the scan of `xfs_alloc_blocks` finds
no used slot. -/
def run_free (free_blocks : List Nat) (i count : Nat) : Prop :=
  ∀ j, j < count → free_blocks.getD (i + j) 0 ≠ 1

instance (fb : List Nat) (i count : Nat) : Decidable (run_free fb i count) := by
  unfold run_free; infer_instance

/-- An AGF in the state the allocator maintains: well-typed fields, a two-valued map,
and the allocator invariant. -/
def agf_good (a : xfs_agf_t) : Prop :=
  agf_wf a ∧ bitmap_binary a.free_blocks ∧ agf_invariant a

instance (a : xfs_agf_t) : Decidable (agf_good a) := by
  unfold agf_good; infer_instance

/-- The bitmap `xfs_ag_init_alloc` leaves behind. -/
def fresh_bitmap : List Nat := [1, 1] ++ List.replicate 2398 0

/-- The `count` slots starting at `i` are all free (hold `0`). -/
def slots_free (free_blocks : List Nat) (i count : Nat) : Prop :=
  ∀ j, j < count → free_blocks.getD (i + j) 0 = 0

instance (fb : List Nat) (i count : Nat) : Decidable (slots_free fb i count) := by
  unfold slots_free; infer_instance

/-- The `count` slots starting at `i` are all used (hold `1`). -/
def slots_used (free_blocks : List Nat) (i count : Nat) : Prop :=
  ∀ j, j < count → free_blocks.getD (i + j) 0 = 1

instance (fb : List Nat) (i count : Nat) : Decidable (slots_used fb i count) := by
  unfold slots_used; infer_instance

/-- The AGF of every AG after `xfs_mkfs`: the header fields written by
`ag_write_headers`, the counters and the map set by `xfs_ag_init_alloc`. -/
def formatted_agf : xfs_agf_t :=
  { agf_magicnum := 0x58414746, agf_length := 2560, agf_freeblks := 2398,
    agf_longest := 2398, free_blocks := fresh_bitmap }

/-- A small device: AG 0 as `xfs_mkfs` leaves it (magic `0x58414746`, length 2560,
2398 free blocks, slots 0 and 1 used, that is `formatted_agf`), with room for the data
blocks 2 and 3. -/
def sample_disk : Disk :=
  { size := 16384
    mem := fun a =>
      if a = 0 then 70 else if a = 1 then 71 else if a = 2 then 65 else if a = 3 then 88
      else if a = 5 then 10
      else if a = 8 ∨ a = 12 then 94 else if a = 9 ∨ a = 13 then 9
      else if a = 16 ∨ a = 17 then 1 else 0 }

/-- A state on `sample_disk` with an empty journal and a running worker. -/
def sample_fs : FS :=
  { disk := some sample_disk, journal := { queue := [], running := true } }

/-- One call of the allocator interface. -/
inductive AllocCall where
  | init (ag_id : Int)
  | alloc (ag_id : Int) (count : Int)
  | free (ag_id : Int) (start_block : Nat) (count : Int)
deriving DecidableEq

/-- The state after one allocator call (its return value is dropped). -/
def run_call (fs : FS) : AllocCall → FS
  | AllocCall.init ag_id => (xfs_ag_init_alloc fs ag_id).2
  | AllocCall.alloc ag_id count => (xfs_alloc_blocks fs ag_id count).2
  | AllocCall.free ag_id start_block count => (xfs_free_blocks fs ag_id start_block count).2

/-- The state after a sequence of allocator calls. -/
def run_calls (fs : FS) (calls : List AllocCall) : FS :=
  calls.foldl run_call fs

/-- A call that uses the allocator as intended in state `fs`: an allocation asks for a
non-negative number of blocks; a free on a valid AG with a readable AGF gives back a run
`[start_block, start_block + count)` inside slots 2..2399 all of whose slots are
currently used. -/
def call_ok (fs : FS) : AllocCall → Prop
  | AllocCall.init _ => True
  | AllocCall.alloc _ count => 0 ≤ count
  | AllocCall.free ag_id start_block count =>
    valid_ag ag_id → ∀ agf ∈ read_agf fs.disk ag_id,
      0 ≤ count ∧ 2 ≤ start_block ∧ start_block + count.toNat ≤ 2400 ∧
      slots_used agf.free_blocks start_block count.toNat

instance (fs : FS) : (c : AllocCall) → Decidable (call_ok fs c)
  | AllocCall.init _ => isTrue trivial
  | AllocCall.alloc _ count => inferInstanceAs (Decidable (0 ≤ count))
  | AllocCall.free ag_id start_block count =>
    inferInstanceAs (Decidable (valid_ag ag_id → ∀ agf ∈ read_agf fs.disk ag_id,
      0 ≤ count ∧ 2 ≤ start_block ∧ start_block + count.toNat ≤ 2400 ∧
      slots_used agf.free_blocks start_block count.toNat))

/-- Every call of the sequence uses the allocator as intended in the state it meets. -/
def calls_ok : FS → List AllocCall → Prop
  | _, [] => True
  | fs, c :: cs => call_ok fs c ∧ calls_ok (run_call fs c) cs

instance : (fs : FS) → (cs : List AllocCall) → Decidable (calls_ok fs cs)
  | _, [] => isTrue trivial
  | fs, c :: cs =>
    have : Decidable (calls_ok (run_call fs c) cs) := instDecidableCalls_ok (run_call fs c) cs
    inferInstanceAs (Decidable (call_ok fs c ∧ calls_ok (run_call fs c) cs))

/-- Calls `xfs_alloc_blocks(ag, 1)` for every `ag` of the list in turn: the final state,
and how many of the calls on AG `i` returned a block. -/
def alloc_singles (i : Int) : FS → List Int → FS × Nat
  | fs, [] => (fs, 0)
  | fs, ag :: rest =>
    let r := xfs_alloc_blocks fs ag 1
    let t := alloc_singles i r.2 rest
    (t.1, t.2 + (if ag = i ∧ r.1 ≠ 0 then 1 else 0))

/-- The state of the program before `format`: no device, empty journal, no worker. -/
def boot_fs : FS :=
  { disk := none, journal := { queue := [], running := false } }

/-- Stack contents for `ag_write_headers` in which all uninitialised bytes are zero. -/
def zero_junk : StackJunk := { sb_pad := [], agf_bitmap := [] }

/-- Every AG of the device holds a readable AGF in the state the allocator maintains. -/
def all_good (fs : FS) : Prop :=
  ∀ ag, valid_ag ag → ∃ agf, read_agf fs.disk ag = some agf ∧ agf_good agf

/-- An inode whose 16 extents map the logical blocks 0..15, all to physical block 2. -/
def full_inode : xfs_inode_t :=
  { zero_inode with
    extent_count := 16
    extents := (List.range 16).map (fun i => { start_off := i, start_block := 2,
                                               block_count := 1 }) }

/-- The extents an inode has in use: the first `extent_count` entries of its array. -/
def stored_extents (inode : xfs_inode_t) : List xfs_extent_t :=
  inode.extents.take inode.extent_count.toNat

/-- The slots returned by the calls `xfs_alloc_blocks(L mod 10, 1)` made one after the
other for the logical blocks `L = block_start + i, block_start + i + 1, …` (`n` of
them), and the state after the last call. -/
def map_slots (block_start : Nat) : Nat → Nat → FS → List Nat × FS
  | 0, _, fs => ([], fs)
  | n + 1, i, fs =>
    let r := xfs_alloc_blocks fs (((block_start + i) % NUM_AGS : Nat) : Int) 1
    let t := map_slots block_start n (i + 1) r.2
    (r.1 :: t.1, t.2)

/-- Number of slots of a map that are marked used. -/
def used_slots (free_blocks : List Nat) : Nat := free_blocks.count 1

/-- Every extent in use maps a single logical block to a slot the allocator can return
(2..2398). -/
def extents_from_allocator (inode : xfs_inode_t) : Prop :=
  ∀ e ∈ stored_extents inode,
    e.block_count = 1 ∧ 2 ≤ e.start_block ∧ e.start_block ≤ 2398 ∧
    e.start_off + 1 < 18446744073709551616

/-- The inode of the first file created after program start (`xfs_create_file`). -/
def created_inode : xfs_inode_t :=
  (xfs_create_file initial_inode_table).2.inodes.getD 1 zero_inode

/-- The state after `format` with 100 MiB (all uninitialised stack bytes zero) and
`mount`. -/
def mounted_fs : FS :=
  (xfs_mount (xfs_mkfs zero_junk boot_fs 104857600).2).2

/-! ## Further vocabulary: records on the device, inode states, operation sequences -/

/-- Function `print_superblock_info`: the record it reads from device byte 0 and prints
as the superblock (`none` when it reports a read error). -/
def print_superblock_info (d : Option Disk) : Option xfs_sb_t :=
  (disk_read d 0 SIZEOF_SB).map sb_of_bytes

/-- Function `print_agi_info`: the record it reads from `ag_get_offset(ag_id) + 4096` and
prints (`none` when it reports an invalid AG or a read error). -/
def print_agi_info (d : Option Disk) (ag_id : Int) : Option xfs_agi_t :=
  if ag_id < 0 ∨ ag_id ≥ (NUM_AGS : Int) then none
  else (disk_read d (ag_get_offset ag_id + 4096) SIZEOF_AGI).map agi_of_bytes

instance (inode : xfs_inode_t) : Decidable (extents_from_allocator inode) := by
  unfold extents_from_allocator; infer_instance

/-- The state `xfs_sim_write` keeps an inode in: between 0 and 16 extents in the 16-slot
array, every one of them a single logical block mapped to a slot of the allocator, and
no logical block mapped twice. -/
def inode_inv (inode : xfs_inode_t) : Prop :=
  0 ≤ inode.extent_count ∧ inode.extent_count ≤ 16 ∧ inode.extents.length = 16 ∧
    extents_from_allocator inode ∧
    ((stored_extents inode).map (fun e => e.start_off)).Nodup

instance (inode : xfs_inode_t) : Decidable (inode_inv inode) := by
  unfold inode_inv; infer_instance

/-- The extent covers the logical block: `start_off ≤ L < start_off + block_count`. -/
def covers (e : xfs_extent_t) (L : Nat) : Prop :=
  e.start_off ≤ L ∧ L < e.start_off + e.block_count

instance (e : xfs_extent_t) (L : Nat) : Decidable (covers e L) := by
  unfold covers; infer_instance

/-- One call `xfs_sim_write(inode, buffer, size, offset)`, made in the file-system state
`fs`. -/
structure WriteCall where
  fs : FS
  buffer : List Nat
  size : Nat
  offset : Nat

/-- The inode after a sequence of `xfs_sim_write` calls on it (successful or failing),
each made in a file-system state of its own; `none` when one of the calls never
returns. -/
def write_calls (inode : xfs_inode_t) : List WriteCall → Option xfs_inode_t
  | [] => some inode
  | c :: cs =>
    match xfs_sim_write c.fs inode c.buffer c.size c.offset with
    | none => none
    | some r => write_calls r.2.1 cs

/-- The arguments of every call are valid C values: `offset` a non-negative `off_t`,
`size` the size of an object. -/
def write_calls_valid (calls : List WriteCall) : Prop :=
  ∀ c ∈ calls, c.offset < 9223372036854775808 ∧ c.size < 9223372036854775808

instance (calls : List WriteCall) : Decidable (write_calls_valid calls) := by
  unfold write_calls_valid; infer_instance

/-- One operation that changes the device after format: a call of the allocator
interface, or an `xfs_sim_write` on some inode. -/
inductive FsOp where
  | call (c : AllocCall)
  | write (inode : xfs_inode_t) (buffer : List Nat) (size offset : Nat)

/-- The state after one operation; `none` when it never returns. -/
def run_op (fs : FS) : FsOp → Option FS
  | FsOp.call c => some (run_call fs c)
  | FsOp.write inode buffer size offset =>
    (xfs_sim_write fs inode buffer size offset).map (fun r => r.2.2)

/-- The state after a sequence of operations; `none` when one of them never returns. -/
def run_ops (fs : FS) : List FsOp → Option FS
  | [] => some fs
  | op :: ops =>
    match run_op fs op with
    | none => none
    | some fs1 => run_ops fs1 ops

/-- An operation as the program issues it: allocator calls with any arguments; writes
on an inode in the state `xfs_sim_write` keeps it in, with valid C arguments. -/
def op_ok : FsOp → Prop
  | FsOp.call _ => True
  | FsOp.write inode _ size offset =>
    inode_inv inode ∧ offset < 9223372036854775808 ∧ size < 9223372036854775808

instance : (op : FsOp) → Decidable (op_ok op)
  | FsOp.call _ => isTrue trivial
  | FsOp.write inode _ size offset =>
    inferInstanceAs (Decidable (inode_inv inode ∧ offset < 9223372036854775808 ∧
      size < 9223372036854775808))

/-- A property of the device that every write issued after format preserves: the
write-back of an AGF by the allocator (magic and length kept), and a write of file data
into the blocks of the slots 2..2398. -/
def op_stable (Q : Option Disk → Prop) : Prop :=
  (∀ d ag agf agf1, Q d → valid_ag ag → read_agf d ag = some agf → agf_wf agf1 →
    agf1.agf_magicnum = agf.agf_magicnum → agf1.agf_length = agf.agf_length →
    Q (disk_write d (ag_get_offset ag) (agf_to_bytes agf1) SIZEOF_AGF).2) ∧
  (∀ d off len buf, Q d → 8192 ≤ off → off + len ≤ 9826304 →
    Q (disk_write d off buf len).2)

/-- The C types of the inode table: `inodes[100]`, each with `extents[16]`. -/
def table_wf (t : InodeTable) : Prop :=
  t.inodes.length = 100 ∧ ∀ ino ∈ t.inodes, ino.extents.length = 16

instance (t : InodeTable) : Decidable (table_wf t) := by
  unfold table_wf; infer_instance

/-! ## Further vocabulary: device bytes, the inode table, name lookup -/

/-- The byte stored at address `a` of the device (`none` when there is no device). -/
def disk_byte (d : Option Disk) (a : Nat) : Option Nat :=
  d.map (fun dk => dk.mem a)

/-- The address lies inside the AGF record of AG `ag_id`, the `sizeof(xfs_agf_t)` bytes
from `ag_get_offset(ag_id)` on. -/
def in_agf (ag_id : Int) (a : Nat) : Prop :=
  ag_get_offset ag_id ≤ a ∧ a < ag_get_offset ag_id + SIZEOF_AGF

instance (ag_id : Int) (a : Nat) : Decidable (in_agf ag_id a) := by
  unfold in_agf; infer_instance

/-- The loop `for (int i = 1; i <= max_inode_num; i++)` of the two name lookups: the
first index `i` with `inodes[i].inode_num > 0` and `strcmp(inode_names[i], filename) == 0`,
or `none` when the loop runs to its end. -/
def name_scan (t : InodeTable) (filename : String) : Option Nat :=
  (List.range' 1 t.max_inode_num.toNat).find? (fun i =>
    decide ((t.inodes.getD i zero_inode).inode_num > 0 ∧ t.inode_names.getD i "" = filename))

/-- Function `get_inode_by_name` (`filename = none` is the `NULL` argument): the inode a
non-`NULL` result points to. -/
def get_inode_by_name (t : InodeTable) (filename : Option String) : Option xfs_inode_t :=
  match filename with
  | none => none
  | some f =>
    match name_scan (initialize_inodes t) f with
    | some i => (initialize_inodes t).inodes.get? i
    | none => none

/-- Function `get_inode_num_by_name`. -/
def get_inode_num_by_name (t : InodeTable) (filename : Option String) : Int :=
  match filename with
  | none => -1
  | some f =>
    match name_scan (initialize_inodes t) f with
    | some i => (i : Int)
    | none => -1

/-- The table after the calls `xfs_create_named_file(name)` for the names of the list, one
after the other. -/
def create_files (t : InodeTable) : List (Option String) → InodeTable
  | [] => t
  | name :: rest => create_files (xfs_create_named_file t name).2 rest

/-- A table in which `k` files have been created: the arrays have their C sizes,
`max_inode_num = k`, the lazy initialisation has run once a file exists, and the inodes
1..k carry their numbers. -/
def files_created (t : InodeTable) (k : Nat) : Prop :=
  table_wf t ∧ t.inode_names.length = 100 ∧ t.max_inode_num = (k : Int) ∧
    (1 ≤ k → t.initialized = true) ∧
    ∀ i, i < k → (t.inodes.getD (i + 1) zero_inode).inode_num = i + 1

instance (t : InodeTable) (k : Nat) : Decidable (files_created t k) := by
  unfold files_created; infer_instance

/-- The index at which `xfs_create_named_file` called in table state `t` stores the
inode and its name: `max_inode_num` after the increment. -/
def create_index (t : InodeTable) : Int :=
  (initialize_inodes t).max_inode_num + 1

/-! ## The journal with its worker thread (`xfs_trans.c`), concurrent view

Threads interleave at the granularity of the critical sections of `log_mutex` and of the
mutex of a sync handle; a schedule lists which thread moves next, and a thread that
cannot move when it is picked (it waits on a condition variable or in `pthread_join`)
is skipped. -/

/-- One `log_queue_node_t`; a barrier node points to its `barrier_sync_t`, named by the
order in which the handles were allocated. -/
inductive JNode where
  | data (bytes : List Nat) (len : Nat)
  | barrier (sync : Nat)
deriving DecidableEq

/-- Where the worker is in `log_worker`: at the top of its loop (taking `log_mutex` or
waiting on `log_cond`), holding `current` during the flush delay, about to signal and
free `current`, or past the `break`. -/
inductive WorkerPc where
  | top
  | flush (current : JNode)
  | signal (current : JNode)
  | exited
deriving DecidableEq

/-- The journal calls a client thread makes: `trans_add_item(data, len)`,
`trans_commit_barrier()`, `get_log_queue_length()`, `trans_destroy()`. -/
inductive JOp where
  | add (data : List Nat) (len : Int)
  | barrier
  | length
  | destroy
deriving DecidableEq

/-- Where a client is: between calls, in `barrier_sync_wait` on its handle, or in
`pthread_join`. -/
inductive ClientPc where
  | ready
  | waiting (sync : Nat)
  | joining
deriving DecidableEq

/-- A client thread: the calls it still has to make, where it is, and the values its
`int` calls have returned so far. -/
structure JClient where
  todo : List JOp
  pc : ClientPc
  results : List Int
deriving DecidableEq

/-- The journal globals (`log_head`..`log_tail`, `log_worker_running`), the `signaled`
flag of every sync handle allocated so far, and the threads. -/
structure JSys where
  queue : List JNode
  running : Bool
  syncs : List Bool
  worker : WorkerPc
  clients : List JClient
deriving DecidableEq

/-- What a step does to the queue and what it reports: a node linked at the tail by a
client, the head unlinked by the worker, a node fully processed by the worker (flushed,
its barrier signalled), a node freed by `trans_destroy`, a `trans_commit_barrier` that
returns after its handle `sync` was signalled, the value of `get_log_queue_length`. -/
inductive JEvent where
  | enq (client : Nat) (n : JNode)
  | deq (n : JNode)
  | done (n : JNode)
  | discard (n : JNode)
  | woken (client : Nat) (sync : Nat)
  | counted (client : Nat) (value : Int)
deriving DecidableEq

/-- A thread of the system. -/
inductive JThread where
  | worker
  | client (i : Nat)
deriving DecidableEq

/-- One step of `log_worker`, `none` when the thread cannot move. -/
def worker_step (s : JSys) : Option (JSys × List JEvent) :=
  match s.worker with
  | WorkerPc.top =>
    match s.queue, s.running with
    | [], true => none
    | _, false => some ({ s with worker := WorkerPc.exited }, [])
    | n :: rest, true =>
      some ({ s with queue := rest, worker := WorkerPc.flush n }, [JEvent.deq n])
  | WorkerPc.flush n => some ({ s with worker := WorkerPc.signal n }, [])
  | WorkerPc.signal n =>
    match n with
    | JNode.barrier h =>
      some ({ s with syncs := s.syncs.set h true, worker := WorkerPc.top }, [JEvent.done n])
    | JNode.data _ _ => some ({ s with worker := WorkerPc.top }, [JEvent.done n])
  | WorkerPc.exited => none

/-- One step of client `i`, `none` when the thread cannot move.  `trans_add_item` and
`get_log_queue_length` are one critical section each; `trans_commit_barrier` links its
node and then waits for its handle; `trans_destroy` clears `log_worker_running`, joins
the worker and then frees the nodes that are left. -/
def client_step (s : JSys) (i : Nat) : Option (JSys × List JEvent) :=
  match s.clients.get? i with
  | none => none
  | some c =>
    match c.pc with
    | ClientPc.waiting h =>
      if s.syncs.getD h false = true then
        let c1 : JClient := { c with pc := ClientPc.ready, results := c.results ++ [0] }
        some ({ s with clients := s.clients.set i c1 }, [JEvent.woken i h])
      else none
    | ClientPc.joining =>
      if s.worker = WorkerPc.exited then
        let c1 : JClient := { c with pc := ClientPc.ready }
        some ({ s with queue := [], clients := s.clients.set i c1 },
              s.queue.map JEvent.discard)
      else none
    | ClientPc.ready =>
      match c.todo with
      | [] => none
      | JOp.add data len :: rest =>
        let node := JNode.data (data.take len.toNat) (to_u64 len)
        let c1 : JClient := { c with todo := rest, results := c.results ++ [0] }
        some ({ s with queue := s.queue ++ [node], clients := s.clients.set i c1 },
              [JEvent.enq i node])
      | JOp.barrier :: rest =>
        let node := JNode.barrier s.syncs.length
        let c1 : JClient := { c with todo := rest, pc := ClientPc.waiting s.syncs.length }
        some ({ s with queue := s.queue ++ [node], syncs := s.syncs ++ [false],
                       clients := s.clients.set i c1 },
              [JEvent.enq i node])
      | JOp.length :: rest =>
        let c1 : JClient :=
          { c with todo := rest, results := c.results ++ [(s.queue.length : Int)] }
        some ({ s with clients := s.clients.set i c1 },
              [JEvent.counted i (s.queue.length : Int)])
      | JOp.destroy :: rest =>
        let c1 : JClient := { c with todo := rest, pc := ClientPc.joining }
        some ({ s with running := false, clients := s.clients.set i c1 }, [])

/-- One step of the picked thread. -/
def jstep (s : JSys) : JThread → Option (JSys × List JEvent)
  | JThread.worker => worker_step s
  | JThread.client i => client_step s i

/-- The system after a schedule, and the events of the run in order. -/
def jrun (s : JSys) : List JThread → JSys × List JEvent
  | [] => (s, [])
  | t :: rest =>
    match jstep s t with
    | none => jrun s rest
    | some (s1, ev) => ((jrun s1 rest).1, ev ++ (jrun s1 rest).2)

/-- The system right after `trans_init`: empty queue, worker at the top of its loop, no
sync handle yet, and one client per program. -/
def jinit (programs : List (List JOp)) : JSys :=
  { queue := [], running := true, syncs := [], worker := WorkerPc.top,
    clients := programs.map (fun p => { todo := p, pc := ClientPc.ready, results := [] }) }

/-- The nodes linked at the tail during a run, in order. -/
def enqueued (tr : List JEvent) : List JNode :=
  tr.filterMap (fun e => match e with | JEvent.enq _ n => some n | _ => none)

/-- The nodes unlinked by the worker during a run, in order. -/
def dequeued (tr : List JEvent) : List JNode :=
  tr.filterMap (fun e => match e with | JEvent.deq n => some n | _ => none)

/-- The nodes fully processed by the worker during a run, in order. -/
def processed (tr : List JEvent) : List JNode :=
  tr.filterMap (fun e => match e with | JEvent.done n => some n | _ => none)

/-- The node the worker has unlinked and not yet finished processing. -/
def held (w : WorkerPc) : List JNode :=
  match w with
  | WorkerPc.flush n => [n]
  | WorkerPc.signal n => [n]
  | _ => []

/-- The nodes freed by `trans_destroy` during a run, in order. -/
def discarded (tr : List JEvent) : List JNode :=
  tr.filterMap (fun e => match e with | JEvent.discard n => some n | _ => none)

/-- What holds of a system and the events of the run that led to it: the queue discipline
(every node linked so far was unlinked by the worker, or freed by `trans_destroy`, or is
still queued, in the order of linking), the worker processes what it unlinks in order,
a handle is signalled exactly when the worker has processed its barrier node, every
barrier node has a handle of its own, and a client waits on the handle of the node it
linked itself. -/
structure jinv (s : JSys) (tr : List JEvent) : Prop where
  fifo : enqueued tr = dequeued tr ++ discarded tr ++ s.queue
  order : dequeued tr = processed tr ++ held s.worker
  exited_of_discard : discarded tr ≠ [] → s.worker = WorkerPc.exited
  signaled_done : ∀ h, s.syncs.getD h false = true → JNode.barrier h ∈ processed tr
  done_signaled : ∀ h, JNode.barrier h ∈ processed tr → s.syncs.getD h false = true
  handle_bound : ∀ h, JNode.barrier h ∈ enqueued tr → h < s.syncs.length
  handle_once : ∀ h, (enqueued tr).count (JNode.barrier h) ≤ 1
  own_node : ∀ i c h, s.clients.get? i = some c → c.pc = ClientPc.waiting h →
    JEvent.enq i (JNode.barrier h) ∈ tr
  last_node : s.clients.length ≤ 1 → ∀ c h, c ∈ s.clients → c.pc = ClientPc.waiting h →
    ∃ b, enqueued tr = b ++ [JNode.barrier h]

/-- No program contains a call of `trans_destroy`. -/
def no_destroy (s : JSys) : Prop :=
  ∀ c ∈ s.clients, JOp.destroy ∉ c.todo ∧ c.pc ≠ ClientPc.joining

instance (s : JSys) : Decidable (no_destroy s) := by
  unfold no_destroy; infer_instance

/-- The worker runs and nobody shuts the journal down. -/
def jalive (s : JSys) : Prop :=
  s.running = true ∧ s.worker ≠ WorkerPc.exited ∧ no_destroy s

instance (s : JSys) : Decidable (jalive s) := by
  unfold jalive; infer_instance

/-- How far the worker is into its current iteration. -/
def worker_offset : WorkerPc → Nat
  | WorkerPc.top => 0
  | WorkerPc.flush _ => 1
  | WorkerPc.signal _ => 2
  | WorkerPc.exited => 0

/-- The number of steps the worker still needs until it has signalled handle `h` (three
per node: unlink, flush, signal and free), 0 when the handle is signalled. -/
def steps_to_signal (s : JSys) (h : Nat) : Nat :=
  if s.syncs.getD h false = true then 0
  else 3 * ((held s.worker ++ s.queue).indexOf (JNode.barrier h) + 1) - worker_offset s.worker

/-! ## Allocator calls from several threads (`xfs_alloc.c`, `xfs_ag.c`), concurrent view

Threads interleave between the calls the allocator functions make: `ag_lock`,
`disk_read`, `disk_write`, `trans_add_item`, `ag_unlock`.  Each of those is one step
(`trans_add_item` holds `log_mutex`; the device calls of different threads that hold
the mutexes of different AGs touch disjoint byte ranges). -/

/-- The AG a call addresses. -/
def call_ag : AllocCall → Int
  | AllocCall.init ag_id => ag_id
  | AllocCall.alloc ag_id _ => ag_id
  | AllocCall.free ag_id _ _ => ag_id

/-- The value a call returns on its failure paths: `xfs_alloc_blocks` returns 0,
`xfs_free_blocks` and `xfs_ag_init_alloc` return -1. -/
def call_fail : AllocCall → Int
  | AllocCall.alloc _ _ => 0
  | _ => -1

/-- What a call computes from the AGF it has read: `none` when it gives up without
writing (`xfs_alloc_blocks` with `found == 0`), else the AGF it is going to write and the
value it is going to return. -/
def call_update : AllocCall → xfs_agf_t → Option (xfs_agf_t × Int)
  | AllocCall.alloc _ count, agf =>
    match alloc_scan agf.free_blocks count 2400 2 with
    | none => none
    | some i => some (agf_allocate agf (to_u64 i) count, (to_u64 i : Int))
  | AllocCall.free _ start_block count, agf => some (agf_release agf start_block count, 0)
  | AllocCall.init _, agf => some (agf_reset agf, 0)

/-- Whether the call logs the AGF it wrote (`xfs_ag_init_alloc` does not). -/
def call_logs : AllocCall → Bool
  | AllocCall.init _ => false
  | _ => true

/-- Where a thread is inside its current call: before `ag_lock`, holding the mutex
before `disk_read`, before `disk_write` with the updated AGF and the return value in
its locals, before `trans_add_item`, before `ag_unlock` with the return value. -/
inductive APc where
  | idle
  | locked
  | loaded (agf : xfs_agf_t) (ret : Int)
  | written (agf : xfs_agf_t) (ret : Int)
  | unlocking (ret : Int)
deriving DecidableEq

/-- A thread: the calls it still has to make (the head is the current call), where it is,
and the values its calls have returned. -/
structure AThread where
  todo : List AllocCall
  pc : APc
  results : List Int
deriving DecidableEq

/-- The shared state: the device, the journal queue, `ag_mutexes` (held or not), and the
threads. -/
structure ASys where
  disk : Option Disk
  journal : Journal
  locks : List Bool
  threads : List AThread

/-- One step of thread `i`, `none` when the thread cannot move (no call left, or it
waits for a mutex). -/
def athread_step (s : ASys) (i : Nat) : Option ASys :=
  match s.threads.get? i with
  | none => none
  | some t =>
    match t.todo with
    | [] => none
    | c :: rest =>
      match t.pc with
      | APc.idle =>
        if ag_lock (call_ag c) ≠ 0 then
          let t1 : AThread := { t with todo := rest, results := t.results ++ [call_fail c] }
          some { s with threads := s.threads.set i t1 }
        else if s.locks.getD (call_ag c).toNat false = true then none
        else
          let t1 : AThread := { t with pc := APc.locked }
          some { s with locks := s.locks.set (call_ag c).toNat true,
                        threads := s.threads.set i t1 }
      | APc.locked =>
        match disk_read s.disk (ag_get_offset (call_ag c)) SIZEOF_AGF with
        | none =>
          let t1 : AThread := { t with pc := APc.unlocking (call_fail c) }
          some { s with threads := s.threads.set i t1 }
        | some bytes =>
          match call_update c (agf_of_bytes bytes) with
          | none =>
            let t1 : AThread := { t with pc := APc.unlocking (call_fail c) }
            some { s with threads := s.threads.set i t1 }
          | some (agf1, ret) =>
            let t1 : AThread := { t with pc := APc.loaded agf1 ret }
            some { s with threads := s.threads.set i t1 }
      | APc.loaded agf1 ret =>
        match disk_write s.disk (ag_get_offset (call_ag c)) (agf_to_bytes agf1) SIZEOF_AGF with
        | (0, disk1) =>
          let t1 : AThread :=
            { t with pc := if call_logs c then APc.written agf1 ret else APc.unlocking ret }
          some { s with disk := disk1, threads := s.threads.set i t1 }
        | (_, disk1) =>
          let t1 : AThread := { t with pc := APc.unlocking (call_fail c) }
          some { s with disk := disk1, threads := s.threads.set i t1 }
      | APc.written agf1 ret =>
        let t1 : AThread := { t with pc := APc.unlocking ret }
        some { s with journal := (trans_add_item s.journal (agf_to_bytes agf1) SIZEOF_AGF).2,
                      threads := s.threads.set i t1 }
      | APc.unlocking ret =>
        let t1 : AThread := { todo := rest, pc := APc.idle, results := t.results ++ [ret] }
        some { s with locks := s.locks.set (call_ag c).toNat false,
                      threads := s.threads.set i t1 }

/-- The state after a schedule (the threads picked, in order; a thread that cannot move
is skipped). -/
def arun (s : ASys) : List Nat → ASys
  | [] => s
  | i :: rest =>
    match athread_step s i with
    | none => arun s rest
    | some s1 => arun s1 rest

/-- The threads start on state `fs` with all mutexes free, one thread per program. -/
def ainit (fs : FS) (programs : List (List AllocCall)) : ASys :=
  { disk := fs.disk, journal := fs.journal, locks := List.replicate NUM_AGS false,
    threads := programs.map (fun p => { todo := p, pc := APc.idle, results := [] }) }

/-- Thread `i` works on AG `ags[i]` only, the AGs are valid, and no two threads work on
the same AG. -/
def own_ags (ags : List Int) (programs : List (List AllocCall)) : Prop :=
  ags.Nodup ∧ ags.length = programs.length ∧ (∀ a ∈ ags, valid_ag a) ∧
    ∀ i, i < programs.length → ∀ c ∈ programs.getD i [], call_ag c = ags.getD i 0

instance (ags : List Int) (programs : List (List AllocCall)) :
    Decidable (own_ags ags programs) := by
  unfold own_ags; infer_instance

/-- The AGF of an AG after a call on that AG, given the AGF before (`none`: the AGF
cannot be read, and the call changes nothing). -/
def view_call (c : AllocCall) (v : Option xfs_agf_t) : Option xfs_agf_t :=
  match v with
  | none => none
  | some agf =>
    match call_update c agf with
    | none => some agf
    | some (agf1, _) => some agf1

/-- The AGF of its AG a thread will leave behind once it has made all its calls, given
the AGF that is on the device now. -/
def rest_view (t : AThread) (v : Option xfs_agf_t) : Option xfs_agf_t :=
  match t.pc with
  | APc.idle => t.todo.foldl (fun w c => view_call c w) v
  | APc.locked => t.todo.foldl (fun w c => view_call c w) v
  | APc.loaded agf1 _ => t.todo.tail.foldl (fun w c => view_call c w) (some agf1)
  | APc.written _ _ => t.todo.tail.foldl (fun w c => view_call c w) v
  | APc.unlocking _ => t.todo.tail.foldl (fun w c => view_call c w) v

/-- How far a thread is into its current call. -/
def pc_offset : APc → Nat
  | APc.idle => 0
  | APc.locked => 1
  | APc.loaded _ _ => 2
  | APc.written _ _ => 3
  | APc.unlocking _ => 4

/-- A bound on the number of steps a thread still takes: five per call. -/
def steps_left (t : AThread) : Nat := 5 * t.todo.length - pc_offset t.pc

/-- What holds of the threads in every reachable state: a thread only has calls of its
program left, it is inside a call only while it has a call, the AGF in its locals fits
the record and the AGF on the device is readable, the mutex of its AG is held exactly
while it is inside a call, and the AGF it will leave behind is the one the serial run of
its program leaves behind. -/
structure ainv (fs : FS) (ags : List Int) (programs : List (List AllocCall)) (s : ASys) :
    Prop where
  threads_length : s.threads.length = programs.length
  locks_length : s.locks.length = NUM_AGS
  todo_sub : ∀ i t, s.threads.get? i = some t → ∀ c ∈ t.todo, c ∈ programs.getD i []
  busy : ∀ i t, s.threads.get? i = some t → t.pc ≠ APc.idle → t.todo ≠ []
  locals : ∀ i t agf1 ret, s.threads.get? i = some t → t.pc = APc.loaded agf1 ret →
    agf_wf agf1 ∧ (read_agf s.disk (ags.getD i 0)).isSome
  mutex : ∀ i t, s.threads.get? i = some t →
    (s.locks.getD (ags.getD i 0).toNat false = true ↔ t.pc ≠ APc.idle)
  view : ∀ i t, s.threads.get? i = some t →
    rest_view t (read_agf s.disk (ags.getD i 0)) =
      (programs.getD i []).foldl (fun w c => view_call c w) (read_agf fs.disk (ags.getD i 0))
  others : ∀ ag, valid_ag ag → ag ∉ ags → read_agf s.disk ag = read_agf fs.disk ag

/-- The AGs 0..9. -/
def ten_ags : List Int := [0, 1, 2, 3, 4, 5, 6, 7, 8, 9]

/-- Ten threads, thread `t` making 100 calls `xfs_alloc_blocks(t, 1)`. -/
def ten_threads : List (List AllocCall) :=
  ten_ags.map (fun ag => List.replicate 100 (AllocCall.alloc ag 1))

/-- The schedule that picks the threads `0..n-1` in turn, `rounds` times. -/
def round_robin (n rounds : Nat) : List Nat :=
  (List.replicate rounds (List.range n)).flatten

/-- The sum of `agf_freeblks` over the AGFs of all AGs on the device. -/
def total_freeblks (d : Option Disk) : Nat :=
  (ten_ags.map (fun ag => ((read_agf d ag).map xfs_agf_t.agf_freeblks).getD 0)).sum

/-! ## Further vocabulary: runs of single-block allocations -/

/-- The state of an AGF after `k` successful single-block allocations on a freshly
formatted AG: the slots below `k + 2` are used, the slots from `k + 2` on are free, and
`agf_freeblks` is `2398 - k`. -/
def filled_to (k : Nat) (agf : xfs_agf_t) : Prop :=
  agf_wf agf ∧ agf.agf_freeblks = 2398 - k ∧
    ∀ s, s < 2400 → agf.free_blocks.getD s 0 = if s < k + 2 then 1 else 0

instance (k : Nat) (agf : xfs_agf_t) : Decidable (filled_to k agf) := by
  unfold filled_to; infer_instance

/-- The inode of the second file created after program start. -/
def second_inode : xfs_inode_t :=
  (xfs_create_file (xfs_create_file initial_inode_table).2).2.inodes.getD 2 zero_inode

/-! ## The placeholder tree (`xfs_btree.c`)

A tree is the chain of nodes linked by `next`, the root first; the empty list is the
`NULL` root.  A value is a `void*` (its address), 0 standing for `NULL`; a key is a
`uint64_t`, compared as a number.  `malloc` is taken to succeed. -/

/-- Record `xfs_btree_node_t` without its `next` pointer. -/
structure xfs_btree_node_t where
  is_leaf : Int
  num_keys : Int
  keys : List Nat
  values : List Nat
deriving DecidableEq

/-- Function `btree_init`: the node it allocates and clears. -/
def btree_init : xfs_btree_node_t :=
  { is_leaf := 1, num_keys := 0, keys := List.replicate 10 0, values := List.replicate 10 0 }

/-- The loop `while (insert_pos < current->num_keys && current->keys[insert_pos] < key)
insert_pos++` of `btree_insert`, entered at `insert_pos` with `n` iterations of budget
(it makes at most `num_keys` iterations). -/
def insert_pos_loop (node : xfs_btree_node_t) (key : Nat) : Nat → Nat → Nat
  | 0, insert_pos => insert_pos
  | n + 1, insert_pos =>
    if (insert_pos : Int) < node.num_keys ∧ node.keys.getD insert_pos 0 < key
    then insert_pos_loop node key n (insert_pos + 1)
    else insert_pos

/-- The loop `for (i = num_keys; i > insert_pos; i--) { keys[i] = keys[i-1];
values[i] = values[i-1]; }` of `btree_insert`, entered at `i` with `n` iterations of
budget (it makes `num_keys - insert_pos` iterations). -/
def shift_loop (insert_pos : Nat) : Nat → Nat → List Nat × List Nat → List Nat × List Nat
  | 0, _, kv => kv
  | n + 1, i, kv =>
    if i > insert_pos
    then shift_loop insert_pos n (i - 1)
      (kv.1.set i (kv.1.getD (i - 1) 0), kv.2.set i (kv.2.getD (i - 1) 0))
    else kv

/-- The branch of `btree_insert` for a node with room: find the position, shift the
entries from there on one place to the right, store the pair, count it. -/
def node_insert (node : xfs_btree_node_t) (key value : Nat) : xfs_btree_node_t :=
  let insert_pos := insert_pos_loop node key node.num_keys.toNat 0
  let kv := shift_loop insert_pos node.num_keys.toNat node.num_keys.toNat
    (node.keys, node.values)
  { node with
    keys := kv.1.set insert_pos key
    values := kv.2.set insert_pos value
    num_keys := node.num_keys + 1 }

/-- The walk of `btree_insert` along the chain from `current`: the pair goes into the
first node with `num_keys < 10`; past the last node a node from `btree_init` is linked
and takes the pair. -/
def insert_walk : List xfs_btree_node_t → Nat → Nat → List xfs_btree_node_t
  | [], key, value => [node_insert btree_init key value]
  | node :: rest, key, value =>
    if node.num_keys < 10 then node_insert node key value :: rest
    else node :: insert_walk rest key value

/-- Function `btree_insert`: the status and the tree afterwards. -/
def btree_insert (root : List xfs_btree_node_t) (key value : Nat) :
    Int × List xfs_btree_node_t :=
  match root with
  | [] => (-1, [])
  | _ :: _ => (0, insert_walk root key value)

/-- The loop `for (i = 0; i < current->num_keys; i++)` of `btree_lookup` on one node,
entered at `i` with `n` iterations left: `some v` when the function returns `v` from
inside the loop (the value found, or `NULL` at the first larger key), `none` when the
loop runs to its end. -/
def node_scan (node : xfs_btree_node_t) (key : Nat) : Nat → Nat → Option Nat
  | 0, _ => none
  | n + 1, i =>
    if node.keys.getD i 0 = key then some (node.values.getD i 0)
    else if node.keys.getD i 0 > key then some 0
    else node_scan node key n (i + 1)

/-- Function `btree_lookup`: the value returned, 0 for `NULL`. -/
def btree_lookup : List xfs_btree_node_t → Nat → Nat
  | [], _ => 0
  | node :: rest, key =>
    match node_scan node key node.num_keys.toNat 0 with
    | some v => v
    | none => btree_lookup rest key

/-- The tree after `btree_init` and a sequence of `btree_insert(root, key, value)`
calls. -/
def btree_of (pairs : List (Nat × Nat)) : List xfs_btree_node_t :=
  pairs.foldl (fun t p => (btree_insert t p.1 p.2).2) [btree_init]

/-- The node holds `key` with `value` among its `num_keys` entries. -/
def node_has (node : xfs_btree_node_t) (key value : Nat) : Prop :=
  ∃ i, i < node.num_keys.toNat ∧ node.keys.getD i 0 = key ∧ node.values.getD i 0 = value

instance (node : xfs_btree_node_t) (key value : Nat) : Decidable (node_has node key value) := by
  unfold node_has; infer_instance

/-- The C shape of a node as `btree_insert` keeps it: between 0 and 10 entries in arrays
of 10, the keys of the entries strictly ascending. -/
def node_wf (node : xfs_btree_node_t) : Prop :=
  0 ≤ node.num_keys ∧ node.num_keys ≤ 10 ∧ node.keys.length = 10 ∧
    node.values.length = 10 ∧
    ∀ j, j < node.num_keys.toNat → ∀ i, i < j → node.keys.getD i 0 < node.keys.getD j 0

instance (node : xfs_btree_node_t) : Decidable (node_wf node) := by
  unfold node_wf; infer_instance

/-- Ten pairs with the keys 1..10, and an eleventh with the key 0. -/
def eleven_pairs : List (Nat × Nat) :=
  [(1, 101), (2, 102), (3, 103), (4, 104), (5, 105), (6, 106), (7, 107), (8, 108),
   (9, 109), (10, 110), (0, 100)]

/-- Some node of the chain holds `key` with `value`. -/
def tree_has (tree : List xfs_btree_node_t) (key value : Nat) : Prop :=
  ∃ node, node ∈ tree ∧ node_has node key value

instance (tree : List xfs_btree_node_t) (key value : Nat) :
    Decidable (tree_has tree key value) := by
  unfold tree_has; infer_instance

/-- The state of the tree after the calls `btree_insert` for `pairs`, as far as the
lookup depends on it: a root exists, every node has the C shape, the chain holds
exactly the inserted pairs, and the root node holds the first ten of them. -/
def tree_inv (pairs : List (Nat × Nat)) (tree : List xfs_btree_node_t) : Prop :=
  (∀ node, node ∈ tree → node_wf node) ∧
  (∀ k v, tree_has tree k v ↔ (k, v) ∈ pairs) ∧
  ∃ root rest, tree = root :: rest ∧ root.num_keys.toNat = min pairs.length 10 ∧
    ∀ k v, (k, v) ∈ pairs.take 10 → node_has root k v

/-! ## One call of `xfs_sim_write` next to the journal worker, concurrent view

The call is a thread of its own: what it does to the shared state (the device and the
journal queue) is a sequence of calls of `disk_write`, `trans_add_item` and
`trans_commit_barrier`, in the order in which the code makes them.  The thread is
client 0 of the journal; it interleaves with the worker and with the other clients,
and it stands still while it waits in `trans_commit_barrier`.  No other thread writes
the device, so the calls and their arguments are those the function makes on the state
it is entered in (`xfs_sim_write_acts`, defined along `xfs_sim_write` and its callees);
the device they leave is the one `xfs_sim_write` computes.  `malloc` is taken to
succeed, so `trans_add_item` and `trans_commit_barrier` return 0 when they return. -/

/-- The place a `disk_write` is called from: the write-back of the AGF in
`xfs_alloc_blocks` and `xfs_free_blocks`, or the data loop of `xfs_sim_write`. -/
inductive WSite where
  | agf
  | data
deriving DecidableEq

/-- A call that changes shared state: `disk_write(offset, buf, len)` from `site`,
`trans_add_item(data, len)`, `trans_commit_barrier()`. -/
inductive WAct where
  | dev (site : WSite) (offset : Nat) (buf : List Nat) (len : Nat)
  | log (data : List Nat) (len : Int)
  | barrier
deriving DecidableEq

/-- The calls `xfs_alloc_blocks` makes, in order: the write-back of the AGF and, if that
succeeded, the journal entry. -/
def xfs_alloc_blocks_acts (fs : FS) (ag_id : Int) (count : Int) : List WAct :=
  if ag_lock ag_id ≠ 0 then []
  else
    let ag_offset := ag_get_offset ag_id
    match disk_read fs.disk ag_offset SIZEOF_AGF with
    | none => []
    | some bytes =>
      let agf := agf_of_bytes bytes
      match alloc_scan agf.free_blocks count 2400 2 with
      | none => []
      | some i =>
        let start_block := to_u64 i
        let agf1 := agf_allocate agf start_block count
        match disk_write fs.disk ag_offset (agf_to_bytes agf1) SIZEOF_AGF with
        | (0, _) =>
          [WAct.dev WSite.agf ag_offset (agf_to_bytes agf1) SIZEOF_AGF,
            WAct.log (agf_to_bytes agf1) SIZEOF_AGF]
        | (_, _) => [WAct.dev WSite.agf ag_offset (agf_to_bytes agf1) SIZEOF_AGF]

/-- The calls `xfs_free_blocks` makes, in order. -/
def xfs_free_blocks_acts (fs : FS) (ag_id : Int) (start_block : Nat) (count : Int) :
    List WAct :=
  if ag_lock ag_id ≠ 0 then []
  else
    let ag_offset := ag_get_offset ag_id
    match disk_read fs.disk ag_offset SIZEOF_AGF with
    | none => []
    | some bytes =>
      let agf := agf_of_bytes bytes
      let agf1 := agf_release agf start_block count
      match disk_write fs.disk ag_offset (agf_to_bytes agf1) SIZEOF_AGF with
      | (0, _) =>
        [WAct.dev WSite.agf ag_offset (agf_to_bytes agf1) SIZEOF_AGF,
          WAct.log (agf_to_bytes agf1) SIZEOF_AGF]
      | (_, _) => [WAct.dev WSite.agf ag_offset (agf_to_bytes agf1) SIZEOF_AGF]

/-- The calls made by the mapping loop of `xfs_sim_write`, in order: those of each
`xfs_alloc_blocks` and, when `add_extent_to_inode` refuses the block, those of
`xfs_free_blocks`. -/
def write_map_loop_acts (block_start : Nat) : Nat → Nat → FS → xfs_inode_t → List WAct
  | 0, _, _, _ => []
  | n + 1, i, fs, inode =>
    let logical_block := (block_start + i) % 18446744073709551616
    match find_extent_for_offset inode logical_block with
    | some _ => write_map_loop_acts block_start n (i + 1) fs inode
    | none =>
      let ag_id := logical_block % NUM_AGS
      let r := xfs_alloc_blocks fs ag_id 1
      let physical_block := r.1
      xfs_alloc_blocks_acts fs ag_id 1 ++
        (if physical_block = 0 then []
         else
           match add_extent_to_inode inode logical_block physical_block 1 with
           | (0, inode1) => write_map_loop_acts block_start n (i + 1) r.2 inode1
           | (_, _) => xfs_free_blocks_acts r.2 ag_id physical_block 1)

/-- The calls made by the data loop of `xfs_sim_write`, in order: one `disk_write` per
iteration, the last one possibly failing. -/
def write_data_loop_acts (inode : xfs_inode_t) (buffer : List Nat) (size offset : Nat) :
    Nat → Nat → Option Disk → List WAct
  | 0, _, _ => []
  | fuel + 1, bytes_written, d =>
    if bytes_written < size then
      let pos := (offset + bytes_written) % 18446744073709551616
      let current_logical_block := pos / XFS_BLOCK_SIZE
      let offset_in_block := pos % XFS_BLOCK_SIZE
      match find_extent_for_offset inode current_logical_block with
      | none => []
      | some extent =>
        let logical_block_offset := current_logical_block - extent.start_off
        let physical_block :=
          (extent.start_block + logical_block_offset) % 18446744073709551616
        let bytes_to_write_in_block :=
          if XFS_BLOCK_SIZE - offset_in_block > size - bytes_written
          then size - bytes_written else XFS_BLOCK_SIZE - offset_in_block
        let disk_offset := (physical_block * XFS_BLOCK_SIZE) % 18446744073709551616
        match disk_write d ((disk_offset + offset_in_block) % 18446744073709551616)
            (buffer.drop bytes_written) bytes_to_write_in_block with
        | (0, d1) =>
          WAct.dev WSite.data ((disk_offset + offset_in_block) % 18446744073709551616)
              (buffer.drop bytes_written) bytes_to_write_in_block ::
            write_data_loop_acts inode buffer size offset fuel
              (bytes_written + bytes_to_write_in_block) d1
        | (_, _) =>
          [WAct.dev WSite.data ((disk_offset + offset_in_block) % 18446744073709551616)
            (buffer.drop bytes_written) bytes_to_write_in_block]
    else []

/-- The calls made by the mapping loop of `xfs_sim_write(inode, buffer, size, offset)`
in state `fs`. -/
def write_map_acts (fs : FS) (inode : xfs_inode_t) (size offset : Nat) : List WAct :=
  write_map_loop_acts (offset / XFS_BLOCK_SIZE)
    (to_u64 (((((offset + size - 1) % 18446744073709551616) / XFS_BLOCK_SIZE : Nat) : Int)
      - ((offset / XFS_BLOCK_SIZE : Nat) : Int) + 1)) 0 fs inode

/-- What the mapping loop of `xfs_sim_write(inode, buffer, size, offset)` returns in
state `fs`: status, inode and state. -/
def write_map_result (fs : FS) (inode : xfs_inode_t) (size offset : Nat) :
    Int × xfs_inode_t × FS :=
  write_map_loop (offset / XFS_BLOCK_SIZE)
    (to_u64 (((((offset + size - 1) % 18446744073709551616) / XFS_BLOCK_SIZE : Nat) : Int)
      - ((offset / XFS_BLOCK_SIZE : Nat) : Int) + 1)) 0 fs inode

/-- The calls made by the data loop of `xfs_sim_write(inode, buffer, size, offset)`
after the mapping loop has run in state `fs`. -/
def write_data_acts (fs : FS) (inode : xfs_inode_t) (buffer : List Nat) (size offset : Nat) :
    List WAct :=
  write_data_loop_acts (write_map_result fs inode size offset).2.1 buffer size offset size 0
    (write_map_result fs inode size offset).2.2.disk

/-- What follows the mapping loop in `xfs_sim_write`: nothing after a `return -1`,
otherwise the barrier and then the data loop. -/
def write_tail_acts (fs : FS) (inode : xfs_inode_t) (buffer : List Nat) (size offset : Nat) :
    List WAct :=
  if (write_map_result fs inode size offset).1 = 0
  then WAct.barrier :: write_data_acts fs inode buffer size offset
  else []

/-- The calls `xfs_sim_write(inode, buffer, size, offset)` makes in state `fs`, in
order. -/
def xfs_sim_write_acts (fs : FS) (inode : xfs_inode_t) (buffer : List Nat)
    (size offset : Nat) : List WAct :=
  if size = 0 then []
  else write_map_acts fs inode size offset ++ write_tail_acts fs inode buffer size offset

/-- The device after the `disk_write` calls of a sequence of calls. -/
def dev_apply (d : Option Disk) : List WAct → Option Disk
  | [] => d
  | WAct.dev _ offset buf len :: rest => dev_apply (disk_write d offset buf len).2 rest
  | _ :: rest => dev_apply d rest

/-- What a step of the system reports: an event of the journal, or a `disk_write`. -/
inductive WEvent where
  | journal (e : JEvent)
  | dev (site : WSite) (offset len : Nat)
deriving DecidableEq

/-- A thread of the system: the journal worker, the thread in `xfs_sim_write` (client 0
of the journal), or client `i + 1` of the journal. -/
inductive WThread where
  | worker
  | writer
  | other (i : Nat)
deriving DecidableEq

/-- The journal with its threads, the device, and the calls the thread in
`xfs_sim_write` still has to make. -/
structure WSys where
  j : JSys
  disk : Option Disk
  acts : List WAct

/-- Client `i`, between two calls, makes the journal call `op`. -/
def client_call (s : JSys) (i : Nat) (op : JOp) : Option (JSys × List JEvent) :=
  match s.clients.get? i with
  | none => none
  | some c =>
    client_step { s with clients := s.clients.set i { c with todo := op :: c.todo } } i

/-- One step of the thread in `xfs_sim_write`, `none` when it cannot move: its next call
when it is between calls, the return from `barrier_sync_wait` when it waits. -/
def writer_step (s : WSys) : Option (WSys × List WEvent) :=
  match s.j.clients.get? 0 with
  | none => none
  | some c =>
    match c.pc with
    | ClientPc.ready =>
      match s.acts with
      | [] => none
      | WAct.dev site offset buf len :: rest =>
        some ({ s with disk := (disk_write s.disk offset buf len).2, acts := rest },
              [WEvent.dev site offset len])
      | WAct.log data len :: rest =>
        (client_call s.j 0 (JOp.add data len)).map
          (fun r => ({ s with j := r.1, acts := rest }, r.2.map WEvent.journal))
      | WAct.barrier :: rest =>
        (client_call s.j 0 JOp.barrier).map
          (fun r => ({ s with j := r.1, acts := rest }, r.2.map WEvent.journal))
    | _ => (client_step s.j 0).map (fun r => ({ s with j := r.1 }, r.2.map WEvent.journal))

/-- One step of the picked thread. -/
def wstep (s : WSys) : WThread → Option (WSys × List WEvent)
  | WThread.worker =>
    (worker_step s.j).map (fun r => ({ s with j := r.1 }, r.2.map WEvent.journal))
  | WThread.writer => writer_step s
  | WThread.other i =>
    (client_step s.j (i + 1)).map (fun r => ({ s with j := r.1 }, r.2.map WEvent.journal))

/-- The system after a schedule, and the events of the run in order; a thread that
cannot move when it is picked is skipped. -/
def wrun (s : WSys) : List WThread → WSys × List WEvent
  | [] => (s, [])
  | t :: rest =>
    match wstep s t with
    | none => wrun s rest
    | some (s1, ev) => ((wrun s1 rest).1, ev ++ (wrun s1 rest).2)

/-- The system when a thread enters `xfs_sim_write(inode, buffer, size, offset)`: the
journal in state `j`, the device of `fs`, and the calls of the function still to make. -/
def write_start (j : JSys) (fs : FS) (inode : xfs_inode_t) (buffer : List Nat)
    (size offset : Nat) : WSys :=
  { j := j, disk := fs.disk, acts := xfs_sim_write_acts fs inode buffer size offset }

/-- The journal events of a run, in order. -/
def jevents (tr : List WEvent) : List JEvent :=
  tr.filterMap (fun e => match e with | WEvent.journal e => some e | _ => none)

/-- The device offset and length are those of the write-back of an AGF. -/
def agf_write (offset len : Nat) : Prop :=
  ∃ ag : Fin 10, offset = ag_get_offset (ag.val : Int) ∧ len = SIZEOF_AGF

instance (offset len : Nat) : Decidable (agf_write offset len) := by
  unfold agf_write; infer_instance

/-- A call of the mapping loop: the write-back of an AGF, or a journal entry. -/
def map_act (a : WAct) : Prop :=
  (∃ off buf len, a = WAct.dev WSite.agf off buf len ∧ agf_write off len) ∨
  ∃ data len, a = WAct.log data len

/-- A call of the data loop: a `disk_write` of file data. -/
def data_act (a : WAct) : Prop :=
  ∃ off buf len, a = WAct.dev WSite.data off buf len

/-- Up to here the barrier of the thread in `xfs_sim_write` has not returned and the
data loop has written nothing: the run has no return of client 0 from
`trans_commit_barrier`, and every `disk_write` in it is the write-back of an AGF. -/
def before_return (tr : List WEvent) : Prop :=
  (∀ h, WEvent.journal (JEvent.woken 0 h) ∉ tr) ∧
  ∀ site offset len, WEvent.dev site offset len ∈ tr →
    site = WSite.agf ∧ agf_write offset len

/-- Handle `h` is drained in a run of the journal: its barrier node was linked once,
and every node linked before it and the node itself have been fully processed by the
worker, in the order of linking. -/
def drained (jt : List JEvent) (h : Nat) : Prop :=
  ∃ before after, enqueued jt = before ++ JNode.barrier h :: after ∧
    JNode.barrier h ∉ before ∧ JNode.barrier h ∉ after ∧
    before ++ [JNode.barrier h] <+: processed jt

/-- The state of the system in a run of `xfs_sim_write` whose calls are `M` (mapping
loop) followed by `T` (nothing, or the barrier and the data loop `D`), started on device
`d0` after the journal run `tr0`: the journal is in order, and the thread is in its
mapping loop (between calls, the barrier not yet reached), or waits in the barrier with
the data loop still to come, or is in its data loop after the barrier has returned with
its handle drained. -/
def winv (d0 : Option Disk) (M T D : List WAct) (tr0 : List JEvent) (s : WSys)
    (tr : List WEvent) : Prop :=
  jinv s.j (tr0 ++ jevents tr) ∧
  ∃ c, s.j.clients.get? 0 = some c ∧
    ((c.pc = ClientPc.ready ∧ before_return tr ∧
        ∃ done rest, M = done ++ rest ∧ s.acts = rest ++ T ∧ s.disk = dev_apply d0 done) ∨
     (∃ h, c.pc = ClientPc.waiting h ∧ before_return tr ∧ T = WAct.barrier :: D ∧
        s.acts = D ∧ s.disk = dev_apply d0 M ∧
        WEvent.journal (JEvent.enq 0 (JNode.barrier h)) ∈ tr) ∨
     (c.pc = ClientPc.ready ∧ T = WAct.barrier :: D ∧
        (∃ done, D = done ++ s.acts ∧ s.disk = dev_apply (dev_apply d0 M) done) ∧
        ∃ pre post h, tr = pre ++ WEvent.journal (JEvent.woken 0 h) :: post ∧
          before_return pre ∧ WEvent.journal (JEvent.enq 0 (JNode.barrier h)) ∈ pre ∧
          drained (tr0 ++ jevents pre) h ∧
          (s.j.clients.length ≤ 1 →
            processed (tr0 ++ jevents pre) = enqueued (tr0 ++ jevents pre)) ∧
          ∀ e ∈ post, (∃ site offset len, e = WEvent.dev site offset len ∧
              site = WSite.data) ∨
            ∃ je, e = WEvent.journal je ∧ ∀ h1, je ≠ JEvent.woken 0 h1))

end XfsSim

namespace XfsSim

/-! # Theorems -/

/-! ## Block device -/

theorem disk_read_eq_some {d : Option Disk} {off len : Nat} {bs : List Nat}
    (h : disk_read d off len = some bs) :
    ∃ dk, d = some dk ∧ (off + len) % 18446744073709551616 ≤ dk.size ∧
      bs = (List.range len).map (fun k => dk.mem (off + k)) := by
  cases d with
  | none => simp [disk_read] at h
  | some dk =>
    refine ⟨dk, rfl, ?_⟩
    simp only [disk_read] at h
    split at h
    · simp at h
    · simp only [Option.some.injEq] at h
      exact ⟨by omega, h.symm⟩

theorem disk_read_of_bounds (dk : Disk) (off len : Nat)
    (h : (off + len) % 18446744073709551616 ≤ dk.size) :
    disk_read (some dk) off len = some ((List.range len).map (fun k => dk.mem (off + k))) := by
  simp only [disk_read]
  rw [if_neg (by omega)]

theorem disk_write_of_bounds (dk : Disk) (off len : Nat) (buf : List Nat)
    (h : (off + len) % 18446744073709551616 ≤ dk.size) :
    disk_write (some dk) off buf len =
      (0, some { size := dk.size,
                 mem := fun a => if off ≤ a ∧ a < off + len
                                 then buf.getD (a - off) 0 else dk.mem a }) := by
  simp only [disk_write]
  rw [if_neg (by omega)]

theorem disk_write_fail (dk : Disk) (off len : Nat) (buf : List Nat)
    (h : ¬ (off + len) % 18446744073709551616 ≤ dk.size) :
    disk_write (some dk) off buf len = (-1, some dk) := by
  simp only [disk_write]
  rw [if_pos (by omega)]

/-- Reading back the range just written returns the written bytes. -/
theorem disk_read_write_same (dk : Disk) (off len : Nat) (buf : List Nat)
    (h : (off + len) % 18446744073709551616 ≤ dk.size) (hlen : len ≤ buf.length) :
    disk_read (disk_write (some dk) off buf len).2 off len = some (buf.take len) := by
  rw [disk_write_of_bounds dk off len buf h]
  simp only [disk_read]
  rw [if_neg (by omega)]
  congr 1
  apply List.ext_getElem
  · simp [hlen]
  · intro n h1 h2
    simp only [List.length_map, List.length_range] at h1
    simp only [List.getElem_map, List.getElem_range, List.getElem_take]
    rw [if_pos ⟨by omega, by omega⟩]
    have : off + n - off = n := by omega
    rw [this, List.getD_eq_getElem _ _ (by omega)]

/-- A write does not change what a read of a disjoint range returns. -/
theorem disk_read_write_disjoint (d : Option Disk) (off len : Nat) (buf : List Nat)
    (off1 len1 : Nat) (h : off1 + len1 ≤ off ∨ off + len ≤ off1) :
    disk_read (disk_write d off buf len).2 off1 len1 = disk_read d off1 len1 := by
  cases d with
  | none => simp [disk_write]
  | some dk =>
    by_cases hb : (off + len) % 18446744073709551616 ≤ dk.size
    · rw [disk_write_of_bounds dk off len buf hb]
      simp only [disk_read]
      split
      · rfl
      · congr 1
        apply List.map_congr_left
        intro k hk
        simp only [List.mem_range] at hk
        rw [if_neg (by omega)]
    · rw [disk_write_fail dk off len buf hb]

/-! ## On-disk records -/

theorem u32_at_lt (bs : List Nat) (p : Nat) : u32_at bs p < 4294967296 := by
  unfold u32_at; omega

theorem agf_to_bytes_length (a : xfs_agf_t) :
    (agf_to_bytes a).length = 16 + a.free_blocks.length := by
  simp [agf_to_bytes, bytes_of_u32]; omega

/-- Decoding the memory image of a well-formed AGF gives the AGF back. -/
theorem agf_of_to_bytes (a : xfs_agf_t) (h : agf_wf a) :
    agf_of_bytes (agf_to_bytes a) = a := by
  obtain ⟨h1, h2, h3, h4, h5⟩ := h
  cases a with
  | mk m l f g fb =>
    simp only [] at h1 h2 h3 h4 h5
    simp only [agf_of_bytes, agf_to_bytes, bytes_of_u32, u32_at, BITMAP_SLOTS,
      List.cons_append, List.nil_append, List.getD_cons_zero, List.getD_cons_succ,
      List.drop_succ_cons, List.drop_zero, xfs_agf_t.mk.injEq]
    refine ⟨by omega, by omega, by omega, by omega, ?_⟩
    rw [← h5]; exact List.take_length fb

theorem agf_of_bytes_wf (bs : List Nat) (h : bs.length = 2416) : agf_wf (agf_of_bytes bs) := by
  refine ⟨u32_at_lt _ _, u32_at_lt _ _, u32_at_lt _ _, u32_at_lt _ _, ?_⟩
  simp [agf_of_bytes, BITMAP_SLOTS, h]

theorem ag_get_offset_valid {ag : Int} (h : valid_ag ag) :
    ag_get_offset ag = ag.toNat * 10485760 := by
  unfold valid_ag at h
  simp only [ag_get_offset, NUM_AGS]
  rw [if_neg (by push_cast; omega)]

theorem ag_lock_valid {ag : Int} (h : valid_ag ag) : ag_lock ag = 0 := by
  unfold valid_ag at h
  simp only [ag_lock, NUM_AGS]
  rw [if_neg (by push_cast; omega)]

theorem ag_lock_invalid {ag : Int} (h : ¬ valid_ag ag) : ag_lock ag = -1 := by
  unfold valid_ag at h
  simp only [ag_lock, NUM_AGS]
  rw [if_pos (by push_cast; omega)]

theorem ag_get_offset_le {ag : Int} (h : valid_ag ag) : ag_get_offset ag ≤ 94371840 := by
  rw [ag_get_offset_valid h]; unfold valid_ag at h; omega

theorem read_agf_eq_some {d : Option Disk} {ag : Int} {a : xfs_agf_t}
    (h : read_agf d ag = some a) :
    ∃ dk bs, d = some dk ∧ (ag_get_offset ag + SIZEOF_AGF) % 18446744073709551616 ≤ dk.size ∧
      disk_read d (ag_get_offset ag) SIZEOF_AGF = some bs ∧ bs.length = 2416 ∧
      a = agf_of_bytes bs := by
  simp only [read_agf, Option.map_eq_some'] at h
  obtain ⟨bs, hbs, ha⟩ := h
  obtain ⟨dk, hd, hb, hbs'⟩ := disk_read_eq_some hbs
  refine ⟨dk, bs, hd, hb, hbs, ?_, ha.symm⟩
  rw [hbs']; simp [SIZEOF_AGF]

theorem read_agf_wf {d : Option Disk} {ag : Int} {a : xfs_agf_t}
    (h : read_agf d ag = some a) : agf_wf a := by
  obtain ⟨dk, bs, _, _, _, hl, ha⟩ := read_agf_eq_some h
  rw [ha]; exact agf_of_bytes_wf bs hl

/-- An AGF written at its AG offset is the AGF read back from there. -/
theorem read_agf_write_same {d : Option Disk} {ag : Int} {a0 : xfs_agf_t}
    (h : read_agf d ag = some a0) (a : xfs_agf_t) (ha : agf_wf a) :
    (disk_write d (ag_get_offset ag) (agf_to_bytes a) SIZEOF_AGF).1 = 0 ∧
    read_agf (disk_write d (ag_get_offset ag) (agf_to_bytes a) SIZEOF_AGF).2 ag = some a := by
  obtain ⟨dk, bs, hd, hb, _, _, _⟩ := read_agf_eq_some h
  subst hd
  have hlen : (agf_to_bytes a).length = 2416 := by
    rw [agf_to_bytes_length, ha.2.2.2.2]
  constructor
  · rw [disk_write_of_bounds dk _ _ _ hb]
  · simp only [read_agf]
    rw [disk_read_write_same dk _ _ _ hb (by rw [hlen]; simp [SIZEOF_AGF])]
    simp only [Option.map_some', SIZEOF_AGF]
    rw [← hlen, List.take_length, agf_of_to_bytes a ha]

/-- A write outside the AGF record of an AG leaves the AGF read from it unchanged. -/
theorem read_agf_write_disjoint (d : Option Disk) (ag : Int) (off len : Nat) (buf : List Nat)
    (h : ag_get_offset ag + SIZEOF_AGF ≤ off ∨ off + len ≤ ag_get_offset ag) :
    read_agf (disk_write d off buf len).2 ag = read_agf d ag := by
  simp only [read_agf]
  rw [disk_read_write_disjoint d off len buf _ _ h]

theorem read_agf_write_other {d : Option Disk} {ag ag1 : Int} (h : valid_ag ag)
    (h1 : valid_ag ag1) (hne : ag ≠ ag1) (buf : List Nat) :
    read_agf (disk_write d (ag_get_offset ag) buf SIZEOF_AGF).2 ag1 = read_agf d ag1 := by
  apply read_agf_write_disjoint
  rw [ag_get_offset_valid h, ag_get_offset_valid h1]
  unfold valid_ag at h h1
  simp only [SIZEOF_AGF]
  omega

/-! ## The first-fit scan -/

theorem alloc_inner_none (fb : List Nat) (i : Int) (n : Nat) (j0 : Int)
    (h : alloc_inner fb i n j0 = none) :
    ∀ k : Nat, k < n → fb.getD (i + (j0 + k)).toNat 0 ≠ 1 := by
  induction n generalizing j0 with
  | zero => intro k hk; omega
  | succ n ih =>
    by_cases hu : fb.getD (i + j0).toNat 0 = 1
    · simp only [alloc_inner, hu, if_true] at h
      cases h
    · simp only [alloc_inner, hu, if_false] at h
      intro k hk
      cases k with
      | zero => simpa using hu
      | succ k =>
        have h2 := ih (j0 + 1) h k (by omega)
        have e : i + (j0 + ((k + 1 : Nat) : Int)) = i + (j0 + 1 + (k : Int)) := by
          push_cast; ring
        rw [e]; exact h2

theorem alloc_inner_some (fb : List Nat) (i : Int) (n : Nat) (j0 j : Int)
    (h : alloc_inner fb i n j0 = some j) :
    ∃ k : Nat, k < n ∧ j = j0 + k ∧ fb.getD (i + j).toNat 0 = 1 := by
  induction n generalizing j0 with
  | zero => simp [alloc_inner] at h
  | succ n ih =>
    by_cases hu : fb.getD (i + j0).toNat 0 = 1
    · simp only [alloc_inner, hu, if_true, Option.some.injEq] at h
      subst h
      exact ⟨0, by omega, by simp, hu⟩
    · simp only [alloc_inner, hu, if_false] at h
      obtain ⟨k, hk, hj, hused⟩ := ih (j0 + 1) h
      exact ⟨k + 1, by omega, by rw [hj]; push_cast; ring, hused⟩

/-- A successful outer loop entered at a non-negative index returns the least fitting
start at or after the entry index. -/
theorem alloc_scan_some (fb : List Nat) (count : Int) (fuel : Nat) (i r : Int)
    (hi : 0 ≤ i) (h : alloc_scan fb count fuel i = some r) :
    i ≤ r ∧ r < 2400 - count ∧ run_free fb r.toNat count.toNat ∧
      ∀ i1 : Nat, i ≤ (i1 : Int) → (i1 : Int) < r → ¬ run_free fb i1 count.toNat := by
  induction fuel generalizing i with
  | zero => simp [alloc_scan] at h
  | succ fuel ih =>
    by_cases hlt : i < 2400 - count
    · simp only [alloc_scan, hlt, if_true] at h
      cases hin : alloc_inner fb i count.toNat 0 with
      | none =>
        simp only [hin, Option.some.injEq] at h
        subst h
        refine ⟨le_refl _, hlt, ?_, ?_⟩
        · intro j hjlt
          have := alloc_inner_none fb i count.toNat 0 hin j hjlt
          have e : (i + (0 + (j : Int))).toNat = i.toNat + j := by omega
          rw [e] at this
          exact this
        · intro i1 ha hb; omega
      | some j =>
        simp only [hin] at h
        obtain ⟨k, hk, hjk, hused⟩ := alloc_inner_some fb i count.toNat 0 j hin
        obtain ⟨h1, h2, h3, h4⟩ := ih (i + j + 1) (by omega) h
        refine ⟨by omega, h2, h3, ?_⟩
        intro i1 ha hb
        by_cases hc : (i1 : Int) < i + j + 1
        · intro hfree
          have hx := hfree ((i + j).toNat - i1) (by omega)
          have e : i1 + ((i + j).toNat - i1) = (i + j).toNat := by omega
          rw [e] at hx
          exact hx hused
        · exact h4 i1 (by omega) hb
    · simp [alloc_scan, hlt] at h

/-- An outer loop that fails with enough budget has passed over no fitting start. -/
theorem alloc_scan_none (fb : List Nat) (count : Int) (fuel : Nat) (i : Int)
    (hi : 0 ≤ i) (hfuel : (2400 - count - i).toNat ≤ fuel)
    (h : alloc_scan fb count fuel i = none) :
    ∀ i1 : Nat, i ≤ (i1 : Int) → (i1 : Int) < 2400 - count →
      ¬ run_free fb i1 count.toNat := by
  induction fuel generalizing i with
  | zero => intro i1 h1 h2; omega
  | succ fuel ih =>
    by_cases hlt : i < 2400 - count
    · simp only [alloc_scan, hlt, if_true] at h
      cases hin : alloc_inner fb i count.toNat 0 with
      | none => simp [hin] at h
      | some j =>
        simp only [hin] at h
        obtain ⟨k, hk, hjk, hused⟩ := alloc_inner_some fb i count.toNat 0 j hin
        have hrec := ih (i + j + 1) (by omega) (by omega) h
        intro i1 ha hb
        by_cases hc : (i1 : Int) < i + j + 1
        · intro hfree
          have hx := hfree ((i + j).toNat - i1) (by omega)
          have e : i1 + ((i + j).toNat - i1) = (i + j).toNat := by omega
          rw [e] at hx
          exact hx hused
        · exact hrec i1 (by omega) hb
    · intro i1 h1 h2; omega

/-- The outer loop does not depend on the budget once the budget covers the distance
to the end of the scanned range. -/
theorem alloc_scan_fuel_irrelevant (fb : List Nat) (count : Int) (f1 f2 : Nat) (i : Int)
    (h1 : (2400 - count - i).toNat ≤ f1) (h2 : (2400 - count - i).toNat ≤ f2) :
    alloc_scan fb count f1 i = alloc_scan fb count f2 i := by
  induction f1 generalizing f2 i with
  | zero =>
    cases f2 with
    | zero => rfl
    | succ f2 =>
      simp only [alloc_scan]
      rw [if_neg (by omega)]
  | succ f1 ih =>
    cases f2 with
    | zero =>
      simp only [alloc_scan]
      rw [if_neg (by omega)]
    | succ f2 =>
      by_cases hlt : i < 2400 - count
      · simp only [alloc_scan, hlt, if_true]
        cases hin : alloc_inner fb i count.toNat 0 with
        | none => rfl
        | some j =>
          obtain ⟨k, hk, hjk, _⟩ := alloc_inner_some fb i count.toNat 0 j hin
          exact ih f2 (i + j + 1) (by omega) (by omega)
      · simp only [alloc_scan, hlt, if_false]

/-- The scan of `xfs_alloc_blocks` terminates within its budget of 2400 iterations:
any larger budget gives the same result. -/
theorem alloc_scan_fuel (fb : List Nat) (count : Int) (fuel : Nat) (h : 2400 ≤ fuel) :
    alloc_scan fb count fuel 2 = alloc_scan fb count 2400 2 := by
  by_cases hc : 1 ≤ count
  · exact alloc_scan_fuel_irrelevant fb count fuel 2400 2 (by omega) (by omega)
  · obtain ⟨f, rfl⟩ : ∃ f, fuel = f + 1 := ⟨fuel - 1, by omega⟩
    have hz : count.toNat = 0 := by omega
    show alloc_scan fb count (f + 1) 2 = alloc_scan fb count (2399 + 1) 2
    simp only [alloc_scan, hz, alloc_inner]

/-! ## The marking loops -/

theorem mark_used_length (fb : List Nat) (start : Nat) (count : Int) :
    (mark_used fb start count).length = fb.length := by
  unfold mark_used
  generalize count.toNat = n
  induction n with
  | zero => rfl
  | succ n ih => rw [List.range_succ, List.foldl_append]; simpa using ih

theorem mark_free_length (fb : List Nat) (start : Nat) (count : Int) :
    (mark_free fb start count).length = fb.length := by
  unfold mark_free
  generalize count.toNat = n
  induction n with
  | zero => rfl
  | succ n ih =>
    rw [List.range_succ, List.foldl_append]
    simp only [List.foldl_cons, List.foldl_nil]
    split
    · simpa using ih
    · exact ih

/-- Slot by slot, the marking loop of `xfs_alloc_blocks` sets exactly the run to `1`. -/
theorem mark_used_getElem? (fb : List Nat) (start : Nat) (count : Int) (s : Nat) :
    (mark_used fb start count)[s]? =
      if start ≤ s ∧ s < start + count.toNat ∧ s < fb.length then some 1 else fb[s]? := by
  unfold mark_used
  generalize count.toNat = n
  induction n with
  | zero =>
    simp only [List.range_zero, List.foldl_nil]
    rw [if_neg (by omega)]
  | succ n ih =>
    rw [List.range_succ, List.foldl_append]
    simp only [List.foldl_cons, List.foldl_nil]
    rw [List.getElem?_set, ih]
    have hl : ((List.range n).foldl (fun fb i => fb.set (start + i) 1) fb).length
        = fb.length := by
      have := mark_used_length fb start (n : Int)
      simpa [mark_used] using this
    rw [hl]
    by_cases h1 : start + n = s
    · subst h1
      by_cases h2 : start + n < fb.length
      · simp [h2]
      · simp [h2]; omega
    · simp only [h1, if_false]
      by_cases h3 : start ≤ s ∧ s < start + n ∧ s < fb.length
      · rw [if_pos h3, if_pos ⟨h3.1, by omega, h3.2.2⟩]
      · rw [if_neg h3, if_neg (by omega)]

theorem mark_used_getD (fb : List Nat) (start : Nat) (count : Int) (s d : Nat) :
    (mark_used fb start count).getD s d =
      if start ≤ s ∧ s < start + count.toNat ∧ s < fb.length then 1 else fb.getD s d := by
  simp only [List.getD_eq_getElem?_getD, mark_used_getElem?]
  split <;> rfl

/-- Slot by slot, the marking loop of `xfs_free_blocks` clears exactly the part of the
run below 2400, as long as `start_block + count` does not wrap. -/
theorem mark_free_getElem? (fb : List Nat) (start : Nat) (count : Int) (s : Nat)
    (hw : start + count.toNat ≤ 18446744073709551616) :
    (mark_free fb start count)[s]? =
      if start ≤ s ∧ s < start + count.toNat ∧ s < 2400 ∧ s < fb.length then some 0
      else fb[s]? := by
  unfold mark_free
  revert hw
  generalize count.toNat = n
  intro hw
  induction n with
  | zero =>
    simp only [List.range_zero, List.foldl_nil]
    rw [if_neg (by omega)]
  | succ n ih =>
    rw [List.range_succ, List.foldl_append]
    simp only [List.foldl_cons, List.foldl_nil]
    have hm : (start + n) % 18446744073709551616 = start + n :=
      Nat.mod_eq_of_lt (by omega)
    rw [hm]
    have ih := ih (by omega)
    have hl : ((List.range n).foldl (fun fb i =>
        if (start + i) % 18446744073709551616 < 2400
        then fb.set ((start + i) % 18446744073709551616) 0 else fb) fb).length
        = fb.length := by
      have := mark_free_length fb start (n : Int)
      simpa [mark_free] using this
    by_cases hlt : start + n < 2400
    · rw [if_pos hlt, List.getElem?_set, ih, hl]
      by_cases h1 : start + n = s
      · subst h1
        by_cases h2 : start + n < fb.length
        · simp [h2, hlt]
        · simp [h2]; omega
      · simp only [h1, if_false]
        by_cases h3 : start ≤ s ∧ s < start + n ∧ s < 2400 ∧ s < fb.length
        · rw [if_pos h3, if_pos ⟨h3.1, by omega, h3.2.2⟩]
        · rw [if_neg h3, if_neg (by omega)]
    · rw [if_neg hlt, ih]
      by_cases h3 : start ≤ s ∧ s < start + n ∧ s < 2400 ∧ s < fb.length
      · rw [if_pos h3, if_pos ⟨h3.1, by omega, h3.2.2⟩]
      · rw [if_neg h3, if_neg (by omega)]

theorem mark_free_getD (fb : List Nat) (start : Nat) (count : Int) (s d : Nat)
    (hw : start + count.toNat ≤ 18446744073709551616) :
    (mark_free fb start count).getD s d =
      if start ≤ s ∧ s < start + count.toNat ∧ s < 2400 ∧ s < fb.length then 0
      else fb.getD s d := by
  simp only [List.getD_eq_getElem?_getD, mark_free_getElem? fb start count s hw]
  split <;> rfl

/-- Two lists with the same entries are equal. -/
theorem list_eq_of_getElem? {l1 l2 : List Nat} (h : ∀ s : Nat, l1[s]? = l2[s]?) :
    l1 = l2 :=
  List.ext_getElem? h

/-- Number of zeros: set a zero slot to a non-zero value. -/
theorem count_zero_set_nonzero (l : List Nat) (i v : Nat) (h : i < l.length)
    (h0 : l[i]? = some 0) (hv : v ≠ 0) : (l.set i v).count 0 + 1 = l.count 0 := by
  rw [List.count_set _ _ _ _ h]
  have hi : l[i] = 0 := by
    rw [List.getElem?_eq_getElem h] at h0; simpa using h0
  have hpos : 0 < l.count 0 := by
    rw [List.count_pos_iff]; rw [← hi]; exact List.getElem_mem h
  simp [hi, hv]
  omega

/-- Number of zeros: set a non-zero slot to zero. -/
theorem count_zero_set_zero (l : List Nat) (i : Nat) (h : i < l.length)
    (h0 : l[i]? ≠ some 0) : (l.set i 0).count 0 = l.count 0 + 1 := by
  rw [List.count_set _ _ _ _ h]
  have hi : l[i] ≠ 0 := by
    rw [List.getElem?_eq_getElem h] at h0; simpa using h0
  simp [hi]

/-- Marking a run of zero slots used lowers the number of zeros by the run length. -/
theorem mark_used_count (fb : List Nat) (start : Nat) (n : Nat)
    (hlen : start + n ≤ fb.length)
    (hz : ∀ s, start ≤ s → s < start + n → fb[s]? = some 0) :
    (mark_used fb start (n : Int)).count 0 + n = fb.count 0 := by
  induction n with
  | zero => simp [mark_used]
  | succ n ih =>
    have ih := ih (by omega) (fun s h1 h2 => hz s h1 (by omega))
    have hstep : mark_used fb start ((n + 1 : Nat) : Int)
        = (mark_used fb start (n : Int)).set (start + n) 1 := by
      simp only [mark_used, Int.toNat_ofNat]
      rw [List.range_succ, List.foldl_append]
      rfl
    rw [hstep]
    have hprev : (mark_used fb start (n : Int))[start + n]? = some 0 := by
      rw [mark_used_getElem?, if_neg (by simp), hz (start + n) (by omega) (by omega)]
    have := count_zero_set_nonzero (mark_used fb start (n : Int)) (start + n) 1
      (by rw [mark_used_length]; omega) hprev (by omega)
    omega

/-- Marking a run of non-zero slots free raises the number of zeros by the run length. -/
theorem mark_free_count (fb : List Nat) (start : Nat) (n : Nat)
    (hlen : start + n ≤ fb.length) (h24 : fb.length ≤ 2400)
    (hz : ∀ s, start ≤ s → s < start + n → fb[s]? ≠ some 0) :
    (mark_free fb start (n : Int)).count 0 = fb.count 0 + n := by
  induction n with
  | zero => simp [mark_free]
  | succ n ih =>
    have ih := ih (by omega) (fun s h1 h2 => hz s h1 (by omega))
    have hm : (start + n) % 18446744073709551616 = start + n :=
      Nat.mod_eq_of_lt (by omega)
    have hstep : mark_free fb start ((n + 1 : Nat) : Int)
        = (mark_free fb start (n : Int)).set (start + n) 0 := by
      simp only [mark_free, Int.toNat_ofNat]
      rw [List.range_succ, List.foldl_append]
      simp only [List.foldl_cons, List.foldl_nil, hm]
      rw [if_pos (by omega)]
    rw [hstep]
    have hprev : (mark_free fb start (n : Int))[start + n]? ≠ some 0 := by
      rw [mark_free_getElem? _ _ _ _ (by simp; omega), if_neg (by simp)]
      exact hz (start + n) (by omega) (by omega)
    have := count_zero_set_zero (mark_free fb start (n : Int)) (start + n)
      (by rw [mark_free_length]; omega) hprev
    omega

/-! ## The allocator in terms of the AGF on the device -/

theorem agf_allocate_wf (a : xfs_agf_t) (h : agf_wf a) (start : Nat) (count : Int) :
    agf_wf (agf_allocate a start count) := by
  obtain ⟨h1, h2, h3, h4, h5⟩ := h
  refine ⟨h1, h2, ?_, ?_, ?_⟩
  · simp only [agf_allocate]; omega
  · simp only [agf_allocate]; split <;> omega
  · simp only [agf_allocate, mark_used_length]; exact h5

theorem agf_release_wf (a : xfs_agf_t) (h : agf_wf a) (start : Nat) (count : Int) :
    agf_wf (agf_release a start count) := by
  obtain ⟨h1, h2, h3, h4, h5⟩ := h
  refine ⟨h1, h2, ?_, ?_, ?_⟩
  · simp only [agf_release]; omega
  · simp only [agf_release, to_u32]; split <;> omega
  · simp only [agf_release, mark_free_length]; exact h5

theorem foldl_set_length (idx : List Nat) (v : Nat) (fb : List Nat) :
    (idx.foldl (fun fb i => fb.set i v) fb).length = fb.length := by
  induction idx generalizing fb with
  | nil => rfl
  | cons i idx ih => simp only [List.foldl_cons]; rw [ih]; simp

theorem foldl_set_getElem? (idx : List Nat) (v : Nat) (fb : List Nat) (s : Nat) :
    (idx.foldl (fun fb i => fb.set i v) fb)[s]? =
      if s ∈ idx ∧ s < fb.length then some v else fb[s]? := by
  induction idx generalizing fb with
  | nil => simp
  | cons i idx ih =>
    simp only [List.foldl_cons]
    rw [ih, List.length_set, List.getElem?_set]
    by_cases h1 : s ∈ idx ∧ s < fb.length
    · rw [if_pos h1, if_pos ⟨List.mem_cons_of_mem _ h1.1, h1.2⟩]
    · rw [if_neg h1]
      by_cases h2 : i = s
      · subst h2
        by_cases h3 : i < fb.length
        · simp [h3]
        · simp [h3]; omega
      · rw [if_neg h2]
        rw [if_neg]
        intro hc
        rcases List.mem_cons.mp hc.1 with h | h
        · exact h2 h.symm
        · exact h1 ⟨h, hc.2⟩

/-- On a 2400-entry map `xfs_ag_init_alloc` produces slots 0 and 1 used, the rest free. -/
theorem init_bitmap_eq (fb : List Nat) (h : fb.length = 2400) :
    init_bitmap fb = fresh_bitmap := by
  apply list_eq_of_getElem?
  intro s
  simp only [init_bitmap]
  rw [foldl_set_getElem?, foldl_set_getElem?, foldl_set_length, h]
  simp only [List.mem_range, List.mem_range'_1, fresh_bitmap]
  by_cases h2 : s < 2
  · rw [if_neg (by omega), if_pos ⟨h2, by omega⟩]
    have : s = 0 ∨ s = 1 := by omega
    rcases this with rfl | rfl
    · simp only [List.cons_append, List.getElem?_cons_zero]
    · simp only [List.cons_append, List.getElem?_cons_succ, List.getElem?_cons_zero]
  · by_cases h3 : s < 2400
    · rw [if_pos ⟨by omega, h3⟩]
      rw [List.getElem?_append_right (by
        simp only [List.length_cons, List.length_nil]; omega)]
      simp only [List.length_cons, List.length_nil]
      rw [List.getElem?_replicate, if_pos (by omega)]
    · rw [if_neg (by omega), if_neg (by omega)]
      rw [List.getElem?_eq_none (by omega), List.getElem?_eq_none (by
        simp only [List.length_append, List.length_replicate, List.length_cons,
          List.length_nil]; omega)]

theorem agf_reset_wf (a : xfs_agf_t) (h : agf_wf a) : agf_wf (agf_reset a) := by
  obtain ⟨h1, h2, h3, h4, h5⟩ := h
  refine ⟨h1, h2, ?_, ?_, ?_⟩
  · simp only [agf_reset]; omega
  · simp only [agf_reset]; omega
  · simp only [agf_reset]; rw [init_bitmap_eq _ h5]
    simp only [fresh_bitmap, List.length_append, List.length_replicate, List.length_cons,
      List.length_nil]

/-- Function `xfs_alloc_blocks` on a valid AG whose AGF can be read. -/
theorem xfs_alloc_blocks_eq {fs : FS} {ag : Int} {agf : xfs_agf_t} (hv : valid_ag ag)
    (h : read_agf fs.disk ag = some agf) (count : Int) :
    xfs_alloc_blocks fs ag count =
      match alloc_scan agf.free_blocks count 2400 2 with
      | none => (0, fs)
      | some i =>
        (to_u64 i,
          { disk := (disk_write fs.disk (ag_get_offset ag)
              (agf_to_bytes (agf_allocate agf (to_u64 i) count)) SIZEOF_AGF).2
            journal := (trans_add_item fs.journal
              (agf_to_bytes (agf_allocate agf (to_u64 i) count)) SIZEOF_AGF).2 }) := by
  obtain ⟨dk, bs, hd, hb, hbs, hl, ha⟩ := read_agf_eq_some h
  simp only [xfs_alloc_blocks, ag_lock_valid hv, ne_eq, not_true_eq_false, if_false, hbs]
  rw [← ha]
  cases hs : alloc_scan agf.free_blocks count 2400 2 with
  | none => rfl
  | some i =>
    simp only []
    have hw := (read_agf_write_same h (agf_allocate agf (to_u64 i) count)
      (agf_allocate_wf agf (read_agf_wf h) _ _)).1
    have e : disk_write fs.disk (ag_get_offset ag)
        (agf_to_bytes (agf_allocate agf (to_u64 i) count)) SIZEOF_AGF
        = (0, (disk_write fs.disk (ag_get_offset ag)
        (agf_to_bytes (agf_allocate agf (to_u64 i) count)) SIZEOF_AGF).2) :=
      Prod.ext hw rfl
    rw [e]
    rfl

/-- Function `xfs_free_blocks` on a valid AG whose AGF can be read. -/
theorem xfs_free_blocks_eq {fs : FS} {ag : Int} {agf : xfs_agf_t} (hv : valid_ag ag)
    (h : read_agf fs.disk ag = some agf) (start : Nat) (count : Int) :
    xfs_free_blocks fs ag start count =
      (0, { disk := (disk_write fs.disk (ag_get_offset ag)
              (agf_to_bytes (agf_release agf start count)) SIZEOF_AGF).2
            journal := (trans_add_item fs.journal
              (agf_to_bytes (agf_release agf start count)) SIZEOF_AGF).2 }) := by
  obtain ⟨dk, bs, hd, hb, hbs, hl, ha⟩ := read_agf_eq_some h
  simp only [xfs_free_blocks, ag_lock_valid hv, ne_eq, not_true_eq_false, if_false, hbs]
  rw [← ha]
  have hw := (read_agf_write_same h (agf_release agf start count)
    (agf_release_wf agf (read_agf_wf h) _ _)).1
  have e : disk_write fs.disk (ag_get_offset ag)
      (agf_to_bytes (agf_release agf start count)) SIZEOF_AGF
      = (0, (disk_write fs.disk (ag_get_offset ag)
      (agf_to_bytes (agf_release agf start count)) SIZEOF_AGF).2) :=
    Prod.ext hw rfl
  rw [e]
  rfl

/-- Function `xfs_ag_init_alloc` on a valid AG whose AGF can be read. -/
theorem xfs_ag_init_alloc_eq {fs : FS} {ag : Int} {agf : xfs_agf_t} (hv : valid_ag ag)
    (h : read_agf fs.disk ag = some agf) :
    xfs_ag_init_alloc fs ag =
      (0, { fs with disk := (disk_write fs.disk (ag_get_offset ag)
              (agf_to_bytes (agf_reset agf)) SIZEOF_AGF).2 }) := by
  obtain ⟨dk, bs, hd, hb, hbs, hl, ha⟩ := read_agf_eq_some h
  simp only [xfs_ag_init_alloc, ag_lock_valid hv, ne_eq, not_true_eq_false, if_false, hbs]
  rw [← ha]
  have hw := (read_agf_write_same h (agf_reset agf) (agf_reset_wf agf (read_agf_wf h))).1
  have e : disk_write fs.disk (ag_get_offset ag) (agf_to_bytes (agf_reset agf)) SIZEOF_AGF
      = (0, (disk_write fs.disk (ag_get_offset ag)
      (agf_to_bytes (agf_reset agf)) SIZEOF_AGF).2) :=
    Prod.ext hw rfl
  rw [e]
  rfl

/-- The three allocator entry points leave the state alone when the AG number is
invalid or the AGF cannot be read. -/
theorem xfs_alloc_blocks_unreadable (fs : FS) (ag : Int) (count : Int)
    (h : ¬ valid_ag ag ∨ read_agf fs.disk ag = none) :
    xfs_alloc_blocks fs ag count = (0, fs) := by
  by_cases hv : valid_ag ag
  · have hr : disk_read fs.disk (ag_get_offset ag) SIZEOF_AGF = none := by
      rcases h with h | h
      · exact absurd hv h
      · simpa [read_agf] using h
    simp only [xfs_alloc_blocks, ag_lock_valid hv, ne_eq, not_true_eq_false, if_false, hr]
  · simp [xfs_alloc_blocks, ag_lock_invalid hv]

theorem xfs_free_blocks_unreadable (fs : FS) (ag : Int) (start : Nat) (count : Int)
    (h : ¬ valid_ag ag ∨ read_agf fs.disk ag = none) :
    xfs_free_blocks fs ag start count = (-1, fs) := by
  by_cases hv : valid_ag ag
  · have hr : disk_read fs.disk (ag_get_offset ag) SIZEOF_AGF = none := by
      rcases h with h | h
      · exact absurd hv h
      · simpa [read_agf] using h
    simp only [xfs_free_blocks, ag_lock_valid hv, ne_eq, not_true_eq_false, if_false, hr]
  · simp [xfs_free_blocks, ag_lock_invalid hv]

theorem xfs_ag_init_alloc_unreadable (fs : FS) (ag : Int)
    (h : ¬ valid_ag ag ∨ read_agf fs.disk ag = none) :
    xfs_ag_init_alloc fs ag = (-1, fs) := by
  by_cases hv : valid_ag ag
  · have hr : disk_read fs.disk (ag_get_offset ag) SIZEOF_AGF = none := by
      rcases h with h | h
      · exact absurd hv h
      · simpa [read_agf] using h
    simp only [xfs_ag_init_alloc, ag_lock_valid hv, ne_eq, not_true_eq_false, if_false, hr]
  · simp [xfs_ag_init_alloc, ag_lock_invalid hv]

/-! ## First fit -/

theorem binary_getD_le (fb : List Nat) (h : bitmap_binary fb) (s : Nat) : fb.getD s 0 ≤ 1 := by
  by_cases hs : s < fb.length
  · rw [List.getD_eq_getElem _ _ hs]
    exact h _ (List.getElem_mem hs)
  · rw [List.getD_eq_default _ _ (by omega)]; omega

theorem run_free_iff_slots_free (fb : List Nat) (h : bitmap_binary fb) (i n : Nat) :
    run_free fb i n ↔ slots_free fb i n := by
  unfold run_free slots_free
  constructor
  · intro hf j hj
    have := hf j hj
    have := binary_getD_le fb h (i + j)
    omega
  · intro hf j hj
    rw [hf j hj]; omega

theorem sample_read_agf : read_agf sample_fs.disk 0 = some formatted_agf := by decide!

theorem fresh_bitmap_binary : bitmap_binary fresh_bitmap := by
  intro x hx
  simp only [fresh_bitmap, List.mem_append, List.mem_cons, List.mem_singleton,
    List.mem_replicate, List.not_mem_nil, or_false] at hx
  omega

/-- C3 (first fit). On a valid AG whose AGF can be read and whose map holds only 0 and
1, `xfs_alloc_blocks(ag, count)` with `count >= 1` returns the least index `r` with
`2 <= r <= 2400 - count - 1` whose `count` slots are all free, and returns 0 exactly
when no such index exists; a successful result is at least 2. -/
theorem C3_first_fit (fs : FS) (ag : Int) (agf : xfs_agf_t) (count : Int)
    (hv : valid_ag ag) (hr : read_agf fs.disk ag = some agf)
    (hb : bitmap_binary agf.free_blocks) (hc : 1 ≤ count) :
    ((xfs_alloc_blocks fs ag count).1 ≠ 0 →
      2 ≤ (xfs_alloc_blocks fs ag count).1 ∧
      ((xfs_alloc_blocks fs ag count).1 : Int) ≤ 2400 - count - 1 ∧
      slots_free agf.free_blocks (xfs_alloc_blocks fs ag count).1 count.toNat ∧
      ∀ i : Nat, 2 ≤ i → i < (xfs_alloc_blocks fs ag count).1 →
        ¬ slots_free agf.free_blocks i count.toNat) ∧
    ((xfs_alloc_blocks fs ag count).1 = 0 ↔
      ¬ ∃ i : Nat, 2 ≤ i ∧ (i : Int) ≤ 2400 - count - 1 ∧
        slots_free agf.free_blocks i count.toNat) := by
  rw [xfs_alloc_blocks_eq hv hr count]
  cases hs : alloc_scan agf.free_blocks count 2400 2 with
  | none =>
    simp only [ne_eq, not_true_eq_false, false_implies, true_and, true_iff]
    rintro ⟨i, h2, hle, hfree⟩
    have := alloc_scan_none agf.free_blocks count 2400 2 (by omega) (by omega) hs i
      (by omega) (by omega)
    exact this ((run_free_iff_slots_free _ hb _ _).mpr hfree)
  | some r =>
    obtain ⟨h1, h2, h3, h4⟩ := alloc_scan_some agf.free_blocks count 2400 2 r (by omega) hs
    have hr2 : to_u64 r = r.toNat := by unfold to_u64; omega
    simp only [hr2]
    have hfree := (run_free_iff_slots_free _ hb _ _).mp h3
    refine ⟨fun _ => ⟨by omega, by omega, hfree, ?_⟩, ?_⟩
    · intro i hi2 hir hf
      exact h4 i (by omega) (by omega) ((run_free_iff_slots_free _ hb _ _).mpr hf)
    · constructor
      · intro h0; omega
      · intro hne
        exact absurd ⟨r.toNat, by omega, by omega, hfree⟩ hne

theorem C3_first_fit_witness :
    valid_ag 0 ∧ read_agf sample_fs.disk 0 = some formatted_agf ∧
    bitmap_binary formatted_agf.free_blocks ∧ (1 : Int) ≤ 1 ∧
    ((xfs_alloc_blocks sample_fs 0 1).1 = 0 ↔
      ¬ ∃ i : Nat, 2 ≤ i ∧ (i : Int) ≤ 2400 - 1 - 1 ∧
        slots_free formatted_agf.free_blocks i (1 : Int).toNat) :=
  ⟨by decide, sample_read_agf, fresh_bitmap_binary, by decide,
    (C3_first_fit sample_fs 0 formatted_agf 1 (by decide) sample_read_agf
      fresh_bitmap_binary (by decide)).2⟩

/-! ## Allocation postcondition -/

/-- A non-zero result of `xfs_alloc_blocks` with `count >= 1` comes from a valid AG with
a readable AGF and a successful scan. -/
theorem xfs_alloc_blocks_success {fs : FS} {ag : Int} {count : Int} (hc : 1 ≤ count)
    (h : (xfs_alloc_blocks fs ag count).1 ≠ 0) :
    valid_ag ag ∧ ∃ agf r, read_agf fs.disk ag = some agf ∧
      alloc_scan agf.free_blocks count 2400 2 = some r ∧ 2 ≤ r ∧ r < 2400 - count ∧
      (xfs_alloc_blocks fs ag count).1 = r.toNat ∧
      (xfs_alloc_blocks fs ag count).2.disk = (disk_write fs.disk (ag_get_offset ag)
        (agf_to_bytes (agf_allocate agf r.toNat count)) SIZEOF_AGF).2 ∧
      (xfs_alloc_blocks fs ag count).2.journal = (trans_add_item fs.journal
        (agf_to_bytes (agf_allocate agf r.toNat count)) SIZEOF_AGF).2 ∧
      read_agf (xfs_alloc_blocks fs ag count).2.disk ag
        = some (agf_allocate agf r.toNat count) := by
  by_cases hv : valid_ag ag
  · refine ⟨hv, ?_⟩
    cases hr : read_agf fs.disk ag with
    | none =>
      rw [xfs_alloc_blocks_unreadable fs ag count (Or.inr hr)] at h
      exact absurd rfl h
    | some agf =>
      rw [xfs_alloc_blocks_eq hv hr count] at h ⊢
      cases hs : alloc_scan agf.free_blocks count 2400 2 with
      | none => rw [hs] at h; exact absurd rfl h
      | some r =>
        obtain ⟨h1, h2, _, _⟩ := alloc_scan_some agf.free_blocks count 2400 2 r (by omega) hs
        have hr2 : to_u64 r = r.toNat := by unfold to_u64; omega
        simp only [hr2]
        exact ⟨agf, r, rfl, hs, h1, h2, rfl, rfl, rfl,
          (read_agf_write_same hr _ (agf_allocate_wf agf (read_agf_wf hr) _ _)).2⟩
  · rw [xfs_alloc_blocks_unreadable fs ag count (Or.inl hv)] at h
    exact absurd rfl h

/-- A zero result of `xfs_alloc_blocks` with `count >= 1` leaves the state unchanged. -/
theorem xfs_alloc_blocks_zero {fs : FS} {ag : Int} {count : Int} (hc : 1 ≤ count)
    (h : (xfs_alloc_blocks fs ag count).1 = 0) : (xfs_alloc_blocks fs ag count).2 = fs := by
  by_cases hv : valid_ag ag
  · cases hr : read_agf fs.disk ag with
    | none => rw [xfs_alloc_blocks_unreadable fs ag count (Or.inr hr)]
    | some agf =>
      rw [xfs_alloc_blocks_eq hv hr count] at h ⊢
      cases hs : alloc_scan agf.free_blocks count 2400 2 with
      | none => rfl
      | some r =>
        obtain ⟨h1, h2, _, _⟩ := alloc_scan_some agf.free_blocks count 2400 2 r (by omega) hs
        rw [hs] at h
        simp only [to_u64] at h
        omega
  · rw [xfs_alloc_blocks_unreadable fs ag count (Or.inl hv)]

/-- C4 (allocation postcondition). When `xfs_alloc_blocks(ag, count)` with `count >= 1`
returns `r != 0`, the AGF read from the device afterwards differs from the one read
before exactly as follows: the slots `r .. r+count-1`, which the scan found not used
(they hold 0 when the map is two-valued), now hold 1; every other slot is unchanged;
`agf_freeblks` is the old value minus `count` in `uint32_t` arithmetic (the plain
difference whenever `count <= agf_freeblks`); `agf_longest` equals the new
`agf_freeblks`; magic and length are unchanged.  When it returns 0 the device (and the
journal) is unchanged. -/
theorem C4_alloc_postcondition (fs : FS) (ag : Int) (count : Int) (hc : 1 ≤ count) :
    ((xfs_alloc_blocks fs ag count).1 ≠ 0 →
      ∃ agf agf1, read_agf fs.disk ag = some agf ∧
        read_agf (xfs_alloc_blocks fs ag count).2.disk ag = some agf1 ∧
        2 ≤ (xfs_alloc_blocks fs ag count).1 ∧
        (xfs_alloc_blocks fs ag count).1 + count.toNat ≤ 2399 ∧
        (∀ s, (xfs_alloc_blocks fs ag count).1 ≤ s →
          s < (xfs_alloc_blocks fs ag count).1 + count.toNat →
          agf.free_blocks.getD s 0 ≠ 1 ∧
          (bitmap_binary agf.free_blocks → agf.free_blocks.getD s 0 = 0) ∧
          agf1.free_blocks.getD s 0 = 1) ∧
        (∀ s, ¬ ((xfs_alloc_blocks fs ag count).1 ≤ s ∧
            s < (xfs_alloc_blocks fs ag count).1 + count.toNat) →
          agf1.free_blocks[s]? = agf.free_blocks[s]?) ∧
        (agf1.agf_freeblks : Int) = ((agf.agf_freeblks : Int) - count) % 4294967296 ∧
        (count ≤ (agf.agf_freeblks : Int) →
          (agf1.agf_freeblks : Int) = (agf.agf_freeblks : Int) - count) ∧
        agf1.agf_longest = agf1.agf_freeblks ∧
        agf1.agf_magicnum = agf.agf_magicnum ∧ agf1.agf_length = agf.agf_length) ∧
    ((xfs_alloc_blocks fs ag count).1 = 0 → (xfs_alloc_blocks fs ag count).2 = fs) := by
  refine ⟨fun h => ?_, xfs_alloc_blocks_zero hc⟩
  obtain ⟨hv, agf, r, hr, hs, h2, hlt, hres, _, _, hafter⟩ := xfs_alloc_blocks_success hc h
  obtain ⟨_, _, hfree, _⟩ := alloc_scan_some agf.free_blocks count 2400 2 r (by omega) hs
  have hwf := read_agf_wf hr
  refine ⟨agf, agf_allocate agf r.toNat count, hr, hafter, ?_⟩
  rw [hres]
  refine ⟨by omega, by omega, ?_, ?_, ?_, ?_, ?_, rfl, rfl⟩
  · intro s h1 h3
    have hnot : agf.free_blocks.getD s 0 ≠ 1 := by
      have := hfree (s - r.toNat) (by omega)
      have e : r.toNat + (s - r.toNat) = s := by omega
      rw [e] at this; exact this
    refine ⟨hnot, ?_, ?_⟩
    · intro hb
      have := binary_getD_le _ hb s
      omega
    · simp only [agf_allocate, mark_used_getD]
      rw [if_pos ⟨h1, h3, by rw [hwf.2.2.2.2]; omega⟩]
  · intro s hs
    simp only [agf_allocate, mark_used_getElem?]
    rw [if_neg (by omega)]
  · simp only [agf_allocate]
    omega
  · intro hle
    simp only [agf_allocate]
    have := hwf.2.2.1
    omega
  · simp only [agf_allocate]
    split
    · rfl
    · omega

theorem C4_alloc_postcondition_witness :
    (1 : Int) ≤ 1 ∧ ∃ agf agf1, read_agf sample_fs.disk 0 = some agf ∧
      read_agf (xfs_alloc_blocks sample_fs 0 1).2.disk 0 = some agf1 ∧
      2 ≤ (xfs_alloc_blocks sample_fs 0 1).1 ∧
      (agf1.agf_freeblks : Int) = ((agf.agf_freeblks : Int) - 1) % 4294967296 := by
  refine ⟨by decide, ?_⟩
  obtain ⟨agf, agf1, h1, h2, h3, _, _, _, h7, _⟩ :=
    (C4_alloc_postcondition sample_fs 0 1 (by decide)).1 (by decide!)
  exact ⟨agf, agf1, h1, h2, h3, h7⟩

/-! ## Allocate, then free -/

theorem getElem?_of_getD_eq {fb : List Nat} {s v : Nat} (hs : s < fb.length)
    (h : fb.getD s 0 = v) : fb[s]? = some v := by
  rw [List.getD_eq_getElem _ _ hs] at h
  rw [List.getElem?_eq_getElem hs, h]

/-- C5 (allocate-then-free round trip). On a valid AG whose stored AGF has a two-valued
map (as the allocator invariant and the data model require), if
`r = xfs_alloc_blocks(ag, k)` with `k >= 1` succeeds and `xfs_free_blocks(ag, r, k)`
follows, the free succeeds and the AGF on the device has the bitmap and the
`agf_freeblks` it had before the allocation. -/
theorem C5_alloc_free_roundtrip (fs : FS) (ag : Int) (agf : xfs_agf_t) (k : Int)
    (hr : read_agf fs.disk ag = some agf) (hb : bitmap_binary agf.free_blocks)
    (hk : 1 ≤ k) (hsucc : (xfs_alloc_blocks fs ag k).1 ≠ 0) :
    (xfs_free_blocks (xfs_alloc_blocks fs ag k).2 ag (xfs_alloc_blocks fs ag k).1 k).1 = 0 ∧
    ∃ agf2,
      read_agf (xfs_free_blocks (xfs_alloc_blocks fs ag k).2 ag
        (xfs_alloc_blocks fs ag k).1 k).2.disk ag = some agf2 ∧
      agf2.free_blocks = agf.free_blocks ∧ agf2.agf_freeblks = agf.agf_freeblks := by
  obtain ⟨hv, agf0, r, hr0, hs, h2, hlt, hres, _, _, hafter⟩ := xfs_alloc_blocks_success hk hsucc
  rw [hr] at hr0
  obtain rfl : agf = agf0 := by simpa using hr0
  obtain ⟨_, _, hfree, _⟩ := alloc_scan_some agf.free_blocks k 2400 2 r (by omega) hs
  have hwf := read_agf_wf hr
  rw [hres, xfs_free_blocks_eq hv hafter]
  refine ⟨rfl, _, (read_agf_write_same hafter _
    (agf_release_wf _ (read_agf_wf hafter) _ _)).2, ?_, ?_⟩
  · apply list_eq_of_getElem?
    intro s
    simp only [agf_release, agf_allocate]
    rw [mark_free_getElem? _ _ _ _ (by omega), mark_used_length, mark_used_getElem?,
      hwf.2.2.2.2]
    by_cases hin : r.toNat ≤ s ∧ s < r.toNat + k.toNat
    · rw [if_pos ⟨hin.1, hin.2, by omega, by omega⟩]
      have h0 : agf.free_blocks.getD s 0 = 0 := by
        have h1 := hfree (s - r.toNat) (by omega)
        have e : r.toNat + (s - r.toNat) = s := by omega
        rw [e] at h1
        have := binary_getD_le _ hb s
        omega
      exact (getElem?_of_getD_eq (by rw [hwf.2.2.2.2]; omega) h0).symm
    · rw [if_neg (by omega), if_neg (by omega)]
  · simp only [agf_release, agf_allocate]
    have := hwf.2.2.1
    omega

theorem sample_alloc_1 : (xfs_alloc_blocks sample_fs 0 1).1 ≠ 0 := by decide!

theorem C5_alloc_free_roundtrip_witness :
    read_agf sample_fs.disk 0 = some formatted_agf ∧ bitmap_binary formatted_agf.free_blocks ∧
    (1 : Int) ≤ 1 ∧ (xfs_alloc_blocks sample_fs 0 1).1 ≠ 0 ∧
    ∃ agf2,
      read_agf (xfs_free_blocks (xfs_alloc_blocks sample_fs 0 1).2 0
        (xfs_alloc_blocks sample_fs 0 1).1 1).2.disk 0 = some agf2 ∧
      agf2.free_blocks = formatted_agf.free_blocks ∧
      agf2.agf_freeblks = formatted_agf.agf_freeblks :=
  ⟨sample_read_agf, fresh_bitmap_binary, by decide, sample_alloc_1,
    (C5_alloc_free_roundtrip sample_fs 0 formatted_agf 1 sample_read_agf fresh_bitmap_binary
      (by decide) sample_alloc_1).2⟩

/-! ## Free postcondition -/

/-- C7 (free postcondition), as the code has it: on a valid AG whose AGF can be read,
`xfs_free_blocks(ag, start, count)` with `0 <= count` (an `int`) and
`start + count <= 2^64` returns 0 and leaves an AGF in which every slot `s` with
`start <= s < start+count` and `s < 2400` is free and every other slot is unchanged;
`agf_freeblks` has grown by `count` in `uint32_t` arithmetic (whether or not the slots
were clamped away or already free; the plain sum when it fits 32 bits), `agf_longest`
is `max(old agf_longest, count)`, and magic and length are unchanged. -/
theorem C7_free_postcondition (fs : FS) (ag : Int) (agf : xfs_agf_t) (start : Nat)
    (count : Int) (hv : valid_ag ag) (hr : read_agf fs.disk ag = some agf)
    (hc : 0 ≤ count) (hc2 : count < 2147483648)
    (hw : start + count.toNat ≤ 18446744073709551616) :
    (xfs_free_blocks fs ag start count).1 = 0 ∧
    ∃ agf1, read_agf (xfs_free_blocks fs ag start count).2.disk ag = some agf1 ∧
      (∀ s, start ≤ s → s < start + count.toNat → s < 2400 →
        agf1.free_blocks.getD s 1 = 0) ∧
      (∀ s, ¬ (start ≤ s ∧ s < start + count.toNat ∧ s < 2400) →
        agf1.free_blocks[s]? = agf.free_blocks[s]?) ∧
      (agf1.agf_freeblks : Int) = ((agf.agf_freeblks : Int) + count) % 4294967296 ∧
      ((agf.agf_freeblks : Int) + count < 4294967296 →
        (agf1.agf_freeblks : Int) = (agf.agf_freeblks : Int) + count) ∧
      (agf1.agf_longest : Int) = max (agf.agf_longest : Int) count ∧
      agf1.agf_magicnum = agf.agf_magicnum ∧ agf1.agf_length = agf.agf_length := by
  have hwf := read_agf_wf hr
  rw [xfs_free_blocks_eq hv hr]
  refine ⟨rfl, _, (read_agf_write_same hr _ (agf_release_wf _ hwf _ _)).2, ?_, ?_, ?_, ?_,
    ?_, rfl, rfl⟩
  · intro s h1 h2 h3
    simp only [agf_release]
    rw [mark_free_getD _ _ _ _ _ hw, if_pos ⟨h1, h2, h3, by rw [hwf.2.2.2.2]; exact h3⟩]
  · intro s hs
    simp only [agf_release]
    rw [mark_free_getElem? _ _ _ _ hw, if_neg (by omega)]
  · simp only [agf_release]
    omega
  · intro hlt
    simp only [agf_release]
    omega
  · simp only [agf_release, to_u32]
    have := hwf.2.2.2.1
    split <;> omega

theorem C7_free_postcondition_witness :
    valid_ag 0 ∧ read_agf sample_fs.disk 0 = some formatted_agf ∧ (0 : Int) ≤ 3 ∧
    (3 : Int) < 2147483648 ∧ 5 + (3 : Int).toNat ≤ 18446744073709551616 ∧
    (xfs_free_blocks sample_fs 0 5 3).1 = 0 :=
  ⟨by decide, sample_read_agf, by decide, by decide, by decide,
    (C7_free_postcondition sample_fs 0 formatted_agf 5 3 (by decide) sample_read_agf
      (by decide) (by decide) (by decide)).1⟩

/-- C7 as stated fails for a negative `count`: on the formatted sample AG,
`xfs_free_blocks(0, 5, -1)` succeeds and leaves `agf_longest = 4294967295`, whereas
`max(old agf_longest, count) = max(2398, -1) = 2398`. -/
theorem C7_counterexample :
    (xfs_free_blocks sample_fs 0 5 (-1)).1 = 0 ∧
    (read_agf sample_fs.disk 0).map (fun a => max (a.agf_longest : Int) (-1)) = some 2398 ∧
    (read_agf (xfs_free_blocks sample_fs 0 5 (-1)).2.disk 0).map
      (fun a => (a.agf_longest : Int)) = some 4294967295 := by
  decide!

/-! ## Format -/

theorem disk_write_status (d : Option Disk) (off len : Nat) (buf : List Nat) :
    ((disk_write d off buf len).1 = 0 ∧
      ∃ dk, d = some dk ∧ (off + len) % 18446744073709551616 ≤ dk.size) ∨
    disk_write d off buf len = (-1, d) := by
  cases d with
  | none => right; rfl
  | some dk =>
    by_cases hb : (off + len) % 18446744073709551616 ≤ dk.size
    · left; rw [disk_write_of_bounds dk off len buf hb]; exact ⟨rfl, dk, rfl, hb⟩
    · right; exact disk_write_fail dk off len buf hb

theorem disk_write_size (d : Option Disk) (off len : Nat) (buf : List Nat) :
    (disk_write d off buf len).2.map Disk.size = d.map Disk.size := by
  cases d with
  | none => rfl
  | some dk =>
    by_cases hb : (off + len) % 18446744073709551616 ≤ dk.size
    · rw [disk_write_of_bounds dk off len buf hb]; rfl
    · rw [disk_write_fail dk off len buf hb]

theorem read_agf_of_bounds {d : Option Disk} {dk : Disk} (ag : Int) (hd : d = some dk)
    (hb : (ag_get_offset ag + SIZEOF_AGF) % 18446744073709551616 ≤ dk.size) :
    ∃ a, read_agf d ag = some a := by
  subst hd
  simp only [read_agf]
  rw [disk_read_of_bounds dk _ _ hb]
  exact ⟨_, rfl⟩

theorem format_agf_wf (junk : StackJunk) : agf_wf (format_agf junk) := by
  refine ⟨?_, ?_, ?_, ?_, ?_⟩
  · simp only [format_agf]; omega
  · simp only [format_agf]; omega
  · simp only [format_agf]; omega
  · simp only [format_agf]; omega
  · simp only [format_agf, BITMAP_SLOTS, List.length_map, List.length_range]

theorem agf_reset_format (junk : StackJunk) : agf_reset (format_agf junk) = formatted_agf := by
  simp only [agf_reset, formatted_agf]
  rw [init_bitmap_eq _ (format_agf_wf junk).2.2.2.2]
  rfl

/-- A successful run of the header loop leaves `format_agf` in every AG it visited and
does not disturb the AGFs of the AGs before them. -/
theorem ag_write_headers_loop_ok (junk : StackJunk) (n i : Nat) (d : Option Disk)
    (hn : i + n ≤ 10) (h : (ag_write_headers_loop junk n i d).1 = 0) :
    (∀ ag : Nat, i ≤ ag → ag < i + n →
      read_agf (ag_write_headers_loop junk n i d).2 ag = some (format_agf junk)) ∧
    (∀ ag : Nat, ag < i →
      read_agf (ag_write_headers_loop junk n i d).2 ag = read_agf d ag) := by
  induction n generalizing i d with
  | zero =>
    refine ⟨fun ag h1 h2 => by omega, fun ag _ => rfl⟩
  | succ n ih =>
    have hvi : valid_ag (i : Int) := by unfold valid_ag; omega
    simp only [ag_write_headers_loop] at h ⊢
    rcases disk_write_status d (ag_get_offset i) SIZEOF_AGF
      (agf_to_bytes (format_agf junk)) with ⟨hw1, dk, hd, hb⟩ | hw1
    · have e1 : disk_write d (ag_get_offset i) (agf_to_bytes (format_agf junk)) SIZEOF_AGF
          = (0, (disk_write d (ag_get_offset i) (agf_to_bytes (format_agf junk))
            SIZEOF_AGF).2) := Prod.ext hw1 rfl
      rw [e1] at h ⊢
      simp only [] at h ⊢
      generalize hd1 : (disk_write d (ag_get_offset i) (agf_to_bytes (format_agf junk))
        SIZEOF_AGF).2 = d1 at h ⊢
      rcases disk_write_status d1 (ag_get_offset i + 4096) SIZEOF_AGI
        (agi_to_bytes format_agi) with ⟨hw2, _⟩ | hw2
      · have e2 : disk_write d1 (ag_get_offset i + 4096) (agi_to_bytes format_agi) SIZEOF_AGI
            = (0, (disk_write d1 (ag_get_offset i + 4096) (agi_to_bytes format_agi)
              SIZEOF_AGI).2) := Prod.ext hw2 rfl
        rw [e2] at h ⊢
        simp only [] at h ⊢
        obtain ⟨ih1, ih2⟩ := ih (i + 1) _ (by omega) h
        have hri : read_agf (disk_write d1 (ag_get_offset i + 4096)
            (agi_to_bytes format_agi) SIZEOF_AGI).2 i = some (format_agf junk) := by
          rw [read_agf_write_disjoint _ _ _ _ _ (by simp only [SIZEOF_AGF]; omega)]
          obtain ⟨a0, ha0⟩ := read_agf_of_bounds (i : Int) hd hb
          rw [← hd1]
          exact (read_agf_write_same ha0 _ (format_agf_wf junk)).2
        constructor
        · intro ag h1 h2
          by_cases hag : ag = i
          · subst hag
            rw [ih2 ag (by omega)]
            exact hri
          · exact ih1 ag (by omega) (by omega)
        · intro ag hlt
          rw [ih2 ag (by omega)]
          have hva : valid_ag (ag : Int) := by unfold valid_ag; omega
          rw [read_agf_write_disjoint _ _ _ _ _ (by
            rw [ag_get_offset_valid hva, ag_get_offset_valid hvi]
            simp only [SIZEOF_AGF, Int.toNat_ofNat]; omega)]
          rw [← hd1]
          exact read_agf_write_other hvi hva (by omega) _
      · rw [hw2] at h
        simp at h
    · rw [hw1] at h
      simp at h

theorem xfs_ag_init_alloc_status (fs : FS) (ag : Int) :
    (valid_ag ag ∧ ∃ agf, read_agf fs.disk ag = some agf ∧
      xfs_ag_init_alloc fs ag = (0, { fs with disk := (disk_write fs.disk (ag_get_offset ag)
        (agf_to_bytes (agf_reset agf)) SIZEOF_AGF).2 })) ∨
    xfs_ag_init_alloc fs ag = (-1, fs) := by
  by_cases hv : valid_ag ag
  · cases hr : read_agf fs.disk ag with
    | none => right; exact xfs_ag_init_alloc_unreadable fs ag (Or.inr hr)
    | some agf => left; exact ⟨hv, agf, rfl, xfs_ag_init_alloc_eq hv hr⟩
  · right; exact xfs_ag_init_alloc_unreadable fs ag (Or.inl hv)

/-- A successful run of the initialisation loop of `xfs_mkfs` resets the AGF of every AG
it visits and leaves the other AGFs and the journal as they were. -/
theorem mkfs_init_loop_ok (n i : Nat) (fs : FS) (hn : i + n ≤ 10)
    (h : (mkfs_init_loop n i fs).1 = 0) :
    (∀ ag : Nat, i ≤ ag → ag < i + n →
      ∃ agf, read_agf fs.disk ag = some agf ∧
        read_agf (mkfs_init_loop n i fs).2.disk ag = some (agf_reset agf)) ∧
    (∀ ag : Nat, ag < i → read_agf (mkfs_init_loop n i fs).2.disk ag = read_agf fs.disk ag) ∧
    (mkfs_init_loop n i fs).2.journal = fs.journal := by
  induction n generalizing i fs with
  | zero => exact ⟨fun ag h1 h2 => by omega, fun ag _ => rfl, rfl⟩
  | succ n ih =>
    have hvi : valid_ag (i : Int) := by unfold valid_ag; omega
    simp only [mkfs_init_loop] at h ⊢
    rcases xfs_ag_init_alloc_status fs i with ⟨_, agf, hr, he⟩ | he
    · rw [he] at h ⊢
      simp only [] at h ⊢
      obtain ⟨ih1, ih2, ih3⟩ := ih (i + 1) _ (by omega) h
      refine ⟨?_, ?_, ?_⟩
      · intro ag h1 h2
        by_cases hag : ag = i
        · subst hag
          refine ⟨agf, hr, ?_⟩
          rw [ih2 ag (by omega)]
          exact (read_agf_write_same hr _ (agf_reset_wf _ (read_agf_wf hr))).2
        · obtain ⟨a, ha1, ha2⟩ := ih1 ag (by omega) (by omega)
          have hva : valid_ag (ag : Int) := by unfold valid_ag; omega
          refine ⟨a, ?_, ha2⟩
          rw [← ha1]
          exact (read_agf_write_other hvi hva (by omega) _).symm
      · intro ag hlt
        rw [ih2 ag (by omega)]
        have hva : valid_ag (ag : Int) := by unfold valid_ag; omega
        exact read_agf_write_other hvi hva (by omega) _
      · rw [ih3]
    · rw [he] at h
      simp at h

/-- After a successful `xfs_mkfs` every AG holds `formatted_agf`, and the journal is
untouched. -/
theorem xfs_mkfs_formatted (junk : StackJunk) (fs : FS) (size : Nat)
    (h : (xfs_mkfs junk fs size).1 = 0) :
    (∀ ag, valid_ag ag → read_agf (xfs_mkfs junk fs size).2.disk ag = some formatted_agf) ∧
    (xfs_mkfs junk fs size).2.journal = fs.journal := by
  simp only [xfs_mkfs, disk_init, ag_write_headers, NUM_AGS] at h ⊢
  generalize hd0 : (some { size := size, mem := fun _ => 0 } : Option Disk) = d0 at h ⊢
  rcases disk_write_status d0 0 SIZEOF_SB (sb_to_bytes format_sb junk.sb_pad)
    with ⟨hw1, _⟩ | hw1
  · have e1 : disk_write d0 0 (sb_to_bytes format_sb junk.sb_pad) SIZEOF_SB
        = (0, (disk_write d0 0 (sb_to_bytes format_sb junk.sb_pad) SIZEOF_SB).2) :=
      Prod.ext hw1 rfl
    rw [e1] at h ⊢
    simp only [] at h ⊢
    generalize (disk_write d0 0 (sb_to_bytes format_sb junk.sb_pad) SIZEOF_SB).2 = d1 at h ⊢
    by_cases hl : (ag_write_headers_loop junk 10 0 d1).1 = 0
    · have e2 : ag_write_headers_loop junk 10 0 d1
          = (0, (ag_write_headers_loop junk 10 0 d1).2) := Prod.ext hl rfl
      rw [e2] at h ⊢
      simp only [] at h ⊢
      obtain ⟨hh, _⟩ := ag_write_headers_loop_ok junk 10 0 d1 (by omega) hl
      obtain ⟨hi1, _, hi3⟩ := mkfs_init_loop_ok 10 0 _ (by omega) h
      refine ⟨?_, hi3⟩
      intro ag hv
      obtain ⟨agf, ha1, ha2⟩ := hi1 ag.toNat (by omega) (by unfold valid_ag at hv; omega)
      have e : ((ag.toNat : Nat) : Int) = ag := by unfold valid_ag at hv; omega
      rw [e] at ha1 ha2
      have := hh ag.toNat (by omega) (by unfold valid_ag at hv; omega)
      rw [e] at this
      simp only [] at ha1
      rw [this] at ha1
      obtain rfl : format_agf junk = agf := by simpa using ha1
      rw [ha2, agf_reset_format]
    · exfalso
      generalize ag_write_headers_loop junk 10 0 d1 = w at h hl
      obtain ⟨st, d2⟩ := w
      simp only [] at hl
      split at h
      · rename_i heq
        simp only [Prod.mk.injEq] at heq
        exact hl heq.1
      · simp at h
  · rw [hw1] at h
    simp at h

/-! ## The allocator invariant -/

theorem zero_slots_eq_count (fb : List Nat) (h : fb.length = 2400) :
    zero_slots fb = fb.count 0 := by
  simp only [zero_slots, BITMAP_SLOTS]
  rw [← h, List.take_length]

theorem formatted_agf_good : agf_good formatted_agf := by decide!

theorem binary_of_getElem? (fb : List Nat)
    (h : ∀ (s x : Nat), fb[s]? = some x → x ≤ 1) : bitmap_binary fb := by
  intro x hx
  obtain ⟨s, hs⟩ := List.mem_iff_getElem?.mp hx
  exact h s x hs

theorem binary_getElem? (fb : List Nat) (h : bitmap_binary fb) (s x : Nat)
    (hs : fb[s]? = some x) : x ≤ 1 :=
  h x (List.mem_iff_getElem?.mpr ⟨s, hs⟩)

/-- The update of `xfs_alloc_blocks` keeps an AGF in the state the allocator maintains,
for every non-negative `count`. -/
theorem agf_allocate_good (a : xfs_agf_t) (count r : Int) (hg : agf_good a) (hc : 0 ≤ count)
    (hs : alloc_scan a.free_blocks count 2400 2 = some r) :
    agf_good (agf_allocate a (to_u64 r) count) ∧
    (agf_allocate a (to_u64 r) count).agf_freeblks + count.toNat = a.agf_freeblks := by
  obtain ⟨hwf, hb, hinv, h0, h1⟩ := hg
  obtain ⟨h2, hlt, hfree, _⟩ := alloc_scan_some a.free_blocks count 2400 2 r (by omega) hs
  have hr2 : to_u64 r = r.toNat := by unfold to_u64; omega
  rw [hr2]
  have hlen := hwf.2.2.2.2
  have hzero : ∀ s, r.toNat ≤ s → s < r.toNat + count.toNat → a.free_blocks[s]? = some 0 := by
    intro s hs1 hs2
    have hx := hfree (s - r.toNat) (by omega)
    have e : r.toNat + (s - r.toNat) = s := by omega
    rw [e] at hx
    have := binary_getD_le _ hb s
    exact getElem?_of_getD_eq (by omega) (by omega)
  have hcount := mark_used_count a.free_blocks r.toNat count.toNat (by omega) hzero
  have ec : ((count.toNat : Nat) : Int) = count := by omega
  rw [ec] at hcount
  have hz := zero_slots_eq_count a.free_blocks hlen
  have hfb : (agf_allocate a r.toNat count).agf_freeblks + count.toNat = a.agf_freeblks := by
    simp only [agf_allocate]
    have := hwf.2.2.1
    omega
  refine ⟨⟨agf_allocate_wf a hwf _ _, ?_, ?_, ?_, ?_⟩, hfb⟩
  · apply binary_of_getElem?
    intro s x hx
    simp only [agf_allocate, mark_used_getElem?] at hx
    split at hx
    · simp only [Option.some.injEq] at hx; omega
    · exact binary_getElem? _ hb s x hx
  · rw [zero_slots_eq_count _ (by simp only [agf_allocate, mark_used_length]; exact hlen)]
    have e2 : (agf_allocate a r.toNat count).free_blocks
        = mark_used a.free_blocks r.toNat count := rfl
    rw [e2]
    omega
  · simp only [agf_allocate, mark_used_getD]
    rw [if_neg (by omega)]; exact h0
  · simp only [agf_allocate, mark_used_getD]
    rw [if_neg (by omega)]; exact h1

/-- The update of `xfs_free_blocks` keeps an AGF in the state the allocator maintains
when it gives back a run of used slots inside 2..2399. -/
theorem agf_release_good (a : xfs_agf_t) (start : Nat) (count : Int) (hg : agf_good a)
    (hc : 0 ≤ count) (h2 : 2 ≤ start) (hle : start + count.toNat ≤ 2400)
    (hu : slots_used a.free_blocks start count.toNat) :
    agf_good (agf_release a start count) := by
  obtain ⟨hwf, hb, hinv, h0, h1⟩ := hg
  have hlen := hwf.2.2.2.2
  have hnz : ∀ s, start ≤ s → s < start + count.toNat → a.free_blocks[s]? ≠ some 0 := by
    intro s hs1 hs2
    have hx := hu (s - start) (by omega)
    have e : start + (s - start) = s := by omega
    rw [e] at hx
    rw [getElem?_of_getD_eq (by omega) hx]
    simp
  have hcount := mark_free_count a.free_blocks start count.toNat (by omega) (by omega) hnz
  have ec : ((count.toNat : Nat) : Int) = count := by omega
  rw [ec] at hcount
  have hz := zero_slots_eq_count a.free_blocks hlen
  have hzle : a.free_blocks.count 0 ≤ 2400 := by
    rw [← hlen]; exact List.count_le_length 0 a.free_blocks
  refine ⟨agf_release_wf a hwf _ _, ?_, ?_, ?_, ?_⟩
  · apply binary_of_getElem?
    intro s x hx
    simp only [agf_release, mark_free_getElem? _ _ _ _ (show start + count.toNat ≤
      18446744073709551616 by omega)] at hx
    split at hx
    · simp only [Option.some.injEq] at hx; omega
    · exact binary_getElem? _ hb s x hx
  · rw [zero_slots_eq_count _ (by simp only [agf_release, mark_free_length]; exact hlen)]
    have e2 : (agf_release a start count).free_blocks
        = mark_free a.free_blocks start count := rfl
    rw [e2, hcount]
    simp only [agf_release]
    omega
  · simp only [agf_release]
    rw [mark_free_getD _ _ _ _ _ (by omega), if_neg (by omega)]; exact h0
  · simp only [agf_release]
    rw [mark_free_getD _ _ _ _ _ (by omega), if_neg (by omega)]; exact h1

/-- The update of `xfs_ag_init_alloc` puts any well-typed AGF into the state the
allocator maintains. -/
theorem agf_reset_good (a : xfs_agf_t) (hwf : agf_wf a) : agf_good (agf_reset a) := by
  have hfb : (agf_reset a).free_blocks = fresh_bitmap := by
    simp only [agf_reset]; exact init_bitmap_eq _ hwf.2.2.2.2
  refine ⟨agf_reset_wf a hwf, ?_, ?_, ?_, ?_⟩
  · rw [hfb]; exact fresh_bitmap_binary
  · rw [hfb]; exact formatted_agf_good.2.2.1
  · rw [hfb]; rfl
  · rw [hfb]; rfl

/-- Rewriting the AGF of one AG with a good AGF keeps every AG good. -/
theorem all_good_write (fs : FS) (ag : Int) (agf a1 : xfs_agf_t) (j : Journal)
    (hg : all_good fs) (hv : valid_ag ag) (hr : read_agf fs.disk ag = some agf)
    (h1 : agf_good a1) :
    all_good { disk := (disk_write fs.disk (ag_get_offset ag) (agf_to_bytes a1) SIZEOF_AGF).2,
               journal := j } := by
  intro ag1 hv1
  by_cases he : ag1 = ag
  · subst he
    exact ⟨a1, (read_agf_write_same hr a1 h1.1).2, h1⟩
  · obtain ⟨a, ha, hag⟩ := hg ag1 hv1
    refine ⟨a, ?_, hag⟩
    simp only []
    rw [read_agf_write_other hv hv1 (fun h => he h.symm)]
    exact ha

theorem all_good_mkfs (junk : StackJunk) (fs : FS) (size : Nat)
    (h : (xfs_mkfs junk fs size).1 = 0) : all_good (xfs_mkfs junk fs size).2 := by
  intro ag hv
  exact ⟨formatted_agf, (xfs_mkfs_formatted junk fs size h).1 ag hv, formatted_agf_good⟩

/-- A call that uses the allocator as intended keeps every AG good. -/
theorem run_call_good (fs : FS) (c : AllocCall) (hg : all_good fs) (hok : call_ok fs c) :
    all_good (run_call fs c) := by
  cases c with
  | init ag =>
    simp only [run_call]
    rcases xfs_ag_init_alloc_status fs ag with ⟨hv, agf, hr, he⟩ | he
    · rw [he]
      exact all_good_write fs ag agf _ _ hg hv hr (agf_reset_good agf (read_agf_wf hr))
    · rw [he]; exact hg
  | alloc ag count =>
    simp only [run_call]
    simp only [call_ok] at hok
    by_cases hv : valid_ag ag
    · obtain ⟨agf, hr, hag⟩ := hg ag hv
      rw [xfs_alloc_blocks_eq hv hr count]
      cases hs : alloc_scan agf.free_blocks count 2400 2 with
      | none => exact hg
      | some r =>
        exact all_good_write fs ag agf _ _ hg hv hr (agf_allocate_good agf count r hag hok hs).1
    · rw [xfs_alloc_blocks_unreadable fs ag count (Or.inl hv)]; exact hg
  | free ag start count =>
    simp only [run_call]
    by_cases hv : valid_ag ag
    · obtain ⟨agf, hr, hag⟩ := hg ag hv
      obtain ⟨hc, h2, hle, hu⟩ := hok hv agf hr
      rw [xfs_free_blocks_eq hv hr]
      exact all_good_write fs ag agf _ _ hg hv hr (agf_release_good agf start count hag hc h2 hle hu)
    · rw [xfs_free_blocks_unreadable fs ag start count (Or.inl hv)]; exact hg

theorem run_calls_good (fs : FS) (cs : List AllocCall) (hg : all_good fs)
    (hok : calls_ok fs cs) : all_good (run_calls fs cs) := by
  induction cs generalizing fs with
  | nil => exact hg
  | cons c cs ih =>
    simp only [calls_ok] at hok
    simp only [run_calls, List.foldl_cons]
    exact ih (run_call fs c) (run_call_good fs c hg hok.1) hok.2

/-- C2 (allocator invariant), as the code has it: after a successful `xfs_mkfs` and
after every sequence of `xfs_ag_init_alloc`, `xfs_alloc_blocks` and `xfs_free_blocks`
calls in which every allocation has `count >= 0` and every free gives back a run of
currently used slots inside 2..2399, the AGF stored on the device for every AG
satisfies `agf_freeblks` = number of zero entries of `free_blocks[0..2400)` and
`free_blocks[0] = free_blocks[1] = 1`. -/
theorem C2_allocator_invariant (junk : StackJunk) (fs : FS) (size : Nat)
    (calls : List AllocCall) (ag : Int)
    (hfmt : (xfs_mkfs junk fs size).1 = 0)
    (hok : calls_ok (xfs_mkfs junk fs size).2 calls) (hv : valid_ag ag) :
    ∃ agf, read_agf (run_calls (xfs_mkfs junk fs size).2 calls).disk ag = some agf ∧
      agf.agf_freeblks = zero_slots agf.free_blocks ∧
      agf.free_blocks.getD 0 0 = 1 ∧ agf.free_blocks.getD 1 0 = 1 := by
  obtain ⟨agf, hr, hg⟩ :=
    run_calls_good _ calls (all_good_mkfs junk fs size hfmt) hok ag hv
  exact ⟨agf, hr, hg.2.2⟩

/-- C2 as stated fails: after `xfs_mkfs(100 MiB)` the single call
`xfs_free_blocks(0, 0, 1)` succeeds and leaves `free_blocks[0] = 0` in AG 0. -/
theorem C2_counterexample :
    (xfs_mkfs zero_junk boot_fs 104857600).1 = 0 ∧
    (xfs_free_blocks (xfs_mkfs zero_junk boot_fs 104857600).2 0 0 1).1 = 0 ∧
    (read_agf (run_calls (xfs_mkfs zero_junk boot_fs 104857600).2
      [AllocCall.free 0 0 1]).disk 0).map (fun a => a.free_blocks.getD 0 7) = some 0 := by
  decide!

theorem C2_allocator_invariant_witness :
    (xfs_mkfs zero_junk boot_fs 104857600).1 = 0 ∧
    calls_ok (xfs_mkfs zero_junk boot_fs 104857600).2
      [AllocCall.alloc 0 1, AllocCall.free 0 2 1, AllocCall.init 3] ∧ valid_ag 0 ∧
    ∃ agf, read_agf (run_calls (xfs_mkfs zero_junk boot_fs 104857600).2
        [AllocCall.alloc 0 1, AllocCall.free 0 2 1, AllocCall.init 3]).disk 0 = some agf ∧
      agf.agf_freeblks = zero_slots agf.free_blocks ∧
      agf.free_blocks.getD 0 0 = 1 ∧ agf.free_blocks.getD 1 0 = 1 :=
  ⟨by decide!, by decide!, by decide,
    C2_allocator_invariant zero_junk boot_fs 104857600
      [AllocCall.alloc 0 1, AllocCall.free 0 2 1, AllocCall.init 3] 0
      (by decide!) (by decide!) (by decide)⟩

/-! ## Counting single-block allocations -/

theorem alloc_singles_spec (i : Int) (hv : valid_ag i) (ags : List Int) (fs : FS)
    (hg : all_good fs) :
    ∃ agf agf1, read_agf fs.disk i = some agf ∧
      read_agf (alloc_singles i fs ags).1.disk i = some agf1 ∧
      agf1.agf_freeblks + (alloc_singles i fs ags).2 = agf.agf_freeblks := by
  induction ags generalizing fs with
  | nil =>
    obtain ⟨agf, hr, _⟩ := hg i hv
    exact ⟨agf, agf, hr, hr, rfl⟩
  | cons ag rest ih =>
    simp only [alloc_singles]
    have hg1 : all_good (xfs_alloc_blocks fs ag 1).2 :=
      run_call_good fs (AllocCall.alloc ag 1) hg (by simp [call_ok])
    obtain ⟨agfm, agf1, hrm, hr1, hsum⟩ := ih (xfs_alloc_blocks fs ag 1).2 hg1
    obtain ⟨agf, hr, hag⟩ := hg i hv
    refine ⟨agf, agf1, hr, hr1, ?_⟩
    by_cases hs : (xfs_alloc_blocks fs ag 1).1 ≠ 0
    · obtain ⟨hva, agf0, r, hr0, hscan, _, _, _, hdisk, _, hafter⟩ :=
        xfs_alloc_blocks_success (by omega) hs
      by_cases he : ag = i
      · subst he
        rw [hr] at hr0
        obtain rfl : agf = agf0 := by simpa using hr0
        rw [hafter] at hrm
        obtain rfl : agf_allocate agf r.toNat 1 = agfm := by simpa using hrm
        have h2 := (agf_allocate_good agf 1 r hag (by omega) hscan).2
        have hr2 : to_u64 r = r.toNat := by
          obtain ⟨h2', _, _, _⟩ := alloc_scan_some agf.free_blocks 1 2400 2 r (by omega) hscan
          unfold to_u64; omega
        rw [hr2] at h2
        rw [if_pos ⟨rfl, hs⟩]
        have : (1 : Int).toNat = 1 := rfl
        omega
      · rw [if_neg (fun h => he h.1)]
        rw [hdisk, read_agf_write_other hva hv he, hr] at hrm
        obtain rfl : agf = agfm := by simpa using hrm
        omega
    · have h0 : (xfs_alloc_blocks fs ag 1).1 = 0 := by
        by_contra h; exact hs h
      rw [xfs_alloc_blocks_zero (by omega) h0, hr] at hrm
      obtain rfl : agf = agfm := by simpa using hrm
      rw [if_neg (fun h => hs h.2)]
      omega

/-- C6. Start from a successfully formatted device and issue any sequence of
single-block allocation requests `xfs_alloc_blocks(ag, 1)` (no frees in between); if
`N` of the requests on AG `i` were successful, `agf_freeblks` of AG `i` is `2398 - N`. -/
theorem C6_single_allocations (junk : StackJunk) (fs : FS) (size : Nat) (i : Int)
    (ags : List Int) (hfmt : (xfs_mkfs junk fs size).1 = 0) (hv : valid_ag i) :
    ∃ agf, read_agf (alloc_singles i (xfs_mkfs junk fs size).2 ags).1.disk i = some agf ∧
      (agf.agf_freeblks : Int) = 2398 - (alloc_singles i (xfs_mkfs junk fs size).2 ags).2 := by
  obtain ⟨agf0, agf1, h0, h1, hsum⟩ :=
    alloc_singles_spec i hv ags _ (all_good_mkfs junk fs size hfmt)
  rw [(xfs_mkfs_formatted junk fs size hfmt).1 i hv] at h0
  obtain rfl : formatted_agf = agf0 := by simpa using h0
  refine ⟨agf1, h1, ?_⟩
  have : formatted_agf.agf_freeblks = 2398 := rfl
  omega

theorem C6_single_allocations_witness :
    (xfs_mkfs zero_junk boot_fs 104857600).1 = 0 ∧ valid_ag 4 ∧
    (alloc_singles 4 (xfs_mkfs zero_junk boot_fs 104857600).2 [4, 1, 4, 11]).2 = 2 ∧
    ∃ agf, read_agf (alloc_singles 4 (xfs_mkfs zero_junk boot_fs 104857600).2
          [4, 1, 4, 11]).1.disk 4 = some agf ∧
      (agf.agf_freeblks : Int) = 2398 -
        (alloc_singles 4 (xfs_mkfs zero_junk boot_fs 104857600).2 [4, 1, 4, 11]).2 :=
  ⟨by decide!, by decide, by decide!,
    C6_single_allocations zero_junk boot_fs 104857600 4 [4, 1, 4, 11] (by decide!)
      (by decide)⟩

/-! ## The extent limit -/

/-- A successful single-block allocation that is undone by `xfs_free_blocks` leaves the
bitmap and `agf_freeblks` of every AG with a two-valued map as they were. -/
theorem alloc_free_frame (fs : FS) (ag : Int)
    (hs : (xfs_alloc_blocks fs ag 1).1 ≠ 0)
    (ag1 : Int) (agf : xfs_agf_t) (hv1 : valid_ag ag1)
    (hr : read_agf fs.disk ag1 = some agf) (hb : bitmap_binary agf.free_blocks) :
    ∃ agf2,
      read_agf (xfs_free_blocks (xfs_alloc_blocks fs ag 1).2 ag
        (xfs_alloc_blocks fs ag 1).1 1).2.disk ag1 = some agf2 ∧
      agf2.free_blocks = agf.free_blocks ∧ agf2.agf_freeblks = agf.agf_freeblks := by
  obtain ⟨hv, agf0, r, hr0, hscan, h2, hlt, hres, hdisk, _, hafter⟩ :=
    xfs_alloc_blocks_success (by omega) hs
  rw [hres, xfs_free_blocks_eq hv hafter]
  simp only []
  by_cases he : ag1 = ag
  · subst he
    rw [hr] at hr0
    obtain rfl : agf = agf0 := by simpa using hr0
    obtain ⟨_, _, hfree, _⟩ := alloc_scan_some agf.free_blocks 1 2400 2 r (by omega) hscan
    have hwf := read_agf_wf hr
    refine ⟨_, (read_agf_write_same hafter _
      (agf_release_wf _ (read_agf_wf hafter) _ _)).2, ?_, ?_⟩
    · apply list_eq_of_getElem?
      intro s
      simp only [agf_release, agf_allocate]
      rw [mark_free_getElem? _ _ _ _ (by simp; omega), mark_used_length, mark_used_getElem?,
        hwf.2.2.2.2]
      have e1 : (1 : Int).toNat = 1 := rfl
      rw [e1]
      by_cases hin : r.toNat = s
      · rw [if_pos ⟨by omega, by omega, by omega, by omega⟩]
        have h0 : agf.free_blocks.getD s 0 = 0 := by
          have h1 := hfree 0 (by omega)
          rw [Nat.add_zero, hin] at h1
          have := binary_getD_le _ hb s
          omega
        exact (getElem?_of_getD_eq (by rw [hwf.2.2.2.2]; omega) h0).symm
      · rw [if_neg (by omega), if_neg (by omega)]
    · simp only [agf_release, agf_allocate]
      have := hwf.2.2.1
      omega
  · refine ⟨agf, ?_, rfl, rfl⟩
    rw [read_agf_write_other hv hv1 (fun h => he h.symm), hdisk,
      read_agf_write_other hv hv1 (fun h => he h.symm)]
    exact hr

theorem add_extent_full (inode : xfs_inode_t) (l p c : Nat) (h : 16 ≤ inode.extent_count) :
    add_extent_to_inode inode l p c = (-1, inode) := by
  simp only [add_extent_to_inode]
  rw [if_pos (by omega)]

/-- The mapping loop on an inode whose 16 extents are all in use: if one of the blocks
still to be visited is covered by no extent, the loop ends with `-1`, the inode is not
modified, the journal stays as it was up to appended entries, and every AGF with a
two-valued map keeps its bitmap and `agf_freeblks`. -/
theorem write_map_loop_full (block_start : Nat) (inode : xfs_inode_t)
    (hfull : 16 ≤ inode.extent_count) (n i : Nat) (fs : FS)
    (hbin : ∀ ag agf, valid_ag ag → read_agf fs.disk ag = some agf →
      bitmap_binary agf.free_blocks)
    (hun : ∃ k, k < n ∧ find_extent_for_offset inode
      ((block_start + (i + k)) % 18446744073709551616) = none) :
    (write_map_loop block_start n i fs inode).1 = -1 ∧
    (write_map_loop block_start n i fs inode).2.1 = inode ∧
    ∀ ag agf, valid_ag ag → read_agf fs.disk ag = some agf →
      ∃ agf2, read_agf (write_map_loop block_start n i fs inode).2.2.disk ag = some agf2 ∧
        agf2.free_blocks = agf.free_blocks ∧ agf2.agf_freeblks = agf.agf_freeblks := by
  induction n generalizing i with
  | zero => obtain ⟨k, hk, _⟩ := hun; omega
  | succ n ih =>
    simp only [write_map_loop]
    cases hf : find_extent_for_offset inode ((block_start + i) % 18446744073709551616) with
    | some e =>
      simp only []
      apply ih (i + 1)
      obtain ⟨k, hk, hnone⟩ := hun
      cases k with
      | zero => rw [Nat.add_zero, hf] at hnone; cases hnone
      | succ k =>
        refine ⟨k, by omega, ?_⟩
        have e1 : i + 1 + k = i + (k + 1) := by omega
        rw [e1]; exact hnone
    | none =>
      simp only []
      by_cases hz : (xfs_alloc_blocks fs
          (((block_start + i) % 18446744073709551616 % NUM_AGS : Nat) : Int) 1).1 = 0
      · rw [if_pos hz]
        refine ⟨rfl, rfl, ?_⟩
        intro ag agf hv hr
        simp only []
        rw [xfs_alloc_blocks_zero (by omega) hz]
        exact ⟨agf, hr, rfl, rfl⟩
      · rw [if_neg hz, add_extent_full _ _ _ _ hfull]
        refine ⟨rfl, rfl, ?_⟩
        intro ag agf hv hr
        exact alloc_free_frame fs _ hz ag agf hv hr (hbin ag agf hv hr)

/-- C9 (extent limit). Let the inode have all 16 extents in use, let the request be a
valid C call (`1 <= size`, `offset` a non-negative `off_t`, `size` at most
`PTRDIFF_MAX`) and let some logical block `L` of the request be covered by no extent.
On a device whose AGF maps are two-valued, `xfs_sim_write` returns `-1`, leaves the
inode (extent array, `extent_count`, `di_size`) unchanged, and leaves the bitmap and
`agf_freeblks` of every AG, in particular of the one it allocated from, equal to their
values before the call. -/
theorem C9_extent_limit (fs : FS) (inode : xfs_inode_t) (buffer : List Nat)
    (size offset L : Nat)
    (hfull : inode.extent_count = 16) (hsize : 1 ≤ size)
    (hoff : offset < 9223372036854775808) (hsz : size < 9223372036854775808)
    (hbin : ∀ ag agf, valid_ag ag → read_agf fs.disk ag = some agf →
      bitmap_binary agf.free_blocks)
    (hL1 : offset / 4096 ≤ L) (hL2 : L ≤ (offset + size - 1) / 4096)
    (hun : find_extent_for_offset inode L = none) :
    ∃ fs1, xfs_sim_write fs inode buffer size offset = some (-1, inode, fs1) ∧
      ∀ ag agf, valid_ag ag → read_agf fs.disk ag = some agf →
        ∃ agf2, read_agf fs1.disk ag = some agf2 ∧
          agf2.free_blocks = agf.free_blocks ∧ agf2.agf_freeblks = agf.agf_freeblks := by
  have hmod : (offset + size - 1) % 18446744073709551616 = offset + size - 1 :=
    Nat.mod_eq_of_lt (by omega)
  have hle : offset / 4096 ≤ (offset + size - 1) / 4096 :=
    Nat.div_le_div_right (by omega)
  have hnum : to_u64 ((((offset + size - 1) / 4096 : Nat) : Int) - ((offset / 4096 : Nat) : Int) + 1)
      = (offset + size - 1) / 4096 - offset / 4096 + 1 := by
    unfold to_u64; omega
  have hloop := write_map_loop_full (offset / 4096) inode (by omega)
    ((offset + size - 1) / 4096 - offset / 4096 + 1) 0 fs hbin
    ⟨L - offset / 4096, by omega, by
      have e : (offset / 4096 + (0 + (L - offset / 4096))) = L := by omega
      rw [e, Nat.mod_eq_of_lt (by omega)]
      exact hun⟩
  simp only [xfs_sim_write, XFS_BLOCK_SIZE, hmod, hnum]
  rw [if_neg (by omega)]
  generalize write_map_loop (offset / 4096)
    ((offset + size - 1) / 4096 - offset / 4096 + 1) 0 fs inode = w at hloop
  obtain ⟨st, ino1, fs1⟩ := w
  obtain ⟨h1, h2, h3⟩ := hloop
  simp only [] at h1 h2 h3
  subst h1 h2
  exact ⟨fs1, rfl, h3⟩

theorem sample_fs_readable (ag : Int) (agf : xfs_agf_t) (hv : valid_ag ag)
    (hr : read_agf sample_fs.disk ag = some agf) : ag = 0 := by
  obtain ⟨dk, bs, hd, hb, _⟩ := read_agf_eq_some hr
  have hsz : dk.size = 16384 := by
    have h2 : sample_disk = dk := Option.some.inj hd
    rw [← h2]; rfl
  rw [ag_get_offset_valid hv, hsz] at hb
  unfold valid_ag at hv
  simp only [SIZEOF_AGF] at hb
  have hlt : ag.toNat * 10485760 + 2416 < 18446744073709551616 := by
    have : ag.toNat < 10 := by clear hb; omega
    clear hb
    omega
  rw [Nat.mod_eq_of_lt hlt] at hb
  omega

theorem sample_fs_binary (ag : Int) (agf : xfs_agf_t) (hv : valid_ag ag)
    (hr : read_agf sample_fs.disk ag = some agf) : bitmap_binary agf.free_blocks := by
  have h0 := sample_fs_readable ag agf hv hr
  rw [h0] at hr
  have h3 : some formatted_agf = some agf := sample_read_agf.symm.trans hr
  rw [← Option.some.inj h3]
  exact fresh_bitmap_binary

/-- On an inode whose 16 extents are in use, a write whose first logical block is covered
by no extent and gets a block from the allocator ends in the branch that frees the block
again: the state returned is the one after `xfs_alloc_blocks` and `xfs_free_blocks`. -/
theorem full_write_first_block (fs : FS) (inode : xfs_inode_t) (buffer : List Nat)
    (size offset : Nat)
    (hfull : inode.extent_count = 16) (hsize : 1 ≤ size)
    (hoff : offset < 9223372036854775808) (hsz : size < 9223372036854775808)
    (hun : find_extent_for_offset inode (offset / 4096) = none)
    (hz : (xfs_alloc_blocks fs (((offset / 4096) % NUM_AGS : Nat) : Int) 1).1 ≠ 0) :
    xfs_sim_write fs inode buffer size offset = some (-1, inode,
      (xfs_free_blocks (xfs_alloc_blocks fs (((offset / 4096) % NUM_AGS : Nat) : Int) 1).2
        (((offset / 4096) % NUM_AGS : Nat) : Int)
        (xfs_alloc_blocks fs (((offset / 4096) % NUM_AGS : Nat) : Int) 1).1 1).2) := by
  have hmod : (offset + size - 1) % 18446744073709551616 = offset + size - 1 :=
    Nat.mod_eq_of_lt (by omega)
  have hle : offset / 4096 ≤ (offset + size - 1) / 4096 :=
    Nat.div_le_div_right (by omega)
  have hnum : to_u64 ((((offset + size - 1) / 4096 : Nat) : Int) - ((offset / 4096 : Nat) : Int) + 1)
      = ((offset + size - 1) / 4096 - offset / 4096) + 1 := by
    unfold to_u64; omega
  have hb : (offset / 4096 + 0) % 18446744073709551616 = offset / 4096 := by
    rw [Nat.add_zero]
    exact Nat.mod_eq_of_lt (by omega)
  simp only [xfs_sim_write, XFS_BLOCK_SIZE, hmod, hnum]
  rw [if_neg (by omega)]
  simp only [write_map_loop, hb, hun]
  rw [if_neg hz, add_extent_full _ _ _ _ (by omega)]
  rfl

theorem mounted_fs_binary (ag : Int) (agf : xfs_agf_t) (hv : valid_ag ag)
    (hr : read_agf mounted_fs.disk ag = some agf) : bitmap_binary agf.free_blocks := by
  have hfmt : (xfs_mkfs zero_junk boot_fs 104857600).1 = 0 := by decide!
  obtain ⟨agf1, h1, h2⟩ := all_good_mkfs zero_junk boot_fs 104857600 hfmt ag hv
  have hd : mounted_fs.disk = (xfs_mkfs zero_junk boot_fs 104857600).2.disk := rfl
  rw [hd, h1] at hr
  rw [← Option.some.inj hr]
  exact h2.2.1

/-- Witness for C9: the 17th block of a file with 16 extents, on the device formatted
with 100 MiB (`xfs_sim_write(inode, "\x07", 1, 16 * 4096)`).  Logical block 16 belongs to
AG 6; `xfs_alloc_blocks(6, 1)` returns slot 2, `add_extent_to_inode` refuses it and
`xfs_free_blocks(6, 2, 1)` returns 0: the call returns `-1` in the state after these two
allocator calls, with both AGF updates in the journal, and the map and `agf_freeblks`
of every AG as before. -/
theorem C9_extent_limit_witness :
    full_inode.extent_count = 16 ∧ find_extent_for_offset full_inode 16 = none ∧
    (xfs_alloc_blocks mounted_fs 6 1).1 = 2 ∧
    (xfs_alloc_blocks mounted_fs 6 1).2.journal.queue.length = 1 ∧
    (read_agf (xfs_alloc_blocks mounted_fs 6 1).2.disk 6).map
      (fun agf => (agf.free_blocks.getD 2 0, agf.agf_freeblks)) = some (1, 2397) ∧
    (xfs_free_blocks (xfs_alloc_blocks mounted_fs 6 1).2 6 2 1).1 = 0 ∧
    xfs_sim_write mounted_fs full_inode [7] 1 65536 = some (-1, full_inode,
      (xfs_free_blocks (xfs_alloc_blocks mounted_fs 6 1).2 6 2 1).2) ∧
    (xfs_free_blocks (xfs_alloc_blocks mounted_fs 6 1).2 6 2 1).2.journal.queue.length = 2 ∧
    (read_agf (xfs_free_blocks (xfs_alloc_blocks mounted_fs 6 1).2 6 2 1).2.disk 6).map
      (fun agf => (agf.free_blocks.getD 2 0, agf.agf_freeblks)) = some (0, 2398) ∧
    ∃ fs1, xfs_sim_write mounted_fs full_inode [7] 1 65536 = some (-1, full_inode, fs1) ∧
      ∀ ag agf, valid_ag ag → read_agf mounted_fs.disk ag = some agf →
        ∃ agf2, read_agf fs1.disk ag = some agf2 ∧
          agf2.free_blocks = agf.free_blocks ∧ agf2.agf_freeblks = agf.agf_freeblks := by
  have h2 : (xfs_alloc_blocks mounted_fs 6 1).1 = 2 := by decide!
  have hp := full_write_first_block mounted_fs full_inode [7] 1 65536 (by decide)
    (by decide) (by decide) (by decide) (by decide) (by decide!)
  have e6 : (((65536 / 4096) % NUM_AGS : Nat) : Int) = 6 := by decide
  rw [e6, h2] at hp
  exact ⟨by decide, by decide, h2, by decide!, by decide!, by decide!, hp, by decide!,
    by decide!,
    C9_extent_limit mounted_fs full_inode [7] 1 65536 16 (by decide) (by decide) (by decide)
      (by decide) mounted_fs_binary (by decide) (by decide) (by decide)⟩

/-! ## Mapping the blocks of a write -/

theorem find_extent_eq (inode : xfs_inode_t) (L : Nat) :
    find_extent_for_offset inode L = (stored_extents inode).find?
      (fun e => decide (L ≥ e.start_off ∧
        L < (e.start_off + e.block_count) % 18446744073709551616)) := rfl

theorem find_extent_some {inode : xfs_inode_t} {L : Nat} {e : xfs_extent_t}
    (h : find_extent_for_offset inode L = some e) :
    e ∈ stored_extents inode ∧ e.start_off ≤ L ∧
      L < (e.start_off + e.block_count) % 18446744073709551616 := by
  rw [find_extent_eq] at h
  have h1 := List.mem_of_find?_eq_some h
  have h2 := List.find?_some h
  simp only [decide_eq_true_eq] at h2
  exact ⟨h1, h2.1, h2.2⟩

theorem take_succ_set {α : Type} (l : List α) (i : Nat) (e : α) (h : i < l.length) :
    (l.set i e).take (i + 1) = l.take i ++ [e] := by
  induction l generalizing i with
  | nil => simp at h
  | cons a l ih =>
    cases i with
    | zero => simp
    | succ i =>
      simp only [List.set_cons_succ, List.take_succ_cons, List.cons_append]
      rw [ih i (by simpa using h)]

theorem add_extent_ok (inode : xfs_inode_t) (l p c : Nat) (i : Nat)
    (hc : inode.extent_count = (i : Int)) (hi : i < 16) (hlen : inode.extents.length = 16) :
    (add_extent_to_inode inode l p c).1 = 0 ∧
    (add_extent_to_inode inode l p c).2.extent_count = ((i + 1 : Nat) : Int) ∧
    (add_extent_to_inode inode l p c).2.extents.length = 16 ∧
    (add_extent_to_inode inode l p c).2.di_size = inode.di_size ∧
    stored_extents (add_extent_to_inode inode l p c).2
      = stored_extents inode ++ [⟨l, p, c⟩] := by
  simp only [add_extent_to_inode]
  rw [if_neg (by omega)]
  refine ⟨rfl, by simp only [hc]; push_cast; rfl, by simp only [List.length_set, hlen], rfl, ?_⟩
  simp only [stored_extents, hc]
  have e1 : ((i : Int) + 1).toNat = i + 1 := by omega
  have e2 : ((i : Nat) : Int).toNat = i := by omega
  rw [e1, e2]
  exact take_succ_set _ _ _ (by omega)

/-- The mapping loop of `xfs_sim_write` on an inode whose extents in use all lie below
the blocks still to be visited: when the loop runs to its end it has appended exactly
one extent `(L, P, 1)` per visited block, in ascending order of `L`, with `P` the slot
the allocator returned, and nothing else of the inode has changed. -/
theorem write_map_loop_fresh (bs : Nat) (n i : Nat) (fs : FS) (inode : xfs_inode_t)
    (hc : inode.extent_count = (i : Int)) (hi : i ≤ 16)
    (hlen : inode.extents.length = 16)
    (hbelow : ∀ e ∈ stored_extents inode, e.start_off < bs + i ∧ e.block_count = 1)
    (hw : bs + i + n < 18446744073709551616)
    (hst : (write_map_loop bs n i fs inode).1 = 0) :
    i + n ≤ 16 ∧
    (write_map_loop bs n i fs inode).2.1.extent_count = ((i + n : Nat) : Int) ∧
    (write_map_loop bs n i fs inode).2.1.extents.length = 16 ∧
    (write_map_loop bs n i fs inode).2.1.di_size = inode.di_size ∧
    stored_extents (write_map_loop bs n i fs inode).2.1
      = stored_extents inode ++ (List.range n).map (fun k =>
          ({ start_off := bs + i + k, start_block := (map_slots bs n i fs).1.getD k 0,
             block_count := 1 } : xfs_extent_t)) ∧
    (∀ p ∈ (map_slots bs n i fs).1, p ≠ 0) ∧
    (write_map_loop bs n i fs inode).2.2 = (map_slots bs n i fs).2 := by
  induction n generalizing i fs inode with
  | zero =>
    refine ⟨by omega, hc, hlen, rfl, ?_, ?_, rfl⟩
    · simp only [write_map_loop, List.range_zero, List.map_nil, List.append_nil]
    · intro p hp
      simp only [map_slots, List.not_mem_nil] at hp
  | succ n ih =>
    have hmod : (bs + i) % 18446744073709551616 = bs + i := Nat.mod_eq_of_lt (by omega)
    have hnone : find_extent_for_offset inode (bs + i) = none := by
      rw [find_extent_eq, List.find?_eq_none]
      intro e he
      obtain ⟨h1, h2⟩ := hbelow e he
      simp only [decide_eq_true_eq, not_and, not_lt, h2]
      intro _
      rw [Nat.mod_eq_of_lt (by omega)]
      omega
    simp only [write_map_loop, map_slots, hmod, hnone] at hst ⊢
    by_cases hz : (xfs_alloc_blocks fs (((bs + i) % NUM_AGS : Nat) : Int) 1).1 = 0
    · rw [if_pos hz] at hst
      simp at hst
    · rw [if_neg hz] at hst ⊢
      by_cases hi16 : i < 16
      · obtain ⟨ha1, ha2, ha3, ha4, ha5⟩ := add_extent_ok inode (bs + i)
          (xfs_alloc_blocks fs (((bs + i) % NUM_AGS : Nat) : Int) 1).1 1 i hc hi16 hlen
        have ea : add_extent_to_inode inode (bs + i)
            (xfs_alloc_blocks fs (((bs + i) % NUM_AGS : Nat) : Int) 1).1 1
            = (0, (add_extent_to_inode inode (bs + i)
            (xfs_alloc_blocks fs (((bs + i) % NUM_AGS : Nat) : Int) 1).1 1).2) :=
          Prod.ext ha1 rfl
        rw [ea] at hst ⊢
        simp only [] at hst ⊢
        obtain ⟨h1, h2, h3, h4, h5, h6, h7⟩ := ih (i + 1) _ _ ha2 (by omega) ha3 (by
          intro e he
          rw [ha5, List.mem_append, List.mem_singleton] at he
          rcases he with he | he
          · obtain ⟨hb1, hb2⟩ := hbelow e he
            exact ⟨by omega, hb2⟩
          · subst he
            exact ⟨by simp, rfl⟩) (by omega) hst
        refine ⟨by omega, by rw [h2]; congr 1; omega, h3, by rw [h4, ha4], ?_, ?_, h7⟩
        · rw [h5, ha5, List.range_succ_eq_map, List.map_cons, List.map_map,
            List.append_assoc, List.singleton_append]
          congr 2
          apply List.map_congr_left
          intro k _
          simp only [Function.comp, List.getD_cons_succ, xfs_extent_t.mk.injEq, and_true]
          omega
        · intro p hp
          rcases List.mem_cons.mp hp with hp | hp
          · rw [hp]; exact hz
          · exact h6 p hp
      · rw [add_extent_full inode _ _ _ (by omega)] at hst
        simp at hst

theorem mark_used_one (fb : List Nat) (r : Nat) : mark_used fb r 1 = fb.set r 1 := by
  simp [mark_used, List.range_succ]

/-- A successful single-block allocation marks one more slot used in its AG and leaves
the other AGFs alone; the slot it returns lies in 2..2398. -/
theorem alloc_single_used (fs : FS) (ag0 : Int) (hs : (xfs_alloc_blocks fs ag0 1).1 ≠ 0) :
    2 ≤ (xfs_alloc_blocks fs ag0 1).1 ∧ (xfs_alloc_blocks fs ag0 1).1 ≤ 2398 ∧
    ∀ ag agf, valid_ag ag → read_agf fs.disk ag = some agf →
      ∃ agf1, read_agf (xfs_alloc_blocks fs ag0 1).2.disk ag = some agf1 ∧
        used_slots agf1.free_blocks
          = used_slots agf.free_blocks + (if ag0 = ag then 1 else 0) := by
  obtain ⟨hv, agf0, r, hr0, hscan, h2, hlt, hres, hdisk, _, hafter⟩ :=
    xfs_alloc_blocks_success (by omega) hs
  refine ⟨by omega, by omega, ?_⟩
  intro ag agf hva hr
  by_cases he : ag0 = ag
  · subst he
    rw [hr] at hr0
    obtain rfl : agf = agf0 := by simpa using hr0
    refine ⟨_, hafter, ?_⟩
    rw [if_pos rfl]
    obtain ⟨_, _, hfree, _⟩ := alloc_scan_some agf.free_blocks 1 2400 2 r (by omega) hscan
    have hwf := read_agf_wf hr
    have hne : agf.free_blocks.getD r.toNat 0 ≠ 1 := by
      have := hfree 0 (by decide)
      simpa using this
    have hlt2 : r.toNat < agf.free_blocks.length := by rw [hwf.2.2.2.2]; omega
    rw [List.getD_eq_getElem _ _ hlt2] at hne
    simp only [used_slots, agf_allocate, mark_used_one]
    rw [List.count_set _ _ _ _ hlt2]
    simp [hne]
  · rw [if_neg he]
    refine ⟨agf, ?_, rfl⟩
    rw [hdisk, read_agf_write_other hv hva he]
    exact hr

theorem countP_range_succ (p : Nat → Bool) (n : Nat) :
    (List.range (n + 1)).countP p
      = (if p 0 then 1 else 0) + (List.range n).countP (fun k => p (k + 1)) := by
  rw [List.range_succ_eq_map, List.countP_cons, List.countP_map]
  rw [Nat.add_comm]
  rfl

/-- When all the allocations listed by `map_slots` succeed, every returned slot lies in
2..2398 and each AG has one more used slot per block assigned to it. -/
theorem map_slots_used (bs : Nat) (n i : Nat) (fs : FS)
    (hnz : ∀ p ∈ (map_slots bs n i fs).1, p ≠ 0) :
    (map_slots bs n i fs).1.length = n ∧
    (∀ p ∈ (map_slots bs n i fs).1, 2 ≤ p ∧ p ≤ 2398) ∧
    ∀ ag agf, valid_ag ag → read_agf fs.disk ag = some agf →
      ∃ agf1, read_agf (map_slots bs n i fs).2.disk ag = some agf1 ∧
        used_slots agf1.free_blocks = used_slots agf.free_blocks +
          (List.range n).countP (fun k => decide ((((bs + i + k) % 10 : Nat) : Int) = ag)) := by
  induction n generalizing i fs with
  | zero =>
    refine ⟨rfl, ?_, ?_⟩
    · intro p hp; simp only [map_slots, List.not_mem_nil] at hp
    · intro ag agf _ hr
      exact ⟨agf, hr, by simp⟩
  | succ n ih =>
    simp only [map_slots] at hnz ⊢
    have hz := hnz _ (List.mem_cons_self _ _)
    obtain ⟨ha1, ha2, ha3⟩ := alloc_single_used fs _ hz
    obtain ⟨hl, hb, hc⟩ := ih (i + 1) _ (fun p hp => hnz p (List.mem_cons_of_mem _ hp))
    refine ⟨by simp only [List.length_cons, hl], ?_, ?_⟩
    · intro p hp
      rcases List.mem_cons.mp hp with hp | hp
      · rw [hp]; exact ⟨ha1, ha2⟩
      · exact hb p hp
    · intro ag agf hv hr
      obtain ⟨agfm, hm1, hm2⟩ := ha3 ag agf hv hr
      obtain ⟨agf1, h1, h2⟩ := hc ag agfm hv hm1
      refine ⟨agf1, h1, ?_⟩
      rw [h2, hm2, countP_range_succ]
      simp only [NUM_AGS, Nat.add_zero, decide_eq_true_eq]
      have e : ∀ k, bs + i + (k + 1) = bs + (i + 1) + k := by intro k; omega
      simp only [e]
      omega

/-! ## The data loops -/

/-- The device address a data access for logical block `cur` at `offset_in_block` goes
to, for an extent handed out by the allocator that covers `cur`. -/
theorem data_address {inode : xfs_inode_t} (hx : extents_from_allocator inode)
    {cur : Nat} {e : xfs_extent_t} (hf : find_extent_for_offset inode cur = some e)
    (oib : Nat) (ho : oib < 4096) :
    cur = e.start_off ∧
    (((e.start_block + (cur - e.start_off)) % 18446744073709551616 * XFS_BLOCK_SIZE)
      % 18446744073709551616 + oib) % 18446744073709551616 = e.start_block * 4096 + oib ∧
    2 ≤ e.start_block ∧ e.start_block ≤ 2398 := by
  obtain ⟨hm, h1, h2⟩ := find_extent_some hf
  obtain ⟨hb1, hb2, hb3, hb4⟩ := hx e hm
  rw [hb1, Nat.mod_eq_of_lt hb4] at h2
  have hc : cur = e.start_off := by omega
  refine ⟨hc, ?_, hb2, hb3⟩
  rw [hc, Nat.sub_self, Nat.add_zero]
  simp only [XFS_BLOCK_SIZE]
  have h3 : e.start_block % 18446744073709551616 = e.start_block :=
    Nat.mod_eq_of_lt (by omega)
  have h4 : e.start_block * 4096 % 18446744073709551616 = e.start_block * 4096 :=
    Nat.mod_eq_of_lt (by omega)
  rw [h3, h4]
  exact Nat.mod_eq_of_lt (by omega)

/-- The data loop of `xfs_sim_write` never touches an AGF when the extents of the inode
come from the allocator: file data lands in `[8192, 2399 * 4096)`. -/
theorem write_data_loop_agf (inode : xfs_inode_t) (hx : extents_from_allocator inode)
    (buffer : List Nat) (size offset : Nat) (fuel bw : Nat) (d : Option Disk)
    (ag : Int) (hv : valid_ag ag) :
    read_agf (write_data_loop inode buffer size offset fuel bw d).2.2 ag = read_agf d ag := by
  induction fuel generalizing bw d with
  | zero => rfl
  | succ fuel ih =>
    simp only [write_data_loop]
    by_cases hlt : bw < size
    · rw [if_pos hlt]
      cases hf : find_extent_for_offset inode
          ((offset + bw) % 18446744073709551616 / XFS_BLOCK_SIZE) with
      | none => rfl
      | some e =>
        simp only []
        obtain ⟨_, haddr, hp1, hp2⟩ := data_address hx hf
          ((offset + bw) % 18446744073709551616 % XFS_BLOCK_SIZE)
          (Nat.mod_lt _ (by decide))
        rw [haddr]
        generalize hlen : (if XFS_BLOCK_SIZE - (offset + bw) % 18446744073709551616 %
          XFS_BLOCK_SIZE > size - bw then size - bw
          else XFS_BLOCK_SIZE - (offset + bw) % 18446744073709551616 % XFS_BLOCK_SIZE) = len
        have hlen_le : len ≤ 4096 - (offset + bw) % 18446744073709551616 % XFS_BLOCK_SIZE := by
          rw [← hlen]; simp only [XFS_BLOCK_SIZE]; split <;> omega
        have hoib : (offset + bw) % 18446744073709551616 % XFS_BLOCK_SIZE < 4096 :=
          Nat.mod_lt _ (by decide)
        generalize (offset + bw) % 18446744073709551616 % XFS_BLOCK_SIZE = oib at *
        have hframe : ∀ buf, read_agf (disk_write d (e.start_block * 4096 + oib) buf len).2 ag
            = read_agf d ag := by
          intro buf
          apply read_agf_write_disjoint
          rw [ag_get_offset_valid hv]
          unfold valid_ag at hv
          simp only [SIZEOF_AGF]
          by_cases h0 : ag = 0
          · left; subst h0; simp; omega
          · right
            have : 1 ≤ ag.toNat := by omega
            omega
        rcases disk_write_status d (e.start_block * 4096 + oib) len (buffer.drop bw)
          with ⟨hw, _⟩ | hw
        · have ew : disk_write d (e.start_block * 4096 + oib) (buffer.drop bw) len
              = (0, (disk_write d (e.start_block * 4096 + oib) (buffer.drop bw) len).2) :=
            Prod.ext hw rfl
          rw [ew]
          simp only []
          rw [ih, hframe]
        · rw [hw]
          rfl
    · rw [if_neg hlt]

/-- What a call of `xfs_sim_write` with valid C arguments that returns a non-negative
value has done: the mapping loop ran to its end, the barrier returned, the data loop
ran to its end, and the result is the byte count narrowed to `int`. -/
theorem xfs_sim_write_success (fs : FS) (inode : xfs_inode_t) (buffer : List Nat)
    (size offset : Nat) (res : Int × xfs_inode_t × FS)
    (hsize : 1 ≤ size) (hoff : offset < 9223372036854775808)
    (hsz : size < 9223372036854775808)
    (hres : xfs_sim_write fs inode buffer size offset = some res) (hok : 0 ≤ res.1) :
    ∃ inode1 fs1 j bw d,
      write_map_loop (offset / 4096) ((offset + size - 1) / 4096 - offset / 4096 + 1) 0
        fs inode = (0, inode1, fs1) ∧
      trans_commit_barrier fs1.journal = some (0, j) ∧
      write_data_loop inode1 buffer size offset size 0 fs1.disk = (0, bw, d) ∧
      res = (to_int bw,
        { inode1 with di_size := if offset + size > inode1.di_size then offset + size
                                 else inode1.di_size },
        { disk := d, journal := j }) := by
  have hmod : (offset + size - 1) % 18446744073709551616 = offset + size - 1 :=
    Nat.mod_eq_of_lt (by omega)
  have hmod2 : (offset + size) % 18446744073709551616 = offset + size :=
    Nat.mod_eq_of_lt (by omega)
  have hle : offset / 4096 ≤ (offset + size - 1) / 4096 :=
    Nat.div_le_div_right (by omega)
  have hnum : to_u64 ((((offset + size - 1) / 4096 : Nat) : Int) - ((offset / 4096 : Nat) : Int) + 1)
      = (offset + size - 1) / 4096 - offset / 4096 + 1 := by
    unfold to_u64; omega
  simp only [xfs_sim_write, XFS_BLOCK_SIZE, hmod, hmod2, hnum] at hres
  rw [if_neg (by omega)] at hres
  split at hres
  · rename_i inode1 fs1 hmap
    split at hres
    · cases hres
    · rename_i j hbar
      split at hres
      · rename_i bw d hdata
        simp only [Option.some.injEq] at hres
        exact ⟨inode1, fs1, j, bw, d, hmap, hbar, hdata, hres.symm⟩
      · simp only [Option.some.injEq] at hres
        rw [← hres] at hok
        simp at hok
    · simp only [Option.some.injEq] at hres
      rw [← hres] at hok
      simp at hok
  · simp only [Option.some.injEq] at hres
    rw [← hres] at hok
    simp at hok

/-- C8 (write mapping). A call `xfs_sim_write(inode, buf, size, offset)` with valid C
arguments (`size >= 1`, `offset` a non-negative `off_t`, `size <= PTRDIFF_MAX`) on an
inode without extents that returns a non-negative value leaves the inode with exactly
one extent per logical block `L` of `[offset/4096, (offset+size-1)/4096]`, stored in
ascending order of `L`, each `(L, P, 1)` with `P` the slot (in 2..2398) returned by
the call `xfs_alloc_blocks(L mod 10, 1)` made for it, and every AG has one more used
slot for each of these blocks with `L mod 10` equal to its number. -/
theorem C8_write_mapping (fs : FS) (inode : xfs_inode_t) (buffer : List Nat)
    (size offset : Nat) (res : Int × xfs_inode_t × FS)
    (hsize : 1 ≤ size) (hoff : offset < 9223372036854775808)
    (hsz : size < 9223372036854775808)
    (hfresh : inode.extent_count = 0) (hlen : inode.extents.length = 16)
    (hres : xfs_sim_write fs inode buffer size offset = some res) (hok : 0 ≤ res.1) :
    (offset + size - 1) / 4096 - offset / 4096 + 1 ≤ 16 ∧
    res.2.1.extent_count = (((offset + size - 1) / 4096 - offset / 4096 + 1 : Nat) : Int) ∧
    stored_extents res.2.1 =
      (List.range ((offset + size - 1) / 4096 - offset / 4096 + 1)).map (fun k =>
        ({ start_off := offset / 4096 + k,
           start_block := (map_slots (offset / 4096)
             ((offset + size - 1) / 4096 - offset / 4096 + 1) 0 fs).1.getD k 0,
           block_count := 1 } : xfs_extent_t)) ∧
    (∀ p ∈ (map_slots (offset / 4096)
        ((offset + size - 1) / 4096 - offset / 4096 + 1) 0 fs).1, 2 ≤ p ∧ p ≤ 2398) ∧
    ∀ ag agf, valid_ag ag → read_agf fs.disk ag = some agf →
      ∃ agf1, read_agf res.2.2.disk ag = some agf1 ∧
        used_slots agf1.free_blocks = used_slots agf.free_blocks +
          (List.range ((offset + size - 1) / 4096 - offset / 4096 + 1)).countP
            (fun k => decide ((((offset / 4096 + k) % 10 : Nat) : Int) = ag)) := by
  obtain ⟨inode1, fs1, j, bw, d, hmap, hbar, hdata, hr⟩ :=
    xfs_sim_write_success fs inode buffer size offset res hsize hoff hsz hres hok
  generalize hn : (offset + size - 1) / 4096 - offset / 4096 + 1 = n at *
  have hle : offset / 4096 ≤ (offset + size - 1) / 4096 :=
    Nat.div_le_div_right (by omega)
  have hst0 : stored_extents inode = [] := by
    simp only [stored_extents, hfresh]; rfl
  obtain ⟨h1, h2, h3, h4, h5, h6, h7⟩ := write_map_loop_fresh (offset / 4096) n 0 fs inode
    (by rw [hfresh]; rfl) (by omega) hlen (by rw [hst0]; intro e he; cases he)
    (by omega) (by rw [hmap])
  rw [hmap] at h2 h3 h4 h5 h7
  simp only [] at h2 h3 h4 h5 h7
  obtain ⟨hl, hb, hu⟩ := map_slots_used (offset / 4096) n 0 fs h6
  rw [hst0, List.nil_append] at h5
  simp only [Nat.add_zero] at h1 h2 h5 hu
  have hst1 : stored_extents res.2.1 = stored_extents inode1 := by rw [hr]; rfl
  have hx : extents_from_allocator inode1 := by
    intro e he
    rw [h5] at he
    obtain ⟨k, hk, rfl⟩ := List.mem_map.mp he
    rw [List.mem_range] at hk
    have hmem : (map_slots (offset / 4096) n 0 fs).1.getD k 0 ∈
        (map_slots (offset / 4096) n 0 fs).1 := by
      rw [List.getD_eq_getElem _ _ (by omega)]
      exact List.getElem_mem _
    obtain ⟨hp1, hp2⟩ := hb _ hmem
    exact ⟨rfl, hp1, hp2, by simp only []; omega⟩
  have h2n : inode1.extent_count = ((n : Nat) : Int) := by rw [h2]; congr 1; omega
  refine ⟨by omega, by rw [hr]; exact h2n, by rw [hst1, h5], hb, ?_⟩
  intro ag agf hv hra
  obtain ⟨agf1, ha1, ha2⟩ := hu ag agf hv hra
  refine ⟨agf1, ?_, ha2⟩
  have hd : res.2.2.disk = (write_data_loop inode1 buffer size offset size 0 fs1.disk).2.2 := by
    rw [hr, hdata]
  rw [hd, write_data_loop_agf inode1 hx _ _ _ _ _ _ ag hv, h7]
  exact ha1

theorem C8_write_mapping_witness :
    ∃ res, xfs_sim_write (xfs_mount (xfs_mkfs zero_junk boot_fs 104857600).2).2 zero_inode
        (List.replicate 8193 65) 8193 0 = some res ∧ res.1 = 8193 ∧
      res.2.1.extent_count = 3 ∧
      (stored_extents res.2.1).map (fun e => (e.start_off, e.block_count))
        = [(0, 1), (1, 1), (2, 1)] ∧
      ∀ ag agf, valid_ag ag →
        read_agf (xfs_mount (xfs_mkfs zero_junk boot_fs 104857600).2).2.disk ag = some agf →
        ∃ agf1, read_agf res.2.2.disk ag = some agf1 ∧
          used_slots agf1.free_blocks = used_slots agf.free_blocks +
            (List.range 3).countP (fun k => decide ((((0 + k) % 10 : Nat) : Int) = ag)) := by
  have hsome : (xfs_sim_write (xfs_mount (xfs_mkfs zero_junk boot_fs 104857600).2).2
      zero_inode (List.replicate 8193 65) 8193 0).isSome = true := by decide!
  obtain ⟨res, hres⟩ := Option.isSome_iff_exists.mp hsome
  have hret : res.1 = 8193 := by
    have h : (xfs_sim_write (xfs_mount (xfs_mkfs zero_junk boot_fs 104857600).2).2
      zero_inode (List.replicate 8193 65) 8193 0).map (fun r => r.1) = some 8193 := by
      decide!
    rw [hres] at h
    simpa using h
  obtain ⟨_, h2, h3, _, h5⟩ := C8_write_mapping
    (xfs_mount (xfs_mkfs zero_junk boot_fs 104857600).2).2 zero_inode
    (List.replicate 8193 65) 8193 0 res (by decide) (by decide) (by decide) rfl rfl hres
    (by rw [hret]; decide)
  refine ⟨res, hres, hret, h2, ?_, h5⟩
  rw [h3]
  rfl

/-! ## Writing and reading back one block behind a hole -/

theorem read_loop_done (d : Option Disk) (inode : xfs_inode_t) (n offset fuel br : Nat)
    (buffer : List Nat) (h : n ≤ br) :
    read_loop d inode n offset fuel br buffer = (0, br, buffer) := by
  cases fuel with
  | zero => rfl
  | succ f => simp only [read_loop]; rw [if_neg (by omega)]

theorem write_data_loop_done (inode : xfs_inode_t) (buffer : List Nat)
    (size offset fuel bw : Nat) (d : Option Disk) (h : size ≤ bw) :
    write_data_loop inode buffer size offset fuel bw d = (0, bw, d) := by
  cases fuel with
  | zero => rfl
  | succ f => simp only [write_data_loop]; rw [if_neg (by omega)]

/-- A successful write of at most one block at a block boundary `k * 4096` into an inode
without extents: the inode gets the single extent `(k, P, 1)` and the new size, and the
device afterwards returns the written bytes at `P * 4096`. -/
theorem write_one_block (fs : FS) (inode : xfs_inode_t) (s : List Nat) (k : Nat)
    (res : Int × xfs_inode_t × FS)
    (hlen1 : 1 ≤ s.length) (hlen2 : s.length ≤ 4096)
    (hk : k * 4096 + s.length < 9223372036854775808)
    (hc : inode.extent_count = 0) (hsz : inode.di_size = 0)
    (hl : inode.extents.length = 16)
    (hres : xfs_sim_write fs inode s s.length (k * 4096) = some res) (hok : 0 ≤ res.1) :
    ∃ P, 2 ≤ P ∧ P ≤ 2398 ∧
      stored_extents res.2.1 = [{ start_off := k, start_block := P, block_count := 1 }] ∧
      res.2.1.di_size = k * 4096 + s.length ∧
      (res.1 : Int) = to_int s.length ∧
      disk_read res.2.2.disk (P * 4096) s.length = some s := by
  obtain ⟨inode1, fs1, j, bw, d, hmap, hbar, hdata, hr⟩ :=
    xfs_sim_write_success fs inode s s.length (k * 4096) res hlen1 (by omega) (by omega)
      hres hok
  have hbs : k * 4096 / 4096 = k := Nat.mul_div_cancel k (by decide)
  have hbe : (k * 4096 + s.length - 1) / 4096 = k := by omega
  rw [hbs, hbe, Nat.sub_self, Nat.zero_add] at hmap
  have hst0 : stored_extents inode = [] := by
    simp only [stored_extents, hc]; rfl
  obtain ⟨h1, h2, h3, h4, h5, h6, h7⟩ := write_map_loop_fresh k 1 0 fs inode
    (by rw [hc]; rfl) (by omega) hl (by rw [hst0]; intro e he; cases he)
    (by omega) (by rw [hmap])
  rw [hmap] at h2 h3 h4 h5 h7
  simp only [] at h2 h3 h4 h5 h7
  obtain ⟨hln, hb, _⟩ := map_slots_used k 1 0 fs h6
  rw [hst0, List.nil_append] at h5
  simp only [List.range_succ, List.range_zero, List.nil_append, List.map_cons, List.map_nil,
    Nat.add_zero] at h5
  generalize hP : (map_slots k 1 0 fs).1.getD 0 0 = P at h5
  have hPb : 2 ≤ P ∧ P ≤ 2398 := by
    apply hb
    rw [← hP, List.getD_eq_getElem _ _ (by omega)]
    exact List.getElem_mem _
  have hfind : find_extent_for_offset inode1 k
      = some { start_off := k, start_block := P, block_count := 1 } := by
    rw [find_extent_eq, h5]
    simp only [List.find?_cons]
    have : decide (k ≥ k ∧ k < (k + 1) % 18446744073709551616) = true := by
      rw [Nat.mod_eq_of_lt (by omega)]
      simp
    rw [this]
  have hposm : (k * 4096 + 0) % 18446744073709551616 = k * 4096 := by
    rw [Nat.add_zero]
    exact Nat.mod_eq_of_lt (by omega)
  obtain ⟨f, hf⟩ : ∃ f, s.length = f + 1 := ⟨s.length - 1, by omega⟩
  have hd1 : write_data_loop inode1 s s.length (k * 4096) (f + 1) 0 fs1.disk
      = (0, bw, d) := by rw [← hf]; exact hdata
  simp only [write_data_loop] at hd1
  rw [if_pos (by omega), hposm] at hd1
  simp only [XFS_BLOCK_SIZE, hbs, Nat.mul_mod_left, hfind, Nat.sub_self, Nat.add_zero,
    Nat.sub_zero, List.drop_zero] at hd1
  have hn : (if 4096 > s.length then s.length else 4096) = s.length := by
    split <;> omega
  have hPm1 : P % 18446744073709551616 = P := Nat.mod_eq_of_lt (by omega)
  have hPm2 : P * 4096 % 18446744073709551616 = P * 4096 := Nat.mod_eq_of_lt (by omega)
  simp only [hn, hPm1, hPm2, Nat.zero_add] at hd1
  rcases disk_write_status fs1.disk (P * 4096) s.length s with ⟨hw, dk, hdk, hbd⟩ | hw
  · have ew : disk_write fs1.disk (P * 4096) s s.length
        = (0, (disk_write fs1.disk (P * 4096) s s.length).2) := Prod.ext hw rfl
    rw [ew] at hd1
    simp only [] at hd1
    rw [write_data_loop_done _ _ _ _ _ _ _ (by omega)] at hd1
    simp only [Prod.mk.injEq, true_and] at hd1
    obtain ⟨hbw, hdd⟩ := hd1
    refine ⟨P, hPb.1, hPb.2, ?_, ?_, ?_, ?_⟩
    · rw [hr]; exact h5
    · rw [hr]
      simp only [h4, hsz]
      rw [if_pos (by omega)]
    · rw [hr, ← hbw]
    · rw [hr]
      simp only []
      rw [← hdd, hdk, disk_read_write_same dk _ _ _ hbd (le_refl _), List.take_length]
  · rw [hw] at hd1
    simp at hd1

/-- The read loop over an inode whose only extent `(k, P, 1)` lies behind `k` unmapped
blocks: entered at block `j <= k` with the buffer zeroed up to there, it zero-fills the
remaining holes, copies the extent's bytes and stops. -/
theorem read_loop_holes (d : Option Disk) (inode : xfs_inode_t) (s : List Nat) (k P : Nat)
    (hlen1 : 1 ≤ s.length) (hlen2 : s.length ≤ 4096)
    (hk : k * 4096 + s.length < 9223372036854775808)
    (hP : P ≤ 2398)
    (hst : stored_extents inode = [{ start_off := k, start_block := P, block_count := 1 }])
    (hrd : disk_read d (P * 4096) s.length = some s)
    (m j fuel : Nat) (buffer : List Nat) (hj : j + m = k) (hfuel : m + 1 ≤ fuel)
    (hbl : buffer.length = k * 4096 + s.length)
    (hz : buffer.take (j * 4096) = List.replicate (j * 4096) 0) :
    read_loop d inode (k * 4096 + s.length) 0 fuel (j * 4096) buffer
      = (0, k * 4096 + s.length, List.replicate (k * 4096) 0 ++ s) := by
  induction m generalizing j fuel buffer with
  | zero =>
    obtain rfl : j = k := by omega
    obtain ⟨f, rfl⟩ : ∃ f, fuel = f + 1 := ⟨fuel - 1, by omega⟩
    have hfind : find_extent_for_offset inode j
        = some { start_off := j, start_block := P, block_count := 1 } := by
      rw [find_extent_eq, hst]
      simp only [List.find?_cons]
      have : decide (j ≥ j ∧ j < (j + 1) % 18446744073709551616) = true := by
        rw [Nat.mod_eq_of_lt (by omega)]
        simp
      rw [this]
    have hposm : (0 + j * 4096) % 18446744073709551616 = j * 4096 := by
      rw [Nat.zero_add]
      exact Nat.mod_eq_of_lt (by omega)
    have hbs : j * 4096 / 4096 = j := Nat.mul_div_cancel j (by decide)
    have hn : (if 4096 > j * 4096 + s.length - j * 4096 then j * 4096 + s.length - j * 4096
        else 4096) = s.length := by
      split <;> omega
    have hPm1 : P % 18446744073709551616 = P := Nat.mod_eq_of_lt (by omega)
    have hPm2 : P * 4096 % 18446744073709551616 = P * 4096 := Nat.mod_eq_of_lt (by omega)
    simp only [read_loop]
    rw [if_pos (by omega), hposm]
    simp only [XFS_BLOCK_SIZE, hbs, Nat.mul_mod_left, hfind, Nat.sub_self, Nat.add_zero,
      Nat.sub_zero, hn, hPm1, hPm2, hrd]
    rw [read_loop_done _ _ _ _ _ _ _ (le_refl _)]
    simp only [buf_store, hz, Prod.mk.injEq, true_and]
    rw [List.drop_eq_nil_of_le (by omega), List.append_nil]
  | succ m ih =>
    obtain ⟨f, rfl⟩ : ∃ f, fuel = f + 1 := ⟨fuel - 1, by omega⟩
    have hfind : find_extent_for_offset inode j = none := by
      rw [find_extent_eq, hst, List.find?_eq_none]
      intro e he
      rw [List.mem_singleton] at he
      subst he
      simp only [decide_eq_true_eq, not_and, not_lt]
      intro h
      omega
    have hposm : (0 + j * 4096) % 18446744073709551616 = j * 4096 := by
      rw [Nat.zero_add]
      exact Nat.mod_eq_of_lt (by omega)
    have hbs : j * 4096 / 4096 = j := Nat.mul_div_cancel j (by decide)
    have hn : (if 4096 > k * 4096 + s.length - j * 4096 then k * 4096 + s.length - j * 4096
        else 4096) = 4096 := by
      split <;> omega
    simp only [read_loop]
    rw [if_pos (by omega), hposm]
    simp only [XFS_BLOCK_SIZE, hbs, Nat.mul_mod_left, hfind, Nat.sub_zero, hn]
    have e : j * 4096 + 4096 = (j + 1) * 4096 := by omega
    rw [e]
    apply ih (j + 1) f _ (by omega) (by omega)
    · simp only [buf_store, List.length_append, List.length_take, List.length_replicate,
        List.length_drop]
      omega
    · simp only [buf_store, hz, List.length_replicate]
      rw [List.append_assoc, List.take_append_eq_append_take]
      simp only [List.length_replicate, List.take_replicate]
      rw [List.take_append_eq_append_take]
      simp only [List.length_replicate, List.take_replicate]
      have e1 : min ((j + 1) * 4096) (j * 4096) = j * 4096 := by omega
      have e2 : min ((j + 1) * 4096 - j * 4096) 4096 = 4096 := by omega
      have e3 : (j + 1) * 4096 - j * 4096 - 4096 = 0 := by omega
      rw [e1, e2, e3, List.take_zero, List.append_nil, ← List.replicate_add]
      congr 1

/-- Hole read with the `int` result left as it is computed: after a successful write of
`s` (1 to 4096 bytes) at offset `k * 4096` to an inode without extents and of size 0,
the size is `k * 4096 + len(s)` and reading that many bytes from offset 0 into a buffer
of that size gives zeros followed by `s`; the value returned is the byte count narrowed
to `int`. -/
theorem hole_read_general (fs : FS) (inode : xfs_inode_t) (s buf : List Nat) (k : Nat)
    (res : Int × xfs_inode_t × FS)
    (hlen1 : 1 ≤ s.length) (hlen2 : s.length ≤ 4096)
    (hk : k * 4096 + s.length < 9223372036854775808)
    (hc : inode.extent_count = 0) (hsz : inode.di_size = 0)
    (hl : inode.extents.length = 16)
    (hres : xfs_sim_write fs inode s s.length (k * 4096) = some res) (hok : 0 ≤ res.1)
    (hbuf : buf.length = k * 4096 + s.length) :
    res.2.1.di_size = k * 4096 + s.length ∧
    xfs_sim_read res.2.2.disk res.2.1 buf (k * 4096 + s.length) 0
      = (to_int (k * 4096 + s.length), List.replicate (k * 4096) 0 ++ s) := by
  obtain ⟨P, hP1, hP2, hst, hds, _, hrd⟩ :=
    write_one_block fs inode s k res hlen1 hlen2 hk hc hsz hl hres hok
  refine ⟨hds, ?_⟩
  simp only [xfs_sim_read, hds]
  rw [if_neg (by omega), if_neg (by omega)]
  have hm : (0 + (k * 4096 + s.length)) % 18446744073709551616 = k * 4096 + s.length := by
    rw [Nat.zero_add]
    exact Nat.mod_eq_of_lt (by omega)
  rw [hm, if_neg (by omega)]
  have := read_loop_holes res.2.2.disk res.2.1 s k P hlen1 hlen2 hk hP2 hst hrd k 0
    (k * 4096 + s.length) buf (by omega) (by omega) hbuf (by simp)
  rw [Nat.zero_mul] at this
  rw [this]
  rfl

theorem to_int_small (n : Nat) (h : n < 2147483648) : to_int n = (n : Int) := by
  unfold to_int
  rw [Nat.mod_eq_of_lt (by omega), if_pos h]

/-- C10 (hole read), as the code has it: for `k >= 1` and a byte string `s` with
`1 <= len(s) <= 4096` and `k * 4096 + len(s) < 2^31` (the result is an `int`), after a
successful `xfs_sim_write(inode, s, len(s), k*4096)` on a freshly created inode (no
extents, size 0), `di_size = k*4096 + len(s)` and `xfs_sim_read` of
`k*4096 + len(s)` bytes from offset 0 returns `k*4096 + len(s)` and leaves the first
`k*4096` bytes of the buffer zero and the remaining bytes equal to `s`. -/
theorem C10_hole_read (fs : FS) (inode : xfs_inode_t) (s buf : List Nat) (k : Nat)
    (res : Int × xfs_inode_t × FS)
    (hk1 : 1 ≤ k) (hlen1 : 1 ≤ s.length) (hlen2 : s.length ≤ 4096)
    (hint : k * 4096 + s.length < 2147483648)
    (hc : inode.extent_count = 0) (hsz : inode.di_size = 0)
    (hl : inode.extents.length = 16)
    (hres : xfs_sim_write fs inode s s.length (k * 4096) = some res)
    (hok : res.1 = (s.length : Int))
    (hbuf : buf.length = k * 4096 + s.length) :
    res.2.1.di_size = k * 4096 + s.length ∧
    (xfs_sim_read res.2.2.disk res.2.1 buf (k * 4096 + s.length) 0).1
      = ((k * 4096 + s.length : Nat) : Int) ∧
    (xfs_sim_read res.2.2.disk res.2.1 buf (k * 4096 + s.length) 0).2.take (k * 4096)
      = List.replicate (k * 4096) 0 ∧
    (xfs_sim_read res.2.2.disk res.2.1 buf (k * 4096 + s.length) 0).2.drop (k * 4096) = s := by
  have hk0 : 0 < k := hk1
  obtain ⟨h1, h2⟩ := hole_read_general fs inode s buf k res hlen1 hlen2 (by omega) hc hsz hl
    hres (by rw [hok]; omega) hbuf
  rw [h2]
  refine ⟨h1, to_int_small _ hint, ?_, ?_⟩
  · simp only []
    rw [List.take_append_of_le_length (by simp), List.take_replicate, Nat.min_self]
  · simp only []
    rw [List.drop_append_of_le_length (by simp), List.drop_replicate, Nat.sub_self]
    rfl

theorem created_write_end :
    (xfs_sim_write mounted_fs created_inode [101, 110, 100] 3 (5 * 4096)).isSome = true ∧
    (xfs_sim_write mounted_fs created_inode [101, 110, 100] 3 (5 * 4096)).map (fun r => r.1)
      = some 3 := by
  decide!

theorem C10_hole_read_witness :
    ∃ res, xfs_sim_write mounted_fs created_inode [101, 110, 100] 3 (5 * 4096) = some res ∧
      res.1 = 3 ∧ res.2.1.di_size = 5 * 4096 + 3 ∧
      (xfs_sim_read res.2.2.disk res.2.1 (List.replicate 20483 9) (5 * 4096 + 3) 0).1
        = 20483 ∧
      (xfs_sim_read res.2.2.disk res.2.1 (List.replicate 20483 9) (5 * 4096 + 3) 0).2.take
        (5 * 4096) = List.replicate (5 * 4096) 0 ∧
      (xfs_sim_read res.2.2.disk res.2.1 (List.replicate 20483 9) (5 * 4096 + 3) 0).2.drop
        (5 * 4096) = [101, 110, 100] := by
  obtain ⟨res, hres⟩ := Option.isSome_iff_exists.mp created_write_end.1
  have hret : res.1 = 3 := by
    have h := created_write_end.2
    rw [hres] at h
    simpa using h
  exact ⟨res, hres, hret,
    C10_hole_read mounted_fs created_inode [101, 110, 100] (List.replicate 20483 9) 5 res
      (by decide) (by decide) (by decide) (by decide) (by decide) (by decide) (by decide)
      hres hret (List.length_replicate _ _)⟩

theorem created_write_far :
    (xfs_sim_write mounted_fs created_inode [7] 1 (524288 * 4096)).isSome = true ∧
    (xfs_sim_write mounted_fs created_inode [7] 1 (524288 * 4096)).map (fun r => r.1)
      = some 1 := by
  decide!

/-- C10 as stated fails for large `k`: on the formatted and mounted 100 MiB device,
after the successful one-byte write at offset `524288 * 4096` (2 GiB) to a freshly
created inode, reading `524288 * 4096 + 1 = 2147483649` bytes from offset 0 returns
`-2147483647`, not `2147483649`: the byte count does not fit the `int` result. -/
theorem C10_counterexample :
    ∃ res, xfs_sim_write mounted_fs created_inode [7] 1 (524288 * 4096) = some res ∧
      res.1 = 1 ∧
      (xfs_sim_read res.2.2.disk res.2.1 (List.replicate 2147483649 0)
        (524288 * 4096 + 1) 0).1 = -2147483647 := by
  obtain ⟨res, hres⟩ := Option.isSome_iff_exists.mp created_write_far.1
  have hret : res.1 = 1 := by
    have h := created_write_far.2
    rw [hres] at h
    simpa using h
  refine ⟨res, hres, hret, ?_⟩
  have h := (hole_read_general mounted_fs created_inode [7] (List.replicate 2147483649 0)
    524288 res (by decide) (by decide) (by decide) (by decide) (by decide) (by decide)
    hres (by rw [hret]; decide) (List.length_replicate _ _)).2
  have e : (xfs_sim_read res.2.2.disk res.2.1 (List.replicate 2147483649 0)
      (524288 * 4096 + 1) 0).1 = to_int (524288 * 4096 + 1) := by
    have := congrArg Prod.fst h
    exact this
  rw [e]
  decide

/-! ## Read after write across a block boundary -/

/-- C1 at a failing input. On the formatted and mounted 100 MiB device, write the 4097
bytes `1, 1, …, 1, 2` at offset 0 to a freshly created inode.  The write succeeds
(returns 4097) and maps logical block 0 to slot 2 of AG 0 and logical block 1 to slot 2
of AG 1; both are used as the device block number 2.  The read that follows returns
4097, but the first byte it delivers is 2, the byte written for block 1, where the
string has 1. -/
theorem C1_read_after_write_fails :
    (xfs_sim_write mounted_fs created_inode (List.replicate 4096 1 ++ [2]) 4097 0).map
      (fun res =>
        (res.1,
         (stored_extents res.2.1).map (fun e => (e.start_off, e.start_block)),
         (xfs_sim_read res.2.2.disk res.2.1 (List.replicate 4097 0) 4097 0).1,
         (xfs_sim_read res.2.2.disk res.2.1 (List.replicate 4097 0) 4097 0).2.getD 0 0,
         (List.replicate 4096 1 ++ [2]).getD 0 0))
      = some (4097, [(0, 2), (1, 2)], 4097, 2, 1) := by
  decide!

/-! ## The budgets of the data loops are never exhausted -/

/-- The data loop of `xfs_sim_write` gives the same result for every budget that covers
the bytes still to be written; `xfs_sim_write` enters it with the budget `size`. -/
theorem write_data_loop_fuel (inode : xfs_inode_t) (buffer : List Nat) (size offset : Nat)
    (f1 f2 bw : Nat) (d : Option Disk) (h1 : size - bw ≤ f1) (h2 : size - bw ≤ f2) :
    write_data_loop inode buffer size offset f1 bw d
      = write_data_loop inode buffer size offset f2 bw d := by
  induction f1 generalizing f2 bw d with
  | zero =>
    rw [write_data_loop_done _ _ _ _ _ _ _ (by omega),
      write_data_loop_done _ _ _ _ _ _ _ (by omega)]
  | succ f1 ih =>
    by_cases hlt : bw < size
    · obtain ⟨g, rfl⟩ : ∃ g, f2 = g + 1 := ⟨f2 - 1, by omega⟩
      simp only [write_data_loop, hlt, if_true]
      cases find_extent_for_offset inode
          ((offset + bw) % 18446744073709551616 / XFS_BLOCK_SIZE) with
      | none => rfl
      | some e =>
        simp only []
        have hoib : (offset + bw) % 18446744073709551616 % XFS_BLOCK_SIZE < 4096 :=
          Nat.mod_lt _ (by decide)
        generalize (offset + bw) % 18446744073709551616 % XFS_BLOCK_SIZE = oib at *
        have hn : 1 ≤ (if XFS_BLOCK_SIZE - oib > size - bw then size - bw
            else XFS_BLOCK_SIZE - oib) := by
          simp only [XFS_BLOCK_SIZE]; split <;> omega
        generalize (if XFS_BLOCK_SIZE - oib > size - bw then size - bw
            else XFS_BLOCK_SIZE - oib) = n at *
        generalize ((e.start_block + ((offset + bw) % 18446744073709551616 /
          XFS_BLOCK_SIZE - e.start_off)) % 18446744073709551616 * XFS_BLOCK_SIZE %
          18446744073709551616 + oib) % 18446744073709551616 = addr
        rcases disk_write_status d addr n (List.drop bw buffer) with ⟨hw, _⟩ | hw
        · have ew : disk_write d addr (List.drop bw buffer) n
              = (0, (disk_write d addr (List.drop bw buffer) n).2) := Prod.ext hw rfl
          rw [ew]
          exact ih g (bw + n) _ (by omega) (by omega)
        · rw [hw]
          rfl
    · rw [write_data_loop_done _ _ _ _ _ _ _ (by omega),
        write_data_loop_done _ _ _ _ _ _ _ (by omega)]

/-- The loop of `xfs_sim_read` gives the same result for every budget that covers the
bytes still to be read; `xfs_sim_read` enters it with the budget `size_to_read`. -/
theorem read_loop_fuel (d : Option Disk) (inode : xfs_inode_t) (n offset : Nat)
    (f1 f2 br : Nat) (buffer : List Nat) (h1 : n - br ≤ f1) (h2 : n - br ≤ f2) :
    read_loop d inode n offset f1 br buffer = read_loop d inode n offset f2 br buffer := by
  induction f1 generalizing f2 br buffer with
  | zero =>
    rw [read_loop_done _ _ _ _ _ _ _ (by omega), read_loop_done _ _ _ _ _ _ _ (by omega)]
  | succ f1 ih =>
    by_cases hlt : br < n
    · obtain ⟨g, rfl⟩ : ∃ g, f2 = g + 1 := ⟨f2 - 1, by omega⟩
      simp only [read_loop, hlt, if_true]
      have hoib : (offset + br) % 18446744073709551616 % XFS_BLOCK_SIZE < 4096 :=
        Nat.mod_lt _ (by decide)
      generalize (offset + br) % 18446744073709551616 % XFS_BLOCK_SIZE = oib at *
      have hn : 1 ≤ (if XFS_BLOCK_SIZE - oib > n - br then n - br
          else XFS_BLOCK_SIZE - oib) := by
        simp only [XFS_BLOCK_SIZE]; split <;> omega
      generalize (if XFS_BLOCK_SIZE - oib > n - br then n - br
          else XFS_BLOCK_SIZE - oib) = m at *
      cases find_extent_for_offset inode
          ((offset + br) % 18446744073709551616 / XFS_BLOCK_SIZE) with
      | none => exact ih g (br + m) _ (by omega) (by omega)
      | some e =>
        simp only []
        generalize ((e.start_block + ((offset + br) % 18446744073709551616 /
          XFS_BLOCK_SIZE - e.start_off)) % 18446744073709551616 * XFS_BLOCK_SIZE %
          18446744073709551616 + oib) % 18446744073709551616 = addr
        cases disk_read d addr m with
        | none => rfl
        | some bytes => exact ih g (br + m) _ (by omega) (by omega)
    · rw [read_loop_done _ _ _ _ _ _ _ (by omega), read_loop_done _ _ _ _ _ _ _ (by omega)]

/-! ## Bounds of the block device; allocator failure -/

theorem disk_read_isSome (d : Option Disk) (offset len : Nat) :
    (disk_read d offset len).isSome = true ↔
      ∃ dk, d = some dk ∧ (offset + len) % 18446744073709551616 ≤ dk.size := by
  cases d with
  | none => simp [disk_read]
  | some dk =>
    by_cases h : (offset + len) % 18446744073709551616 > dk.size
    · simp only [disk_read, if_pos h]
      constructor
      · intro hc; cases hc
      · rintro ⟨dk1, h1, h2⟩
        cases h1
        omega
    · simp only [disk_read, if_neg h]
      constructor
      · intro _; exact ⟨dk, rfl, by omega⟩
      · intro _; rfl

theorem disk_write_ok_iff (d : Option Disk) (offset len : Nat) (buf : List Nat) :
    (disk_write d offset buf len).1 = 0 ↔
      ∃ dk, d = some dk ∧ (offset + len) % 18446744073709551616 ≤ dk.size := by
  cases d with
  | none => simp [disk_write]
  | some dk =>
    by_cases h : (offset + len) % 18446744073709551616 > dk.size
    · simp only [disk_write, if_pos h]
      constructor
      · intro hc; exact absurd hc (by decide)
      · rintro ⟨dk1, h1, h2⟩
        cases h1
        omega
    · simp only [disk_write, if_neg h]
      constructor
      · intro _; exact ⟨dk, rfl, by omega⟩
      · intro _; trivial

/-- Claim C18 (block-device bounds), as the code has it: `disk_read` and `disk_write`
succeed exactly when the device is initialised and `offset + len`, added in 64 bits,
is at most the device size, and a failing `disk_write` leaves the device unchanged.  The
sum is not the true sum: on a device of 100 bytes a transfer of 2 bytes at offset
`2^64 - 1` passes the check (the sum wraps to 1) although `2^64 + 1 > 100`. -/
theorem C18_bounds_check_wraps :
    (∀ (d : Option Disk) (offset len : Nat),
      ((disk_read d offset len).isSome = true ↔
        ∃ dk, d = some dk ∧ (offset + len) % 18446744073709551616 ≤ dk.size)) ∧
    (∀ (d : Option Disk) (offset len : Nat) (buf : List Nat),
      ((disk_write d offset buf len).1 = 0 ↔
        ∃ dk, d = some dk ∧ (offset + len) % 18446744073709551616 ≤ dk.size) ∧
      ((disk_write d offset buf len).1 ≠ 0 → disk_write d offset buf len = (-1, d))) ∧
    (disk_read (disk_init 100).2 18446744073709551615 2).isSome = true ∧
    (disk_write (disk_init 100).2 18446744073709551615 [1, 2] 2).1 = 0 ∧
    ¬ (18446744073709551615 + 2 ≤ (100 : Nat)) := by
  refine ⟨disk_read_isSome, ?_, by decide, by decide, by decide⟩
  intro d offset len buf
  refine ⟨disk_write_ok_iff d offset len buf, ?_⟩
  intro hne
  rcases disk_write_status d offset len buf with h | h
  · exact absurd h.1 hne
  · exact h

/-- Claim C19 (block-device round trip and frame): after `disk_init(size)` every
in-bounds read returns zero bytes; after a successful `disk_write(offset, buf, len)` of a
buffer holding `len` bytes, `disk_read(offset, out, len)` returns exactly those bytes,
every device byte outside `[offset, offset + len)` is unchanged and so is the device
size. -/
theorem C19_disk_round_trip (size : Nat) (d : Option Disk) (offset len : Nat)
    (buf : List Nat) (hbuf : buf.length = len)
    (hok : (disk_write d offset buf len).1 = 0) :
    (∀ off n, off + n ≤ size →
      disk_read (disk_init size).2 off n = some (List.replicate n 0)) ∧
    disk_read (disk_write d offset buf len).2 offset len = some buf ∧
    ∃ dk dk1, d = some dk ∧ (disk_write d offset buf len).2 = some dk1 ∧
      dk1.size = dk.size ∧
      ∀ a, ¬ (offset ≤ a ∧ a < offset + len) → dk1.mem a = dk.mem a := by
  obtain ⟨dk, hd, hb⟩ := (disk_write_ok_iff d offset len buf).1 hok
  subst hd
  refine ⟨?_, ?_, ?_⟩
  · intro off n hle
    have hm : (off + n) % 18446744073709551616 ≤ size :=
      Nat.le_trans (Nat.mod_le _ _) hle
    have := disk_read_of_bounds { size := size, mem := fun _ => 0 } off n hm
    simp only [disk_init]
    rw [this]
    congr 1
    apply List.ext_getElem
    · simp
    · intro i h1 h2
      simp
  · have := disk_read_write_same dk offset len buf hb (by omega)
    rw [this, ← hbuf, List.take_length]
  · rw [disk_write_of_bounds dk offset len buf hb]
    refine ⟨dk, _, rfl, rfl, rfl, ?_⟩
    intro a ha
    simp only [if_neg ha]

theorem C19_disk_round_trip_witness :
    (∀ off n, off + n ≤ 8 →
      disk_read (disk_init 8).2 off n = some (List.replicate n 0)) ∧
    disk_read (disk_write (disk_init 8).2 2 [5, 6, 7] 3).2 2 3 = some [5, 6, 7] ∧
    ∃ dk dk1, (disk_init 8).2 = some dk ∧
      (disk_write (disk_init 8).2 2 [5, 6, 7] 3).2 = some dk1 ∧
      dk1.size = dk.size ∧
      ∀ a, ¬ (2 ≤ a ∧ a < 2 + 3) → dk1.mem a = dk.mem a :=
  C19_disk_round_trip 8 (disk_init 8).2 2 3 [5, 6, 7] rfl (by decide)

theorem read_agf_none_of_small {fs : FS} {ag : Int} (hv : valid_ag ag)
    (h : fs.disk = none ∨ ∃ dk, fs.disk = some dk ∧ dk.size < ag_get_offset ag + SIZEOF_AGF) :
    read_agf fs.disk ag = none := by
  rcases h with h | ⟨dk, h, hs⟩
  · rw [h]; rfl
  · rw [h]
    have hle := ag_get_offset_le hv
    simp only [SIZEOF_AGF] at hs
    have hlt : ag_get_offset ag + 2416 < 18446744073709551616 := by omega
    simp only [read_agf, disk_read, SIZEOF_AGF]
    rw [Nat.mod_eq_of_lt hlt, if_pos (by omega)]
    rfl

/-- Claim C20 (allocator failure): for an AG number below 0 or above 9, and for a valid
AG number whose AGF cannot be read (device not initialised, or ending before the AGF
does), `xfs_alloc_blocks` returns 0, `xfs_free_blocks` and `xfs_ag_init_alloc` return a
negative value, and the device and the journal queue are the same afterwards. -/
theorem C20_allocator_failure (fs : FS) (ag : Int) (start : Nat) (count : Int)
    (h : (ag < 0 ∨ 10 ≤ ag) ∨ fs.disk = none ∨
      ∃ dk, fs.disk = some dk ∧ dk.size < ag_get_offset ag + SIZEOF_AGF) :
    (xfs_alloc_blocks fs ag count).1 = 0 ∧ (xfs_alloc_blocks fs ag count).2 = fs ∧
    (xfs_free_blocks fs ag start count).1 < 0 ∧ (xfs_free_blocks fs ag start count).2 = fs ∧
    (xfs_ag_init_alloc fs ag).1 < 0 ∧ (xfs_ag_init_alloc fs ag).2 = fs := by
  have hu : ¬ valid_ag ag ∨ read_agf fs.disk ag = none := by
    by_cases hv : valid_ag ag
    · right
      rcases h with h | h
      · exact absurd hv (by unfold valid_ag; omega)
      · exact read_agf_none_of_small hv h
    · exact Or.inl hv
  rw [xfs_alloc_blocks_unreadable fs ag count hu, xfs_free_blocks_unreadable fs ag start count hu,
    xfs_ag_init_alloc_unreadable fs ag hu]
  exact ⟨rfl, rfl, by simp, rfl, by simp, rfl⟩

theorem C20_allocator_failure_witness :
    (xfs_alloc_blocks boot_fs 3 1).1 = 0 ∧ (xfs_alloc_blocks boot_fs 3 1).2 = boot_fs ∧
    (xfs_free_blocks boot_fs 3 2 1).1 < 0 ∧ (xfs_free_blocks boot_fs 3 2 1).2 = boot_fs ∧
    (xfs_ag_init_alloc boot_fs 3).1 < 0 ∧ (xfs_ag_init_alloc boot_fs 3).2 = boot_fs :=
  C20_allocator_failure boot_fs 3 2 1 (Or.inr (Or.inl rfl))

/-! ## Properties of the device that every operation preserves -/

theorem xfs_alloc_blocks_stable {Q : Option Disk → Prop} (hQ : op_stable Q) (fs : FS)
    (ag count : Int) (h : Q fs.disk) : Q (xfs_alloc_blocks fs ag count).2.disk := by
  by_cases hv : valid_ag ag
  · cases hr : read_agf fs.disk ag with
    | none => rw [xfs_alloc_blocks_unreadable fs ag count (Or.inr hr)]; exact h
    | some agf =>
      rw [xfs_alloc_blocks_eq hv hr count]
      cases hs : alloc_scan agf.free_blocks count 2400 2 with
      | none => exact h
      | some i =>
        exact hQ.1 _ _ _ _ h hv hr (agf_allocate_wf agf (read_agf_wf hr) _ _) rfl rfl
  · rw [xfs_alloc_blocks_unreadable fs ag count (Or.inl hv)]; exact h

theorem xfs_free_blocks_stable {Q : Option Disk → Prop} (hQ : op_stable Q) (fs : FS)
    (ag : Int) (start : Nat) (count : Int) (h : Q fs.disk) :
    Q (xfs_free_blocks fs ag start count).2.disk := by
  by_cases hv : valid_ag ag
  · cases hr : read_agf fs.disk ag with
    | none => rw [xfs_free_blocks_unreadable fs ag start count (Or.inr hr)]; exact h
    | some agf =>
      rw [xfs_free_blocks_eq hv hr start count]
      exact hQ.1 _ _ _ _ h hv hr (agf_release_wf agf (read_agf_wf hr) _ _) rfl rfl
  · rw [xfs_free_blocks_unreadable fs ag start count (Or.inl hv)]; exact h

theorem xfs_ag_init_alloc_stable {Q : Option Disk → Prop} (hQ : op_stable Q) (fs : FS)
    (ag : Int) (h : Q fs.disk) : Q (xfs_ag_init_alloc fs ag).2.disk := by
  by_cases hv : valid_ag ag
  · cases hr : read_agf fs.disk ag with
    | none => rw [xfs_ag_init_alloc_unreadable fs ag (Or.inr hr)]; exact h
    | some agf =>
      rw [xfs_ag_init_alloc_eq hv hr]
      exact hQ.1 _ _ _ _ h hv hr (agf_reset_wf agf (read_agf_wf hr)) rfl rfl
  · rw [xfs_ag_init_alloc_unreadable fs ag (Or.inl hv)]; exact h

theorem run_call_stable {Q : Option Disk → Prop} (hQ : op_stable Q) (fs : FS)
    (c : AllocCall) (h : Q fs.disk) : Q (run_call fs c).disk := by
  cases c with
  | init ag => exact xfs_ag_init_alloc_stable hQ fs ag h
  | alloc ag count => exact xfs_alloc_blocks_stable hQ fs ag count h
  | free ag start count => exact xfs_free_blocks_stable hQ fs ag start count h

theorem run_calls_stable {Q : Option Disk → Prop} (hQ : op_stable Q) (calls : List AllocCall)
    (fs : FS) (h : Q fs.disk) : Q (run_calls fs calls).disk := by
  induction calls generalizing fs with
  | nil => exact h
  | cons c cs ih => exact ih (run_call fs c) (run_call_stable hQ fs c h)

theorem add_extent_cases (inode : xfs_inode_t) (l p c : Nat) :
    (16 ≤ inode.extent_count ∧ add_extent_to_inode inode l p c = (-1, inode)) ∨
    (inode.extent_count < 16 ∧ add_extent_to_inode inode l p c =
      (0, (add_extent_to_inode inode l p c).2)) := by
  by_cases h : inode.extent_count ≥ 16
  · exact Or.inl ⟨h, add_extent_full inode l p c h⟩
  · right
    refine ⟨by omega, ?_⟩
    simp only [add_extent_to_inode, if_neg h]

theorem write_map_loop_stable {Q : Option Disk → Prop} (hQ : op_stable Q) (bs n i : Nat)
    (fs : FS) (inode : xfs_inode_t) (h : Q fs.disk) :
    Q (write_map_loop bs n i fs inode).2.2.disk := by
  induction n generalizing i fs inode with
  | zero => exact h
  | succ n ih =>
    simp only [write_map_loop]
    cases hf : find_extent_for_offset inode ((bs + i) % 18446744073709551616) with
    | some e => exact ih _ _ _ h
    | none =>
      simp only []
      have ha := xfs_alloc_blocks_stable hQ fs
        (((bs + i) % 18446744073709551616 % NUM_AGS : Nat) : Int) 1 h
      by_cases hp : (xfs_alloc_blocks fs
        (((bs + i) % 18446744073709551616 % NUM_AGS : Nat) : Int) 1).1 = 0
      · rw [if_pos hp]; exact ha
      · rw [if_neg hp]
        rcases add_extent_cases inode ((bs + i) % 18446744073709551616)
          (xfs_alloc_blocks fs
            (((bs + i) % 18446744073709551616 % NUM_AGS : Nat) : Int) 1).1 1
          with ⟨_, he⟩ | ⟨_, he⟩
        · rw [he]
          exact xfs_free_blocks_stable hQ _ _ _ _ ha
        · rw [he]
          exact ih _ _ _ ha

theorem write_data_loop_stable {Q : Option Disk → Prop} (hQ : op_stable Q)
    (inode : xfs_inode_t) (hx : extents_from_allocator inode)
    (buffer : List Nat) (size offset : Nat) (fuel bw : Nat) (d : Option Disk) (h : Q d) :
    Q (write_data_loop inode buffer size offset fuel bw d).2.2 := by
  induction fuel generalizing bw d with
  | zero => exact h
  | succ fuel ih =>
    simp only [write_data_loop]
    by_cases hlt : bw < size
    · rw [if_pos hlt]
      cases hf : find_extent_for_offset inode
          ((offset + bw) % 18446744073709551616 / XFS_BLOCK_SIZE) with
      | none => exact h
      | some e =>
        simp only []
        obtain ⟨_, haddr, hp1, hp2⟩ := data_address hx hf
          ((offset + bw) % 18446744073709551616 % XFS_BLOCK_SIZE)
          (Nat.mod_lt _ (by decide))
        rw [haddr]
        generalize hlen : (if XFS_BLOCK_SIZE - (offset + bw) % 18446744073709551616 %
          XFS_BLOCK_SIZE > size - bw then size - bw
          else XFS_BLOCK_SIZE - (offset + bw) % 18446744073709551616 % XFS_BLOCK_SIZE) = len
        have hlen_le : len ≤ 4096 - (offset + bw) % 18446744073709551616 % XFS_BLOCK_SIZE := by
          rw [← hlen]; simp only [XFS_BLOCK_SIZE]; split <;> omega
        have hoib : (offset + bw) % 18446744073709551616 % XFS_BLOCK_SIZE < 4096 :=
          Nat.mod_lt _ (by decide)
        generalize (offset + bw) % 18446744073709551616 % XFS_BLOCK_SIZE = oib at *
        have hstep : Q (disk_write d (e.start_block * 4096 + oib) (buffer.drop bw) len).2 :=
          hQ.2 d _ _ _ h (by omega) (by omega)
        rcases disk_write_status d (e.start_block * 4096 + oib) len (buffer.drop bw)
          with ⟨hw, _⟩ | hw
        · have ew : disk_write d (e.start_block * 4096 + oib) (buffer.drop bw) len
              = (0, (disk_write d (e.start_block * 4096 + oib) (buffer.drop bw) len).2) :=
            Prod.ext hw rfl
          rw [ew]
          exact ih _ _ hstep
        · rw [hw]
          exact h
    · rw [if_neg hlt]
      exact h

/-! ## The mapping loop of `xfs_sim_write` on any inode -/

theorem find_extent_append {inode inode1 : xfs_inode_t} {added : List xfs_extent_t}
    (hs : stored_extents inode1 = stored_extents inode ++ added) {L : Nat}
    {e : xfs_extent_t} (hf : find_extent_for_offset inode L = some e) :
    find_extent_for_offset inode1 L = some e := by
  rw [find_extent_eq] at hf ⊢
  rw [hs, List.find?_append, hf]
  rfl

theorem add_extent_inv (inode : xfs_inode_t) (L P : Nat) (hinv : inode_inv inode)
    (hlt : inode.extent_count < 16)
    (hf : find_extent_for_offset inode L = none)
    (hL : L + 1 < 18446744073709551616) (hP1 : 2 ≤ P) (hP2 : P ≤ 2398) :
    inode_inv (add_extent_to_inode inode L P 1).2 ∧
    (add_extent_to_inode inode L P 1).2.di_size = inode.di_size ∧
    stored_extents (add_extent_to_inode inode L P 1).2
      = stored_extents inode ++ [⟨L, P, 1⟩] ∧
    find_extent_for_offset (add_extent_to_inode inode L P 1).2 L = some ⟨L, P, 1⟩ := by
  obtain ⟨h0, h16, hlen, hx, hnd⟩ := hinv
  have hc : inode.extent_count = ((inode.extent_count.toNat : Nat) : Int) :=
    (Int.toNat_of_nonneg h0).symm
  obtain ⟨_, ha2, ha3, ha4, ha5⟩ :=
    add_extent_ok inode L P 1 inode.extent_count.toNat hc (by omega) hlen
  have hnone : ∀ e ∈ stored_extents inode, e.start_off ≠ L := by
    intro e he heq
    rw [find_extent_eq, List.find?_eq_none] at hf
    have := hf e he
    obtain ⟨hb1, _, _, hb4⟩ := hx e he
    simp only [decide_eq_true_eq, not_and, not_lt, hb1] at this
    rw [Nat.mod_eq_of_lt hb4] at this
    omega
  refine ⟨⟨by omega, by omega, ha3, ?_, ?_⟩, ha4, ha5, ?_⟩
  · intro e he
    rw [ha5, List.mem_append, List.mem_singleton] at he
    rcases he with he | he
    · exact hx e he
    · subst he
      exact ⟨rfl, hP1, hP2, hL⟩
  · rw [ha5, List.map_append, List.nodup_append]
    refine ⟨hnd, List.nodup_singleton _, ?_⟩
    intro a ha hb
    simp only [List.map_cons, List.map_nil, List.mem_singleton] at hb
    obtain ⟨e, he, hea⟩ := List.mem_map.mp ha
    exact hnone e he (hea.trans hb)
  · rw [find_extent_eq, ha5, List.find?_append]
    rw [find_extent_eq] at hf
    rw [hf]
    simp only [Option.none_or, List.find?_cons, List.find?_nil]
    have hm : (L + 1) % 18446744073709551616 = L + 1 := Nat.mod_eq_of_lt hL
    simp [hm]

/-- The mapping loop of `xfs_sim_write` on an inode in the state `inode_inv`: the state
is kept, `di_size` is untouched, extents are only appended, and when the loop runs to
its end every logical block it visited is mapped. -/
theorem write_map_loop_inv (bs n i : Nat) (fs : FS) (inode : xfs_inode_t)
    (hinv : inode_inv inode) (hw : bs + i + n < 18446744073709551616) :
    inode_inv (write_map_loop bs n i fs inode).2.1 ∧
    (write_map_loop bs n i fs inode).2.1.di_size = inode.di_size ∧
    (∃ added, stored_extents (write_map_loop bs n i fs inode).2.1
      = stored_extents inode ++ added) ∧
    ((write_map_loop bs n i fs inode).1 = 0 → ∀ k, k < n →
      ∃ e, find_extent_for_offset (write_map_loop bs n i fs inode).2.1 (bs + i + k)
        = some e) := by
  induction n generalizing i fs inode with
  | zero =>
    refine ⟨hinv, rfl, ⟨[], by simp only [write_map_loop, List.append_nil]⟩, ?_⟩
    intro _ k hk
    omega
  | succ n ih =>
    have hmod : (bs + i) % 18446744073709551616 = bs + i := Nat.mod_eq_of_lt (by omega)
    simp only [write_map_loop, hmod]
    cases hf : find_extent_for_offset inode (bs + i) with
    | some e =>
      simp only []
      obtain ⟨h1, h2, ⟨added, h3⟩, h4⟩ := ih (i + 1) fs inode hinv (by omega)
      refine ⟨h1, h2, ⟨added, h3⟩, ?_⟩
      intro hst k hk
      cases k with
      | zero => exact ⟨e, find_extent_append h3 hf⟩
      | succ k =>
        have := h4 hst k (by omega)
        rwa [show bs + (i + 1) + k = bs + i + (k + 1) by omega] at this
    | none =>
      simp only []
      have hfail : ∀ fs1 : FS,
          inode_inv ((-1 : Int), inode, fs1).2.1 ∧
          ((-1 : Int), inode, fs1).2.1.di_size = inode.di_size ∧
          (∃ added, stored_extents ((-1 : Int), inode, fs1).2.1
            = stored_extents inode ++ added) ∧
          (((-1 : Int), inode, fs1).1 = 0 → ∀ k, k < n + 1 →
            ∃ e, find_extent_for_offset ((-1 : Int), inode, fs1).2.1 (bs + i + k)
              = some e) := by
        intro fs1
        refine ⟨hinv, rfl, ⟨[], by simp only [List.append_nil]⟩, ?_⟩
        intro hst
        simp at hst
      by_cases hp : (xfs_alloc_blocks fs (((bs + i) % NUM_AGS : Nat) : Int) 1).1 = 0
      · rw [if_pos hp]
        exact hfail _
      · rw [if_neg hp]
        obtain ⟨hP1, hP2, _⟩ := alloc_single_used fs _ hp
        rcases add_extent_cases inode (bs + i)
          (xfs_alloc_blocks fs (((bs + i) % NUM_AGS : Nat) : Int) 1).1 1
          with ⟨_, he⟩ | ⟨hlt, he⟩
        · rw [he]
          exact hfail _
        · rw [he]
          simp only []
          obtain ⟨hi1, hi2, hi3, hi4⟩ := add_extent_inv inode (bs + i)
            (xfs_alloc_blocks fs (((bs + i) % NUM_AGS : Nat) : Int) 1).1 hinv hlt hf
            (by omega) hP1 hP2
          obtain ⟨h1, h2, ⟨added, h3⟩, h4⟩ := ih (i + 1)
            (xfs_alloc_blocks fs (((bs + i) % NUM_AGS : Nat) : Int) 1).2 _ hi1 (by omega)
          refine ⟨h1, h2.trans hi2, ?_, ?_⟩
          · exact ⟨_, by rw [h3, hi3, List.append_assoc]⟩
          · intro hst k hk
            cases k with
            | zero => exact ⟨_, find_extent_append h3 hi4⟩
            | succ k =>
              have := h4 hst k (by omega)
              rwa [show bs + (i + 1) + k = bs + i + (k + 1) by omega] at this

/-- The mapping loop calls the allocator for no block that is already mapped: when every
logical block of the range is covered, the loop changes neither the inode nor the
state. -/
theorem write_map_loop_covered (bs n i : Nat) (fs : FS) (inode : xfs_inode_t)
    (hcov : ∀ k, k < n →
      find_extent_for_offset inode ((bs + (i + k)) % 18446744073709551616) ≠ none) :
    write_map_loop bs n i fs inode = (0, inode, fs) := by
  induction n generalizing i with
  | zero => rfl
  | succ n ih =>
    simp only [write_map_loop]
    cases hf : find_extent_for_offset inode ((bs + i) % 18446744073709551616) with
    | none => exact absurd hf (hcov 0 (by omega))
    | some e =>
      simp only []
      apply ih
      intro k hk
      have := hcov (k + 1) (by omega)
      rwa [show bs + (i + (k + 1)) = bs + (i + 1 + k) by omega] at this

/-! ## `xfs_sim_write` on any inode -/

/-- What any returning call of `xfs_sim_write` with valid C arguments leaves behind: the
extent array and count are those of the mapping loop, `di_size` is the old one or
`offset + size`, and the device is that of the mapping loop, or of the data loop when
the mapping loop ran to its end. -/
theorem xfs_sim_write_shape (fs : FS) (inode : xfs_inode_t) (buffer : List Nat)
    (size offset : Nat) (res : Int × xfs_inode_t × FS)
    (hoff : offset < 9223372036854775808) (hsz : size < 9223372036854775808)
    (hres : xfs_sim_write fs inode buffer size offset = some res) :
    (size = 0 ∧ res = (-1, inode, fs)) ∨
    (1 ≤ size ∧
      res.2.1.extents = (write_map_loop (offset / 4096)
        ((offset + size - 1) / 4096 - offset / 4096 + 1) 0 fs inode).2.1.extents ∧
      res.2.1.extent_count = (write_map_loop (offset / 4096)
        ((offset + size - 1) / 4096 - offset / 4096 + 1) 0 fs inode).2.1.extent_count ∧
      (res.2.2.disk = (write_map_loop (offset / 4096)
          ((offset + size - 1) / 4096 - offset / 4096 + 1) 0 fs inode).2.2.disk ∨
        res.2.2.disk = (write_data_loop (write_map_loop (offset / 4096)
          ((offset + size - 1) / 4096 - offset / 4096 + 1) 0 fs inode).2.1
          buffer size offset size 0 (write_map_loop (offset / 4096)
          ((offset + size - 1) / 4096 - offset / 4096 + 1) 0 fs inode).2.2.disk).2.2)) := by
  by_cases h0 : size = 0
  · left
    refine ⟨h0, ?_⟩
    simp only [xfs_sim_write, if_pos h0, Option.some.injEq] at hres
    exact hres.symm
  · right
    refine ⟨by omega, ?_⟩
    have hmod : (offset + size - 1) % 18446744073709551616 = offset + size - 1 :=
      Nat.mod_eq_of_lt (by omega)
    have hmod2 : (offset + size) % 18446744073709551616 = offset + size :=
      Nat.mod_eq_of_lt (by omega)
    have hle : offset / 4096 ≤ (offset + size - 1) / 4096 :=
      Nat.div_le_div_right (by omega)
    have hnum : to_u64 ((((offset + size - 1) / 4096 : Nat) : Int)
        - ((offset / 4096 : Nat) : Int) + 1)
        = (offset + size - 1) / 4096 - offset / 4096 + 1 := by
      unfold to_u64; omega
    simp only [xfs_sim_write, XFS_BLOCK_SIZE, hmod, hmod2, hnum] at hres
    rw [if_neg h0] at hres
    split at hres
    · rename_i inode1 fs1 hmap
      rw [hmap]
      split at hres
      · cases hres
      · rename_i j hbar
        split at hres
        · rename_i bw d hdata
          simp only [Option.some.injEq] at hres
          rw [← hres, hdata]
          exact ⟨rfl, rfl, Or.inr rfl⟩
        · rename_i x1 x2 d hne hdata
          simp only [Option.some.injEq] at hres
          rw [← hres, hdata]
          exact ⟨rfl, rfl, Or.inr rfl⟩
      · simp only [Option.some.injEq] at hres
        rw [← hres]
        exact ⟨rfl, rfl, Or.inl rfl⟩
    · rename_i x inode1 fs1 hne hmap
      rw [hmap]
      simp only [Option.some.injEq] at hres
      rw [← hres]
      exact ⟨rfl, rfl, Or.inl rfl⟩

theorem inode_inv_congr {a b : xfs_inode_t} (h1 : a.extents = b.extents)
    (h2 : a.extent_count = b.extent_count) (hb : inode_inv b) : inode_inv a := by
  have hs : stored_extents a = stored_extents b := by
    simp only [stored_extents, h1, h2]
  unfold inode_inv extents_from_allocator at hb ⊢
  rw [h1, h2, hs]
  exact hb

theorem valid_blocks_bound (size offset : Nat) (hoff : offset < 9223372036854775808)
    (hsz : size < 9223372036854775808) :
    offset / 4096 + 0 + ((offset + size - 1) / 4096 - offset / 4096 + 1)
      < 18446744073709551616 := by
  omega

/-- Every returning call of `xfs_sim_write` with valid C arguments keeps the inode in
the state `inode_inv`. -/
theorem xfs_sim_write_inv (fs : FS) (inode : xfs_inode_t) (buffer : List Nat)
    (size offset : Nat) (res : Int × xfs_inode_t × FS)
    (hoff : offset < 9223372036854775808) (hsz : size < 9223372036854775808)
    (hinv : inode_inv inode)
    (hres : xfs_sim_write fs inode buffer size offset = some res) :
    inode_inv res.2.1 := by
  rcases xfs_sim_write_shape fs inode buffer size offset res hoff hsz hres
    with ⟨_, h⟩ | ⟨_, h1, h2, _⟩
  · rw [h]; exact hinv
  · exact inode_inv_congr h1 h2
      (write_map_loop_inv _ _ 0 fs inode hinv (valid_blocks_bound size offset hoff hsz)).1

/-- Every returning call of `xfs_sim_write` on an inode in the state `inode_inv`, with
valid C arguments, preserves every `op_stable` property of the device. -/
theorem xfs_sim_write_stable {Q : Option Disk → Prop} (hQ : op_stable Q) (fs : FS)
    (inode : xfs_inode_t) (buffer : List Nat) (size offset : Nat)
    (res : Int × xfs_inode_t × FS)
    (hoff : offset < 9223372036854775808) (hsz : size < 9223372036854775808)
    (hinv : inode_inv inode)
    (hres : xfs_sim_write fs inode buffer size offset = some res) (h : Q fs.disk) :
    Q res.2.2.disk := by
  rcases xfs_sim_write_shape fs inode buffer size offset res hoff hsz hres
    with ⟨_, h1⟩ | ⟨_, _, _, h1 | h1⟩
  · rw [h1]; exact h
  · rw [h1]; exact write_map_loop_stable hQ _ _ _ _ _ h
  · rw [h1]
    exact write_data_loop_stable hQ _
      (write_map_loop_inv _ _ 0 fs inode hinv
        (valid_blocks_bound size offset hoff hsz)).1.2.2.2.1 _ _ _ _ _ _
      (write_map_loop_stable hQ _ _ _ _ _ h)

theorem run_ops_stable {Q : Option Disk → Prop} (hQ : op_stable Q) (ops : List FsOp)
    (fs fs1 : FS) (hok : ∀ op ∈ ops, op_ok op) (hrun : run_ops fs ops = some fs1)
    (h : Q fs.disk) : Q fs1.disk := by
  induction ops generalizing fs with
  | nil =>
    simp only [run_ops, Option.some.injEq] at hrun
    rw [← hrun]; exact h
  | cons op ops ih =>
    simp only [run_ops] at hrun
    cases hop : run_op fs op with
    | none => rw [hop] at hrun; cases hrun
    | some fs2 =>
      rw [hop] at hrun
      simp only [] at hrun
      apply ih fs2 (fun o ho => hok o (List.mem_cons_of_mem _ ho)) hrun
      have hk := hok op (List.mem_cons_self _ _)
      cases op with
      | call c =>
        simp only [run_op, Option.some.injEq] at hop
        rw [← hop]
        exact run_call_stable hQ fs c h
      | write inode buffer size offset =>
        simp only [run_op, Option.map_eq_some'] at hop
        obtain ⟨res, hres, hfs⟩ := hop
        rw [← hfs]
        exact xfs_sim_write_stable hQ fs inode buffer size offset res hk.2.1 hk.2.2 hk.1
          hres h

/-! ## The extent list under writes -/

theorem find_extent_of_covers {inode : xfs_inode_t} (hx : extents_from_allocator inode)
    {L : Nat} (h : ∃ e ∈ stored_extents inode, covers e L) :
    find_extent_for_offset inode L ≠ none := by
  obtain ⟨e, he, hc⟩ := h
  have hc1 : e.start_off ≤ L ∧ L < e.start_off + e.block_count := hc
  intro hn
  rw [find_extent_eq, List.find?_eq_none] at hn
  have := hn e he
  obtain ⟨hb1, _, _, hb4⟩ := hx e he
  simp only [decide_eq_true_eq, not_and, not_lt, hb1] at this
  rw [Nat.mod_eq_of_lt hb4] at this
  rw [hb1] at hc1
  omega

/-- Claim C14 (already-mapped blocks are skipped): when every logical block of
`[offset/4096, (offset+size-1)/4096]` is covered by an extent of the inode (extents as
`xfs_sim_write` creates them), the mapping loop of `xfs_sim_write` runs to its end
without a call of the allocator (inode and state are returned as they were), and after
the call the extent array, `extent_count` and the AGF of every AG are the same as
before. -/
theorem C14_mapped_blocks_skipped (fs : FS) (inode : xfs_inode_t) (buffer : List Nat)
    (size offset : Nat) (res : Int × xfs_inode_t × FS)
    (hsize : 1 ≤ size) (hoff : offset < 9223372036854775808)
    (hsz : size < 9223372036854775808)
    (hx : extents_from_allocator inode)
    (hcov : ∀ L, offset / 4096 ≤ L → L ≤ (offset + size - 1) / 4096 →
      ∃ e ∈ stored_extents inode, covers e L)
    (hres : xfs_sim_write fs inode buffer size offset = some res) :
    write_map_loop (offset / 4096) ((offset + size - 1) / 4096 - offset / 4096 + 1) 0
      fs inode = (0, inode, fs) ∧
    res.2.1.extents = inode.extents ∧ res.2.1.extent_count = inode.extent_count ∧
    ∀ ag, valid_ag ag → read_agf res.2.2.disk ag = read_agf fs.disk ag := by
  have hle : offset / 4096 ≤ (offset + size - 1) / 4096 :=
    Nat.div_le_div_right (by omega)
  have hmap : write_map_loop (offset / 4096)
      ((offset + size - 1) / 4096 - offset / 4096 + 1) 0 fs inode = (0, inode, fs) := by
    apply write_map_loop_covered
    intro k hk
    rw [Nat.mod_eq_of_lt (by omega)]
    exact find_extent_of_covers hx (hcov _ (by omega) (by omega))
  refine ⟨hmap, ?_⟩
  rcases xfs_sim_write_shape fs inode buffer size offset res hoff hsz hres
    with ⟨h0, _⟩ | ⟨_, h1, h2, h3⟩
  · omega
  · rw [hmap] at h1 h2 h3
    refine ⟨h1, h2, ?_⟩
    intro ag hv
    rcases h3 with h3 | h3
    · rw [h3]
    · rw [h3]
      exact write_data_loop_agf inode hx buffer size offset size 0 fs.disk ag hv

theorem sample_write_again :
    ∃ r1, xfs_sim_write mounted_fs created_inode [1, 2, 3] 3 0 = some r1 ∧
      stored_extents r1.2.1 = [⟨0, 2, 1⟩] ∧
      (xfs_sim_write r1.2.2 r1.2.1 [4, 5] 2 100).isSome = true := by
  decide!

theorem C14_mapped_blocks_skipped_witness :
    ∃ r1 res, xfs_sim_write mounted_fs created_inode [1, 2, 3] 3 0 = some r1 ∧
      xfs_sim_write r1.2.2 r1.2.1 [4, 5] 2 100 = some res ∧
      write_map_loop (100 / 4096) ((100 + 2 - 1) / 4096 - 100 / 4096 + 1) 0
        r1.2.2 r1.2.1 = (0, r1.2.1, r1.2.2) ∧
      res.2.1.extents = r1.2.1.extents ∧ res.2.1.extent_count = r1.2.1.extent_count ∧
      ∀ ag, valid_ag ag → read_agf res.2.2.disk ag = read_agf r1.2.2.disk ag := by
  obtain ⟨r1, h1, hst, hsome⟩ := sample_write_again
  obtain ⟨res, hres⟩ := Option.isSome_iff_exists.mp hsome
  have hx : extents_from_allocator r1.2.1 := by
    intro e he
    rw [hst, List.mem_singleton] at he
    subst he
    decide
  exact ⟨r1, res, h1, hres,
    C14_mapped_blocks_skipped r1.2.2 r1.2.1 [4, 5] 2 100 res (by decide) (by decide)
      (by decide) hx
      (by
        intro L hL1 hL2
        refine ⟨⟨0, 2, 1⟩, by rw [hst]; exact List.mem_singleton_self _, ?_⟩
        have hL : L = 0 := by omega
        subst hL
        decide)
      hres⟩

theorem initialize_inodes_wf (t : InodeTable) (ht : table_wf t) :
    table_wf (initialize_inodes t) := by
  unfold initialize_inodes
  split
  · exact ht
  · refine ⟨by simp only [List.length_map]; exact ht.1, ?_⟩
    intro ino hino
    simp only [List.mem_map] at hino
    obtain ⟨a, ha, rfl⟩ := hino
    exact ht.2 a ha

/-- The inode `xfs_create_named_file` hands out has no extents and a 16-slot array. -/
theorem created_inode_inv (t : InodeTable) (filename : Option String) (ht : table_wf t)
    (h0 : 0 ≤ (xfs_create_named_file t filename).1)
    (h100 : (xfs_create_named_file t filename).1 < 100) :
    inode_inv ((xfs_create_named_file t filename).2.inodes.getD
      (xfs_create_named_file t filename).1.toNat zero_inode) := by
  obtain ⟨hl, hx⟩ := initialize_inodes_wf t ht
  simp only [xfs_create_named_file] at h0 h100 ⊢
  have hn : ((initialize_inodes t).max_inode_num + 1).toNat < (initialize_inodes t).inodes.length := by
    omega
  rw [List.getD_eq_getElem?_getD, List.getElem?_set_eq_of_lt _ hn]
  simp only [Option.getD_some]
  have hmem : (initialize_inodes t).inodes.getD ((initialize_inodes t).max_inode_num + 1).toNat
      zero_inode ∈ (initialize_inodes t).inodes := by
    rw [List.getD_eq_getElem _ _ hn]
    exact List.getElem_mem _
  refine ⟨by simp, by simp, hx ((initialize_inodes t).inodes.getD
    ((initialize_inodes t).max_inode_num + 1).toNat zero_inode) hmem, ?_, ?_⟩
  · intro e he
    simp [stored_extents] at he
  · simp [stored_extents]

theorem write_calls_inv (calls : List WriteCall) (inode inode1 : xfs_inode_t)
    (hvalid : write_calls_valid calls) (hinv : inode_inv inode)
    (hrun : write_calls inode calls = some inode1) : inode_inv inode1 := by
  induction calls generalizing inode with
  | nil =>
    simp only [write_calls, Option.some.injEq] at hrun
    rw [← hrun]; exact hinv
  | cons c cs ih =>
    simp only [write_calls] at hrun
    cases hw : xfs_sim_write c.fs inode c.buffer c.size c.offset with
    | none => rw [hw] at hrun; cases hrun
    | some r =>
      rw [hw] at hrun
      simp only [] at hrun
      have hc := hvalid c (List.mem_cons_self _ _)
      exact ih r.2.1 (fun x hx => hvalid x (List.mem_cons_of_mem _ hx))
        (xfs_sim_write_inv c.fs inode c.buffer c.size c.offset r hc.1 hc.2 hinv hw) hrun

theorem inode_inv_disjoint {inode : xfs_inode_t} (hinv : inode_inv inode) :
    (∀ e ∈ stored_extents inode, 1 ≤ e.block_count) ∧
    (stored_extents inode).Pairwise (fun e1 e2 => ∀ L, ¬ (covers e1 L ∧ covers e2 L)) := by
  obtain ⟨_, _, _, hx, hnd⟩ := hinv
  refine ⟨fun e he => by rw [(hx e he).1], ?_⟩
  have hp := List.Pairwise.and_mem.mp (List.pairwise_map.mp hnd)
  refine hp.imp ?_
  rintro a b ⟨ha, hb, hne⟩ L ⟨hc1, hc2⟩
  have hc1' : a.start_off ≤ L ∧ L < a.start_off + a.block_count := hc1
  have hc2' : b.start_off ≤ L ∧ L < b.start_off + b.block_count := hc2
  rw [(hx a ha).1] at hc1'
  rw [(hx b hb).1] at hc2'
  omega

theorem sample_write_calls :
    (write_calls ((xfs_create_named_file initial_inode_table none).2.inodes.getD
      (xfs_create_named_file initial_inode_table none).1.toNat zero_inode)
      [⟨mounted_fs, [1, 2, 3], 3, 0⟩, ⟨boot_fs, [9], 1, 8192⟩]).isSome = true := by
  decide!

/-- When the data loop of `xfs_sim_write` runs to its end, `bytes_written` is `size`. -/
theorem write_data_loop_result (inode : xfs_inode_t) (buffer : List Nat) (size offset : Nat)
    (fuel bw : Nat) (d : Option Disk) (hbw : bw ≤ size) (hfuel : size - bw ≤ fuel)
    (hst : (write_data_loop inode buffer size offset fuel bw d).1 = 0) :
    (write_data_loop inode buffer size offset fuel bw d).2.1 = size := by
  induction fuel generalizing bw d with
  | zero =>
    simp only [write_data_loop]
    omega
  | succ fuel ih =>
    simp only [write_data_loop] at hst ⊢
    by_cases hlt : bw < size
    · rw [if_pos hlt] at hst ⊢
      cases hf : find_extent_for_offset inode
          ((offset + bw) % 18446744073709551616 / XFS_BLOCK_SIZE) with
      | none =>
        rw [hf] at hst
        simp at hst
      | some e =>
        rw [hf] at hst
        simp only [] at hst ⊢
        generalize hlen : (if XFS_BLOCK_SIZE - (offset + bw) % 18446744073709551616 %
          XFS_BLOCK_SIZE > size - bw then size - bw
          else XFS_BLOCK_SIZE - (offset + bw) % 18446744073709551616 % XFS_BLOCK_SIZE)
          = len at hst ⊢
        have hoib : (offset + bw) % 18446744073709551616 % XFS_BLOCK_SIZE < 4096 :=
          Nat.mod_lt _ (by decide)
        have hlen1 : 1 ≤ len ∧ len ≤ size - bw := by
          rw [← hlen]; simp only [XFS_BLOCK_SIZE] at hoib ⊢; split <;> omega
        generalize (((e.start_block + ((offset + bw) % 18446744073709551616 / XFS_BLOCK_SIZE
          - e.start_off)) % 18446744073709551616 * XFS_BLOCK_SIZE) % 18446744073709551616
          + (offset + bw) % 18446744073709551616 % XFS_BLOCK_SIZE) % 18446744073709551616
          = addr at hst ⊢
        rcases disk_write_status d addr len (buffer.drop bw) with ⟨hw, _⟩ | hw
        · have ew : disk_write d addr (buffer.drop bw) len
              = (0, (disk_write d addr (buffer.drop bw) len).2) := Prod.ext hw rfl
          rw [ew] at hst ⊢
          simp only [] at hst ⊢
          exact ih _ _ (by omega) (by omega) hst
        · rw [hw] at hst
          simp at hst
    · rw [if_neg hlt]
      simp only []
      omega

/-- An inode in the state `inode_inv` maps at most 16 logical blocks. -/
theorem mapped_blocks_le (inode : xfs_inode_t) (hinv : inode_inv inode) (bs n : Nat)
    (hmap : ∀ k, k < n → ∃ e, find_extent_for_offset inode (bs + k) = some e) : n ≤ 16 := by
  obtain ⟨h0, h16, hlen, hx, _⟩ := hinv
  have hsub : List.range' bs n ⊆ (stored_extents inode).map (fun e => e.start_off) := by
    intro L hL
    rw [List.mem_range'_1] at hL
    obtain ⟨e, he⟩ := hmap (L - bs) (by omega)
    rw [show bs + (L - bs) = L by omega] at he
    obtain ⟨hm, h1, h2⟩ := find_extent_some he
    obtain ⟨hb1, _, _, hb4⟩ := hx e hm
    rw [hb1, Nat.mod_eq_of_lt hb4] at h2
    exact List.mem_map.mpr ⟨e, hm, by omega⟩
  have hle := (List.subperm_of_subset (List.nodup_range' bs n) hsub).length_le
  rw [List.length_range', List.length_map] at hle
  have : (stored_extents inode).length ≤ inode.extent_count.toNat := by
    simp only [stored_extents, List.length_take]
    omega
  omega

/-- The mapping loop of `xfs_sim_write` never touches `di_size`. -/
theorem write_map_loop_di_size (bs n i : Nat) (fs : FS) (inode : xfs_inode_t) :
    (write_map_loop bs n i fs inode).2.1.di_size = inode.di_size := by
  induction n generalizing i fs inode with
  | zero => rfl
  | succ n ih =>
    simp only [write_map_loop]
    cases hf : find_extent_for_offset inode ((bs + i) % 18446744073709551616) with
    | some e => exact ih _ _ _
    | none =>
      simp only []
      by_cases hp : (xfs_alloc_blocks fs
        (((bs + i) % 18446744073709551616 % NUM_AGS : Nat) : Int) 1).1 = 0
      · rw [if_pos hp]
      · rw [if_neg hp]
        rcases add_extent_cases inode ((bs + i) % 18446744073709551616)
          (xfs_alloc_blocks fs
            (((bs + i) % 18446744073709551616 % NUM_AGS : Nat) : Int) 1).1 1
          with ⟨_, he⟩ | ⟨hlt, he⟩
        · rw [he]
          rfl
        · rw [he]
          simp only []
          rw [ih]
          simp only [add_extent_to_inode, if_neg (not_le.mpr hlt)]

/-- Claim C12 (write result): every successful `xfs_sim_write(inode, buf, size, offset)`
(valid C arguments, a non-negative result) returns `size` and leaves
`di_size = max(old di_size, offset + size)`; a write that lies entirely below the old
size does not change `di_size`.  This holds on every inode in the state `xfs_sim_write`
keeps inodes in, and on any inode at all when `size < 2^31`. -/
theorem C12_write_result (fs : FS) (inode : xfs_inode_t) (buffer : List Nat)
    (size offset : Nat) (res : Int × xfs_inode_t × FS)
    (hsize : 1 ≤ size) (hoff : offset < 9223372036854775808)
    (hsz : size < 9223372036854775808)
    (hinv : inode_inv inode ∨ size < 2147483648)
    (hres : xfs_sim_write fs inode buffer size offset = some res) (hok : 0 ≤ res.1) :
    res.1 = (size : Int) ∧ res.2.1.di_size = max inode.di_size (offset + size) ∧
    (offset + size ≤ inode.di_size → res.2.1.di_size = inode.di_size) := by
  obtain ⟨inode1, fs1, j, bw, d, hmap, _, hdata, hr⟩ :=
    xfs_sim_write_success fs inode buffer size offset res hsize hoff hsz hres hok
  have hi2 : inode1.di_size = inode.di_size := by
    have := write_map_loop_di_size (offset / 4096)
      ((offset + size - 1) / 4096 - offset / 4096 + 1) 0 fs inode
    rw [hmap] at this
    exact this
  have hsmall : size < 2147483648 := by
    rcases hinv with hinv | hlt
    · obtain ⟨hi1, _, _, hi4⟩ := write_map_loop_inv (offset / 4096)
        ((offset + size - 1) / 4096 - offset / 4096 + 1) 0 fs inode hinv
        (valid_blocks_bound size offset hoff hsz)
      rw [hmap] at hi1 hi4
      simp only [] at hi1 hi4
      have hn := mapped_blocks_le inode1 hi1 (offset / 4096 + 0) _ (hi4 trivial)
      have hle : offset / 4096 ≤ (offset + size - 1) / 4096 :=
        Nat.div_le_div_right (by omega)
      omega
    · exact hlt
  have hbw : bw = size := by
    have := write_data_loop_result inode1 buffer size offset size 0 fs1.disk
      (by omega) (by omega) (by rw [hdata])
    rw [hdata] at this
    exact this
  rw [hr, hbw]
  refine ⟨to_int_small size hsmall, ?_, ?_⟩
  · simp only [hi2]
    split <;> omega
  · intro hbelow
    simp only [hi2]
    rw [if_neg (by omega)]

theorem created_inode_wf : inode_inv created_inode := by
  decide!

theorem C12_write_result_witness :
    ∃ res, xfs_sim_write mounted_fs created_inode [101, 110, 100] 3 (5 * 4096) = some res ∧
      res.1 = ((3 : Nat) : Int) ∧ res.2.1.di_size = max created_inode.di_size (5 * 4096 + 3) ∧
      (5 * 4096 + 3 ≤ created_inode.di_size → res.2.1.di_size = created_inode.di_size) := by
  obtain ⟨res, hres⟩ := Option.isSome_iff_exists.mp created_write_end.1
  have hret : res.1 = 3 := by
    have h := created_write_end.2
    rw [hres] at h
    simpa using h
  exact ⟨res, hres,
    C12_write_result mounted_fs created_inode [101, 110, 100] 3 (5 * 4096) res (by decide)
      (by decide) (by decide) (Or.inl created_inode_wf) hres (by rw [hret]; decide)⟩

/-! ## The length of a read -/

theorem buf_store_spec (buffer : List Nat) (br : Nat) (chunk : List Nat) (n : Nat)
    (h1 : br + chunk.length ≤ n) (h2 : n ≤ buffer.length) :
    (buf_store buffer br chunk).length = buffer.length ∧
    (buf_store buffer br chunk).take (br + chunk.length) = buffer.take br ++ chunk ∧
    (buf_store buffer br chunk).drop n = buffer.drop n := by
  have hl : (buffer.take br ++ chunk).length = br + chunk.length := by
    rw [List.length_append, List.length_take, Nat.min_eq_left (by omega)]
  refine ⟨?_, ?_, ?_⟩
  · simp only [buf_store, List.length_append, List.length_take, List.length_drop]
    omega
  · unfold buf_store
    rw [List.take_append_of_le_length (by omega), List.take_of_length_le (by omega)]
  · unfold buf_store
    have hn : n = (buffer.take br ++ chunk).length + (n - (br + chunk.length)) := by omega
    conv_lhs => rw [hn, List.drop_append]
    rw [List.drop_drop]
    congr 1
    omega

/-- The loop of `xfs_sim_read` on an inode whose extents come from the allocator, on a
device that holds the blocks of the slots 2..2398: it runs to its end, delivers
`size_to_read` bytes that do not depend on what the buffer held, and leaves the rest of
the buffer alone. -/
theorem read_loop_general (d : Option Disk) (dk : Disk) (inode : xfs_inode_t)
    (n offset : Nat) (hx : extents_from_allocator inode) (hd : d = some dk)
    (hdk : 9826304 ≤ dk.size) (hw : offset + n < 18446744073709551616)
    (fuel br : Nat) (hbr : br ≤ n) (hfuel : n - br ≤ fuel) :
    ∃ data : List Nat, data.length = n - br ∧
      ∀ buffer : List Nat, n ≤ buffer.length →
        read_loop d inode n offset fuel br buffer
          = (0, n, buffer.take br ++ data ++ buffer.drop n) := by
  induction fuel generalizing br with
  | zero =>
    have hbn : br = n := by omega
    subst hbn
    refine ⟨[], by simp, ?_⟩
    intro buffer _
    simp only [read_loop, List.append_nil, List.take_append_drop]
  | succ fuel ih =>
    by_cases hlt : br < n
    · have hmod : (offset + br) % 18446744073709551616 = offset + br :=
        Nat.mod_eq_of_lt (by omega)
      have hoib : (offset + br) % XFS_BLOCK_SIZE < 4096 := Nat.mod_lt _ (by decide)
      simp only [read_loop, if_pos hlt, hmod]
      generalize hlen : (if XFS_BLOCK_SIZE - (offset + br) % XFS_BLOCK_SIZE > n - br
        then n - br else XFS_BLOCK_SIZE - (offset + br) % XFS_BLOCK_SIZE) = len
      have hlen1 : 1 ≤ len ∧ len ≤ n - br ∧ len ≤ 4096 - (offset + br) % XFS_BLOCK_SIZE := by
        rw [← hlen]; simp only [XFS_BLOCK_SIZE] at hoib ⊢; split <;> omega
      obtain ⟨data1, hd1, hrest⟩ := ih (br + len) (by omega) (by omega)
      have hcomb : ∀ (chunk buffer : List Nat), chunk.length = len → n ≤ buffer.length →
          read_loop d inode n offset fuel (br + len) (buf_store buffer br chunk)
            = (0, n, buffer.take br ++ (chunk ++ data1) ++ buffer.drop n) := by
        intro chunk buffer hcl hbl
        obtain ⟨hs1, hs2, hs3⟩ := buf_store_spec buffer br chunk n (by omega) hbl
        rw [hrest _ (by omega), ← hcl, hs2, hs3, List.append_assoc (buffer.take br)]
      cases hf : find_extent_for_offset inode ((offset + br) / XFS_BLOCK_SIZE) with
      | none =>
        simp only []
        refine ⟨List.replicate len 0 ++ data1, ?_, ?_⟩
        · rw [List.length_append, List.length_replicate, hd1]; omega
        · intro buffer hbl
          exact hcomb _ buffer (List.length_replicate _ _) hbl
      | some e =>
        simp only []
        obtain ⟨_, haddr, hp1, hp2⟩ := data_address hx hf
          ((offset + br) % XFS_BLOCK_SIZE) hoib
        rw [haddr]
        generalize (offset + br) % XFS_BLOCK_SIZE = oib at *
        have hb : (e.start_block * 4096 + oib + len) % 18446744073709551616 ≤ dk.size := by
          rw [Nat.mod_eq_of_lt (by omega)]
          omega
        rw [hd, disk_read_of_bounds dk (e.start_block * 4096 + oib) len hb]
        simp only []
        refine ⟨(List.range len).map (fun k => dk.mem (e.start_block * 4096 + oib + k))
          ++ data1, ?_, ?_⟩
        · rw [List.length_append, List.length_map, List.length_range, hd1]; omega
        · intro buffer hbl
          rw [← hd]
          exact hcomb _ buffer (by rw [List.length_map, List.length_range]) hbl
    · have hbn : br = n := by omega
      subst hbn
      refine ⟨[], by simp, ?_⟩
      intro buffer _
      simp only [read_loop, if_neg hlt, List.append_nil, List.take_append_drop]

/-- What `xfs_sim_read` returns for `offset < di_size` on an inode whose extents come from
the allocator, on a device that holds the blocks of the slots 2..2398. -/
theorem xfs_sim_read_general (d : Option Disk) (dk : Disk) (inode : xfs_inode_t)
    (size offset : Nat) (hx : extents_from_allocator inode) (hd : d = some dk)
    (hdk : 9826304 ≤ dk.size) (hsize : 1 ≤ size)
    (hoff : offset < 9223372036854775808) (hsz : size < 9223372036854775808)
    (hlt : offset < inode.di_size) :
    ∃ data : List Nat, data.length = min size (inode.di_size - offset) ∧
      ∀ buffer : List Nat, size ≤ buffer.length →
        xfs_sim_read d inode buffer size offset
          = (to_int (min size (inode.di_size - offset)),
             data ++ buffer.drop (min size (inode.di_size - offset))) := by
  have hmod : (offset + size) % 18446744073709551616 = offset + size :=
    Nat.mod_eq_of_lt (by omega)
  have hn : (if offset + size > inode.di_size then inode.di_size - offset else size)
      = min size (inode.di_size - offset) := by
    split <;> omega
  obtain ⟨data, hdl, hrd⟩ := read_loop_general d dk inode
    (min size (inode.di_size - offset)) offset hx hd hdk (by omega)
    (min size (inode.di_size - offset)) 0 (by omega) (by omega)
  refine ⟨data, by omega, ?_⟩
  intro buffer hbl
  simp only [xfs_sim_read, hmod, hn]
  rw [if_neg (by omega), if_neg (by omega), hrd buffer (by omega)]
  simp only [List.take_zero, List.nil_append]

theorem op_stable_size (s : Nat) : op_stable (fun d => d.map Disk.size = some s) := by
  refine ⟨?_, ?_⟩
  · intro d ag agf agf1 h _ _ _ _ _
    rw [disk_write_size]; exact h
  · intro d off len buf h _ _
    rw [disk_write_size]; exact h

theorem append_take_drop (data rest : List Nat) (n : Nat) (h : data.length = n) :
    (data ++ rest).take n = data ∧ (data ++ rest).drop n = rest := by
  subst h
  simp

/-- Claim C11 (read length), for results that fit an `int`: on an inode whose extents
were created by `xfs_sim_write` (single blocks in the slots 2..2398), on an initialised
device that holds the blocks of these slots (as every formatted device does), for every
`offset >= 0` and every `size >= 1` with `min(size, di_size - offset) < 2^31`,
`xfs_sim_read` returns 0 and leaves the buffer alone when `offset >= di_size`; otherwise
it returns `min(size, di_size - offset)`, the bytes it delivers into the first that many
positions do not depend on what the buffer held, and the rest of the buffer is
unchanged.  Inode and device are arguments the function only reads. -/
theorem C11_read_length (d : Option Disk) (dk : Disk) (inode : xfs_inode_t)
    (buffer : List Nat) (size offset : Nat)
    (hx : extents_from_allocator inode) (hd : d = some dk) (hdk : 9826304 ≤ dk.size)
    (hsize : 1 ≤ size) (hoff : offset < 9223372036854775808)
    (hsz : size < 9223372036854775808) (hbuf : size ≤ buffer.length)
    (hint : min size (inode.di_size - offset) < 2147483648) :
    (inode.di_size ≤ offset → xfs_sim_read d inode buffer size offset = (0, buffer)) ∧
    (offset < inode.di_size →
      (xfs_sim_read d inode buffer size offset).1
        = ((min size (inode.di_size - offset) : Nat) : Int) ∧
      (xfs_sim_read d inode buffer size offset).2.length = buffer.length ∧
      (xfs_sim_read d inode buffer size offset).2.drop (min size (inode.di_size - offset))
        = buffer.drop (min size (inode.di_size - offset)) ∧
      ∀ buffer2 : List Nat, size ≤ buffer2.length →
        (xfs_sim_read d inode buffer2 size offset).2.take (min size (inode.di_size - offset))
          = (xfs_sim_read d inode buffer size offset).2.take
              (min size (inode.di_size - offset))) := by
  refine ⟨?_, ?_⟩
  · intro hge
    simp only [xfs_sim_read]
    rw [if_neg (by omega), if_pos hge]
  · intro hlt
    obtain ⟨data, hdl, hrd⟩ := xfs_sim_read_general d dk inode size offset hx hd hdk hsize
      hoff hsz hlt
    rw [hrd buffer hbuf]
    obtain ⟨ht, hdr⟩ := append_take_drop data
      (buffer.drop (min size (inode.di_size - offset))) _ hdl
    refine ⟨to_int_small _ hint, ?_, hdr, ?_⟩
    · simp only [List.length_append, List.length_drop, hdl]
      omega
    · intro buffer2 hb2
      rw [hrd buffer2 hb2, ht]
      exact (append_take_drop data _ _ hdl).1

theorem C11_read_length_witness :
    (({ full_inode with di_size := 5000 } : xfs_inode_t).di_size ≤ 4096 →
      xfs_sim_read (some ⟨9826304, fun _ => 0⟩) { full_inode with di_size := 5000 }
        (List.replicate 2000 9) 2000 4096 = (0, List.replicate 2000 9)) ∧
    (4096 < ({ full_inode with di_size := 5000 } : xfs_inode_t).di_size →
      (xfs_sim_read (some ⟨9826304, fun _ => 0⟩) { full_inode with di_size := 5000 }
        (List.replicate 2000 9) 2000 4096).1
        = ((min 2000 (({ full_inode with di_size := 5000 } : xfs_inode_t).di_size - 4096)
            : Nat) : Int) ∧
      (xfs_sim_read (some ⟨9826304, fun _ => 0⟩) { full_inode with di_size := 5000 }
        (List.replicate 2000 9) 2000 4096).2.length = (List.replicate 2000 9).length ∧
      (xfs_sim_read (some ⟨9826304, fun _ => 0⟩) { full_inode with di_size := 5000 }
        (List.replicate 2000 9) 2000 4096).2.drop
          (min 2000 (({ full_inode with di_size := 5000 } : xfs_inode_t).di_size - 4096))
        = (List.replicate 2000 9).drop
          (min 2000 (({ full_inode with di_size := 5000 } : xfs_inode_t).di_size - 4096)) ∧
      ∀ buffer2 : List Nat, 2000 ≤ buffer2.length →
        (xfs_sim_read (some ⟨9826304, fun _ => 0⟩) { full_inode with di_size := 5000 }
          buffer2 2000 4096).2.take
            (min 2000 (({ full_inode with di_size := 5000 } : xfs_inode_t).di_size - 4096))
          = (xfs_sim_read (some ⟨9826304, fun _ => 0⟩) { full_inode with di_size := 5000 }
              (List.replicate 2000 9) 2000 4096).2.take
              (min 2000 (({ full_inode with di_size := 5000 } : xfs_inode_t).di_size
                - 4096))) :=
  C11_read_length (some ⟨9826304, fun _ => 0⟩) ⟨9826304, fun _ => 0⟩
    { full_inode with di_size := 5000 } (List.replicate 2000 9) 2000 4096
    (by decide) rfl (by decide) (by decide) (by decide) (by decide)
    (by rw [List.length_replicate]) (by decide)

theorem created_write_4g :
    (xfs_sim_write mounted_fs created_inode [7] 1 (1048576 * 4096)).isSome = true ∧
    (xfs_sim_write mounted_fs created_inode [7] 1 (1048576 * 4096)).map (fun r => r.1)
      = some 1 ∧
    mounted_fs.disk.map Disk.size = some 104857600 := by
  decide!

/-- C11 as stated fails when the byte count does not fit the `int` result: on the
formatted and mounted 100 MiB device, after the successful one-byte write at offset
`1048576 * 4096` (4 GiB) to a freshly created inode, `di_size` is `4294967297`, and
reading `4294967296` bytes from offset 0 returns 0, not
`min(4294967296, di_size - 0) = 4294967296`. -/
theorem C11_counterexample :
    ∃ res, xfs_sim_write mounted_fs created_inode [7] 1 (1048576 * 4096) = some res ∧
      res.1 = 1 ∧ res.2.1.di_size = 4294967297 ∧
      (xfs_sim_read res.2.2.disk res.2.1 (List.replicate 4294967296 0) 4294967296 0).1 = 0 ∧
      min 4294967296 (res.2.1.di_size - 0) = 4294967296 := by
  obtain ⟨res, hres⟩ := Option.isSome_iff_exists.mp created_write_4g.1
  have hret : res.1 = 1 := by
    have h := created_write_4g.2.1
    rw [hres] at h
    simpa using h
  obtain ⟨P, hP1, hP2, hst, hdi, _, _⟩ := write_one_block mounted_fs created_inode [7]
    1048576 res (by decide) (by decide) (by decide) (by decide) (by decide) (by decide)
    hres (by rw [hret]; decide)
  have hdi1 : res.2.1.di_size = 4294967297 := hdi
  have hx : extents_from_allocator res.2.1 := by
    intro e he
    rw [hst, List.mem_singleton] at he
    subst he
    exact ⟨rfl, hP1, hP2, by simp⟩
  have hsize := xfs_sim_write_stable (op_stable_size 104857600) mounted_fs created_inode
    [7] 1 (1048576 * 4096) res (by decide) (by decide) created_inode_wf hres
    created_write_4g.2.2
  obtain ⟨dk, hdk, hdks⟩ := Option.map_eq_some'.mp hsize
  obtain ⟨data, _, hrd⟩ := xfs_sim_read_general res.2.2.disk dk res.2.1 4294967296 0 hx hdk
    (by omega) (by decide) (by decide) (by decide) (by rw [hdi1]; decide)
  refine ⟨res, hres, hret, hdi1, ?_, ?_⟩
  · rw [hrd _ (by rw [List.length_replicate]), hdi1]
    show to_int (min 4294967296 (4294967297 - 0)) = 0
    decide
  · rw [hdi1]
    decide

/-! ## What format leaves on the device -/

theorem print_agi_info_valid {ag : Int} (hv : valid_ag ag) (d : Option Disk) :
    print_agi_info d ag
      = (disk_read d (ag_get_offset ag + 4096) SIZEOF_AGI).map agi_of_bytes := by
  unfold valid_ag at hv
  simp only [print_agi_info, NUM_AGS]
  rw [if_neg (by push_cast; omega)]

theorem ag_get_offset_invalid {ag : Int} (h : ag < 0 ∨ 10 ≤ ag) : ag_get_offset ag = 0 := by
  simp only [ag_get_offset, NUM_AGS]
  rw [if_pos (by push_cast; omega)]

/-- No AGF write-back and no write of file data touches the AGI of a valid AG. -/
theorem op_stable_agi {ag : Int} (hv : valid_ag ag) (x : Option xfs_agi_t) :
    op_stable (fun d => print_agi_info d ag = x) := by
  have hoff := ag_get_offset_valid hv
  have hv1 := hv
  unfold valid_ag at hv1
  refine ⟨?_, ?_⟩
  · intro d ag1 agf agf1 h hva _ _ _ _
    have hoff1 := ag_get_offset_valid hva
    unfold valid_ag at hva
    simp only [print_agi_info_valid hv] at h ⊢
    rw [disk_read_write_disjoint _ _ _ _ _ _ (by
      rw [hoff, hoff1]
      simp only [SIZEOF_AGF, SIZEOF_AGI]
      omega)]
    exact h
  · intro d off len buf h h1 h2
    simp only [print_agi_info_valid hv] at h ⊢
    rw [disk_read_write_disjoint _ _ _ _ _ _ (by
      rw [hoff]
      simp only [SIZEOF_AGI]
      omega)]
    exact h

/-- No write of file data touches an AGF, and an AGF write-back keeps every AG readable
with the magic number and the length that format wrote. -/
theorem op_stable_headers :
    op_stable (fun d => ∀ ag, valid_ag ag →
      ∃ agf, read_agf d ag = some agf ∧ agf.agf_magicnum = 0x58414746 ∧
        agf.agf_length = 2560) := by
  refine ⟨?_, ?_⟩
  · intro d ag agf agf1 h hv hr hwf hm hl ag1 hv1
    by_cases he : ag1 = ag
    · subst he
      obtain ⟨a0, ha0, hm0, hl0⟩ := h ag1 hv1
      rw [hr] at ha0
      obtain rfl : agf = a0 := by simpa using ha0
      exact ⟨agf1, (read_agf_write_same hr agf1 hwf).2, by rw [hm, hm0], by rw [hl, hl0]⟩
    · rw [read_agf_write_other hv hv1 (fun hc => he hc.symm)]
      exact h ag1 hv1
  · intro d off len buf h h1 h2 ag hv
    rw [read_agf_write_disjoint _ _ _ _ _ (by
      rw [ag_get_offset_valid hv]
      unfold valid_ag at hv
      simp only [SIZEOF_AGF]
      omega)]
    exact h ag hv

theorem mkfs_init_loop_stable {Q : Option Disk → Prop} (hQ : op_stable Q) (n i : Nat)
    (fs : FS) (h : Q fs.disk) : Q (mkfs_init_loop n i fs).2.disk := by
  induction n generalizing i fs with
  | zero => exact h
  | succ n ih =>
    simp only [mkfs_init_loop]
    rcases xfs_ag_init_alloc_status fs i with ⟨hv, agf, hr, he⟩ | he
    · have := xfs_ag_init_alloc_stable hQ fs i h
      rw [he] at this ⊢
      exact ih _ _ this
    · rw [he]
      exact h

/-- A successful run of the header loop of `ag_write_headers` leaves the AGI of every AG
it visits as assembled, and the AGIs of the AGs before them as they were. -/
theorem ag_write_headers_loop_agi (junk : StackJunk) (n i : Nat) (d : Option Disk)
    (hn : i + n ≤ 10) (h : (ag_write_headers_loop junk n i d).1 = 0) :
    (∀ ag : Nat, i ≤ ag → ag < i + n →
      print_agi_info (ag_write_headers_loop junk n i d).2 ag = some format_agi) ∧
    (∀ ag : Nat, ag < i →
      print_agi_info (ag_write_headers_loop junk n i d).2 ag = print_agi_info d ag) := by
  induction n generalizing i d with
  | zero =>
    refine ⟨fun ag h1 h2 => by omega, fun ag _ => rfl⟩
  | succ n ih =>
    have hvi : valid_ag (i : Int) := by unfold valid_ag; omega
    have hoi := ag_get_offset_valid hvi
    simp only [Int.toNat_ofNat] at hoi
    simp only [ag_write_headers_loop] at h ⊢
    rcases disk_write_status d (ag_get_offset i) SIZEOF_AGF
      (agf_to_bytes (format_agf junk)) with ⟨hw1, dk, hd, hb⟩ | hw1
    · have e1 : disk_write d (ag_get_offset i) (agf_to_bytes (format_agf junk)) SIZEOF_AGF
          = (0, (disk_write d (ag_get_offset i) (agf_to_bytes (format_agf junk))
            SIZEOF_AGF).2) := Prod.ext hw1 rfl
      rw [e1] at h ⊢
      simp only [] at h ⊢
      generalize hd1 : (disk_write d (ag_get_offset i) (agf_to_bytes (format_agf junk))
        SIZEOF_AGF).2 = d1 at h ⊢
      rcases disk_write_status d1 (ag_get_offset i + 4096) SIZEOF_AGI
        (agi_to_bytes format_agi) with ⟨hw2, dk1, hdk1, hb1⟩ | hw2
      · have e2 : disk_write d1 (ag_get_offset i + 4096) (agi_to_bytes format_agi) SIZEOF_AGI
            = (0, (disk_write d1 (ag_get_offset i + 4096) (agi_to_bytes format_agi)
              SIZEOF_AGI).2) := Prod.ext hw2 rfl
        rw [e2] at h ⊢
        simp only [] at h ⊢
        obtain ⟨ih1, ih2⟩ := ih (i + 1) _ (by omega) h
        constructor
        · intro ag h1 h2
          by_cases hag : ag = i
          · subst hag
            rw [ih2 ag (by omega), print_agi_info_valid hvi, hdk1,
              disk_read_write_same dk1 _ _ _ hb1 (by decide)]
            decide
          · exact ih1 ag (by omega) (by omega)
        · intro ag hlt
          rw [ih2 ag (by omega)]
          have hva : valid_ag (ag : Int) := by unfold valid_ag; omega
          have hoa := ag_get_offset_valid hva
          simp only [Int.toNat_ofNat] at hoa
          simp only [print_agi_info_valid hva]
          rw [disk_read_write_disjoint _ _ _ _ _ _ (by
            rw [hoa, hoi]; simp only [SIZEOF_AGI]; omega), ← hd1,
            disk_read_write_disjoint _ _ _ _ _ _ (by
            rw [hoa, hoi]; simp only [SIZEOF_AGI]; omega)]
      · rw [hw2] at h
        simp at h
    · rw [hw1] at h
      simp at h

/-- After a successful `xfs_mkfs` every AG holds the AGI assembled by
`ag_write_headers`. -/
theorem xfs_mkfs_agi (junk : StackJunk) (fs : FS) (size : Nat)
    (h : (xfs_mkfs junk fs size).1 = 0) (ag : Int) (hv : valid_ag ag) :
    print_agi_info (xfs_mkfs junk fs size).2.disk ag = some format_agi := by
  simp only [xfs_mkfs, disk_init, ag_write_headers, NUM_AGS] at h ⊢
  generalize hd0 : (some { size := size, mem := fun _ => 0 } : Option Disk) = d0 at h ⊢
  rcases disk_write_status d0 0 SIZEOF_SB (sb_to_bytes format_sb junk.sb_pad)
    with ⟨hw1, _⟩ | hw1
  · have e1 : disk_write d0 0 (sb_to_bytes format_sb junk.sb_pad) SIZEOF_SB
        = (0, (disk_write d0 0 (sb_to_bytes format_sb junk.sb_pad) SIZEOF_SB).2) :=
      Prod.ext hw1 rfl
    rw [e1] at h ⊢
    simp only [] at h ⊢
    generalize (disk_write d0 0 (sb_to_bytes format_sb junk.sb_pad) SIZEOF_SB).2 = d1 at h ⊢
    by_cases hl : (ag_write_headers_loop junk 10 0 d1).1 = 0
    · have e2 : ag_write_headers_loop junk 10 0 d1
          = (0, (ag_write_headers_loop junk 10 0 d1).2) := Prod.ext hl rfl
      rw [e2] at h ⊢
      simp only [] at h ⊢
      obtain ⟨hh, _⟩ := ag_write_headers_loop_agi junk 10 0 d1 (by omega) hl
      have e : ((ag.toNat : Nat) : Int) = ag := by unfold valid_ag at hv; omega
      have := hh ag.toNat (by omega) (by unfold valid_ag at hv; omega)
      rw [e] at this
      exact mkfs_init_loop_stable (op_stable_agi hv (some format_agi)) 10 0 _ this
    · exfalso
      generalize ag_write_headers_loop junk 10 0 d1 = w at h hl
      obtain ⟨st, d2⟩ := w
      simp only [] at hl
      split at h
      · rename_i heq
        simp only [Prod.mk.injEq] at heq
        exact hl heq.1
      · simp at h
  · rw [hw1] at h
    simp at h

theorem fresh_bitmap_spec :
    fresh_bitmap.length = 2400 ∧ fresh_bitmap.getD 0 0 = 1 ∧ fresh_bitmap.getD 1 0 = 1 ∧
    ∀ s, 2 ≤ s → s ≤ 2399 → fresh_bitmap.getD s 0 = 0 := by
  refine ⟨?_, rfl, rfl, ?_⟩
  · simp only [fresh_bitmap, List.length_append, List.length_replicate, List.length_cons,
      List.length_nil]
  · intro s h2 h3
    obtain ⟨k, rfl⟩ : ∃ k, s = k + 2 := ⟨s - 2, by omega⟩
    simp only [fresh_bitmap, List.cons_append, List.nil_append, List.getD_cons_succ]
    rw [List.getD_eq_getElem?_getD, List.getElem?_replicate]
    split <;> rfl

theorem agf_reset_formatted (a : xfs_agf_t) (hwf : agf_wf a)
    (hm : a.agf_magicnum = 0x58414746) (hl : a.agf_length = 2560) :
    agf_reset a = formatted_agf := by
  simp only [agf_reset, formatted_agf]
  rw [init_bitmap_eq _ hwf.2.2.2.2, hm, hl]

/-- Two calls of `xfs_ag_init_alloc` on a valid AG with a readable AGF: both return 0,
the first leaves the formatted counters and map next to the magic and the length it
found, and the second changes no AGF. -/
theorem init_alloc_twice (fs2 : FS) (ag : Int) (a : xfs_agf_t) (hv : valid_ag ag)
    (hr : read_agf fs2.disk ag = some a) :
    (xfs_ag_init_alloc fs2 ag).1 = 0 ∧
    read_agf (xfs_ag_init_alloc fs2 ag).2.disk ag
      = some { formatted_agf with agf_magicnum := a.agf_magicnum,
                                  agf_length := a.agf_length } ∧
    (xfs_ag_init_alloc (xfs_ag_init_alloc fs2 ag).2 ag).1 = 0 ∧
    ∀ ag1, valid_ag ag1 →
      read_agf (xfs_ag_init_alloc (xfs_ag_init_alloc fs2 ag).2 ag).2.disk ag1
        = read_agf (xfs_ag_init_alloc fs2 ag).2.disk ag1 := by
  have hwfa := read_agf_wf hr
  have hra : agf_reset a = { formatted_agf with agf_magicnum := a.agf_magicnum,
                                                agf_length := a.agf_length } := by
    simp only [agf_reset, formatted_agf]
    rw [init_bitmap_eq _ hwfa.2.2.2.2]
  have hwf1 : agf_wf (agf_reset a) := agf_reset_wf a hwfa
  have hi1 := xfs_ag_init_alloc_eq hv hr
  have hread1 : read_agf (xfs_ag_init_alloc fs2 ag).2.disk ag = some (agf_reset a) := by
    rw [hi1]
    exact (read_agf_write_same hr _ hwf1).2
  have hi2 := xfs_ag_init_alloc_eq hv hread1
  have hreset2 : agf_reset (agf_reset a) = agf_reset a := by
    rw [hra]
    simp only [agf_reset, formatted_agf]
    rw [init_bitmap_eq _ fresh_bitmap_spec.1]
  refine ⟨by rw [hi1], by rw [hread1, hra], by rw [hi2], ?_⟩
  intro ag1 hv1
  rw [hi2, hreset2]
  by_cases he : ag1 = ag
  · subst he
    rw [(read_agf_write_same hread1 _ hwf1).2, hread1]
  · exact read_agf_write_other hv hv1 (fun hc => he hc.symm) _

/-- Claim C16 as stated fails for an AGF that does not carry the magic and the length of
format: `xfs_ag_init_alloc` sets the map and the two counters and nothing else.  On the
device right after `disk_init(100 MiB)` (all bytes zero, no format) the AGF of AG 1 reads
magic 0 and length 0; `xfs_ag_init_alloc(1)` returns 0 and leaves magic 0 and length 0
next to `agf_freeblks = agf_longest = 2398`, which is not the formatted AGF. -/
theorem C16_counterexample :
    valid_ag 1 ∧
    (read_agf (disk_init 104857600).2 1).map (fun a => (a.agf_magicnum, a.agf_length))
      = some (0, 0) ∧
    (xfs_ag_init_alloc { disk := (disk_init 104857600).2, journal := boot_fs.journal } 1).1
      = 0 ∧
    (read_agf (xfs_ag_init_alloc
        { disk := (disk_init 104857600).2, journal := boot_fs.journal } 1).2.disk 1).map
      (fun a => (a.agf_magicnum, a.agf_length, a.agf_freeblks, a.agf_longest))
      = some (0, 0, 2398, 2398) ∧
    (formatted_agf.agf_magicnum, formatted_agf.agf_length) = (0x58414746, 2560) ∧
    read_agf (xfs_ag_init_alloc
        { disk := (disk_init 104857600).2, journal := boot_fs.journal } 1).2.disk 1
      ≠ some formatted_agf := by
  have h4 : (read_agf (xfs_ag_init_alloc
        { disk := (disk_init 104857600).2, journal := boot_fs.journal } 1).2.disk 1).map
      (fun a => (a.agf_magicnum, a.agf_length, a.agf_freeblks, a.agf_longest))
      = some (0, 0, 2398, 2398) := by decide!
  refine ⟨by decide, by decide!, by decide!, h4, by decide, ?_⟩
  intro h
  rw [h] at h4
  exact absurd h4 (by decide)

/-- Claim C16, amended (formatted AGF state): after a successful `xfs_mkfs(size)`, for
every AG `i` in 0..9 the AGF read from byte `i * 10 * 2^20` has magic `0x58414746`,
`agf_length` 2560, `agf_freeblks` 2398, `agf_longest` 2398, `free_blocks[0] =
free_blocks[1] = 1` and `free_blocks[s] = 0` for every `s` in 2..2399.  On any readable
AGF, `xfs_ag_init_alloc(i)` succeeds, sets the counters and the whole map to these
values and keeps magic and length, so that it leaves exactly the formatted AGF if and
only if the AGF it found has the magic and the length of format; a second call succeeds
and changes no AGF (it is idempotent).  In particular, from any state reached after
format by allocator calls (with any arguments) and `xfs_sim_write` calls it
re-establishes exactly the formatted AGF. -/
theorem C16_formatted_agf (junk : StackJunk) (fs fs0 fs1 : FS) (size : Nat)
    (ops : List FsOp) (ag : Int)
    (hfmt : (xfs_mkfs junk fs size).1 = 0) (hv : valid_ag ag)
    (hd : fs0.disk = (xfs_mkfs junk fs size).2.disk)
    (hok : ∀ op ∈ ops, op_ok op) (hrun : run_ops fs0 ops = some fs1) :
    ag_get_offset ag = ag.toNat * (10 * 2 ^ 20) ∧
    (∀ (fs2 : FS) (a : xfs_agf_t), read_agf fs2.disk ag = some a →
      (xfs_ag_init_alloc fs2 ag).1 = 0 ∧
      read_agf (xfs_ag_init_alloc fs2 ag).2.disk ag
        = some { formatted_agf with agf_magicnum := a.agf_magicnum,
                                    agf_length := a.agf_length } ∧
      (read_agf (xfs_ag_init_alloc fs2 ag).2.disk ag = some formatted_agf ↔
        a.agf_magicnum = 0x58414746 ∧ a.agf_length = 2560) ∧
      (xfs_ag_init_alloc (xfs_ag_init_alloc fs2 ag).2 ag).1 = 0 ∧
      ∀ ag1, valid_ag ag1 →
        read_agf (xfs_ag_init_alloc (xfs_ag_init_alloc fs2 ag).2 ag).2.disk ag1
          = read_agf (xfs_ag_init_alloc fs2 ag).2.disk ag1) ∧
    ∃ agf, read_agf (xfs_mkfs junk fs size).2.disk ag = some agf ∧
      agf.agf_magicnum = 0x58414746 ∧ agf.agf_length = 2560 ∧ agf.agf_freeblks = 2398 ∧
      agf.agf_longest = 2398 ∧ agf.free_blocks.length = 2400 ∧
      agf.free_blocks.getD 0 0 = 1 ∧ agf.free_blocks.getD 1 0 = 1 ∧
      (∀ s, 2 ≤ s → s ≤ 2399 → agf.free_blocks.getD s 0 = 0) ∧
      (xfs_ag_init_alloc fs1 ag).1 = 0 ∧
      read_agf (xfs_ag_init_alloc fs1 ag).2.disk ag = some agf ∧
      (xfs_ag_init_alloc (xfs_ag_init_alloc fs1 ag).2 ag).1 = 0 ∧
      ∀ ag1, valid_ag ag1 →
        read_agf (xfs_ag_init_alloc (xfs_ag_init_alloc fs1 ag).2 ag).2.disk ag1
          = read_agf (xfs_ag_init_alloc fs1 ag).2.disk ag1 := by
  have hany : ∀ (fs2 : FS) (a : xfs_agf_t), read_agf fs2.disk ag = some a →
      (xfs_ag_init_alloc fs2 ag).1 = 0 ∧
      read_agf (xfs_ag_init_alloc fs2 ag).2.disk ag
        = some { formatted_agf with agf_magicnum := a.agf_magicnum,
                                    agf_length := a.agf_length } ∧
      (read_agf (xfs_ag_init_alloc fs2 ag).2.disk ag = some formatted_agf ↔
        a.agf_magicnum = 0x58414746 ∧ a.agf_length = 2560) ∧
      (xfs_ag_init_alloc (xfs_ag_init_alloc fs2 ag).2 ag).1 = 0 ∧
      ∀ ag1, valid_ag ag1 →
        read_agf (xfs_ag_init_alloc (xfs_ag_init_alloc fs2 ag).2 ag).2.disk ag1
          = read_agf (xfs_ag_init_alloc fs2 ag).2.disk ag1 := by
    intro fs2 a hr
    obtain ⟨h1, h2, h3, h4⟩ := init_alloc_twice fs2 ag a hv hr
    refine ⟨h1, h2, ?_, h3, h4⟩
    rw [h2]
    constructor
    · intro h
      have h5 := Option.some.inj h
      exact ⟨congrArg xfs_agf_t.agf_magicnum h5, congrArg xfs_agf_t.agf_length h5⟩
    · rintro ⟨hm, hl⟩
      rw [hm, hl]
      rfl
  obtain ⟨hall, _⟩ := xfs_mkfs_formatted junk fs size hfmt
  have h0 : ∀ ag, valid_ag ag → ∃ agf, read_agf fs0.disk ag = some agf ∧
      agf.agf_magicnum = 0x58414746 ∧ agf.agf_length = 2560 := by
    intro ag1 hv1
    rw [hd]
    exact ⟨formatted_agf, hall ag1 hv1, rfl, rfl⟩
  obtain ⟨a1, hr1, hm1, hl1⟩ := run_ops_stable op_stable_headers ops fs0 fs1 hok hrun h0 ag hv
  obtain ⟨g1, _, g3, g4, g5⟩ := hany fs1 a1 hr1
  obtain ⟨f1, f2, f3, f4⟩ := fresh_bitmap_spec
  exact ⟨by rw [ag_get_offset_valid hv]; norm_num, hany, formatted_agf, hall ag hv, rfl, rfl,
    rfl, rfl, f1, f2, f3, f4, g1, g3.mpr ⟨hm1, hl1⟩, g4, g5⟩

theorem sample_ops_run :
    (xfs_mkfs zero_junk boot_fs 104857600).1 = 0 ∧
    (run_ops mounted_fs [FsOp.call (AllocCall.alloc 3 5),
      FsOp.write created_inode [1, 2, 3] 3 12288,
      FsOp.call (AllocCall.free 3 0 4)]).isSome = true := by
  decide!

theorem sample_ops_ok :
    ∀ op ∈ [FsOp.call (AllocCall.alloc 3 5), FsOp.write created_inode [1, 2, 3] 3 12288,
      FsOp.call (AllocCall.free 3 0 4)], op_ok op := by
  intro op hop
  simp only [List.mem_cons, List.mem_singleton, List.not_mem_nil, or_false] at hop
  rcases hop with rfl | rfl | rfl
  · exact trivial
  · exact ⟨created_inode_wf, by decide, by decide⟩
  · exact trivial

theorem C16_formatted_agf_witness :
    ∃ fs1, run_ops mounted_fs [FsOp.call (AllocCall.alloc 3 5),
        FsOp.write created_inode [1, 2, 3] 3 12288,
        FsOp.call (AllocCall.free 3 0 4)] = some fs1 ∧
      ag_get_offset 3 = (3 : Int).toNat * (10 * 2 ^ 20) ∧
      (∀ (fs2 : FS) (a : xfs_agf_t), read_agf fs2.disk 3 = some a →
        (xfs_ag_init_alloc fs2 3).1 = 0 ∧
        read_agf (xfs_ag_init_alloc fs2 3).2.disk 3
          = some { formatted_agf with agf_magicnum := a.agf_magicnum,
                                      agf_length := a.agf_length } ∧
        (read_agf (xfs_ag_init_alloc fs2 3).2.disk 3 = some formatted_agf ↔
          a.agf_magicnum = 0x58414746 ∧ a.agf_length = 2560) ∧
        (xfs_ag_init_alloc (xfs_ag_init_alloc fs2 3).2 3).1 = 0 ∧
        ∀ ag1, valid_ag ag1 →
          read_agf (xfs_ag_init_alloc (xfs_ag_init_alloc fs2 3).2 3).2.disk ag1
            = read_agf (xfs_ag_init_alloc fs2 3).2.disk ag1) ∧
      ∃ agf, read_agf (xfs_mkfs zero_junk boot_fs 104857600).2.disk 3 = some agf ∧
        agf.agf_magicnum = 0x58414746 ∧ agf.agf_length = 2560 ∧ agf.agf_freeblks = 2398 ∧
        agf.agf_longest = 2398 ∧ agf.free_blocks.length = 2400 ∧
        agf.free_blocks.getD 0 0 = 1 ∧ agf.free_blocks.getD 1 0 = 1 ∧
        (∀ s, 2 ≤ s → s ≤ 2399 → agf.free_blocks.getD s 0 = 0) ∧
        (xfs_ag_init_alloc fs1 3).1 = 0 ∧
        read_agf (xfs_ag_init_alloc fs1 3).2.disk 3 = some agf ∧
        (xfs_ag_init_alloc (xfs_ag_init_alloc fs1 3).2 3).1 = 0 ∧
        ∀ ag1, valid_ag ag1 →
          read_agf (xfs_ag_init_alloc (xfs_ag_init_alloc fs1 3).2 3).2.disk ag1
            = read_agf (xfs_ag_init_alloc fs1 3).2.disk ag1 := by
  obtain ⟨fs1, hrun⟩ := Option.isSome_iff_exists.mp sample_ops_run.2
  exact ⟨fs1, hrun,
    C16_formatted_agf zero_junk boot_fs mounted_fs fs1 104857600 _ 3 sample_ops_run.1
      (by decide) rfl sample_ops_ok hrun⟩

/-- Claim C17 (AG layout): `ag_get_offset(i) = i * 10 * 2^20` for `0 <= i < 10` and 0 for
every other `i`; after a successful `xfs_mkfs`, for every AG `i` the record at
`ag_get_offset(i) + 4096` is an AGI with magic `0x58414749` and inode count, root and
free-inode count all 0, and it is the same after any sequence of allocator calls (with
any arguments) and `xfs_sim_write` calls. -/
theorem C17_ag_layout (junk : StackJunk) (fs fs0 fs1 : FS) (size : Nat)
    (ops : List FsOp) (ag : Int)
    (hfmt : (xfs_mkfs junk fs size).1 = 0) (hv : valid_ag ag)
    (hd : fs0.disk = (xfs_mkfs junk fs size).2.disk)
    (hok : ∀ op ∈ ops, op_ok op) (hrun : run_ops fs0 ops = some fs1) :
    ag_get_offset ag = ag.toNat * (10 * 2 ^ 20) ∧
    (∀ i : Int, i < 0 ∨ 10 ≤ i → ag_get_offset i = 0) ∧
    print_agi_info (xfs_mkfs junk fs size).2.disk ag = some ⟨0x58414749, 0, 0, 0⟩ ∧
    print_agi_info fs1.disk ag = some ⟨0x58414749, 0, 0, 0⟩ := by
  have h1 := xfs_mkfs_agi junk fs size hfmt ag hv
  refine ⟨by rw [ag_get_offset_valid hv]; norm_num, fun i hi => ag_get_offset_invalid hi, h1, ?_⟩
  exact run_ops_stable (op_stable_agi hv (some format_agi)) ops fs0 fs1 hok hrun
    (by rw [hd]; exact h1)

theorem sample_ops_run2 :
    (run_ops mounted_fs [FsOp.write created_inode [1, 2, 3] 3 4094,
      FsOp.call (AllocCall.alloc 0 2000), FsOp.call (AllocCall.init 7)]).isSome = true := by
  decide!

theorem C17_ag_layout_witness :
    ∃ fs1, run_ops mounted_fs [FsOp.write created_inode [1, 2, 3] 3 4094,
        FsOp.call (AllocCall.alloc 0 2000), FsOp.call (AllocCall.init 7)] = some fs1 ∧
      ag_get_offset 0 = (0 : Int).toNat * (10 * 2 ^ 20) ∧
      (∀ i : Int, i < 0 ∨ 10 ≤ i → ag_get_offset i = 0) ∧
      print_agi_info (xfs_mkfs zero_junk boot_fs 104857600).2.disk 0
        = some ⟨0x58414749, 0, 0, 0⟩ ∧
      print_agi_info fs1.disk 0 = some ⟨0x58414749, 0, 0, 0⟩ := by
  obtain ⟨fs1, hrun⟩ := Option.isSome_iff_exists.mp sample_ops_run2
  exact ⟨fs1, hrun,
    C17_ag_layout zero_junk boot_fs mounted_fs fs1 104857600 _ 0 sample_ops_run.1
      (by decide) rfl
      (by
        intro op hop
        simp only [List.mem_cons, List.mem_singleton, List.not_mem_nil, or_false] at hop
        rcases hop with rfl | rfl | rfl
        · exact ⟨created_inode_wf, by decide, by decide⟩
        · exact trivial
        · exact trivial)
      hrun⟩

theorem range_map_getD (f : Nat → Nat) (n p : Nat) (hp : p < n) :
    ((List.range n).map f).getD p 0 = f p := by
  rw [List.getD_eq_getElem?_getD, List.getElem?_map, List.getElem?_range hp]
  rfl

/-- Where AG 0 holds the formatted AGF, the record at byte 0 read as a superblock is the
head of that AGF. -/
theorem superblock_of_formatted (d : Option Disk) (h : read_agf d 0 = some formatted_agf) :
    print_superblock_info d
      = some ⟨0x58414746, 2560, 2398 + 4294967296 * 2398, 257, 0⟩ := by
  obtain ⟨dk, bs, hd, hb, hrd, _, ha⟩ := read_agf_eq_some h
  subst hd
  obtain ⟨dk1, hdk1, _, hbs⟩ := disk_read_eq_some hrd
  cases hdk1
  have hoff : ag_get_offset 0 = 0 := rfl
  rw [hoff] at hb hbs
  simp only [SIZEOF_AGF] at hb hbs
  have hsz : 2416 ≤ dk.size := by
    rw [Nat.mod_eq_of_lt (by decide)] at hb
    exact hb
  have hget : ∀ p, p < 2416 → bs.getD p 0 = dk.mem (0 + p) := by
    intro p hp
    rw [hbs]
    exact range_map_getD _ _ _ hp
  have hu : ∀ p, p + 3 < 32 →
      u32_at ((List.range 32).map (fun k => dk.mem (0 + k))) p = u32_at bs p := by
    intro p hp
    simp only [u32_at]
    rw [range_map_getD _ _ _ (by omega), range_map_getD _ _ _ (by omega),
      range_map_getD _ _ _ (by omega), range_map_getD _ _ _ (by omega),
      hget p (by omega), hget (p + 1) (by omega), hget (p + 2) (by omega),
      hget (p + 3) (by omega)]
  have hm : u32_at bs 0 = 0x58414746 := (congrArg xfs_agf_t.agf_magicnum ha).symm
  have hl : u32_at bs 4 = 2560 := (congrArg xfs_agf_t.agf_length ha).symm
  have hf : u32_at bs 8 = 2398 := (congrArg xfs_agf_t.agf_freeblks ha).symm
  have hg : u32_at bs 12 = 2398 := (congrArg xfs_agf_t.agf_longest ha).symm
  have hfb : (bs.drop 16).take BITMAP_SLOTS = fresh_bitmap :=
    (congrArg xfs_agf_t.free_blocks ha).symm
  have hmap : ∀ k, k < 2400 → bs.getD (16 + k) 0 = fresh_bitmap.getD k 0 := by
    intro k hk
    rw [← hfb, List.getD_eq_getElem?_getD, List.getD_eq_getElem?_getD,
      List.getElem?_take_of_lt (by simp only [BITMAP_SLOTS]; exact hk), List.getElem?_drop]
  have h16 : u32_at bs 16 = 257 := by
    simp only [u32_at]
    rw [hmap 0 (by decide), hmap 1 (by decide), hmap 2 (by decide), hmap 3 (by decide)]
    rfl
  have h20 : u32_at bs 20 = 0 := by
    simp only [u32_at]
    rw [hmap 4 (by decide), hmap 5 (by decide), hmap 6 (by decide), hmap 7 (by decide)]
    rfl
  have h24 : u32_at bs 24 = 0 := by
    simp only [u32_at]
    rw [hmap 8 (by decide), hmap 9 (by decide), hmap 10 (by decide), hmap 11 (by decide)]
    rfl
  simp only [print_superblock_info, SIZEOF_SB]
  rw [disk_read_of_bounds dk 0 32 (by rw [Nat.mod_eq_of_lt (by decide)]; omega)]
  simp only [Option.map_some', sb_of_bytes, u64_at, hu 0 (by decide), hu 4 (by decide),
    hu 8 (by decide), hu 12 (by decide), hu 16 (by decide), hu 20 (by decide),
    hu 24 (by decide), hm, hl, hf, hg, h16, h20, h24]

/-- Claim C15 fails on the code.  `ag_write_headers` writes the superblock at byte 0 and
then the AGF of AG 0 at `ag_get_offset(0) = 0`: after `xfs_mkfs(100 MiB)` has returned 0,
the record `print_superblock_info` reads from byte 0 is the head of that AGF (magic
`0x58414746`, block-size field 2560, AG-count field 257), not the superblock
(`0x58465342`, 4096, 10); and it is not read-only: one `xfs_alloc_blocks(0, 1)` later
the same record reads differently.  The same record is found after every successful
`xfs_mkfs`, whatever the size and the uninitialised stack bytes. -/
theorem C15_superblock_overwritten :
    (xfs_mkfs zero_junk boot_fs 104857600).1 = 0 ∧
    print_superblock_info (xfs_mkfs zero_junk boot_fs 104857600).2.disk
      = some ⟨0x58414746, 2560, 2398 + 4294967296 * 2398, 257, 0⟩ ∧
    format_sb = ⟨0x58465342, 4096, 25600, 10, 5⟩ ∧
    print_superblock_info
        (xfs_alloc_blocks (xfs_mkfs zero_junk boot_fs 104857600).2 0 1).2.disk
      = some ⟨0x58414746, 2560, 2397 + 4294967296 * 2397, 65793, 0⟩ ∧
    ∀ (junk : StackJunk) (fs : FS) (size : Nat), (xfs_mkfs junk fs size).1 = 0 →
      print_superblock_info (xfs_mkfs junk fs size).2.disk
        = some ⟨0x58414746, 2560, 2398 + 4294967296 * 2398, 257, 0⟩ := by
  have hc : (xfs_mkfs zero_junk boot_fs 104857600).1 = 0 ∧
      print_superblock_info (xfs_mkfs zero_junk boot_fs 104857600).2.disk
        = some ⟨0x58414746, 2560, 2398 + 4294967296 * 2398, 257, 0⟩ ∧
      format_sb = ⟨0x58465342, 4096, 25600, 10, 5⟩ ∧
      print_superblock_info
          (xfs_alloc_blocks (xfs_mkfs zero_junk boot_fs 104857600).2 0 1).2.disk
        = some ⟨0x58414746, 2560, 2397 + 4294967296 * 2397, 65793, 0⟩ := by
    decide!
  exact ⟨hc.1, hc.2.1, hc.2.2.1, hc.2.2.2, fun junk fs size h =>
    superblock_of_formatted _ ((xfs_mkfs_formatted junk fs size h).1 0 (by decide))⟩

/-! ## The frame of the allocator calls -/

theorem disk_write_byte (d : Option Disk) (off len : Nat) (buf : List Nat) (a : Nat)
    (h : ¬ (off ≤ a ∧ a < off + len)) :
    disk_byte (disk_write d off buf len).2 a = disk_byte d a := by
  cases d with
  | none => rfl
  | some dk =>
    simp only [disk_write]
    split
    · rfl
    · simp only [disk_byte, Option.map_some', if_neg h]

/-- The device after `xfs_alloc_blocks` is the device before, or the device before with
one AGF-sized write at the offset of the (valid) AG. -/
theorem xfs_alloc_blocks_disk (fs : FS) (ag count : Int) :
    (xfs_alloc_blocks fs ag count).2.disk = fs.disk ∨
    (valid_ag ag ∧ ∃ buf, (xfs_alloc_blocks fs ag count).2.disk
      = (disk_write fs.disk (ag_get_offset ag) buf SIZEOF_AGF).2) := by
  by_cases hv : valid_ag ag
  · cases hr : read_agf fs.disk ag with
    | none => rw [xfs_alloc_blocks_unreadable fs ag count (Or.inr hr)]; exact Or.inl rfl
    | some agf =>
      rw [xfs_alloc_blocks_eq hv hr count]
      cases hs : alloc_scan agf.free_blocks count 2400 2 with
      | none => exact Or.inl rfl
      | some i => exact Or.inr ⟨hv, _, rfl⟩
  · rw [xfs_alloc_blocks_unreadable fs ag count (Or.inl hv)]; exact Or.inl rfl

theorem xfs_free_blocks_disk (fs : FS) (ag : Int) (start : Nat) (count : Int) :
    (xfs_free_blocks fs ag start count).2.disk = fs.disk ∨
    (valid_ag ag ∧ ∃ buf, (xfs_free_blocks fs ag start count).2.disk
      = (disk_write fs.disk (ag_get_offset ag) buf SIZEOF_AGF).2) := by
  by_cases hv : valid_ag ag
  · cases hr : read_agf fs.disk ag with
    | none => rw [xfs_free_blocks_unreadable fs ag start count (Or.inr hr)]; exact Or.inl rfl
    | some agf =>
      rw [xfs_free_blocks_eq hv hr start count]
      exact Or.inr ⟨hv, _, rfl⟩
  · rw [xfs_free_blocks_unreadable fs ag start count (Or.inl hv)]; exact Or.inl rfl

theorem xfs_ag_init_alloc_disk (fs : FS) (ag : Int) :
    (xfs_ag_init_alloc fs ag).2.disk = fs.disk ∨
    (valid_ag ag ∧ ∃ buf, (xfs_ag_init_alloc fs ag).2.disk
      = (disk_write fs.disk (ag_get_offset ag) buf SIZEOF_AGF).2) := by
  by_cases hv : valid_ag ag
  · cases hr : read_agf fs.disk ag with
    | none => rw [xfs_ag_init_alloc_unreadable fs ag (Or.inr hr)]; exact Or.inl rfl
    | some agf =>
      rw [xfs_ag_init_alloc_eq hv hr]
      exact Or.inr ⟨hv, _, rfl⟩
  · rw [xfs_ag_init_alloc_unreadable fs ag (Or.inl hv)]; exact Or.inl rfl

/-- What one AGF-sized write at the offset of a valid AG leaves alone: the device size,
every byte outside that AGF record, the AGF of every other AG and the AGI of every AG. -/
theorem agf_write_frame (d d1 : Option Disk) (ag : Int)
    (h : d1 = d ∨ (valid_ag ag ∧ ∃ buf, d1 = (disk_write d (ag_get_offset ag) buf
      SIZEOF_AGF).2)) :
    d1.map Disk.size = d.map Disk.size ∧
    (∀ a, ¬ (valid_ag ag ∧ in_agf ag a) → disk_byte d1 a = disk_byte d a) ∧
    (∀ ag1, valid_ag ag1 → ag1 ≠ ag → read_agf d1 ag1 = read_agf d ag1) ∧
    (∀ ag1, valid_ag ag1 → print_agi_info d1 ag1 = print_agi_info d ag1) := by
  rcases h with h | ⟨hv, buf, h⟩
  · subst h
    exact ⟨rfl, fun _ _ => rfl, fun _ _ _ => rfl, fun _ _ => rfl⟩
  · subst h
    refine ⟨disk_write_size _ _ _ _, ?_, ?_, ?_⟩
    · intro a ha
      apply disk_write_byte
      intro hc
      exact ha ⟨hv, hc⟩
    · intro ag1 hv1 hne
      exact read_agf_write_other hv hv1 (fun hc => hne hc.symm) buf
    · intro ag1 hv1
      have hoff := ag_get_offset_valid hv
      have hoff1 := ag_get_offset_valid hv1
      have hva := hv
      have hvb := hv1
      unfold valid_ag at hva hvb
      simp only [print_agi_info_valid hv1]
      rw [disk_read_write_disjoint _ _ _ _ _ _ (by
        rw [hoff, hoff1]
        simp only [SIZEOF_AGF, SIZEOF_AGI]
        omega)]

/-- Claim C30 (per-AG frame): every call of `xfs_alloc_blocks`, `xfs_free_blocks` or
`xfs_ag_init_alloc` on AG `i` leaves the device size and every device byte outside
`[i * 10 * 2^20, i * 10 * 2^20 + sizeof(xfs_agf_t))` as they were (for `i` outside 0..9
every byte); in particular the AGF of every other AG and the AGI of every AG are
untouched. -/
theorem C30_per_ag_frame (fs : FS) (ag : Int) (start : Nat) (count : Int) (fs1 : FS)
    (hcall : fs1 = (xfs_alloc_blocks fs ag count).2 ∨
      fs1 = (xfs_free_blocks fs ag start count).2 ∨ fs1 = (xfs_ag_init_alloc fs ag).2) :
    fs1.disk.map Disk.size = fs.disk.map Disk.size ∧
    (∀ a, ¬ (valid_ag ag ∧ ag.toNat * (10 * 2 ^ 20) ≤ a ∧
        a < ag.toNat * (10 * 2 ^ 20) + SIZEOF_AGF) →
      disk_byte fs1.disk a = disk_byte fs.disk a) ∧
    (∀ ag1, valid_ag ag1 → ag1 ≠ ag → read_agf fs1.disk ag1 = read_agf fs.disk ag1) ∧
    (∀ ag1, valid_ag ag1 → print_agi_info fs1.disk ag1 = print_agi_info fs.disk ag1) := by
  have hd : fs1.disk = fs.disk ∨ (valid_ag ag ∧ ∃ buf, fs1.disk
      = (disk_write fs.disk (ag_get_offset ag) buf SIZEOF_AGF).2) := by
    rcases hcall with h | h | h
    · rw [h]; exact xfs_alloc_blocks_disk fs ag count
    · rw [h]; exact xfs_free_blocks_disk fs ag start count
    · rw [h]; exact xfs_ag_init_alloc_disk fs ag
  obtain ⟨h1, h2, h3, h4⟩ := agf_write_frame fs.disk fs1.disk ag hd
  refine ⟨h1, ?_, h3, h4⟩
  intro a ha
  apply h2
  rintro ⟨hv, hin⟩
  apply ha
  refine ⟨hv, ?_⟩
  have hoff := ag_get_offset_valid hv
  unfold in_agf at hin
  rw [hoff] at hin
  norm_num at hin ⊢
  exact hin

theorem C30_per_ag_frame_witness :
    (xfs_alloc_blocks mounted_fs 3 5).2.disk.map Disk.size = mounted_fs.disk.map Disk.size ∧
    (∀ a, ¬ (valid_ag 3 ∧ (3 : Int).toNat * (10 * 2 ^ 20) ≤ a ∧
        a < (3 : Int).toNat * (10 * 2 ^ 20) + SIZEOF_AGF) →
      disk_byte (xfs_alloc_blocks mounted_fs 3 5).2.disk a = disk_byte mounted_fs.disk a) ∧
    (∀ ag1, valid_ag ag1 → ag1 ≠ 3 →
      read_agf (xfs_alloc_blocks mounted_fs 3 5).2.disk ag1 = read_agf mounted_fs.disk ag1) ∧
    (∀ ag1, valid_ag ag1 →
      print_agi_info (xfs_alloc_blocks mounted_fs 3 5).2.disk ag1
        = print_agi_info mounted_fs.disk ag1) :=
  C30_per_ag_frame mounted_fs 3 2 5 (xfs_alloc_blocks mounted_fs 3 5).2 (Or.inl rfl)

/-! ## A write that fails in its mapping loop -/

/-- A mapping loop whose first `j` iterations run through continues with the remaining
iterations from the state they leave. -/
theorem write_map_loop_split (bs j m i : Nat) (fs fs1 : FS) (inode inode1 : xfs_inode_t)
    (h : write_map_loop bs j i fs inode = (0, inode1, fs1)) :
    write_map_loop bs (j + m) i fs inode = write_map_loop bs m (i + j) fs1 inode1 := by
  induction j generalizing i fs inode with
  | zero =>
    simp only [write_map_loop, Prod.mk.injEq, true_and] at h
    rw [h.1, h.2, Nat.zero_add, Nat.add_zero]
  | succ j ih =>
    rw [show j + 1 + m = (j + m) + 1 by omega]
    simp only [write_map_loop] at h ⊢
    cases hf : find_extent_for_offset inode ((bs + i) % 18446744073709551616) with
    | some e =>
      rw [hf] at h
      simp only [] at h ⊢
      rw [ih (i + 1) fs inode h, show i + 1 + j = i + (j + 1) by omega]
    | none =>
      rw [hf] at h
      simp only [] at h ⊢
      by_cases hp : (xfs_alloc_blocks fs
        (((bs + i) % 18446744073709551616 % NUM_AGS : Nat) : Int) 1).1 = 0
      · rw [if_pos hp] at h
        simp at h
      · rw [if_neg hp] at h ⊢
        rcases add_extent_cases inode ((bs + i) % 18446744073709551616)
          (xfs_alloc_blocks fs
            (((bs + i) % 18446744073709551616 % NUM_AGS : Nat) : Int) 1).1 1
          with ⟨_, he⟩ | ⟨_, he⟩
        · rw [he] at h
          simp at h
        · rw [he] at h ⊢
          simp only [] at h ⊢
          rw [ih (i + 1) _ _ h, show i + 1 + j = i + (j + 1) by omega]

/-- A property of the device that every AGF-sized write at the offset of a valid AG
preserves is preserved by the mapping loop: the loop writes nothing else. -/
theorem write_map_loop_agf_writes {Q : Option Disk → Prop}
    (hQ : ∀ d ag buf, valid_ag ag → Q d →
      Q (disk_write d (ag_get_offset ag) buf SIZEOF_AGF).2)
    (bs n i : Nat) (fs : FS) (inode : xfs_inode_t) (h : Q fs.disk) :
    Q (write_map_loop bs n i fs inode).2.2.disk := by
  have halloc : ∀ (fs : FS) (ag count : Int), Q fs.disk →
      Q (xfs_alloc_blocks fs ag count).2.disk := by
    intro fs ag count hq
    rcases xfs_alloc_blocks_disk fs ag count with e | ⟨hv, buf, e⟩
    · rw [e]; exact hq
    · rw [e]; exact hQ _ _ _ hv hq
  have hfree : ∀ (fs : FS) (ag : Int) (start : Nat) (count : Int), Q fs.disk →
      Q (xfs_free_blocks fs ag start count).2.disk := by
    intro fs ag start count hq
    rcases xfs_free_blocks_disk fs ag start count with e | ⟨hv, buf, e⟩
    · rw [e]; exact hq
    · rw [e]; exact hQ _ _ _ hv hq
  induction n generalizing i fs inode with
  | zero => exact h
  | succ n ih =>
    simp only [write_map_loop]
    cases hf : find_extent_for_offset inode ((bs + i) % 18446744073709551616) with
    | some e => exact ih _ _ _ h
    | none =>
      simp only []
      have ha := halloc fs (((bs + i) % 18446744073709551616 % NUM_AGS : Nat) : Int) 1 h
      by_cases hp : (xfs_alloc_blocks fs
        (((bs + i) % 18446744073709551616 % NUM_AGS : Nat) : Int) 1).1 = 0
      · rw [if_pos hp]; exact ha
      · rw [if_neg hp]
        rcases add_extent_cases inode ((bs + i) % 18446744073709551616)
          (xfs_alloc_blocks fs
            (((bs + i) % 18446744073709551616 % NUM_AGS : Nat) : Int) 1).1 1
          with ⟨_, he⟩ | ⟨_, he⟩
        · rw [he]
          exact hfree _ _ _ _ ha
        · rw [he]
          exact ih _ _ _ ha

/-- The mapping loop changes no device byte outside the AGF records. -/
theorem write_map_loop_bytes (bs n i : Nat) (fs : FS) (inode : xfs_inode_t) (a : Nat)
    (ha : ∀ ag, valid_ag ag → ¬ in_agf ag a) :
    disk_byte (write_map_loop bs n i fs inode).2.2.disk a = disk_byte fs.disk a := by
  apply write_map_loop_agf_writes (Q := fun d => disk_byte d a = disk_byte fs.disk a)
  · intro d ag buf hv hq
    rw [disk_write_byte _ _ _ _ _ (ha ag hv)]
    exact hq
  · rfl

/-- A single-block allocation keeps every used slot used, and the slot it returns is
used afterwards. -/
theorem alloc_single_keeps (fs : FS) (ag0 : Int) :
    (∀ ag agf s, valid_ag ag → read_agf fs.disk ag = some agf →
      agf.free_blocks.getD s 0 = 1 →
      ∃ agf1, read_agf (xfs_alloc_blocks fs ag0 1).2.disk ag = some agf1 ∧
        agf1.free_blocks.getD s 0 = 1) ∧
    ((xfs_alloc_blocks fs ag0 1).1 ≠ 0 →
      ∃ agf1, read_agf (xfs_alloc_blocks fs ag0 1).2.disk ag0 = some agf1 ∧
        agf1.free_blocks.getD (xfs_alloc_blocks fs ag0 1).1 0 = 1) := by
  by_cases hz : (xfs_alloc_blocks fs ag0 1).1 = 0
  · rw [xfs_alloc_blocks_zero (by decide) hz]
    exact ⟨fun ag agf s _ hr hs => ⟨agf, hr, hs⟩, fun hne => absurd hz hne⟩
  · obtain ⟨hv0, agf0, r, hr0, _, h2, hlt, hres, hdisk, _, hafter⟩ :=
      xfs_alloc_blocks_success (by decide) hz
    have hwf := read_agf_wf hr0
    refine ⟨?_, ?_⟩
    · intro ag agf s hv hr hs
      by_cases he : ag = ag0
      · subst he
        rw [hr] at hr0
        obtain rfl : agf = agf0 := by simpa using hr0
        refine ⟨_, hafter, ?_⟩
        simp only [agf_allocate, mark_used_getD]
        split
        · rfl
        · exact hs
      · refine ⟨agf, ?_, hs⟩
        rw [hdisk, read_agf_write_other hv0 hv (fun hc => he hc.symm)]
        exact hr
    · intro _
      refine ⟨_, hafter, ?_⟩
      rw [hres]
      simp only [agf_allocate, mark_used_getD]
      rw [if_pos ⟨le_refl _, by omega, by rw [hwf.2.2.2.2]; omega⟩]

/-- When the mapping loop runs to its end, every slot that was used is still used, and
every extent the loop appended maps a block of the request to a slot that is used in the
AG of that block. -/
theorem write_map_loop_used (bs n i : Nat) (fs : FS) (inode : xfs_inode_t)
    (hinv : inode_inv inode) (hw : bs + i + n < 18446744073709551616)
    (hst : (write_map_loop bs n i fs inode).1 = 0) :
    (∀ ag agf s, valid_ag ag → read_agf fs.disk ag = some agf →
      agf.free_blocks.getD s 0 = 1 →
      ∃ agf1, read_agf (write_map_loop bs n i fs inode).2.2.disk ag = some agf1 ∧
        agf1.free_blocks.getD s 0 = 1) ∧
    ∃ added, stored_extents (write_map_loop bs n i fs inode).2.1
        = stored_extents inode ++ added ∧
      ∀ e ∈ added, e.block_count = 1 ∧ bs + i ≤ e.start_off ∧ e.start_off < bs + i + n ∧
        ∃ agf1, read_agf (write_map_loop bs n i fs inode).2.2.disk
            ((e.start_off % 10 : Nat) : Int) = some agf1 ∧
          agf1.free_blocks.getD e.start_block 0 = 1 := by
  induction n generalizing i fs inode with
  | zero =>
    refine ⟨fun ag agf s _ hr hs => ⟨agf, hr, hs⟩, [], ?_, ?_⟩
    · simp only [write_map_loop, List.append_nil]
    · intro e he
      simp only [List.not_mem_nil] at he
  | succ n ih =>
    have hmod : (bs + i) % 18446744073709551616 = bs + i := Nat.mod_eq_of_lt (by omega)
    simp only [write_map_loop, hmod] at hst ⊢
    cases hf : find_extent_for_offset inode (bs + i) with
    | some e =>
      rw [hf] at hst
      simp only [] at hst ⊢
      obtain ⟨h1, added, h2, h3⟩ := ih (i + 1) fs inode hinv (by omega) hst
      refine ⟨h1, added, h2, ?_⟩
      intro e1 he1
      obtain ⟨a1, a2, a3, a4⟩ := h3 e1 he1
      exact ⟨a1, by omega, by omega, a4⟩
    | none =>
      rw [hf] at hst
      simp only [] at hst ⊢
      by_cases hp : (xfs_alloc_blocks fs (((bs + i) % NUM_AGS : Nat) : Int) 1).1 = 0
      · rw [if_pos hp] at hst
        simp at hst
      · rw [if_neg hp] at hst ⊢
        obtain ⟨hP1, hP2, _⟩ := alloc_single_used fs _ hp
        obtain ⟨hk1, hk2⟩ := alloc_single_keeps fs (((bs + i) % NUM_AGS : Nat) : Int)
        rcases add_extent_cases inode (bs + i)
          (xfs_alloc_blocks fs (((bs + i) % NUM_AGS : Nat) : Int) 1).1 1
          with ⟨_, he⟩ | ⟨hlt, he⟩
        · rw [he] at hst
          simp at hst
        · rw [he] at hst ⊢
          simp only [] at hst ⊢
          obtain ⟨hi1, _, hi3, _⟩ := add_extent_inv inode (bs + i)
            (xfs_alloc_blocks fs (((bs + i) % NUM_AGS : Nat) : Int) 1).1 hinv hlt hf
            (by omega) hP1 hP2
          obtain ⟨h1, added, h2, h3⟩ := ih (i + 1)
            (xfs_alloc_blocks fs (((bs + i) % NUM_AGS : Nat) : Int) 1).2 _ hi1 (by omega) hst
          refine ⟨?_, ?_⟩
          · intro ag agf s hv hr hs
            obtain ⟨agf1, hr1, hs1⟩ := hk1 ag agf s hv hr hs
            exact h1 ag agf1 s hv hr1 hs1
          · refine ⟨[⟨bs + i, (xfs_alloc_blocks fs (((bs + i) % NUM_AGS : Nat) : Int) 1).1,
              1⟩] ++ added, by rw [h2, hi3, List.append_assoc], ?_⟩
            intro e1 he1
            rcases List.mem_append.mp he1 with he1 | he1
            · rw [List.mem_singleton] at he1
              subst he1
              refine ⟨rfl, le_refl _, by show bs + i < bs + i + (n + 1); omega, ?_⟩
              obtain ⟨agf1, hr1, hs1⟩ := hk2 hp
              have hvag : valid_ag (((bs + i) % NUM_AGS : Nat) : Int) := by
                unfold valid_ag
                simp only [NUM_AGS]
                omega
              exact h1 _ agf1 _ hvag hr1 hs1
            · obtain ⟨a1, a2, a3, a4⟩ := h3 e1 he1
              exact ⟨a1, by omega, by omega, a4⟩

/-- Claim C29 (no rollback on allocation failure): let the mapping loop of
`xfs_sim_write` have handled the first `j` logical blocks of the request, and let
`xfs_alloc_blocks` return 0 for the next, unmapped block.  Then the call returns -1, the
inode and the state are left as they were after those `j` blocks: `di_size` is the old
one, every extent appended for the earlier blocks is still stored and its slot is still
marked used in the AGF of its AG, and no device byte outside the AGF records has been
written. -/
theorem C29_no_rollback (fs : FS) (inode : xfs_inode_t) (buffer : List Nat)
    (size offset j : Nat) (inode1 : xfs_inode_t) (fs1 : FS)
    (hsize : 1 ≤ size) (hoff : offset < 9223372036854775808)
    (hsz : size < 9223372036854775808) (hinv : inode_inv inode)
    (hj : j < (offset + size - 1) / 4096 - offset / 4096 + 1)
    (hmap : write_map_loop (offset / 4096) j 0 fs inode = (0, inode1, fs1))
    (hun : find_extent_for_offset inode1 (offset / 4096 + j) = none)
    (hfail : (xfs_alloc_blocks fs1 (((offset / 4096 + j) % 10 : Nat) : Int) 1).1 = 0) :
    xfs_sim_write fs inode buffer size offset = some (-1, inode1, fs1) ∧
    inode1.di_size = inode.di_size ∧
    (∃ added, stored_extents inode1 = stored_extents inode ++ added ∧
      ∀ e ∈ added, e.block_count = 1 ∧ offset / 4096 ≤ e.start_off ∧
        e.start_off < offset / 4096 + j ∧
        ∃ agf1, read_agf fs1.disk ((e.start_off % 10 : Nat) : Int) = some agf1 ∧
          agf1.free_blocks.getD e.start_block 0 = 1) ∧
    (∀ a, (∀ ag, valid_ag ag → ¬ in_agf ag a) → disk_byte fs1.disk a = disk_byte fs.disk a) := by
  have hmod : (offset + size - 1) % 18446744073709551616 = offset + size - 1 :=
    Nat.mod_eq_of_lt (by omega)
  have hle : offset / 4096 ≤ (offset + size - 1) / 4096 :=
    Nat.div_le_div_right (by omega)
  have hnum : to_u64 ((((offset + size - 1) / 4096 : Nat) : Int)
      - ((offset / 4096 : Nat) : Int) + 1)
      = (offset + size - 1) / 4096 - offset / 4096 + 1 := by
    unfold to_u64; omega
  have hfail1 : (xfs_alloc_blocks fs1 (((offset / 4096 + j) % NUM_AGS : Nat) : Int) 1).1 = 0 :=
    hfail
  have hloop : write_map_loop (offset / 4096)
      ((offset + size - 1) / 4096 - offset / 4096 + 1) 0 fs inode = (-1, inode1, fs1) := by
    obtain ⟨m, hm⟩ : ∃ m, (offset + size - 1) / 4096 - offset / 4096 + 1 = j + (m + 1) :=
      ⟨(offset + size - 1) / 4096 - offset / 4096 - j, by omega⟩
    rw [hm, write_map_loop_split _ j (m + 1) 0 fs fs1 inode inode1 hmap]
    have hm2 : (offset / 4096 + (0 + j)) % 18446744073709551616 = offset / 4096 + j := by
      rw [Nat.zero_add]
      exact Nat.mod_eq_of_lt (by omega)
    simp only [write_map_loop, hm2, hun]
    rw [if_pos hfail1, xfs_alloc_blocks_zero (by decide) hfail1]
  have hst : (write_map_loop (offset / 4096) j 0 fs inode).1 = 0 := by rw [hmap]
  obtain ⟨_, added, ha1, ha2⟩ := write_map_loop_used (offset / 4096) j 0 fs inode hinv
    (by omega) hst
  rw [hmap] at ha1 ha2
  simp only [] at ha1 ha2
  refine ⟨?_, ?_, ⟨added, ha1, ?_⟩, ?_⟩
  · simp only [xfs_sim_write, XFS_BLOCK_SIZE, hmod, hnum]
    rw [if_neg (by omega), hloop]
    rfl
  · have := write_map_loop_di_size (offset / 4096) j 0 fs inode
    rw [hmap] at this
    exact this
  · intro e he
    obtain ⟨b1, b2, b3, b4⟩ := ha2 e he
    exact ⟨b1, by omega, by omega, b4⟩
  · intro a ha
    have := write_map_loop_bytes (offset / 4096) j 0 fs inode a ha
    rw [hmap] at this
    exact this

theorem status_triple_eta {α β : Type} (p : Int × α × β) (h : p.1 = 0) :
    p = (0, p.2.1, p.2.2) := by
  obtain ⟨a, b, c⟩ := p
  simp only [] at h
  rw [h]

theorem sample_alloc_failure :
    (write_map_loop (0 / 4096) 1 0 sample_fs zero_inode).1 = 0 ∧
    find_extent_for_offset (write_map_loop (0 / 4096) 1 0 sample_fs zero_inode).2.1
      (0 / 4096 + 1) = none ∧
    (xfs_alloc_blocks (write_map_loop (0 / 4096) 1 0 sample_fs zero_inode).2.2
      (((0 / 4096 + 1) % 10 : Nat) : Int) 1).1 = 0 ∧
    inode_inv zero_inode := by
  decide!

theorem C29_no_rollback_witness :
    xfs_sim_write sample_fs zero_inode (List.replicate 4097 7) 4097 0
      = some (-1, (write_map_loop (0 / 4096) 1 0 sample_fs zero_inode).2.1,
          (write_map_loop (0 / 4096) 1 0 sample_fs zero_inode).2.2) ∧
    (write_map_loop (0 / 4096) 1 0 sample_fs zero_inode).2.1.di_size = zero_inode.di_size ∧
    (∃ added, stored_extents (write_map_loop (0 / 4096) 1 0 sample_fs zero_inode).2.1
        = stored_extents zero_inode ++ added ∧
      ∀ e ∈ added, e.block_count = 1 ∧ 0 / 4096 ≤ e.start_off ∧
        e.start_off < 0 / 4096 + 1 ∧
        ∃ agf1, read_agf (write_map_loop (0 / 4096) 1 0 sample_fs zero_inode).2.2.disk
            ((e.start_off % 10 : Nat) : Int) = some agf1 ∧
          agf1.free_blocks.getD e.start_block 0 = 1) ∧
    (∀ a, (∀ ag, valid_ag ag → ¬ in_agf ag a) →
      disk_byte (write_map_loop (0 / 4096) 1 0 sample_fs zero_inode).2.2.disk a
        = disk_byte sample_fs.disk a) :=
  C29_no_rollback sample_fs zero_inode (List.replicate 4097 7) 4097 0 1
    (write_map_loop (0 / 4096) 1 0 sample_fs zero_inode).2.1
    (write_map_loop (0 / 4096) 1 0 sample_fs zero_inode).2.2
    (by decide) (by decide) (by decide) sample_alloc_failure.2.2.2 (by decide)
    (status_triple_eta _ sample_alloc_failure.1) sample_alloc_failure.2.1
    sample_alloc_failure.2.2.1

/-! ## The inode table -/

theorem initialize_inodes_idem (t : InodeTable) (h : t.initialized = true) :
    initialize_inodes t = t := by
  simp only [initialize_inodes, h, if_true]

theorem initialize_inodes_max (t : InodeTable) :
    (initialize_inodes t).max_inode_num = t.max_inode_num ∧
    (initialize_inodes t).inode_names = t.inode_names ∧
    (initialize_inodes t).initialized = true := by
  unfold initialize_inodes
  split
  · rename_i h
    exact ⟨rfl, rfl, h⟩
  · exact ⟨rfl, rfl, rfl⟩

theorem to_u32_small (n : Nat) (h : n < 4294967296) : to_u32 (n : Int) = n := by
  unfold to_u32
  omega

/-- One call of `xfs_create_named_file` on a table with `k <= 98` files: it returns
`k + 1`, the table then has `k + 1` files, the new inode sits at index `k + 1` with its
number, size 0 and no extents, the stored name is the argument cut to 63 characters (or
`unnamed_<k+1>`), and the other inodes and names are untouched. -/
theorem create_step (t : InodeTable) (k : Nat) (name : Option String)
    (ht : files_created t k) (hk : k + 1 ≤ 99) :
    (xfs_create_named_file t name).1 = ((k + 1 : Nat) : Int) ∧
    files_created (xfs_create_named_file t name).2 (k + 1) ∧
    (∃ ino, (xfs_create_named_file t name).2.inodes.get? (k + 1) = some ino ∧
      ino.inode_num = k + 1 ∧ ino.di_size = 0 ∧ ino.extent_count = 0) ∧
    (∀ i, 1 ≤ i → i ≤ k →
      (xfs_create_named_file t name).2.inodes.get? i = t.inodes.get? i ∧
      (xfs_create_named_file t name).2.inode_names.getD i "" = t.inode_names.getD i "") ∧
    (xfs_create_named_file t name).2.inode_names.getD (k + 1) ""
      = (match name with
         | some f => String.mk (f.toList.take 63)
         | none => "unnamed_" ++ toString ((k + 1 : Nat) : Int)) := by
  obtain ⟨hwf, hnl, hmax, hinit, hnum⟩ := ht
  obtain ⟨hl1, hx1⟩ := initialize_inodes_wf t hwf
  obtain ⟨hm1, hn1, hi1⟩ := initialize_inodes_max t
  have hidx : ((initialize_inodes t).max_inode_num + 1).toNat = k + 1 := by
    rw [hm1, hmax]; omega
  have hval : (initialize_inodes t).max_inode_num + 1 = ((k + 1 : Nat) : Int) := by
    rw [hm1, hmax]; omega
  have hlt : k + 1 < (initialize_inodes t).inodes.length := by omega
  have hlt2 : k + 1 < (initialize_inodes t).inode_names.length := by rw [hn1]; omega
  have hsame : 1 ≤ k → initialize_inodes t = t := fun h1 =>
    initialize_inodes_idem t (hinit h1)
  have htn : ((k + 1 : Nat) : Int).toNat = k + 1 := Int.toNat_ofNat _
  simp only [xfs_create_named_file, hval, htn]
  refine ⟨trivial, ⟨⟨?_, ?_⟩, ?_, rfl, fun _ => hi1, ?_⟩, ?_, ?_, ?_⟩
  · simp only [List.length_set]; exact hl1
  · intro ino hino
    rcases List.mem_or_eq_of_mem_set hino with h | h
    · exact hx1 ino h
    · rw [h]
      show ((initialize_inodes t).inodes.getD (k + 1) zero_inode).extents.length = 16
      apply hx1
      rw [List.getD_eq_getElem _ _ hlt]
      exact List.getElem_mem _
  · simp only [List.length_set]; rw [hn1]; exact hnl
  · intro i hi
    by_cases he : i = k
    · subst he
      rw [List.getD_eq_getElem?_getD, List.getElem?_set_eq_of_lt _ hlt]
      simp only [Option.getD_some]
      exact to_u32_small _ (by omega)
    · have hk1 : 1 ≤ k := by omega
      rw [List.getD_eq_getElem?_getD, List.getElem?_set_ne (by omega), hsame hk1,
        ← List.getD_eq_getElem?_getD]
      exact hnum i (by omega)
  · refine ⟨_, by rw [List.get?_eq_getElem?, List.getElem?_set_eq_of_lt _ hlt], ?_, rfl, rfl⟩
    exact to_u32_small _ (by omega)
  · intro i h1 h2
    have hk1 : 1 ≤ k := by omega
    constructor
    · rw [List.get?_eq_getElem?, List.get?_eq_getElem?, List.getElem?_set_ne (by omega),
        hsame hk1]
    · rw [List.getD_eq_getElem?_getD, List.getD_eq_getElem?_getD,
        List.getElem?_set_ne (by omega), hsame hk1]
  · rw [List.getD_eq_getElem?_getD, List.getElem?_set_eq_of_lt _ hlt2]
    rfl

theorem files_created_initial : files_created initial_inode_table 0 := by
  refine ⟨by decide, by decide, rfl, fun h => absurd h (by decide), fun i hi => by omega⟩

/-- From program start, `n <= 99` calls of `xfs_create_named_file` leave a table with
`n` files. -/
theorem create_files_created (names : List (Option String)) (t : InodeTable) (k : Nat)
    (ht : files_created t k) (hk : k + names.length ≤ 99) :
    files_created (create_files t names) (k + names.length) := by
  induction names generalizing t k with
  | nil => exact ht
  | cons name rest ih =>
    simp only [create_files, List.length_cons] at hk ⊢
    have := ih (xfs_create_named_file t name).2 (k + 1)
      (create_step t k name ht (by omega)).2.1 (by omega)
    rwa [show k + 1 + rest.length = k + (rest.length + 1) by omega] at this

/-- On a table with `k <= 99` files, `get_inode_ptr(n)` yields the inode numbered `n`
for `1 <= n <= k` and `NULL` for every other `n`. -/
theorem get_inode_ptr_spec (t : InodeTable) (k : Nat) (ht : files_created t k)
    (hk : k ≤ 99) :
    (∀ n : Int, 1 ≤ n → n ≤ k →
      ∃ ino, get_inode_ptr t n = some ino ∧ t.inodes.get? n.toNat = some ino ∧
        (ino.inode_num : Int) = n) ∧
    (∀ n : Int, n ≤ 0 ∨ n > k → get_inode_ptr t n = none) := by
  obtain ⟨hwf, hnl, hmax, hinit, hnum⟩ := ht
  obtain ⟨hm1, _, _⟩ := initialize_inodes_max t
  refine ⟨?_, ?_⟩
  · intro n h1 h2
    have hk1 : 1 ≤ k := by omega
    have hs := initialize_inodes_idem t (hinit hk1)
    simp only [get_inode_ptr, hs, hmax]
    rw [if_neg (by omega)]
    have hlt : n.toNat < t.inodes.length := by rw [hwf.1]; omega
    refine ⟨t.inodes[n.toNat], by rw [List.get?_eq_getElem?, List.getElem?_eq_getElem hlt],
      by rw [List.get?_eq_getElem?, List.getElem?_eq_getElem hlt], ?_⟩
    have := hnum (n.toNat - 1) (by omega)
    rw [show n.toNat - 1 + 1 = n.toNat by omega, List.getD_eq_getElem _ _ hlt] at this
    rw [this]
    omega
  · intro n hn
    simp only [get_inode_ptr, hm1, hmax]
    rw [if_pos (by omega)]

theorem find_range'_some (p : Nat → Bool) (s n i : Nat)
    (hi1 : s ≤ i) (hi2 : i < s + n) (hp : p i = true)
    (hmin : ∀ j, s ≤ j → j < i → p j = false) :
    (List.range' s n).find? p = some i := by
  induction n generalizing s with
  | zero => omega
  | succ n ih =>
    rw [List.range'_succ, List.find?_cons]
    by_cases he : s = i
    · subst he
      rw [hp]
    · rw [hmin s (le_refl _) (by omega)]
      exact ih (s + 1) (by omega) (by omega) (fun j h1 h2 => hmin j (by omega) h2)

theorem find_range'_none (p : Nat → Bool) (s n : Nat)
    (hall : ∀ j, s ≤ j → j < s + n → p j = false) :
    (List.range' s n).find? p = none := by
  rw [List.find?_eq_none]
  intro j hj
  rw [List.mem_range'_1] at hj
  rw [hall j hj.1 hj.2]
  simp

/-- The two name lookups on a table with `k <= 99` files: the lowest-numbered inode that
carries the name, or -1 / `NULL` when no inode carries it. -/
theorem name_lookup_spec (t : InodeTable) (k : Nat) (g : String)
    (ht : files_created t k) (hk : k ≤ 99) :
    (∀ i, 1 ≤ i → i ≤ k → t.inode_names.getD i "" = g →
      (∀ j, 1 ≤ j → j < i → t.inode_names.getD j "" ≠ g) →
      get_inode_num_by_name t (some g) = (i : Int) ∧
      ∃ ino, get_inode_by_name t (some g) = some ino ∧ t.inodes.get? i = some ino ∧
        ino.inode_num = i) ∧
    ((∀ j, 1 ≤ j → j ≤ k → t.inode_names.getD j "" ≠ g) →
      get_inode_num_by_name t (some g) = -1 ∧ get_inode_by_name t (some g) = none) := by
  obtain ⟨hwf, hnl, hmax, hinit, hnum⟩ := ht
  obtain ⟨hm1, hn1, _⟩ := initialize_inodes_max t
  have hmt : (initialize_inodes t).max_inode_num.toNat = k := by rw [hm1, hmax]; omega
  refine ⟨?_, ?_⟩
  · intro i h1 h2 hname hmin
    have hs := initialize_inodes_idem t (hinit (by omega))
    have hlt : i < t.inodes.length := by rw [hwf.1]; omega
    have hni : (t.inodes.getD i zero_inode).inode_num = i := by
      have := hnum (i - 1) (by omega)
      rwa [show i - 1 + 1 = i by omega] at this
    have hscan : name_scan (initialize_inodes t) g = some i := by
      unfold name_scan
      rw [hmt, hs]
      apply find_range'_some _ 1 k i h1 (by omega)
      · simp only [decide_eq_true_eq]
        exact ⟨by rw [hni]; omega, hname⟩
      · intro j hj1 hj2
        simp only [decide_eq_false_iff_not, not_and]
        intro _
        exact hmin j hj1 hj2
    rw [hs] at hscan
    simp only [get_inode_num_by_name, get_inode_by_name, hs, hscan]
    refine ⟨trivial, t.inodes[i], by rw [List.get?_eq_getElem?, List.getElem?_eq_getElem hlt],
      by rw [List.get?_eq_getElem?, List.getElem?_eq_getElem hlt], ?_⟩
    rw [List.getD_eq_getElem _ _ hlt] at hni
    exact hni
  · intro hno
    have hscan : name_scan (initialize_inodes t) g = none := by
      unfold name_scan
      rw [hmt]
      apply find_range'_none
      intro j hj1 hj2
      simp only [decide_eq_false_iff_not, not_and]
      intro _
      rw [hn1]
      exact hno j hj1 (by omega)
    simp only [get_inode_num_by_name, get_inode_by_name, hscan]
    exact ⟨trivial, trivial⟩

/-- Claim C26 (inode numbering): on a table in which `k <= 98` files have been created
(so the call is the `(k+1)`-th and stays inside the `inodes[100]` array),
`xfs_create_named_file` and `xfs_create_file` return `k + 1`; the new inode has
`inode_num = k + 1`, `di_size = 0` and `extent_count = 0`; the inodes 1..k are
unchanged; and afterwards `get_inode_ptr(n)` yields the inode numbered `n` exactly for
`1 <= n <= k + 1` and `NULL` for `n <= 0` or `n > k + 1`.  The table at program start
has 0 files, and `n <= 99` calls from program start leave a table with `n` files. -/
theorem C26_inode_numbering (t : InodeTable) (k : Nat) (name : Option String)
    (ht : files_created t k) (hk : k + 1 ≤ 99) :
    xfs_create_file t = xfs_create_named_file t none ∧
    (xfs_create_named_file t name).1 = ((k + 1 : Nat) : Int) ∧
    files_created (xfs_create_named_file t name).2 (k + 1) ∧
    (∃ ino, (xfs_create_named_file t name).2.inodes.get? (k + 1) = some ino ∧
      ino.inode_num = k + 1 ∧ ino.di_size = 0 ∧ ino.extent_count = 0) ∧
    (∀ i, 1 ≤ i → i ≤ k →
      (xfs_create_named_file t name).2.inodes.get? i = t.inodes.get? i) ∧
    (∀ n : Int, 1 ≤ n → n ≤ ((k + 1 : Nat) : Int) →
      ∃ ino, get_inode_ptr (xfs_create_named_file t name).2 n = some ino ∧
        (xfs_create_named_file t name).2.inodes.get? n.toNat = some ino ∧
        (ino.inode_num : Int) = n) ∧
    (∀ n : Int, n ≤ 0 ∨ n > ((k + 1 : Nat) : Int) →
      get_inode_ptr (xfs_create_named_file t name).2 n = none) ∧
    (∀ names : List (Option String), names.length ≤ 99 →
      files_created (create_files initial_inode_table names) names.length) := by
  obtain ⟨h1, h2, h3, h4, _⟩ := create_step t k name ht hk
  obtain ⟨h5, h6⟩ := get_inode_ptr_spec (xfs_create_named_file t name).2 (k + 1) h2 hk
  refine ⟨rfl, h1, h2, h3, fun i hi1 hi2 => (h4 i hi1 hi2).1, h5, h6, ?_⟩
  intro names hn
  have := create_files_created names initial_inode_table 0 files_created_initial (by omega)
  rwa [Nat.zero_add] at this

theorem C26_inode_numbering_witness :
    xfs_create_file initial_inode_table = xfs_create_named_file initial_inode_table none ∧
    (xfs_create_named_file initial_inode_table (some "a.txt")).1 = ((0 + 1 : Nat) : Int) ∧
    files_created (xfs_create_named_file initial_inode_table (some "a.txt")).2 (0 + 1) ∧
    (∃ ino, (xfs_create_named_file initial_inode_table (some "a.txt")).2.inodes.get? (0 + 1)
        = some ino ∧
      ino.inode_num = 0 + 1 ∧ ino.di_size = 0 ∧ ino.extent_count = 0) ∧
    (∀ i, 1 ≤ i → i ≤ 0 →
      (xfs_create_named_file initial_inode_table (some "a.txt")).2.inodes.get? i
        = initial_inode_table.inodes.get? i) ∧
    (∀ n : Int, 1 ≤ n → n ≤ ((0 + 1 : Nat) : Int) →
      ∃ ino, get_inode_ptr (xfs_create_named_file initial_inode_table (some "a.txt")).2 n
          = some ino ∧
        (xfs_create_named_file initial_inode_table (some "a.txt")).2.inodes.get? n.toNat
          = some ino ∧
        (ino.inode_num : Int) = n) ∧
    (∀ n : Int, n ≤ 0 ∨ n > ((0 + 1 : Nat) : Int) →
      get_inode_ptr (xfs_create_named_file initial_inode_table (some "a.txt")).2 n = none) ∧
    (∀ names : List (Option String), names.length ≤ 99 →
      files_created (create_files initial_inode_table names) names.length) :=
  C26_inode_numbering initial_inode_table 0 (some "a.txt") files_created_initial (by decide)

/-- Claim C27 (name lookup round trip): on a table with `k <= 98` files none of which
carries the name `f` (at most 63 characters), `n = xfs_create_named_file(f)` makes
`get_inode_num_by_name(f) = n` and `get_inode_by_name(f)` the inode numbered `n`.  On
every table with at most 99 files both lookups return the lowest-numbered inode that
carries the name, and -1 / `NULL` when no inode carries it. -/
theorem C27_name_lookup (t : InodeTable) (k : Nat) (f : String)
    (ht : files_created t k) (hk : k + 1 ≤ 99) (hlen : f.length ≤ 63)
    (hfresh : ∀ i, 1 ≤ i → i ≤ k → t.inode_names.getD i "" ≠ f) :
    get_inode_num_by_name (xfs_create_named_file t (some f)).2 (some f)
      = (xfs_create_named_file t (some f)).1 ∧
    (∃ ino, get_inode_by_name (xfs_create_named_file t (some f)).2 (some f) = some ino ∧
      get_inode_ptr (xfs_create_named_file t (some f)).2 (xfs_create_named_file t (some f)).1
        = some ino ∧
      (ino.inode_num : Int) = (xfs_create_named_file t (some f)).1) ∧
    (∀ (t1 : InodeTable) (k1 : Nat) (g : String), files_created t1 k1 → k1 ≤ 99 →
      (∀ i, 1 ≤ i → i ≤ k1 → t1.inode_names.getD i "" = g →
        (∀ j, 1 ≤ j → j < i → t1.inode_names.getD j "" ≠ g) →
        get_inode_num_by_name t1 (some g) = (i : Int) ∧
        ∃ ino, get_inode_by_name t1 (some g) = some ino ∧ t1.inodes.get? i = some ino ∧
          ino.inode_num = i) ∧
      ((∀ j, 1 ≤ j → j ≤ k1 → t1.inode_names.getD j "" ≠ g) →
        get_inode_num_by_name t1 (some g) = -1 ∧ get_inode_by_name t1 (some g) = none)) := by
  obtain ⟨h1, h2, _, h4, h5⟩ := create_step t k (some f) ht hk
  have hname : (xfs_create_named_file t (some f)).2.inode_names.getD (k + 1) "" = f := by
    rw [h5]
    show String.mk (f.toList.take 63) = f
    have htk : f.toList.take 63 = f.toList := List.take_of_length_le hlen
    rw [htk]
    rfl
  obtain ⟨hl, _⟩ := name_lookup_spec (xfs_create_named_file t (some f)).2 (k + 1) f h2 hk
  obtain ⟨hnum, ino, hby, hget, hino⟩ := hl (k + 1) (by omega) (le_refl _) hname (by
    intro j hj1 hj2
    rw [(h4 j hj1 (by omega)).2]
    exact hfresh j hj1 (by omega))
  obtain ⟨hp, _⟩ := get_inode_ptr_spec (xfs_create_named_file t (some f)).2 (k + 1) h2 hk
  obtain ⟨ino2, hp1, hp2, hp3⟩ := hp ((k + 1 : Nat) : Int) (by omega) (le_refl _)
  rw [Int.toNat_ofNat, hget] at hp2
  obtain rfl : ino = ino2 := by simpa using hp2
  refine ⟨by rw [hnum, h1], ⟨ino, hby, by rw [h1]; exact hp1, by rw [h1]; exact hp3⟩, ?_⟩
  intro t1 k1 g ht1 hk1
  exact name_lookup_spec t1 k1 g ht1 hk1

theorem C27_name_lookup_witness :
    get_inode_num_by_name (xfs_create_named_file initial_inode_table (some "b.txt")).2
        (some "b.txt")
      = (xfs_create_named_file initial_inode_table (some "b.txt")).1 ∧
    (∃ ino, get_inode_by_name (xfs_create_named_file initial_inode_table (some "b.txt")).2
        (some "b.txt") = some ino ∧
      get_inode_ptr (xfs_create_named_file initial_inode_table (some "b.txt")).2
        (xfs_create_named_file initial_inode_table (some "b.txt")).1 = some ino ∧
      (ino.inode_num : Int) = (xfs_create_named_file initial_inode_table (some "b.txt")).1) ∧
    (∀ (t1 : InodeTable) (k1 : Nat) (g : String), files_created t1 k1 → k1 ≤ 99 →
      (∀ i, 1 ≤ i → i ≤ k1 → t1.inode_names.getD i "" = g →
        (∀ j, 1 ≤ j → j < i → t1.inode_names.getD j "" ≠ g) →
        get_inode_num_by_name t1 (some g) = (i : Int) ∧
        ∃ ino, get_inode_by_name t1 (some g) = some ino ∧ t1.inodes.get? i = some ino ∧
          ino.inode_num = i) ∧
      ((∀ j, 1 ≤ j → j ≤ k1 → t1.inode_names.getD j "" ≠ g) →
        get_inode_num_by_name t1 (some g) = -1 ∧ get_inode_by_name t1 (some g) = none)) :=
  C27_name_lookup initial_inode_table 0 "b.txt" files_created_initial (by decide) (by decide)
    (fun i h1 h2 => absurd h1 (by omega))

theorem create_index_created (t : InodeTable) (k : Nat) (ht : files_created t k) :
    create_index t = ((k + 1 : Nat) : Int) ∧ t.inodes.length = 100 ∧
    t.inode_names.length = 100 ∧
    ∀ name, (xfs_create_named_file t name).1 = create_index t := by
  obtain ⟨hwf, hnl, hmax, _, _⟩ := ht
  obtain ⟨hm1, _, _⟩ := initialize_inodes_max t
  refine ⟨?_, hwf.1, hnl, fun _ => rfl⟩
  unfold create_index
  rw [hm1, hmax]
  omega

/-- Claim C28 fails on the code by one.  The arrays are `inodes[100]` and
`inode_names[100][64]`, valid indices 0..99, and `xfs_create_named_file` stores at index
`max_inode_num` after incrementing it: the `k`-th call from program start stores at
index `k`.  For the first 99 calls that index lies inside both arrays; the 100th call
returns 100 and stores at index 100, one past the end of both. -/
theorem C28_hundredth_create_out_of_bounds :
    (∀ names : List (Option String), names.length + 1 ≤ 99 →
      0 ≤ create_index (create_files initial_inode_table names) ∧
      create_index (create_files initial_inode_table names)
        < ((create_files initial_inode_table names).inodes.length : Int) ∧
      create_index (create_files initial_inode_table names)
        < ((create_files initial_inode_table names).inode_names.length : Int)) ∧
    (∀ (names : List (Option String)) (name : Option String), names.length + 1 = 100 →
      (xfs_create_named_file (create_files initial_inode_table names) name).1 = 100 ∧
      create_index (create_files initial_inode_table names) = 100 ∧
      (create_files initial_inode_table names).inodes.length = 100 ∧
      (create_files initial_inode_table names).inode_names.length = 100) ∧
    (List.replicate 99 (none : Option String)).length + 1 = 100 := by
  refine ⟨?_, ?_, by decide⟩
  · intro names hn
    have hf := create_files_created names initial_inode_table 0 files_created_initial
      (by omega)
    obtain ⟨h1, h2, h3, _⟩ := create_index_created _ _ hf
    rw [h1, h2, h3]
    omega
  · intro names name hn
    have hf := create_files_created names initial_inode_table 0 files_created_initial
      (by omega)
    obtain ⟨h1, h2, h3, h4⟩ := create_index_created _ _ hf
    rw [h4 name, h1]
    refine ⟨?_, ?_, h2, h3⟩ <;> omega

/-! ## The journal with its worker thread -/

theorem enqueued_append (a b : List JEvent) : enqueued (a ++ b) = enqueued a ++ enqueued b := by
  simp [enqueued, List.filterMap_append]

theorem dequeued_append (a b : List JEvent) : dequeued (a ++ b) = dequeued a ++ dequeued b := by
  simp [dequeued, List.filterMap_append]

theorem processed_append (a b : List JEvent) :
    processed (a ++ b) = processed a ++ processed b := by
  simp [processed, List.filterMap_append]

theorem discarded_append (a b : List JEvent) :
    discarded (a ++ b) = discarded a ++ discarded b := by
  simp [discarded, List.filterMap_append]

theorem discard_events (q : List JNode) :
    enqueued (q.map JEvent.discard) = [] ∧ dequeued (q.map JEvent.discard) = [] ∧
      processed (q.map JEvent.discard) = [] ∧ discarded (q.map JEvent.discard) = q := by
  induction q with
  | nil => simp [enqueued, dequeued, processed, discarded]
  | cons n q ih =>
    obtain ⟨h1, h2, h3, h4⟩ := ih
    simp only [enqueued, dequeued, processed, discarded] at h1 h2 h3 h4 ⊢
    simp [List.filterMap_cons, h1, h2, h3, h4]

/-- The steps of the worker, case by case. -/
theorem worker_step_cases (s s1 : JSys) (ev : List JEvent)
    (h : worker_step s = some (s1, ev)) :
    (s.worker = WorkerPc.top ∧ s.running = false ∧
        s1 = { s with worker := WorkerPc.exited } ∧ ev = []) ∨
    (∃ n rest, s.worker = WorkerPc.top ∧ s.running = true ∧ s.queue = n :: rest ∧
        s1 = { s with queue := rest, worker := WorkerPc.flush n } ∧ ev = [JEvent.deq n]) ∨
    (∃ n, s.worker = WorkerPc.flush n ∧ s1 = { s with worker := WorkerPc.signal n } ∧
        ev = []) ∨
    (∃ hd, s.worker = WorkerPc.signal (JNode.barrier hd) ∧
        s1 = { s with syncs := s.syncs.set hd true, worker := WorkerPc.top } ∧
        ev = [JEvent.done (JNode.barrier hd)]) ∨
    (∃ b l, s.worker = WorkerPc.signal (JNode.data b l) ∧
        s1 = { s with worker := WorkerPc.top } ∧ ev = [JEvent.done (JNode.data b l)]) := by
  unfold worker_step at h
  split at h
  · rename_i hw
    split at h
    · exact absurd h (by simp)
    · rename_i hr
      simp only [Option.some.injEq, Prod.mk.injEq] at h
      exact Or.inl ⟨hw, hr, h.1.symm, h.2.symm⟩
    · rename_i n rest hq hr
      simp only [Option.some.injEq, Prod.mk.injEq] at h
      exact Or.inr (Or.inl ⟨n, rest, hw, hr, hq, h.1.symm, h.2.symm⟩)
  · rename_i n hw
    simp only [Option.some.injEq, Prod.mk.injEq] at h
    exact Or.inr (Or.inr (Or.inl ⟨n, hw, h.1.symm, h.2.symm⟩))
  · rename_i n hw
    split at h
    · rename_i hd
      simp only [Option.some.injEq, Prod.mk.injEq] at h
      exact Or.inr (Or.inr (Or.inr (Or.inl ⟨hd, hw, h.1.symm, h.2.symm⟩)))
    · rename_i b l
      simp only [Option.some.injEq, Prod.mk.injEq] at h
      exact Or.inr (Or.inr (Or.inr (Or.inr ⟨b, l, hw, h.1.symm, h.2.symm⟩)))
  · exact absurd h (by simp)

/-- The steps of a client, case by case. -/
theorem client_step_cases (s s1 : JSys) (i : Nat) (ev : List JEvent)
    (h : client_step s i = some (s1, ev)) :
    ∃ c, s.clients.get? i = some c ∧
    ((∃ hd, c.pc = ClientPc.waiting hd ∧ s.syncs.getD hd false = true ∧
        s1 = { s with clients := s.clients.set i ({ c with pc := ClientPc.ready, results := c.results ++ [0] }) } ∧
        ev = [JEvent.woken i hd]) ∨
     (c.pc = ClientPc.joining ∧ s.worker = WorkerPc.exited ∧
        s1 = { s with queue := [],
                      clients := s.clients.set i ({ c with pc := ClientPc.ready }) } ∧
        ev = s.queue.map JEvent.discard) ∨
     (∃ data len rest, c.pc = ClientPc.ready ∧ c.todo = JOp.add data len :: rest ∧
        s1 = { s with queue := s.queue ++ [JNode.data (data.take len.toNat) (to_u64 len)],
                      clients := s.clients.set i ({ c with todo := rest, results := c.results ++ [0] }) } ∧
        ev = [JEvent.enq i (JNode.data (data.take len.toNat) (to_u64 len))]) ∨
     (∃ rest, c.pc = ClientPc.ready ∧ c.todo = JOp.barrier :: rest ∧
        s1 = { s with queue := s.queue ++ [JNode.barrier s.syncs.length],
                      syncs := s.syncs ++ [false],
                      clients := s.clients.set i ({ c with todo := rest, pc := ClientPc.waiting s.syncs.length }) } ∧
        ev = [JEvent.enq i (JNode.barrier s.syncs.length)]) ∨
     (∃ rest, c.pc = ClientPc.ready ∧ c.todo = JOp.length :: rest ∧
        s1 = { s with clients := s.clients.set i ({ c with todo := rest, results := c.results ++ [(s.queue.length : Int)] }) } ∧
        ev = [JEvent.counted i (s.queue.length : Int)]) ∨
     (∃ rest, c.pc = ClientPc.ready ∧ c.todo = JOp.destroy :: rest ∧
        s1 = { s with running := false,
                      clients := s.clients.set i ({ c with todo := rest, pc := ClientPc.joining }) } ∧
        ev = [])) := by
  unfold client_step at h
  split at h
  · exact absurd h (by simp)
  · rename_i c hc
    refine ⟨c, hc, ?_⟩
    split at h
    · rename_i hd hpc
      split at h
      · rename_i hsig
        simp only [Option.some.injEq, Prod.mk.injEq] at h
        exact Or.inl ⟨hd, hpc, hsig, h.1.symm, h.2.symm⟩
      · exact absurd h (by simp)
    · rename_i hpc
      split at h
      · rename_i hw
        simp only [Option.some.injEq, Prod.mk.injEq] at h
        exact Or.inr (Or.inl ⟨hpc, hw, h.1.symm, h.2.symm⟩)
      · exact absurd h (by simp)
    · rename_i hpc
      split at h
      · exact absurd h (by simp)
      · rename_i data len rest htodo
        simp only [Option.some.injEq, Prod.mk.injEq] at h
        exact Or.inr (Or.inr (Or.inl ⟨data, len, rest, hpc, htodo, h.1.symm, h.2.symm⟩))
      · rename_i rest htodo
        simp only [Option.some.injEq, Prod.mk.injEq] at h
        exact Or.inr (Or.inr (Or.inr (Or.inl ⟨rest, hpc, htodo, h.1.symm, h.2.symm⟩)))
      · rename_i rest htodo
        simp only [Option.some.injEq, Prod.mk.injEq] at h
        exact Or.inr (Or.inr (Or.inr (Or.inr (Or.inl
          ⟨rest, hpc, htodo, h.1.symm, h.2.symm⟩))))
      · rename_i rest htodo
        simp only [Option.some.injEq, Prod.mk.injEq] at h
        exact Or.inr (Or.inr (Or.inr (Or.inr (Or.inr
          ⟨rest, hpc, htodo, h.1.symm, h.2.symm⟩))))

theorem getD_append_false (l : List Bool) (h : Nat) :
    (l ++ [false]).getD h false = l.getD h false := by
  simp only [List.getD_eq_getElem?_getD]
  rcases Nat.lt_or_ge h l.length with hlt | hge
  · rw [List.getElem?_append_left hlt]
  · rw [List.getElem?_append_right hge, List.getElem?_eq_none hge]
    cases hk : h - l.length with
    | zero => simp
    | succ k => simp

theorem getD_set_true (l : List Bool) (hd h : Nat) :
    (l.set hd true).getD h false = true ↔
      (h = hd ∧ hd < l.length) ∨ l.getD h false = true := by
  simp only [List.getD_eq_getElem?_getD, List.getElem?_set]
  by_cases e : hd = h
  · subst e
    by_cases hl : hd < l.length
    · simp [hl]
    · simp [hl, List.getElem?_eq_none (Nat.le_of_not_lt hl)]
  · simp [e, Ne.symm e]

theorem clients_set_get (l : List JClient) (i j : Nat) (c1 c2 : JClient)
    (hj : (l.set i c1).get? j = some c2) :
    (j = i ∧ c2 = c1) ∨ (j ≠ i ∧ l.get? j = some c2) := by
  simp only [List.get?_eq_getElem?, List.getElem?_set] at hj ⊢
  by_cases e : i = j
  · subst e
    simp only [if_true] at hj
    split at hj
    · exact Or.inl ⟨rfl, by simpa using hj.symm⟩
    · exact absurd hj (by simp)
  · simp only [if_neg e] at hj
    exact Or.inr ⟨fun h => e h.symm, hj⟩

theorem clients_only (l : List JClient) (i : Nat) (c c2 : JClient) (hl : l.length ≤ 1)
    (hi : l.get? i = some c) (h2 : c2 ∈ l) : c2 = c := by
  match l, hl with
  | [], _ => simp at h2
  | [a], _ =>
    simp only [List.mem_singleton] at h2
    subst h2
    cases i with
    | zero => simpa using hi
    | succ k => simp at hi

theorem held_sub_enqueued (s : JSys) (tr : List JEvent) (hinv : jinv s tr) (n : JNode)
    (hn : n ∈ held s.worker) : n ∈ enqueued tr := by
  rw [hinv.fifo, hinv.order]
  simp [hn]

/-- A step of the worker keeps the invariant. -/
theorem worker_step_inv (s s1 : JSys) (tr ev : List JEvent) (hinv : jinv s tr)
    (h : worker_step s = some (s1, ev)) : jinv s1 (tr ++ ev) := by
  have hfifo := hinv.fifo
  have horder := hinv.order
  rcases worker_step_cases s s1 ev h with ⟨hw, _, rfl, rfl⟩ | ⟨n, rest, hw, _, hq, rfl, rfl⟩ |
    ⟨n, hw, rfl, rfl⟩ | ⟨hd, hw, rfl, rfl⟩ | ⟨b, l, hw, rfl, rfl⟩
  · rw [hw] at horder
    simp only [List.append_nil]
    exact ⟨hfifo, by simpa [held] using horder, fun _ => rfl, hinv.signaled_done,
      hinv.done_signaled, hinv.handle_bound, hinv.handle_once, hinv.own_node, hinv.last_node⟩
  · have hnd : discarded tr = [] := by
      by_contra hne
      have := hinv.exited_of_discard hne
      rw [hw] at this
      exact absurd this (by simp)
    rw [hw] at horder
    have he : enqueued (tr ++ [JEvent.deq n]) = enqueued tr := by
      simp [enqueued_append, enqueued]
    have hdq : dequeued (tr ++ [JEvent.deq n]) = dequeued tr ++ [n] := by
      simp [dequeued_append, dequeued]
    have hp : processed (tr ++ [JEvent.deq n]) = processed tr := by
      simp [processed_append, processed]
    have hdc : discarded (tr ++ [JEvent.deq n]) = discarded tr := by
      simp [discarded_append, discarded]
    refine ⟨?_, ?_, ?_, ?_, ?_, ?_, ?_, ?_, ?_⟩
    · rw [he, hdq, hdc, hfifo, hnd, hq]; simp
    · rw [hdq, hp, horder]; simp [held]
    · rw [hdc]; intro hne; exact absurd hnd hne
    · rw [hp]; exact hinv.signaled_done
    · rw [hp]; exact hinv.done_signaled
    · rw [he]; exact hinv.handle_bound
    · rw [he]; exact hinv.handle_once
    · intro i c hh hc hpc
      exact List.mem_append_left _ (hinv.own_node i c hh hc hpc)
    · rw [he]; exact hinv.last_node
  · rw [hw] at horder
    simp only [List.append_nil]
    refine ⟨hfifo, by simpa [held] using horder, ?_, hinv.signaled_done,
      hinv.done_signaled, hinv.handle_bound, hinv.handle_once, hinv.own_node, hinv.last_node⟩
    intro hne
    have := hinv.exited_of_discard hne
    rw [hw] at this
    exact absurd this (by simp)
  · have hnd : discarded tr = [] := by
      by_contra hne
      have := hinv.exited_of_discard hne
      rw [hw] at this
      exact absurd this (by simp)
    have hbound : hd < s.syncs.length :=
      hinv.handle_bound hd (held_sub_enqueued s tr hinv _ (by rw [hw]; simp [held]))
    rw [hw] at horder
    have he : enqueued (tr ++ [JEvent.done (JNode.barrier hd)]) = enqueued tr := by
      simp [enqueued_append, enqueued]
    have hdq : dequeued (tr ++ [JEvent.done (JNode.barrier hd)]) = dequeued tr := by
      simp [dequeued_append, dequeued]
    have hp : processed (tr ++ [JEvent.done (JNode.barrier hd)]) =
        processed tr ++ [JNode.barrier hd] := by
      simp [processed_append, processed]
    have hdc : discarded (tr ++ [JEvent.done (JNode.barrier hd)]) = discarded tr := by
      simp [discarded_append, discarded]
    refine ⟨?_, ?_, ?_, ?_, ?_, ?_, ?_, ?_, ?_⟩
    · rw [he, hdq, hdc, hfifo]
    · rw [hdq, hp, horder]; simp [held]
    · rw [hdc]; intro hne; exact absurd hnd hne
    · intro h0 hs
      rw [hp]
      rcases (getD_set_true s.syncs hd h0).mp hs with ⟨rfl, _⟩ | hold
      · simp
      · exact List.mem_append_left _ (hinv.signaled_done h0 hold)
    · intro h0 hm
      rw [hp] at hm
      apply (getD_set_true s.syncs hd h0).mpr
      rcases List.mem_append.mp hm with hm | hm
      · exact Or.inr (hinv.done_signaled h0 hm)
      · simp only [List.mem_singleton, JNode.barrier.injEq] at hm
        exact Or.inl ⟨hm, hbound⟩
    · rw [he]; intro h0 hm
      simpa using hinv.handle_bound h0 hm
    · rw [he]; exact hinv.handle_once
    · intro i c hh hc hpc
      exact List.mem_append_left _ (hinv.own_node i c hh hc hpc)
    · rw [he]; exact hinv.last_node
  · have hnd : discarded tr = [] := by
      by_contra hne
      have := hinv.exited_of_discard hne
      rw [hw] at this
      exact absurd this (by simp)
    rw [hw] at horder
    have he : enqueued (tr ++ [JEvent.done (JNode.data b l)]) = enqueued tr := by
      simp [enqueued_append, enqueued]
    have hdq : dequeued (tr ++ [JEvent.done (JNode.data b l)]) = dequeued tr := by
      simp [dequeued_append, dequeued]
    have hp : processed (tr ++ [JEvent.done (JNode.data b l)]) =
        processed tr ++ [JNode.data b l] := by
      simp [processed_append, processed]
    have hdc : discarded (tr ++ [JEvent.done (JNode.data b l)]) = discarded tr := by
      simp [discarded_append, discarded]
    refine ⟨?_, ?_, ?_, ?_, ?_, ?_, ?_, ?_, ?_⟩
    · rw [he, hdq, hdc, hfifo]
    · rw [hdq, hp, horder]; simp [held]
    · rw [hdc]; intro hne; exact absurd hnd hne
    · intro h0 hs
      rw [hp]
      exact List.mem_append_left _ (hinv.signaled_done h0 hs)
    · intro h0 hm
      rw [hp] at hm
      rcases List.mem_append.mp hm with hm | hm
      · exact hinv.done_signaled h0 hm
      · simp at hm
    · rw [he]; exact hinv.handle_bound
    · rw [he]; exact hinv.handle_once
    · intro i c hh hc hpc
      exact List.mem_append_left _ (hinv.own_node i c hh hc hpc)
    · rw [he]; exact hinv.last_node

/-- A step of a client keeps the invariant. -/
theorem client_step_inv (s s1 : JSys) (i : Nat) (tr ev : List JEvent) (hinv : jinv s tr)
    (h : client_step s i = some (s1, ev)) : jinv s1 (tr ++ ev) := by
  have hfifo := hinv.fifo
  have horder := hinv.order
  obtain ⟨c, hc, hcases⟩ := client_step_cases s s1 i ev h
  rcases hcases with ⟨hd, hpc, hsig, rfl, rfl⟩ | ⟨hpc, hw, rfl, rfl⟩ |
    ⟨data, len, rest, hpc, htodo, rfl, rfl⟩ | ⟨rest, hpc, htodo, rfl, rfl⟩ |
    ⟨rest, hpc, htodo, rfl, rfl⟩ | ⟨rest, hpc, htodo, rfl, rfl⟩
  · -- trans_commit_barrier returns
    have he : enqueued (tr ++ [JEvent.woken i hd]) = enqueued tr := by
      simp [enqueued_append, enqueued]
    have hdq : dequeued (tr ++ [JEvent.woken i hd]) = dequeued tr := by
      simp [dequeued_append, dequeued]
    have hp : processed (tr ++ [JEvent.woken i hd]) = processed tr := by
      simp [processed_append, processed]
    have hdc : discarded (tr ++ [JEvent.woken i hd]) = discarded tr := by
      simp [discarded_append, discarded]
    refine ⟨?_, ?_, ?_, ?_, ?_, ?_, ?_, ?_, ?_⟩
    · rw [he, hdq, hdc]; exact hfifo
    · rw [hdq, hp]; exact horder
    · rw [hdc]; exact hinv.exited_of_discard
    · rw [hp]; exact hinv.signaled_done
    · rw [hp]; exact hinv.done_signaled
    · rw [he]; exact hinv.handle_bound
    · rw [he]; exact hinv.handle_once
    · intro j c2 h0 hj hpc2
      rcases clients_set_get _ _ _ _ _ hj with ⟨_, rfl⟩ | ⟨_, hold⟩
      · exact absurd hpc2 (by simp)
      · exact List.mem_append_left _ (hinv.own_node j c2 h0 hold hpc2)
    · intro hlen c2 h0 hm hpc2
      rw [he]
      rcases List.mem_or_eq_of_mem_set hm with hm | rfl
      · exact hinv.last_node (by simpa using hlen) c2 h0 hm hpc2
      · exact absurd hpc2 (by simp)
  · -- trans_destroy frees the nodes that are left
    obtain ⟨h1, h2, h3, h4⟩ := discard_events s.queue
    have he : enqueued (tr ++ s.queue.map JEvent.discard) = enqueued tr := by
      rw [enqueued_append, h1, List.append_nil]
    have hdq : dequeued (tr ++ s.queue.map JEvent.discard) = dequeued tr := by
      rw [dequeued_append, h2, List.append_nil]
    have hp : processed (tr ++ s.queue.map JEvent.discard) = processed tr := by
      rw [processed_append, h3, List.append_nil]
    have hdc : discarded (tr ++ s.queue.map JEvent.discard) = discarded tr ++ s.queue := by
      rw [discarded_append, h4]
    refine ⟨?_, ?_, ?_, ?_, ?_, ?_, ?_, ?_, ?_⟩
    · rw [he, hdq, hdc, hfifo]; simp
    · rw [hdq, hp]; exact horder
    · intro _; exact hw
    · rw [hp]; exact hinv.signaled_done
    · rw [hp]; exact hinv.done_signaled
    · rw [he]; exact hinv.handle_bound
    · rw [he]; exact hinv.handle_once
    · intro j c2 h0 hj hpc2
      rcases clients_set_get _ _ _ _ _ hj with ⟨_, rfl⟩ | ⟨_, hold⟩
      · exact absurd hpc2 (by simp)
      · exact List.mem_append_left _ (hinv.own_node j c2 h0 hold hpc2)
    · intro hlen c2 h0 hm hpc2
      rw [he]
      rcases List.mem_or_eq_of_mem_set hm with hm | rfl
      · exact hinv.last_node (by simpa using hlen) c2 h0 hm hpc2
      · exact absurd hpc2 (by simp)
  · -- trans_add_item
    have hnb : ∀ h0, JNode.barrier h0 ≠ JNode.data (data.take len.toNat) (to_u64 len) := by
      intro h0; simp
    generalize JNode.data (data.take len.toNat) (to_u64 len) = node at hnb ⊢
    have he : enqueued (tr ++ [JEvent.enq i node]) = enqueued tr ++ [node] := by
      simp [enqueued_append, enqueued]
    have hdq : dequeued (tr ++ [JEvent.enq i node]) = dequeued tr := by
      simp [dequeued_append, dequeued]
    have hp : processed (tr ++ [JEvent.enq i node]) = processed tr := by
      simp [processed_append, processed]
    have hdc : discarded (tr ++ [JEvent.enq i node]) = discarded tr := by
      simp [discarded_append, discarded]
    refine ⟨?_, ?_, ?_, ?_, ?_, ?_, ?_, ?_, ?_⟩
    · rw [he, hdq, hdc, hfifo]; simp
    · rw [hdq, hp]; exact horder
    · rw [hdc]; exact hinv.exited_of_discard
    · rw [hp]; exact hinv.signaled_done
    · rw [hp]; exact hinv.done_signaled
    · rw [he]; intro h0 hm
      rcases List.mem_append.mp hm with hm | hm
      · exact hinv.handle_bound h0 hm
      · exact absurd (List.mem_singleton.mp hm) (hnb h0)
    · rw [he]; intro h0
      rw [List.count_append, List.count_singleton]
      have := hinv.handle_once h0
      have hne : (node == JNode.barrier h0) = false := by
        simpa using fun e => hnb h0 e.symm
      rw [hne]; simpa using this
    · intro j c2 h0 hj hpc2
      rcases clients_set_get _ _ _ _ _ hj with ⟨_, rfl⟩ | ⟨_, hold⟩
      · exact absurd (hpc.symm.trans hpc2) (by simp)
      · exact List.mem_append_left _ (hinv.own_node j c2 h0 hold hpc2)
    · intro hlen c2 h0 hm hpc2
      rcases List.mem_or_eq_of_mem_set hm with hm | rfl
      · have := clients_only s.clients i c c2 (by simpa using hlen) hc hm
        subst this
        exact absurd (hpc.symm.trans hpc2) (by simp)
      · exact absurd (hpc.symm.trans hpc2) (by simp)
  · -- trans_commit_barrier links its node
    have he : enqueued (tr ++ [JEvent.enq i (JNode.barrier s.syncs.length)]) =
        enqueued tr ++ [JNode.barrier s.syncs.length] := by
      simp [enqueued_append, enqueued]
    have hdq : dequeued (tr ++ [JEvent.enq i (JNode.barrier s.syncs.length)]) =
        dequeued tr := by
      simp [dequeued_append, dequeued]
    have hp : processed (tr ++ [JEvent.enq i (JNode.barrier s.syncs.length)]) =
        processed tr := by
      simp [processed_append, processed]
    have hdc : discarded (tr ++ [JEvent.enq i (JNode.barrier s.syncs.length)]) =
        discarded tr := by
      simp [discarded_append, discarded]
    refine ⟨?_, ?_, ?_, ?_, ?_, ?_, ?_, ?_, ?_⟩
    · rw [he, hdq, hdc, hfifo]; simp
    · rw [hdq, hp]; exact horder
    · rw [hdc]; exact hinv.exited_of_discard
    · rw [hp]; intro h0 hs
      have hs2 : (s.syncs ++ [false]).getD h0 false = true := hs
      rw [getD_append_false] at hs2
      exact hinv.signaled_done h0 hs2
    · rw [hp]; intro h0 hm
      show (s.syncs ++ [false]).getD h0 false = true
      rw [getD_append_false]
      exact hinv.done_signaled h0 hm
    · rw [he]; intro h0 hm
      show h0 < (s.syncs ++ [false]).length
      rw [List.length_append, List.length_singleton]
      rcases List.mem_append.mp hm with hm | hm
      · exact Nat.lt_succ_of_lt (hinv.handle_bound h0 hm)
      · simp only [List.mem_singleton, JNode.barrier.injEq] at hm
        omega
    · rw [he]; intro h0
      rw [List.count_append, List.count_singleton]
      by_cases e : h0 = s.syncs.length
      · subst e
        have hnot : JNode.barrier s.syncs.length ∉ enqueued tr := fun hm =>
          absurd (hinv.handle_bound _ hm) (Nat.lt_irrefl _)
        rw [List.count_eq_zero_of_not_mem hnot]
        simp
      · have hne : (JNode.barrier s.syncs.length == JNode.barrier h0) = false := by
          simpa using fun e2 => e e2.symm
        rw [hne]
        simpa using hinv.handle_once h0
    · intro j c2 h0 hj hpc2
      rcases clients_set_get _ _ _ _ _ hj with ⟨rfl, rfl⟩ | ⟨_, hold⟩
      · simp only [ClientPc.waiting.injEq] at hpc2
        subst hpc2
        simp
      · exact List.mem_append_left _ (hinv.own_node j c2 h0 hold hpc2)
    · intro hlen c2 h0 hm hpc2
      rcases List.mem_or_eq_of_mem_set hm with hm | rfl
      · have := clients_only s.clients i c c2 (by simpa using hlen) hc hm
        subst this
        exact absurd (hpc.symm.trans hpc2) (by simp)
      · simp only [ClientPc.waiting.injEq] at hpc2
        subst hpc2
        exact ⟨enqueued tr, he⟩
  · -- get_log_queue_length
    have he : enqueued (tr ++ [JEvent.counted i (s.queue.length : Int)]) = enqueued tr := by
      simp [enqueued_append, enqueued]
    have hdq : dequeued (tr ++ [JEvent.counted i (s.queue.length : Int)]) = dequeued tr := by
      simp [dequeued_append, dequeued]
    have hp : processed (tr ++ [JEvent.counted i (s.queue.length : Int)]) =
        processed tr := by
      simp [processed_append, processed]
    have hdc : discarded (tr ++ [JEvent.counted i (s.queue.length : Int)]) =
        discarded tr := by
      simp [discarded_append, discarded]
    refine ⟨?_, ?_, ?_, ?_, ?_, ?_, ?_, ?_, ?_⟩
    · rw [he, hdq, hdc]; exact hfifo
    · rw [hdq, hp]; exact horder
    · rw [hdc]; exact hinv.exited_of_discard
    · rw [hp]; exact hinv.signaled_done
    · rw [hp]; exact hinv.done_signaled
    · rw [he]; exact hinv.handle_bound
    · rw [he]; exact hinv.handle_once
    · intro j c2 h0 hj hpc2
      rcases clients_set_get _ _ _ _ _ hj with ⟨_, rfl⟩ | ⟨_, hold⟩
      · exact absurd (hpc.symm.trans hpc2) (by simp)
      · exact List.mem_append_left _ (hinv.own_node j c2 h0 hold hpc2)
    · intro hlen c2 h0 hm hpc2
      rw [he]
      rcases List.mem_or_eq_of_mem_set hm with hm | rfl
      · exact hinv.last_node (by simpa using hlen) c2 h0 hm hpc2
      · exact absurd (hpc.symm.trans hpc2) (by simp)
  · -- trans_destroy clears log_worker_running
    simp only [List.append_nil]
    refine ⟨hfifo, horder, hinv.exited_of_discard, hinv.signaled_done, hinv.done_signaled,
      hinv.handle_bound, hinv.handle_once, ?_, ?_⟩
    · intro j c2 h0 hj hpc2
      rcases clients_set_get _ _ _ _ _ hj with ⟨_, rfl⟩ | ⟨_, hold⟩
      · exact absurd hpc2 (by simp)
      · exact hinv.own_node j c2 h0 hold hpc2
    · intro hlen c2 h0 hm hpc2
      rcases List.mem_or_eq_of_mem_set hm with hm | rfl
      · exact hinv.last_node (by simpa using hlen) c2 h0 hm hpc2
      · exact absurd hpc2 (by simp)

/-- Every step keeps the invariant. -/
theorem jstep_inv (s s1 : JSys) (t : JThread) (tr ev : List JEvent) (hinv : jinv s tr)
    (h : jstep s t = some (s1, ev)) : jinv s1 (tr ++ ev) := by
  cases t with
  | worker => exact worker_step_inv s s1 tr ev hinv h
  | client i => exact client_step_inv s s1 i tr ev hinv h

/-- The invariant holds along every run. -/
theorem jrun_inv (sched : List JThread) (s : JSys) (tr : List JEvent) (hinv : jinv s tr) :
    jinv (jrun s sched).1 (tr ++ (jrun s sched).2) := by
  induction sched generalizing s tr with
  | nil => simpa [jrun] using hinv
  | cons t rest ih =>
    unfold jrun
    cases hstep : jstep s t with
    | none => exact ih s tr hinv
    | some p =>
      obtain ⟨s1, ev⟩ := p
      have := ih s1 (tr ++ ev) (jstep_inv s s1 t tr ev hinv hstep)
      simpa [List.append_assoc] using this

/-- The invariant holds right after `trans_init`. -/
theorem jinit_inv (programs : List (List JOp)) : jinv (jinit programs) [] := by
  refine ⟨by simp [enqueued, dequeued, discarded, jinit],
    by simp [dequeued, processed, held, jinit], by simp [discarded], ?_, ?_, ?_, ?_, ?_, ?_⟩
  · intro h hs; simp [jinit] at hs
  · intro h hm; simp [processed] at hm
  · intro h hm; simp [enqueued] at hm
  · intro h; simp [enqueued]
  · intro i c h hc hpc
    simp only [jinit, List.get?_eq_getElem?, List.getElem?_map] at hc
    cases hp : programs[i]? with
    | none => rw [hp] at hc; simp at hc
    | some p =>
      rw [hp] at hc
      simp only [Option.map_some', Option.some.injEq] at hc
      subst hc
      exact absurd hpc (by simp)
  · intro _ c h hm hpc
    simp only [jinit, List.mem_map] at hm
    obtain ⟨p, _, rfl⟩ := hm
    exact absurd hpc (by simp)

/-- The invariant holds in every state reachable from `trans_init`. -/
theorem reachable_inv (programs : List (List JOp)) (sched : List JThread) :
    jinv (jrun (jinit programs) sched).1 (jrun (jinit programs) sched).2 := by
  simpa using jrun_inv sched (jinit programs) [] (jinit_inv programs)

theorem to_u64_small (len : Int) (h0 : 0 ≤ len) (h1 : len ≤ 2147483647) :
    to_u64 len = len.toNat := by
  unfold to_u64
  congr 1
  omega

/-- C23 (journal FIFO).  `trans_add_item(data, len)` with `0 ≤ len` and at least `len`
bytes at `data` returns 0 and links exactly one data node at the tail, holding a copy of
the first `len` bytes; the nodes already queued stay as they are, in order (in the view of
one client, and as a step of a client among other threads).  The worker only ever unlinks
the head node.  Along every run from `trans_init` the nodes are unlinked in the order in
which they were linked: the nodes linked so far are the nodes unlinked by the worker,
then the nodes freed by `trans_destroy`, then the queue; the worker processes what it
unlinks in the same order; and `get_log_queue_length` returns the number of nodes linked
and not yet removed (the counter is an `int`: fewer than 2^31 nodes are queued). -/
theorem C23_journal_fifo (j : Journal) (data : List Nat) (len : Int)
    (programs : List (List JOp)) (sched : List JThread)
    (hlen : 0 ≤ len) (hmax : len ≤ 2147483647) (hdata : len.toNat ≤ data.length) :
    trans_add_item j data len =
        (0, { j with queue := j.queue ++ [LogNode.data (data.take len.toNat) len.toNat] }) ∧
    (data.take len.toNat).length = len.toNat ∧
    (∀ s i c rest, s.clients.get? i = some c → c.pc = ClientPc.ready →
      c.todo = JOp.add data len :: rest →
      ∃ s1, client_step s i =
            some (s1, [JEvent.enq i (JNode.data (data.take len.toNat) len.toNat)]) ∧
        s1.queue = s.queue ++ [JNode.data (data.take len.toNat) len.toNat] ∧
        (s1.clients.get? i).map JClient.results = some (c.results ++ [0])) ∧
    (∀ s s1 ev n, worker_step s = some (s1, ev) → JEvent.deq n ∈ ev →
      s.queue = n :: s1.queue) ∧
    enqueued (jrun (jinit programs) sched).2 =
      dequeued (jrun (jinit programs) sched).2 ++ discarded (jrun (jinit programs) sched).2
        ++ (jrun (jinit programs) sched).1.queue ∧
    dequeued (jrun (jinit programs) sched).2 =
      processed (jrun (jinit programs) sched).2 ++ held (jrun (jinit programs) sched).1.worker ∧
    (∀ i s1 ev v, (jrun (jinit programs) sched).1.queue.length < 2147483648 →
      client_step (jrun (jinit programs) sched).1 i = some (s1, ev) →
      JEvent.counted i v ∈ ev →
      v = ((jrun (jinit programs) sched).1.queue.length : Int) ∧
      v = ((enqueued (jrun (jinit programs) sched).2).length : Int)
            - ((dequeued (jrun (jinit programs) sched).2).length : Int)
            - ((discarded (jrun (jinit programs) sched).2).length : Int) ∧
      s1.queue = (jrun (jinit programs) sched).1.queue) := by
  have hinv := reachable_inv programs sched
  generalize (jrun (jinit programs) sched).1 = sf at hinv ⊢
  generalize (jrun (jinit programs) sched).2 = tr at hinv ⊢
  have hu := to_u64_small len hlen hmax
  refine ⟨?_, ?_, ?_, ?_, hinv.fifo, hinv.order, ?_⟩
  · simp only [trans_add_item, hu]
  · rw [List.length_take]; omega
  · intro s i c rest hc hpc htodo
    have hlt : i < s.clients.length := by
      rw [List.get?_eq_getElem?] at hc
      exact (List.getElem?_eq_some_iff.mp hc).1
    refine ⟨{ s with queue := s.queue ++ [JNode.data (data.take len.toNat) len.toNat],
                     clients := s.clients.set i ({ c with todo := rest, results := c.results ++ [0] }) },
      ?_, rfl, ?_⟩
    · simp only [client_step, hc, hpc, htodo, hu]
    · simp [List.get?_eq_getElem?, List.getElem?_set, hlt]
  · intro s s1 ev n hstep hmem
    rcases worker_step_cases s s1 ev hstep with ⟨_, _, rfl, rfl⟩ | ⟨n1, rest, _, _, hq, rfl, rfl⟩ |
      ⟨_, _, rfl, rfl⟩ | ⟨_, _, rfl, rfl⟩ | ⟨_, _, _, rfl, rfl⟩
    · simp at hmem
    · simp only [List.mem_singleton, JEvent.deq.injEq] at hmem
      subst hmem
      exact hq
    · simp at hmem
    · simp at hmem
    · simp at hmem
  · intro i s1 ev v _ hstep hmem
    obtain ⟨c, hc, hcases⟩ := client_step_cases sf s1 i ev hstep
    have hcount : ((sf.queue.length : Nat) : Int) = ((enqueued tr).length : Int)
        - ((dequeued tr).length : Int) - ((discarded tr).length : Int) := by
      rw [hinv.fifo, List.length_append, List.length_append]
      push_cast
      omega
    rcases hcases with ⟨hd, _, _, rfl, rfl⟩ | ⟨_, _, rfl, rfl⟩ |
      ⟨_, _, _, _, _, rfl, rfl⟩ | ⟨_, _, _, rfl, rfl⟩ |
      ⟨_, _, _, rfl, rfl⟩ | ⟨_, _, _, rfl, rfl⟩
    · simp at hmem
    · simp at hmem
    · simp at hmem
    · simp at hmem
    · simp only [List.mem_singleton, JEvent.counted.injEq, true_and] at hmem
      subst hmem
      exact ⟨rfl, hcount, rfl⟩
    · simp at hmem

/-- Witness for C23: one client adds the first two of three bytes and then asks for the
queue length. -/
theorem C23_journal_fifo_witness :
    trans_add_item { queue := [], running := true } [1, 2, 3] 2 =
        (0, { queue := [LogNode.data [1, 2] 2], running := true }) ∧
    enqueued (jrun (jinit [[JOp.add [1, 2, 3] 2, JOp.length]])
        [JThread.client 0, JThread.client 0]).2 = [JNode.data [1, 2] 2] ∧
    (jrun (jinit [[JOp.add [1, 2, 3] 2, JOp.length]])
        [JThread.client 0, JThread.client 0]).1.clients.map JClient.results = [[0, 1]] := by
  have h := C23_journal_fifo { queue := [], running := true } [1, 2, 3] 2
    [[JOp.add [1, 2, 3] 2, JOp.length]] [JThread.client 0, JThread.client 0]
    (by decide) (by decide) (by decide)
  refine ⟨h.1, ?_, ?_⟩
  · decide
  · decide

theorem enq_mem_enqueued (tr : List JEvent) (i : Nat) (n : JNode)
    (h : JEvent.enq i n ∈ tr) : n ∈ enqueued tr := by
  unfold enqueued
  rw [List.mem_filterMap]
  exact ⟨_, h, rfl⟩

/-- A step keeps the worker running when nobody shuts the journal down. -/
theorem jstep_alive (s s1 : JSys) (t : JThread) (ev : List JEvent) (ha : jalive s)
    (h : jstep s t = some (s1, ev)) : jalive s1 := by
  obtain ⟨hr, hw, hnd⟩ := ha
  cases t with
  | worker =>
    rcases worker_step_cases s s1 ev h with ⟨_, hr0, rfl, rfl⟩ | ⟨n, rest, _, _, _, rfl, rfl⟩ |
      ⟨n, _, rfl, rfl⟩ | ⟨hd, _, rfl, rfl⟩ | ⟨b, l, _, rfl, rfl⟩
    · rw [hr] at hr0; exact absurd hr0 (by simp)
    · exact ⟨hr, by simp, hnd⟩
    · exact ⟨hr, by simp, hnd⟩
    · exact ⟨hr, by simp, hnd⟩
    · exact ⟨hr, by simp, hnd⟩
  | client i =>
    obtain ⟨c, hc, hcases⟩ := client_step_cases s s1 i ev h
    have hcm : c ∈ s.clients := List.get?_mem hc
    have hcnd := hnd c hcm
    have key : ∀ c1 : JClient, (∀ op, op ∈ c1.todo → op ∈ c.todo) → c1.pc ≠ ClientPc.joining →
        no_destroy { s with clients := s.clients.set i c1 } := by
      intro c1 h1 h2 c2 hm
      rcases List.mem_or_eq_of_mem_set hm with hm | rfl
      · exact hnd c2 hm
      · exact ⟨fun hd => hcnd.1 (h1 _ hd), h2⟩
    rcases hcases with ⟨hd, hpc, hsig, rfl, rfl⟩ | ⟨hpc, _, rfl, rfl⟩ |
      ⟨data, len, rest, hpc, htodo, rfl, rfl⟩ | ⟨rest, hpc, htodo, rfl, rfl⟩ |
      ⟨rest, hpc, htodo, rfl, rfl⟩ | ⟨rest, hpc, htodo, rfl, rfl⟩
    · exact ⟨hr, hw, key _ (fun _ h => h) (by simp)⟩
    · exact absurd hpc hcnd.2
    · exact ⟨hr, hw, key _ (fun op h => by rw [htodo]; exact List.mem_cons_of_mem _ h)
        (by simp [hpc])⟩
    · exact ⟨hr, hw, key _ (fun op h => by rw [htodo]; exact List.mem_cons_of_mem _ h)
        (by simp)⟩
    · exact ⟨hr, hw, key _ (fun op h => by rw [htodo]; exact List.mem_cons_of_mem _ h)
        (by simp [hpc])⟩
    · exact absurd (by rw [htodo]; simp) hcnd.1

theorem jinit_alive (programs : List (List JOp))
    (h : ∀ p ∈ programs, JOp.destroy ∉ p) : jalive (jinit programs) := by
  refine ⟨rfl, by simp [jinit], ?_⟩
  intro c hm
  simp only [jinit, List.mem_map] at hm
  obtain ⟨p, hp, rfl⟩ := hm
  exact ⟨h p hp, by simp⟩

theorem jrun_alive (sched : List JThread) (s : JSys) (ha : jalive s) :
    jalive (jrun s sched).1 := by
  induction sched generalizing s with
  | nil => simpa [jrun] using ha
  | cons t rest ih =>
    unfold jrun
    cases hstep : jstep s t with
    | none => exact ih s ha
    | some p =>
      obtain ⟨s1, ev⟩ := p
      exact ih s1 (jstep_alive s s1 t ev ha hstep)

theorem steps_pos (s : JSys) (h : Nat) (hs : ¬ s.syncs.getD h false = true) :
    0 < steps_to_signal s h := by
  unfold steps_to_signal
  rw [if_neg hs]
  cases hw : s.worker <;> simp only [worker_offset] <;> omega

theorem steps_zero (s : JSys) (h : Nat) (hs : s.syncs.getD h false = true) :
    steps_to_signal s h = 0 := by
  unfold steps_to_signal
  rw [if_pos hs]

/-- An unsignalled handle whose barrier node was linked has its node with the worker or
in the queue. -/
theorem pending_of_unsignaled (s : JSys) (tr : List JEvent) (hinv : jinv s tr)
    (ha : jalive s) (h : Nat) (hen : JNode.barrier h ∈ enqueued tr)
    (hs : ¬ s.syncs.getD h false = true) : JNode.barrier h ∈ held s.worker ++ s.queue := by
  have hnd : discarded tr = [] := by
    by_contra hne
    exact ha.2.1 (hinv.exited_of_discard hne)
  rw [hinv.fifo, hinv.order, hnd] at hen
  simp only [List.append_nil, List.mem_append] at hen ⊢
  rcases hen with (hp | hh) | hq
  · exact absurd (hinv.done_signaled h hp) hs
  · exact Or.inl hh
  · exact Or.inr hq

/-- Every step of the worker brings the signal one step closer and no step of a client
delays it. -/
theorem steps_step (s s1 : JSys) (t : JThread) (tr ev : List JEvent) (hinv : jinv s tr)
    (ha : jalive s) (h : Nat) (hen : JNode.barrier h ∈ enqueued tr)
    (hstep : jstep s t = some (s1, ev)) :
    steps_to_signal s1 h ≤ steps_to_signal s h - (if t = JThread.worker then 1 else 0) := by
  have hinv1 := jstep_inv s s1 t tr ev hinv hstep
  by_cases hs : s.syncs.getD h false = true
  · have : s1.syncs.getD h false = true :=
      hinv1.done_signaled h (by
        rw [processed_append]
        exact List.mem_append_left _ (hinv.signaled_done h hs))
    rw [steps_zero s1 h this]
    exact Nat.zero_le _
  · have hpend := pending_of_unsignaled s tr hinv ha h hen hs
    obtain ⟨hr, hw, hnd⟩ := ha
    cases t with
    | worker =>
      simp only [if_true]
      rcases worker_step_cases s s1 ev hstep with ⟨_, hr0, rfl, rfl⟩ |
        ⟨n, rest, hwk, _, hq, rfl, rfl⟩ | ⟨n, hwk, rfl, rfl⟩ | ⟨hd, hwk, rfl, rfl⟩ |
        ⟨b, l, hwk, rfl, rfl⟩
      · rw [hr] at hr0; exact absurd hr0 (by simp)
      · simp only [steps_to_signal, if_neg hs, hwk, hq, held, worker_offset,
          List.nil_append, List.singleton_append]
        omega
      · simp only [steps_to_signal, if_neg hs, hwk, held, worker_offset]
        omega
      · by_cases e : h = hd
        · subst e
          have hb : h < s.syncs.length :=
            hinv.handle_bound h (held_sub_enqueued s tr hinv _ (by rw [hwk]; simp [held]))
          have : (s.syncs.set h true).getD h false = true :=
            (getD_set_true s.syncs h h).mpr (Or.inl ⟨rfl, hb⟩)
          rw [steps_zero _ h this]
          exact Nat.zero_le _
        · have hs1 : ¬ (s.syncs.set hd true).getD h false = true := by
            intro hc
            rcases (getD_set_true s.syncs hd h).mp hc with ⟨e2, _⟩ | hold
            · exact e e2
            · exact hs hold
          have hne : JNode.barrier hd ≠ JNode.barrier h := by
            simpa using fun e2 => e e2.symm
          simp only [steps_to_signal, if_neg hs, if_neg hs1, hwk, held, worker_offset,
            List.nil_append, List.singleton_append, List.indexOf_cons_ne _ hne]
          omega
      · have hne : JNode.data b l ≠ JNode.barrier h := by simp
        simp only [steps_to_signal, if_neg hs, hwk, held, worker_offset,
          List.nil_append, List.singleton_append, List.indexOf_cons_ne _ hne]
        omega
    | client i =>
      simp only [if_false, Nat.sub_zero, reduceCtorEq]
      obtain ⟨c, hc, hcases⟩ := client_step_cases s s1 i ev hstep
      rcases hcases with ⟨hd, hpc, hsig, rfl, rfl⟩ | ⟨hpc, hwe, rfl, rfl⟩ |
        ⟨data, len, rest, hpc, htodo, rfl, rfl⟩ | ⟨rest, hpc, htodo, rfl, rfl⟩ |
        ⟨rest, hpc, htodo, rfl, rfl⟩ | ⟨rest, hpc, htodo, rfl, rfl⟩
      · exact Nat.le_refl _
      · exact absurd hwe hw
      · simp only [steps_to_signal, if_neg hs]
        rw [← List.append_assoc, List.indexOf_append_of_mem hpend]
      · have hs1 : ¬ (s.syncs ++ [false]).getD h false = true := by
          rw [getD_append_false]; exact hs
        simp only [steps_to_signal, if_neg hs, if_neg hs1]
        rw [← List.append_assoc, List.indexOf_append_of_mem hpend]
      · exact Nat.le_refl _
      · exact Nat.le_refl _

/-- Enabledness of the worker: while a linked barrier node is not yet signalled the
worker can take a step. -/
theorem worker_enabled (s : JSys) (tr : List JEvent) (hinv : jinv s tr) (ha : jalive s)
    (h : Nat) (hen : JNode.barrier h ∈ enqueued tr) (hs : ¬ s.syncs.getD h false = true) :
    worker_step s ≠ none := by
  have hpend := pending_of_unsignaled s tr hinv ha h hen hs
  obtain ⟨hr, hw, _⟩ := ha
  unfold worker_step
  cases hwk : s.worker with
  | top =>
    rw [hwk] at hpend
    simp only [held, List.nil_append] at hpend
    cases hq : s.queue with
    | nil => rw [hq] at hpend; simp at hpend
    | cons n rest => simp [hr]
  | flush n => simp
  | signal n => cases n <;> simp
  | exited => exact absurd hwk hw

/-- Bounded progress: after enough steps of the worker the handle is signalled. -/
theorem signal_reached (sched : List JThread) (s : JSys) (tr : List JEvent)
    (hinv : jinv s tr) (ha : jalive s) (h : Nat) (hen : JNode.barrier h ∈ enqueued tr)
    (hcount : steps_to_signal s h ≤ sched.count JThread.worker) :
    (jrun s sched).1.syncs.getD h false = true := by
  induction sched generalizing s tr with
  | nil =>
    by_contra hs
    have := steps_pos s h hs
    simp at hcount
    omega
  | cons t rest ih =>
    unfold jrun
    cases hstep : jstep s t with
    | none =>
      show (jrun s rest).1.syncs.getD h false = true
      by_cases hs : s.syncs.getD h false = true
      · exact ih s tr hinv ha hen (by rw [steps_zero s h hs]; exact Nat.zero_le _)
      · have htw : t ≠ JThread.worker := by
          intro e
          subst e
          exact worker_enabled s tr hinv ha h hen hs hstep
        apply ih s tr hinv ha hen
        rw [List.count_cons_of_ne (Ne.symm htw)] at hcount
        exact hcount
    | some p =>
      obtain ⟨s1, ev⟩ := p
      show (jrun s1 rest).1.syncs.getD h false = true
      have hle := steps_step s s1 t tr ev hinv ha h hen hstep
      apply ih s1 (tr ++ ev) (jstep_inv s s1 t tr ev hinv hstep)
        (jstep_alive s s1 t ev ha hstep)
        (by rw [enqueued_append]; exact List.mem_append_left _ hen)
      by_cases htw : t = JThread.worker
      · subst htw
        simp only [if_true] at hle
        simp only [List.count_cons_self] at hcount
        omega
      · simp only [if_neg htw, Nat.sub_zero] at hle
        rw [List.count_cons_of_ne (Ne.symm htw)] at hcount
        omega

theorem jrun_none (s : JSys) (t : JThread) (rest : List JThread) (h : jstep s t = none) :
    jrun s (t :: rest) = jrun s rest := by
  rw [jrun, h]

theorem jrun_some (s s1 : JSys) (t : JThread) (rest : List JThread) (ev : List JEvent)
    (h : jstep s t = some (s1, ev)) :
    jrun s (t :: rest) = ((jrun s1 rest).1, ev ++ (jrun s1 rest).2) := by
  rw [jrun, h]

theorem jrun_append (a b : List JThread) (s : JSys) :
    jrun s (a ++ b) = ((jrun (jrun s a).1 b).1, (jrun s a).2 ++ (jrun (jrun s a).1 b).2) := by
  induction a generalizing s with
  | nil => simp [jrun]
  | cons t rest ih =>
    simp only [List.cons_append]
    cases hstep : jstep s t with
    | none => rw [jrun_none _ _ _ hstep, jrun_none _ _ _ hstep]; exact ih s
    | some p =>
      obtain ⟨s1, ev⟩ := p
      rw [jrun_some _ _ _ _ _ hstep, jrun_some _ _ _ _ _ hstep]
      simp only [ih s1, List.append_assoc]

theorem jstep_clients_length (s s1 : JSys) (t : JThread) (ev : List JEvent)
    (h : jstep s t = some (s1, ev)) : s1.clients.length = s.clients.length := by
  cases t with
  | worker =>
    rcases worker_step_cases s s1 ev h with ⟨_, _, rfl, rfl⟩ | ⟨n, rest, _, _, _, rfl, rfl⟩ |
      ⟨n, _, rfl, rfl⟩ | ⟨hd, _, rfl, rfl⟩ | ⟨b, l, _, rfl, rfl⟩ <;> rfl
  | client i =>
    obtain ⟨c, hc, hcases⟩ := client_step_cases s s1 i ev h
    rcases hcases with ⟨hd, hpc, hsig, rfl, rfl⟩ | ⟨hpc, _, rfl, rfl⟩ |
      ⟨data, len, rest, hpc, htodo, rfl, rfl⟩ | ⟨rest, hpc, htodo, rfl, rfl⟩ |
      ⟨rest, hpc, htodo, rfl, rfl⟩ | ⟨rest, hpc, htodo, rfl, rfl⟩ <;>
    exact List.length_set _ _ _

theorem jrun_clients_length (sched : List JThread) (s : JSys) :
    (jrun s sched).1.clients.length = s.clients.length := by
  induction sched generalizing s with
  | nil => rfl
  | cons t rest ih =>
    unfold jrun
    cases hstep : jstep s t with
    | none => exact ih s
    | some p =>
      obtain ⟨s1, ev⟩ := p
      exact (ih s1).trans (jstep_clients_length s s1 t ev hstep)

/-- A client in `barrier_sync_wait` stays there until its call returns. -/
theorem waiting_run (sched : List JThread) (s : JSys) (i h : Nat) (c : JClient)
    (hc : s.clients.get? i = some c) (hpc : c.pc = ClientPc.waiting h) :
    ((jrun s sched).1.clients.get? i = some c) ∨ JEvent.woken i h ∈ (jrun s sched).2 := by
  induction sched generalizing s with
  | nil => exact Or.inl hc
  | cons t rest ih =>
    unfold jrun
    cases hstep : jstep s t with
    | none => exact ih s hc
    | some p =>
      obtain ⟨s1, ev⟩ := p
      show (jrun s1 rest).1.clients.get? i = some c ∨ JEvent.woken i h ∈ ev ++ (jrun s1 rest).2
      have key : s1.clients.get? i = some c ∨ JEvent.woken i h ∈ ev := by
        cases t with
        | worker =>
          rcases worker_step_cases s s1 ev hstep with ⟨_, _, rfl, rfl⟩ |
            ⟨n, rest, _, _, _, rfl, rfl⟩ | ⟨n, _, rfl, rfl⟩ | ⟨hd, _, rfl, rfl⟩ |
            ⟨b, l, _, rfl, rfl⟩ <;> exact Or.inl hc
        | client j =>
          obtain ⟨c2, hc2, hcases⟩ := client_step_cases s s1 j ev hstep
          by_cases e : j = i
          · subst e
            rw [hc] at hc2
            simp only [Option.some.injEq] at hc2
            subst hc2
            rcases hcases with ⟨hd, hpc2, hsig, rfl, rfl⟩ | ⟨hpc2, _, rfl, rfl⟩ |
              ⟨data, len, rest, hpc2, htodo, rfl, rfl⟩ | ⟨rest, hpc2, htodo, rfl, rfl⟩ |
              ⟨rest, hpc2, htodo, rfl, rfl⟩ | ⟨rest, hpc2, htodo, rfl, rfl⟩
            · rw [hpc] at hpc2
              simp only [ClientPc.waiting.injEq] at hpc2
              subst hpc2
              exact Or.inr (by simp)
            all_goals exact absurd (hpc.symm.trans hpc2) (by simp)
          · have hkeep : ∀ c1 : JClient, (s.clients.set j c1).get? i = some c := by
              intro c1
              rw [List.get?_eq_getElem?, List.getElem?_set_ne e, ← List.get?_eq_getElem?]
              exact hc
            rcases hcases with ⟨hd, hpc2, hsig, rfl, rfl⟩ | ⟨hpc2, _, rfl, rfl⟩ |
              ⟨data, len, rest, hpc2, htodo, rfl, rfl⟩ | ⟨rest, hpc2, htodo, rfl, rfl⟩ |
              ⟨rest, hpc2, htodo, rfl, rfl⟩ | ⟨rest, hpc2, htodo, rfl, rfl⟩ <;>
            exact Or.inl (hkeep _)
      rcases key with hk | hk
      · rcases ih s1 hk with h1 | h1
        · exact Or.inl h1
        · exact Or.inr (List.mem_append_right _ h1)
      · exact Or.inr (List.mem_append_left _ hk)

theorem steps_bound (s : JSys) (h : Nat)
    (hpend : JNode.barrier h ∈ held s.worker ++ s.queue) :
    steps_to_signal s h ≤ 3 * (s.queue.length + 1) := by
  unfold steps_to_signal
  split
  · exact Nat.zero_le _
  · have hlt := List.indexOf_lt_length.mpr hpend
    rw [List.length_append] at hlt
    cases hw : s.worker <;> simp only [hw, held, worker_offset, List.length_nil,
      List.length_singleton] at hlt ⊢ <;> omega

/-- C21 (barrier guarantee).  Clients run any programs of `trans_add_item`,
`trans_commit_barrier` and `get_log_queue_length` calls next to the worker, and nobody
calls `trans_destroy`.  In every state reachable from `trans_init`: when client `i`
returns from `trans_commit_barrier` (its handle `h` is signalled), the call returns 0, the
client itself linked the only barrier node with handle `h`, and every node linked before
that node and the node itself have been unlinked and fully processed by the worker, in
the order of linking; if no node was linked after the barrier node (as is the case when
there is one client only), the queue is empty and the worker holds no node, so the queue
length observed then is 0.  And the call does return: once client `i` waits on `h`,
after any schedule that gives the worker three steps for each node queued and for the
node it holds, the next step of the client is the return. -/
theorem C21_barrier_guarantee (programs : List (List JOp)) (sched : List JThread)
    (sf : JSys) (tr : List JEvent) (i h : Nat)
    (hnd : ∀ p ∈ programs, JOp.destroy ∉ p)
    (hrun : jrun (jinit programs) sched = (sf, tr)) :
    (∀ s1 ev, client_step sf i = some (s1, ev) → JEvent.woken i h ∈ ev →
      (∃ c c1, sf.clients.get? i = some c ∧ c.pc = ClientPc.waiting h ∧
        s1.clients.get? i = some c1 ∧ c1.pc = ClientPc.ready ∧
        c1.results = c.results ++ [0]) ∧
      JEvent.enq i (JNode.barrier h) ∈ tr ∧
      ∃ before after, enqueued tr = before ++ JNode.barrier h :: after ∧
        JNode.barrier h ∉ before ∧ JNode.barrier h ∉ after ∧
        before ++ [JNode.barrier h] <+: processed tr ∧
        processed tr <+: dequeued tr ∧
        (after = [] → s1.queue = [] ∧ held s1.worker = [] ∧ processed tr = enqueued tr ∧
          (s1.queue.length : Int) = 0) ∧
        (programs.length = 1 → after = [])) ∧
    (∀ c, sf.clients.get? i = some c → c.pc = ClientPc.waiting h →
      ∀ more : List JThread, 3 * (sf.queue.length + 1) ≤ more.count JThread.worker →
        JEvent.woken i h ∈ (jrun sf (more ++ [JThread.client i])).2) := by
  have hinv : jinv sf tr := by
    have := reachable_inv programs sched
    rw [hrun] at this
    exact this
  have ha : jalive sf := by
    have := jrun_alive sched (jinit programs) (jinit_alive programs hnd)
    rw [hrun] at this
    exact this
  have hlen : sf.clients.length = programs.length := by
    have := jrun_clients_length sched (jinit programs)
    rw [hrun] at this
    simpa [jinit] using this
  constructor
  · intro s1 ev hstep hwoken
    obtain ⟨c, hc, hcases⟩ := client_step_cases sf s1 i ev hstep
    have hlt : i < sf.clients.length := by
      rw [List.get?_eq_getElem?] at hc
      exact (List.getElem?_eq_some_iff.mp hc).1
    rcases hcases with ⟨hd, hpc, hsig, rfl, rfl⟩ | ⟨hpc, _, rfl, rfl⟩ |
      ⟨data, len, rest, hpc, htodo, rfl, rfl⟩ | ⟨rest, hpc, htodo, rfl, rfl⟩ |
      ⟨rest, hpc, htodo, rfl, rfl⟩ | ⟨rest, hpc, htodo, rfl, rfl⟩
    · simp only [List.mem_singleton, JEvent.woken.injEq, true_and] at hwoken
      subst hwoken
      have hproc := hinv.signaled_done h hsig
      obtain ⟨before, pa, hsplit, hnb⟩ := List.eq_append_cons_of_mem hproc
      have henq : enqueued tr = before ++ JNode.barrier h ::
          (pa ++ (held sf.worker ++ (discarded tr ++ sf.queue))) := by
        rw [hinv.fifo, hinv.order, hsplit]
        simp
      refine ⟨⟨c, ({ c with pc := ClientPc.ready, results := c.results ++ [0] }), hc, hpc, ?_,
        rfl, rfl⟩, hinv.own_node i c h hc hpc, before, _, henq, hnb, ?_, ?_, ?_, ?_, ?_⟩
      · simp [List.get?_eq_getElem?, List.getElem?_set, hlt]
      · intro hmem
        have hone := hinv.handle_once h
        rw [henq, List.count_append, List.count_cons_self] at hone
        have := List.count_pos_iff.mpr hmem
        omega
      · rw [hsplit]
        exact ⟨pa, by simp⟩
      · rw [hinv.order]
        exact List.prefix_append _ _
      · intro hnil
        simp only [List.append_eq_nil] at hnil
        obtain ⟨hpa, hh, _, hq⟩ := hnil
        refine ⟨hq, hh, ?_, by simp [hq]⟩
        rw [henq, hsplit, hpa]
        simp [*]
      · intro hone
        obtain ⟨b, hb⟩ := hinv.last_node (by omega) c h (List.get?_mem hc) hpc
        rcases List.eq_nil_or_concat (pa ++ (held sf.worker ++ (discarded tr ++ sf.queue)))
          with hnil | ⟨a1, x, hcat⟩
        · exact hnil
        · exfalso
          rw [hcat] at henq
          have hx : x = JNode.barrier h := by
            have h2 : (before ++ JNode.barrier h :: a1) ++ [x] = b ++ [JNode.barrier h] := by
              rw [← hb, henq]; simp
            exact List.singleton_inj.mp (List.append_inj_right' h2 rfl)
          have hone := hinv.handle_once h
          rw [henq, hx, List.count_append, List.count_cons_self, List.concat_eq_append,
            List.count_append, List.count_singleton] at hone
          simp only [beq_self_eq_true, if_true] at hone
          omega
    all_goals simp at hwoken
  · intro c hc hpc more hcount
    have hen : JNode.barrier h ∈ enqueued tr :=
      enq_mem_enqueued tr i _ (hinv.own_node i c h hc hpc)
    have hsteps : steps_to_signal sf h ≤ more.count JThread.worker := by
      by_cases hs : sf.syncs.getD h false = true
      · rw [steps_zero sf h hs]; exact Nat.zero_le _
      · exact Nat.le_trans (steps_bound sf h (pending_of_unsignaled sf tr hinv ha h hen hs))
          hcount
    have hsig := signal_reached more sf tr hinv ha h hen hsteps
    rw [jrun_append]
    show JEvent.woken i h ∈ (jrun sf more).2 ++ (jrun (jrun sf more).1 [JThread.client i]).2
    rcases waiting_run more sf i h c hc hpc with hstill | hdone
    · apply List.mem_append_right
      generalize (jrun sf more).1 = s2 at hsig hstill ⊢
      obtain ⟨s3, hstep⟩ : ∃ s3, jstep s2 (JThread.client i) = some (s3, [JEvent.woken i h]) := by
        simp only [jstep, client_step, hstill, hpc, hsig, if_true]
        exact ⟨_, rfl⟩
      rw [jrun_some _ _ _ _ _ hstep]
      simp
    · exact List.mem_append_left _ hdone

/-- Witness for C21: one client adds two entries and commits a barrier; with the steps
of the worker in between or only afterwards the call returns, and the queue is empty
then. -/
theorem C21_barrier_guarantee_witness :
    JEvent.woken 0 0 ∈
      (jrun (jrun (jinit [[JOp.add [1, 2] 2, JOp.add [3] 1, JOp.barrier]])
              [JThread.client 0, JThread.worker, JThread.client 0, JThread.client 0]).1
        ([JThread.worker, JThread.worker, JThread.worker, JThread.worker, JThread.worker,
          JThread.worker, JThread.worker, JThread.worker, JThread.worker]
          ++ [JThread.client 0])).2 := by
  have h := C21_barrier_guarantee [[JOp.add [1, 2] 2, JOp.add [3] 1, JOp.barrier]]
    [JThread.client 0, JThread.worker, JThread.client 0, JThread.client 0]
    (jrun (jinit [[JOp.add [1, 2] 2, JOp.add [3] 1, JOp.barrier]])
      [JThread.client 0, JThread.worker, JThread.client 0, JThread.client 0]).1
    (jrun (jinit [[JOp.add [1, 2] 2, JOp.add [3] 1, JOp.barrier]])
      [JThread.client 0, JThread.worker, JThread.client 0, JThread.client 0]).2
    0 0 (by decide) rfl
  exact h.2 { todo := [], pc := ClientPc.waiting 0, results := [0, 0] } (by decide) rfl
    [JThread.worker, JThread.worker, JThread.worker, JThread.worker, JThread.worker,
      JThread.worker, JThread.worker, JThread.worker, JThread.worker] (by decide)

/-- Once the worker has exited, a client that waits on an unsignalled handle waits for
ever: no step of any thread signals the handle. -/
theorem stuck_run (sched : List JThread) (s : JSys) (i h : Nat) (c : JClient)
    (hw : s.worker = WorkerPc.exited) (hs : s.syncs.getD h false = false)
    (hc : s.clients.get? i = some c) (hpc : c.pc = ClientPc.waiting h) :
    (jrun s sched).1.worker = WorkerPc.exited ∧
    (jrun s sched).1.syncs.getD h false = false ∧
    (jrun s sched).1.clients.get? i = some c ∧
    JEvent.woken i h ∉ (jrun s sched).2 := by
  induction sched generalizing s with
  | nil => exact ⟨hw, hs, hc, by simp [jrun]⟩
  | cons t rest ih =>
    cases hstep : jstep s t with
    | none => rw [jrun_none _ _ _ hstep]; exact ih s hw hs hc
    | some p =>
      obtain ⟨s1, ev⟩ := p
      rw [jrun_some _ _ _ _ _ hstep]
      have key : s1.worker = WorkerPc.exited ∧ s1.syncs.getD h false = false ∧
          s1.clients.get? i = some c ∧ JEvent.woken i h ∉ ev := by
        cases t with
        | worker =>
          simp only [jstep, worker_step, hw] at hstep
          exact absurd hstep (by simp)
        | client j =>
          obtain ⟨c2, hc2, hcases⟩ := client_step_cases s s1 j ev hstep
          by_cases e : j = i
          · subst e
            exfalso
            rw [hc] at hc2
            simp only [Option.some.injEq] at hc2
            subst hc2
            rcases hcases with ⟨hd, hpc2, hsig, rfl, rfl⟩ | ⟨hpc2, _, rfl, rfl⟩ |
              ⟨data, len, rest, hpc2, htodo, rfl, rfl⟩ | ⟨rest, hpc2, htodo, rfl, rfl⟩ |
              ⟨rest, hpc2, htodo, rfl, rfl⟩ | ⟨rest, hpc2, htodo, rfl, rfl⟩
            · rw [hpc] at hpc2
              simp only [ClientPc.waiting.injEq] at hpc2
              subst hpc2
              rw [hs] at hsig
              exact absurd hsig (by simp)
            all_goals exact absurd (hpc.symm.trans hpc2) (by simp)
          · have hkeep : ∀ c1 : JClient, (s.clients.set j c1).get? i = some c := by
              intro c1
              rw [List.get?_eq_getElem?, List.getElem?_set_ne e, ← List.get?_eq_getElem?]
              exact hc
            rcases hcases with ⟨hd, hpc2, hsig, rfl, rfl⟩ | ⟨hpc2, _, rfl, rfl⟩ |
              ⟨data, len, rest, hpc2, htodo, rfl, rfl⟩ | ⟨rest, hpc2, htodo, rfl, rfl⟩ |
              ⟨rest, hpc2, htodo, rfl, rfl⟩ | ⟨rest, hpc2, htodo, rfl, rfl⟩
            · exact ⟨hw, hs, hkeep _, by simpa using fun e2 _ => e e2.symm⟩
            · exact ⟨hw, hs, hkeep _, by simp⟩
            · exact ⟨hw, hs, hkeep _, by simp⟩
            · refine ⟨hw, ?_, hkeep _, by simp⟩
              show (s.syncs ++ [false]).getD h false = false
              rw [getD_append_false]; exact hs
            · exact ⟨hw, hs, hkeep _, by simp⟩
            · exact ⟨hw, hs, hkeep _, by simp⟩
      obtain ⟨h1, h2, h3, h4⟩ := key
      obtain ⟨i1, i2, i3, i4⟩ := ih s1 h1 h2 h3
      refine ⟨i1, i2, i3, ?_⟩
      show JEvent.woken i h ∉ ev ++ (jrun s1 rest).2
      intro hm
      rcases List.mem_append.mp hm with hm | hm
      · exact h4 hm
      · exact i4 hm

/-- C24 (shutdown and barrier waiters): the code does not wake them.  Client 0 calls
`trans_commit_barrier` and client 1 calls `trans_destroy` before the worker has unlinked
the barrier node: the worker sees `log_worker_running == 0` and exits, `trans_destroy`
frees the node without signalling its handle, and client 0 stays in `barrier_sync_wait`
whatever happens afterwards.  In general: when `trans_destroy` gets past `pthread_join`,
it empties the queue and leaves every handle as it is, and a client waiting on a handle
that is not signalled then never returns.  The worker, by contrast, signals the handle
of every barrier node it removes. -/
theorem C24_shutdown_leaves_waiter_blocked :
    jrun (jinit [[JOp.barrier], [JOp.destroy]])
        [JThread.client 0, JThread.client 1, JThread.worker, JThread.client 1] =
      ({ queue := [], running := false, syncs := [false], worker := WorkerPc.exited,
         clients := [{ todo := [], pc := ClientPc.waiting 0, results := [] },
                     { todo := [], pc := ClientPc.ready, results := [] }] },
       [JEvent.enq 0 (JNode.barrier 0), JEvent.discard (JNode.barrier 0)]) ∧
    (∀ more : List JThread,
      JEvent.woken 0 0 ∉ (jrun (jrun (jinit [[JOp.barrier], [JOp.destroy]])
        [JThread.client 0, JThread.client 1, JThread.worker, JThread.client 1]).1 more).2 ∧
      ((jrun (jrun (jinit [[JOp.barrier], [JOp.destroy]])
        [JThread.client 0, JThread.client 1, JThread.worker, JThread.client 1]).1
          more).1.clients.get? 0).map JClient.pc = some (ClientPc.waiting 0)) ∧
    (∀ (s : JSys) (i j h : Nat) (c cj : JClient),
      s.clients.get? j = some cj → cj.pc = ClientPc.joining → s.worker = WorkerPc.exited →
      s.clients.get? i = some c → c.pc = ClientPc.waiting h →
      s.syncs.getD h false = false →
      ∃ s1, client_step s j = some (s1, s.queue.map JEvent.discard) ∧
        s1.queue = [] ∧ s1.syncs = s.syncs ∧
        ∀ more : List JThread,
          (jrun s1 more).1.syncs.getD h false = false ∧
          (jrun s1 more).1.clients.get? i = some c ∧
          JEvent.woken i h ∉ (jrun s1 more).2) ∧
    (∀ (s s1 : JSys) (ev : List JEvent) (h : Nat),
      s.worker = WorkerPc.signal (JNode.barrier h) → h < s.syncs.length →
      worker_step s = some (s1, ev) → s1.syncs.getD h false = true) := by
  have hrun : jrun (jinit [[JOp.barrier], [JOp.destroy]])
        [JThread.client 0, JThread.client 1, JThread.worker, JThread.client 1] =
      ({ queue := [], running := false, syncs := [false], worker := WorkerPc.exited,
         clients := [{ todo := [], pc := ClientPc.waiting 0, results := [] },
                     { todo := [], pc := ClientPc.ready, results := [] }] },
       [JEvent.enq 0 (JNode.barrier 0), JEvent.discard (JNode.barrier 0)]) := by decide
  refine ⟨hrun, ?_, ?_, ?_⟩
  · intro more
    rw [hrun]
    obtain ⟨_, _, h3, h4⟩ := stuck_run more
      { queue := [], running := false, syncs := [false], worker := WorkerPc.exited,
        clients := [{ todo := [], pc := ClientPc.waiting 0, results := [] },
                    { todo := [], pc := ClientPc.ready, results := [] }] }
      0 0 { todo := [], pc := ClientPc.waiting 0, results := [] } rfl rfl rfl rfl
    exact ⟨h4, by rw [h3]; rfl⟩
  · intro s i j h c cj hcj hpcj hw hc hpc hs
    have hij : j ≠ i := by
      intro e
      subst e
      rw [hc] at hcj
      simp only [Option.some.injEq] at hcj
      subst hcj
      exact absurd (hpc.symm.trans hpcj) (by simp)
    refine ⟨{ s with queue := [], clients := s.clients.set j ({ cj with pc := ClientPc.ready }) },
      ?_, rfl, rfl, ?_⟩
    · simp only [client_step, hcj, hpcj, hw, if_true]
    · intro more
      have hkeep : (s.clients.set j ({ cj with pc := ClientPc.ready })).get? i = some c := by
        rw [List.get?_eq_getElem?, List.getElem?_set_ne hij, ← List.get?_eq_getElem?]
        exact hc
      obtain ⟨_, h2, h3, h4⟩ := stuck_run more
        { s with queue := [], clients := s.clients.set j ({ cj with pc := ClientPc.ready }) }
        i h c hw hs hkeep hpc
      exact ⟨h2, h3, h4⟩
  · intro s s1 ev h hw hlt hstep
    simp only [worker_step, hw, Option.some.injEq, Prod.mk.injEq] at hstep
    rw [← hstep.1]
    exact (getD_set_true s.syncs h h).mpr (Or.inl ⟨rfl, hlt⟩)

/-! ## Allocator calls from several threads -/

theorem call_update_wf (c : AllocCall) (agf agf1 : xfs_agf_t) (ret : Int) (hwf : agf_wf agf)
    (h : call_update c agf = some (agf1, ret)) : agf_wf agf1 := by
  cases c with
  | init ag =>
    simp only [call_update, Option.some.injEq, Prod.mk.injEq] at h
    rw [← h.1]; exact agf_reset_wf agf hwf
  | alloc ag count =>
    simp only [call_update] at h
    split at h
    · exact absurd h (by simp)
    · simp only [Option.some.injEq, Prod.mk.injEq] at h
      rw [← h.1]; exact agf_allocate_wf agf hwf _ _
  | free ag start count =>
    simp only [call_update, Option.some.injEq, Prod.mk.injEq] at h
    rw [← h.1]; exact agf_release_wf agf hwf _ _

/-- The AGF of the addressed AG after one call, run on its own. -/
theorem run_call_view (fs : FS) (c : AllocCall) (hv : valid_ag (call_ag c)) :
    read_agf (run_call fs c).disk (call_ag c) = view_call c (read_agf fs.disk (call_ag c)) := by
  cases hr : read_agf fs.disk (call_ag c) with
  | none =>
    have hd : disk_read fs.disk (ag_get_offset (call_ag c)) SIZEOF_AGF = none := by
      simpa [read_agf] using hr
    have hl : ag_lock (call_ag c) = 0 := by
      unfold ag_lock valid_ag NUM_AGS at *
      rw [if_neg (by omega)]
    have : run_call fs c = fs := by
      cases c with
      | init ag =>
        simp only [call_ag] at hd hl
        simp [run_call, xfs_ag_init_alloc, hd, hl]
      | alloc ag count =>
        simp only [call_ag] at hd hl
        simp [run_call, xfs_alloc_blocks, hd, hl]
      | free ag start count =>
        simp only [call_ag] at hd hl
        simp [run_call, xfs_free_blocks, hd, hl]
    rw [this, hr]
    rfl
  | some agf =>
    have hwf := read_agf_wf hr
    cases c with
    | init ag =>
      simp only [call_ag] at hr hv ⊢
      simp only [run_call, xfs_ag_init_alloc_eq hv hr, view_call, call_update]
      exact (read_agf_write_same hr _ (agf_reset_wf agf hwf)).2
    | alloc ag count =>
      simp only [call_ag] at hr hv ⊢
      simp only [run_call, xfs_alloc_blocks_eq hv hr, view_call, call_update]
      cases hs : alloc_scan agf.free_blocks count 2400 2 with
      | none => exact hr
      | some r => exact (read_agf_write_same hr _ (agf_allocate_wf agf hwf _ _)).2
    | free ag start count =>
      simp only [call_ag] at hr hv ⊢
      simp only [run_call, xfs_free_blocks_eq hv hr, view_call, call_update]
      exact (read_agf_write_same hr _ (agf_release_wf agf hwf _ _)).2

/-- The AGF of an AG after a sequence of calls on that AG, run on their own. -/
theorem run_calls_view (p : List AllocCall) (fs : FS) (ag : Int) (hv : valid_ag ag)
    (hp : ∀ c ∈ p, call_ag c = ag) :
    read_agf (run_calls fs p).disk ag
      = p.foldl (fun w c => view_call c w) (read_agf fs.disk ag) := by
  induction p generalizing fs with
  | nil => rfl
  | cons c rest ih =>
    have hc : call_ag c = ag := hp c (List.mem_cons_self _ _)
    have h1 := run_call_view fs c (by rw [hc]; exact hv)
    rw [hc] at h1
    show read_agf (run_calls (run_call fs c) rest).disk ag = _
    rw [ih (run_call fs c) (fun c1 h => hp c1 (List.mem_cons_of_mem _ h)), h1]
    rfl

theorem own_getD_mem (ags : List Int) (programs : List (List AllocCall))
    (hown : own_ags ags programs) (i : Nat) (hi : i < programs.length) :
    ags.getD i 0 ∈ ags ∧ valid_ag (ags.getD i 0) := by
  obtain ⟨_, hlen, hval, _⟩ := hown
  have hi2 : i < ags.length := by omega
  have hm : ags.getD i 0 ∈ ags := by
    rw [List.getD_eq_getElem _ _ hi2]
    exact List.getElem_mem _
  exact ⟨hm, hval _ hm⟩

theorem own_getD_ne (ags : List Int) (programs : List (List AllocCall))
    (hown : own_ags ags programs) (i j : Nat) (hi : i < programs.length)
    (hj : j < programs.length) (hij : i ≠ j) : ags.getD i 0 ≠ ags.getD j 0 := by
  obtain ⟨hnd, hlen, _, _⟩ := hown
  have hi2 : i < ags.length := by omega
  have hj2 : j < ags.length := by omega
  rw [List.getD_eq_getElem _ _ hi2, List.getD_eq_getElem _ _ hj2]
  intro he
  exact hij ((List.Nodup.getElem_inj_iff hnd).mp he)

theorem valid_toNat_ne (a b : Int) (ha : valid_ag a) (hb : valid_ag b) (hab : a ≠ b) :
    a.toNat ≠ b.toNat := by
  unfold valid_ag at ha hb
  omega

theorem threads_set_get (l : List AThread) (i j : Nat) (t1 t2 : AThread)
    (hj : (l.set i t1).get? j = some t2) :
    (j = i ∧ t2 = t1) ∨ (j ≠ i ∧ l.get? j = some t2) := by
  simp only [List.get?_eq_getElem?, List.getElem?_set] at hj ⊢
  by_cases e : i = j
  · subst e
    simp only [if_true] at hj
    split at hj
    · exact Or.inl ⟨rfl, by simpa using hj.symm⟩
    · exact absurd hj (by simp)
  · simp only [if_neg e] at hj
    exact Or.inr ⟨fun h => e h.symm, hj⟩

theorem get_lt (l : List AThread) (i : Nat) (t : AThread) (h : l.get? i = some t) :
    i < l.length := by
  rw [List.get?_eq_getElem?] at h
  exact (List.getElem?_eq_some_iff.mp h).1

/-- A write of an AGF-sized record at the offset of one AG leaves the AGF of every other
AG as it is. -/
theorem agf_write_other (d d1 : Option Disk) (a ag : Int) (ha : valid_ag a)
    (hag : valid_ag ag) (hne : ag ≠ a)
    (hd : d1 = d ∨ ∃ buf, d1 = (disk_write d (ag_get_offset a) buf SIZEOF_AGF).2) :
    read_agf d1 ag = read_agf d ag := by
  rcases hd with rfl | ⟨buf, rfl⟩
  · rfl
  · exact read_agf_write_other ha hag (fun h => hne h.symm) buf

/-- The invariant after a step of thread `i` that writes at most the AGF of its AG,
changes at most the mutex of its AG, and keeps what the invariant says of thread `i`. -/
theorem ainv_update (fs : FS) (ags : List Int) (programs : List (List AllocCall))
    (s : ASys) (hown : own_ags ags programs) (hinv : ainv fs ags programs s)
    (i : Nat) (t t1 : AThread) (d1 : Option Disk) (j1 : Journal) (l1 : List Bool)
    (hget : s.threads.get? i = some t)
    (hd : d1 = s.disk ∨ ∃ buf, d1 = (disk_write s.disk (ag_get_offset (ags.getD i 0)) buf
      SIZEOF_AGF).2)
    (hl : l1.length = s.locks.length)
    (hl2 : ∀ n, n ≠ (ags.getD i 0).toNat → l1.getD n false = s.locks.getD n false)
    (hsub : ∀ c1 ∈ t1.todo, c1 ∈ t.todo)
    (hbusy : t1.pc ≠ APc.idle → t1.todo ≠ [])
    (hlocals : ∀ agf1 ret, t1.pc = APc.loaded agf1 ret →
      agf_wf agf1 ∧ (read_agf d1 (ags.getD i 0)).isSome)
    (hmutex : l1.getD (ags.getD i 0).toNat false = true ↔ t1.pc ≠ APc.idle)
    (hview : rest_view t1 (read_agf d1 (ags.getD i 0))
      = rest_view t (read_agf s.disk (ags.getD i 0))) :
    ainv fs ags programs
      { disk := d1, journal := j1, locks := l1, threads := s.threads.set i t1 } := by
  have hi : i < programs.length := by
    rw [← hinv.threads_length]; exact get_lt _ _ _ hget
  obtain ⟨hmi, hvi⟩ := own_getD_mem ags programs hown i hi
  have hother : ∀ j t2, j ≠ i → s.threads.get? j = some t2 →
      read_agf d1 (ags.getD j 0) = read_agf s.disk (ags.getD j 0) ∧
      l1.getD (ags.getD j 0).toNat false = s.locks.getD (ags.getD j 0).toNat false := by
    intro j t2 hji hj
    have hj2 : j < programs.length := by
      rw [← hinv.threads_length]; exact get_lt _ _ _ hj
    obtain ⟨_, hvj⟩ := own_getD_mem ags programs hown j hj2
    have hne := own_getD_ne ags programs hown j i hj2 hi hji
    exact ⟨agf_write_other _ _ _ _ hvi hvj hne hd,
      hl2 _ (valid_toNat_ne _ _ hvj hvi hne)⟩
  refine ⟨?_, ?_, ?_, ?_, ?_, ?_, ?_, ?_⟩
  · show (s.threads.set i t1).length = programs.length
    rw [List.length_set]; exact hinv.threads_length
  · show l1.length = NUM_AGS
    rw [hl]; exact hinv.locks_length
  · intro j t2 hj c hc
    rcases threads_set_get _ _ _ _ _ hj with ⟨rfl, rfl⟩ | ⟨_, hold⟩
    · exact hinv.todo_sub j t hget c (hsub c hc)
    · exact hinv.todo_sub j t2 hold c hc
  · intro j t2 hj hpc
    rcases threads_set_get _ _ _ _ _ hj with ⟨rfl, rfl⟩ | ⟨_, hold⟩
    · exact hbusy hpc
    · exact hinv.busy j t2 hold hpc
  · intro j t2 agf1 ret hj hpc
    rcases threads_set_get _ _ _ _ _ hj with ⟨rfl, rfl⟩ | ⟨hji, hold⟩
    · exact hlocals agf1 ret hpc
    · have := hinv.locals j t2 agf1 ret hold hpc
      show agf_wf agf1 ∧ (read_agf d1 (ags.getD j 0)).isSome = true
      rw [(hother j t2 hji hold).1]
      exact this
  · intro j t2 hj
    rcases threads_set_get _ _ _ _ _ hj with ⟨rfl, rfl⟩ | ⟨hji, hold⟩
    · exact hmutex
    · show l1.getD (ags.getD j 0).toNat false = true ↔ _
      rw [(hother j t2 hji hold).2]
      exact hinv.mutex j t2 hold
  · intro j t2 hj
    rcases threads_set_get _ _ _ _ _ hj with ⟨rfl, rfl⟩ | ⟨hji, hold⟩
    · show rest_view t2 (read_agf d1 (ags.getD j 0)) = _
      rw [hview]; exact hinv.view j t hget
    · show rest_view t2 (read_agf d1 (ags.getD j 0)) = _
      rw [(hother j t2 hji hold).1]
      exact hinv.view j t2 hold
  · intro ag hv hnot
    show read_agf d1 ag = read_agf fs.disk ag
    rw [agf_write_other _ _ _ _ hvi hv (fun h => hnot (h ▸ hmi)) hd]
    exact hinv.others ag hv hnot

/-- The steps of an allocator thread, case by case. -/
theorem athread_step_cases (s s1 : ASys) (i : Nat) (h : athread_step s i = some s1) :
    ∃ t c rest t1 d1 j1 l1, s.threads.get? i = some t ∧ t.todo = c :: rest ∧
      s1 = { disk := d1, journal := j1, locks := l1, threads := s.threads.set i t1 } ∧
      ((t.pc = APc.idle ∧ ag_lock (call_ag c) ≠ 0 ∧ d1 = s.disk ∧ l1 = s.locks ∧
          t1 = { t with todo := rest, results := t.results ++ [call_fail c] }) ∨
       (t.pc = APc.idle ∧ ag_lock (call_ag c) = 0 ∧
          s.locks.getD (call_ag c).toNat false = false ∧ d1 = s.disk ∧
          l1 = s.locks.set (call_ag c).toNat true ∧ t1 = { t with pc := APc.locked }) ∨
       (t.pc = APc.locked ∧
          disk_read s.disk (ag_get_offset (call_ag c)) SIZEOF_AGF = none ∧ d1 = s.disk ∧
          l1 = s.locks ∧ t1 = { t with pc := APc.unlocking (call_fail c) }) ∨
       (∃ bytes, t.pc = APc.locked ∧
          disk_read s.disk (ag_get_offset (call_ag c)) SIZEOF_AGF = some bytes ∧
          call_update c (agf_of_bytes bytes) = none ∧ d1 = s.disk ∧
          l1 = s.locks ∧ t1 = { t with pc := APc.unlocking (call_fail c) }) ∨
       (∃ bytes agf1 ret, t.pc = APc.locked ∧
          disk_read s.disk (ag_get_offset (call_ag c)) SIZEOF_AGF = some bytes ∧
          call_update c (agf_of_bytes bytes) = some (agf1, ret) ∧ d1 = s.disk ∧
          l1 = s.locks ∧ t1 = { t with pc := APc.loaded agf1 ret }) ∨
       (∃ agf1 ret, t.pc = APc.loaded agf1 ret ∧
          (disk_write s.disk (ag_get_offset (call_ag c)) (agf_to_bytes agf1) SIZEOF_AGF).1 = 0 ∧
          d1 = (disk_write s.disk (ag_get_offset (call_ag c)) (agf_to_bytes agf1)
            SIZEOF_AGF).2 ∧
          l1 = s.locks ∧
          t1 = { t with pc := if call_logs c then APc.written agf1 ret
                              else APc.unlocking ret }) ∨
       (∃ agf1 ret, t.pc = APc.loaded agf1 ret ∧
          (disk_write s.disk (ag_get_offset (call_ag c)) (agf_to_bytes agf1) SIZEOF_AGF).1 ≠ 0 ∧
          d1 = (disk_write s.disk (ag_get_offset (call_ag c)) (agf_to_bytes agf1)
            SIZEOF_AGF).2 ∧
          l1 = s.locks ∧ t1 = { t with pc := APc.unlocking (call_fail c) }) ∨
       (∃ agf1 ret, t.pc = APc.written agf1 ret ∧ d1 = s.disk ∧ l1 = s.locks ∧
          t1 = { t with pc := APc.unlocking ret }) ∨
       (∃ ret, t.pc = APc.unlocking ret ∧ d1 = s.disk ∧
          l1 = s.locks.set (call_ag c).toNat false ∧
          t1 = { todo := rest, pc := APc.idle, results := t.results ++ [ret] })) := by
  unfold athread_step at h
  split at h
  · exact absurd h (by simp)
  · rename_i t hget
    split at h
    · exact absurd h (by simp)
    · rename_i c rest htodo
      split at h
      · rename_i hpc
        split at h
        · rename_i hlock
          simp only [Option.some.injEq] at h
          exact ⟨t, c, rest, _, _, _, _, hget, htodo, h.symm, Or.inl ⟨hpc, hlock, rfl, rfl, rfl⟩⟩
        · rename_i hlock
          split at h
          · exact absurd h (by simp)
          · rename_i hfree
            simp only [Option.some.injEq] at h
            exact ⟨t, c, rest, _, _, _, _, hget, htodo, h.symm,
              Or.inr (Or.inl ⟨hpc, by simpa using hlock, by simpa using hfree, rfl, rfl, rfl⟩)⟩
      · rename_i hpc
        split at h
        · rename_i hread
          simp only [Option.some.injEq] at h
          exact ⟨t, c, rest, _, _, _, _, hget, htodo, h.symm,
            Or.inr (Or.inr (Or.inl ⟨hpc, hread, rfl, rfl, rfl⟩))⟩
        · rename_i bytes hread
          split at h
          · rename_i hup
            simp only [Option.some.injEq] at h
            exact ⟨t, c, rest, _, _, _, _, hget, htodo, h.symm,
              Or.inr (Or.inr (Or.inr (Or.inl ⟨bytes, hpc, hread, hup, rfl, rfl, rfl⟩)))⟩
          · rename_i agf1 ret hup
            simp only [Option.some.injEq] at h
            exact ⟨t, c, rest, _, _, _, _, hget, htodo, h.symm,
              Or.inr (Or.inr (Or.inr (Or.inr (Or.inl
                ⟨bytes, agf1, ret, hpc, hread, hup, rfl, rfl, rfl⟩))))⟩
      · rename_i agf1 ret hpc
        split at h
        · rename_i disk1 hw
          simp only [Option.some.injEq] at h
          refine ⟨t, c, rest, _, _, _, _, hget, htodo, h.symm,
            Or.inr (Or.inr (Or.inr (Or.inr (Or.inr (Or.inl
              ⟨agf1, ret, hpc, ?_, ?_, rfl, rfl⟩)))))⟩
          · rw [hw]
          · rw [hw]
        · rename_i st disk1 hne hw
          simp only [Option.some.injEq] at h
          refine ⟨t, c, rest, _, _, _, _, hget, htodo, h.symm,
            Or.inr (Or.inr (Or.inr (Or.inr (Or.inr (Or.inr (Or.inl
              ⟨agf1, ret, hpc, ?_, ?_, rfl, rfl⟩))))))⟩
          · rw [hw]
            intro h0
            exact hne h0
          · rw [hw]
      · rename_i agf1 ret hpc
        simp only [Option.some.injEq] at h
        exact ⟨t, c, rest, _, _, _, _, hget, htodo, h.symm,
          Or.inr (Or.inr (Or.inr (Or.inr (Or.inr (Or.inr (Or.inr (Or.inl
            ⟨agf1, ret, hpc, rfl, rfl, rfl⟩)))))))⟩
      · rename_i ret hpc
        simp only [Option.some.injEq] at h
        exact ⟨t, c, rest, _, _, _, _, hget, htodo, h.symm,
          Or.inr (Or.inr (Or.inr (Or.inr (Or.inr (Or.inr (Or.inr (Or.inr
            ⟨ret, hpc, rfl, rfl, rfl⟩)))))))⟩

theorem locks_set_self (l : List Bool) (n : Nat) (b : Bool) (h : n < l.length) :
    (l.set n b).getD n false = b := by
  simp [List.getD_eq_getElem?_getD, List.getElem?_set, h]

theorem locks_set_other (l : List Bool) (n m : Nat) (b : Bool) (h : m ≠ n) :
    (l.set n b).getD m false = l.getD m false := by
  simp [List.getD_eq_getElem?_getD, List.getElem?_set, Ne.symm h]

theorem view_fold_none (p : List AllocCall) :
    p.foldl (fun w c => view_call c w) none = none := by
  induction p with
  | nil => rfl
  | cons c rest ih => simpa [List.foldl_cons, view_call] using ih

/-- A step of a thread keeps the invariant. -/
theorem athread_step_inv (fs : FS) (ags : List Int) (programs : List (List AllocCall))
    (s s1 : ASys) (i : Nat) (hown : own_ags ags programs) (hinv : ainv fs ags programs s)
    (h : athread_step s i = some s1) : ainv fs ags programs s1 := by
  obtain ⟨t, c, rest, t1, d1, j1, l1, hget, htodo, rfl, hcases⟩ := athread_step_cases s s1 i h
  have hi : i < programs.length := by
    rw [← hinv.threads_length]; exact get_lt _ _ _ hget
  obtain ⟨hmi, hvi⟩ := own_getD_mem ags programs hown i hi
  have hca : call_ag c = ags.getD i 0 :=
    hown.2.2.2 i hi c (hinv.todo_sub i t hget c (by rw [htodo]; exact List.mem_cons_self _ _))
  have hlock : ag_lock (ags.getD i 0) = 0 := by
    unfold ag_lock valid_ag NUM_AGS at *
    rw [if_neg (by omega)]
  have hlt : (ags.getD i 0).toNat < s.locks.length := by
    rw [hinv.locks_length]
    unfold valid_ag NUM_AGS at *
    omega
  have hmut := hinv.mutex i t hget
  have hne : c :: rest ≠ [] := by simp
  rw [hca] at hcases
  rcases hcases with ⟨hpc, hl, rfl, rfl, rfl⟩ | ⟨hpc, _, hfree, rfl, rfl, rfl⟩ |
    ⟨hpc, hread, rfl, rfl, rfl⟩ | ⟨bytes, hpc, hread, hup, rfl, rfl, rfl⟩ |
    ⟨bytes, agf1, ret, hpc, hread, hup, rfl, rfl, rfl⟩ |
    ⟨agf1, ret, hpc, hst, rfl, rfl, rfl⟩ | ⟨agf1, ret, hpc, hst, rfl, rfl, rfl⟩ |
    ⟨agf1, ret, hpc, rfl, rfl, rfl⟩ | ⟨ret, hpc, rfl, rfl, rfl⟩
  · exact absurd hlock hl
  · -- ag_lock
    apply ainv_update fs ags programs s hown hinv i t _ _ j1 _ hget (Or.inl rfl)
      (List.length_set _ _ _) (fun n hn => locks_set_other _ _ _ _ hn)
    · intro c1 hc1; exact hc1
    · intro _; rw [htodo]; exact hne
    · intro agf1 ret hp; exact absurd hp (by simp)
    · rw [locks_set_self _ _ _ hlt]; simp
    · simp only [rest_view, hpc]
  · -- disk_read fails
    have hv : read_agf s.disk (ags.getD i 0) = none := by
      unfold read_agf; rw [hread]; rfl
    apply ainv_update fs ags programs s hown hinv i t _ _ j1 _ hget (Or.inl rfl) rfl
      (fun n hn => rfl)
    · intro c1 hc1; exact hc1
    · intro _; rw [htodo]; exact hne
    · intro agf1 ret hp; exact absurd hp (by simp)
    · rw [hmut, hpc]; simp
    · simp only [rest_view, hpc, htodo, hv, List.tail_cons, view_fold_none]
  · -- no run of free blocks
    have hv : read_agf s.disk (ags.getD i 0) = some (agf_of_bytes bytes) := by
      unfold read_agf; rw [hread]; rfl
    apply ainv_update fs ags programs s hown hinv i t _ _ j1 _ hget (Or.inl rfl) rfl
      (fun n hn => rfl)
    · intro c1 hc1; exact hc1
    · intro _; rw [htodo]; exact hne
    · intro agf1 ret hp; exact absurd hp (by simp)
    · rw [hmut, hpc]; simp
    · simp only [rest_view, hpc, htodo, hv, List.tail_cons, List.foldl_cons, view_call, hup]
  · -- disk_read and the update of the local copy
    have hv : read_agf s.disk (ags.getD i 0) = some (agf_of_bytes bytes) := by
      unfold read_agf; rw [hread]; rfl
    apply ainv_update fs ags programs s hown hinv i t _ _ j1 _ hget (Or.inl rfl) rfl
      (fun n hn => rfl)
    · intro c1 hc1; exact hc1
    · intro _; rw [htodo]; exact hne
    · intro agf2 ret2 hp
      simp only [APc.loaded.injEq] at hp
      obtain ⟨rfl, rfl⟩ := hp
      exact ⟨call_update_wf c _ _ _ (read_agf_wf hv) hup, by rw [hv]; rfl⟩
    · rw [hmut, hpc]; simp
    · simp only [rest_view, hpc, htodo, hv, List.tail_cons, List.foldl_cons, view_call, hup]
  · -- disk_write
    obtain ⟨hwf, hsome⟩ := hinv.locals i t agf1 ret hget hpc
    obtain ⟨a0, ha0⟩ := Option.isSome_iff_exists.mp hsome
    have hback := (read_agf_write_same ha0 agf1 hwf).2
    apply ainv_update fs ags programs s hown hinv i t _ _ j1 _ hget (Or.inr ⟨_, rfl⟩) rfl
      (fun n hn => rfl)
    · intro c1 hc1; exact hc1
    · intro _; rw [htodo]; exact hne
    · intro agf2 ret2 hp
      cases hlg : call_logs c <;> simp [hlg] at hp
    · rw [hmut, hpc]
      cases hlg : call_logs c <;> simp
    · rw [hback]
      cases hlg : call_logs c <;> simp [rest_view, hpc, htodo]
  · -- disk_write cannot fail after the read
    obtain ⟨hwf, hsome⟩ := hinv.locals i t agf1 ret hget hpc
    obtain ⟨a0, ha0⟩ := Option.isSome_iff_exists.mp hsome
    exact absurd (read_agf_write_same ha0 agf1 hwf).1 hst
  · -- trans_add_item
    apply ainv_update fs ags programs s hown hinv i t _ _ j1 _ hget (Or.inl rfl) rfl
      (fun n hn => rfl)
    · intro c1 hc1; exact hc1
    · intro _; rw [htodo]; exact hne
    · intro agf2 ret2 hp; exact absurd hp (by simp)
    · rw [hmut, hpc]; simp
    · simp only [rest_view, hpc, htodo]
  · -- ag_unlock and return
    apply ainv_update fs ags programs s hown hinv i t _ _ j1 _ hget (Or.inl rfl)
      (List.length_set _ _ _) (fun n hn => locks_set_other _ _ _ _ hn)
    · intro c1 hc1; rw [htodo]; exact List.mem_cons_of_mem _ hc1
    · intro hp; exact absurd rfl hp
    · intro agf1 ret1 hp; exact absurd hp (by simp)
    · rw [locks_set_self _ _ _ hlt]; simp
    · simp only [rest_view, hpc, htodo, List.tail_cons]

/-- Every step of a thread brings it closer to the end of its program and leaves the
other threads as they are. -/
theorem athread_step_measure (s s1 : ASys) (i : Nat) (h : athread_step s i = some s1) :
    ∃ t t1, s.threads.get? i = some t ∧ s1.threads.get? i = some t1 ∧
      steps_left t1 < steps_left t ∧ ∀ j, j ≠ i → s1.threads.get? j = s.threads.get? j := by
  obtain ⟨t, c, rest, t1, d1, j1, l1, hget, htodo, rfl, hcases⟩ := athread_step_cases s s1 i h
  have hlt := get_lt _ _ _ hget
  refine ⟨t, t1, hget, ?_, ?_, ?_⟩
  · simp [List.get?_eq_getElem?, List.getElem?_set, hlt]
  · rcases hcases with ⟨hpc, hl, rfl, rfl, rfl⟩ | ⟨hpc, _, hfree, rfl, rfl, rfl⟩ |
      ⟨hpc, hread, rfl, rfl, rfl⟩ | ⟨bytes, hpc, hread, hup, rfl, rfl, rfl⟩ |
      ⟨bytes, agf1, ret, hpc, hread, hup, rfl, rfl, rfl⟩ |
      ⟨agf1, ret, hpc, hst, rfl, rfl, rfl⟩ | ⟨agf1, ret, hpc, hst, rfl, rfl, rfl⟩ |
      ⟨agf1, ret, hpc, rfl, rfl, rfl⟩ | ⟨ret, hpc, rfl, rfl, rfl⟩
    all_goals simp only [steps_left, hpc, htodo, pc_offset, List.length_cons]
    all_goals first
      | omega
      | (cases call_logs c <;> simp only [pc_offset, if_true, if_false, Bool.false_eq_true] <;>
          omega)
  · intro j hj
    show (s.threads.set i t1).get? j = _
    rw [List.get?_eq_getElem?, List.getElem?_set_ne (Ne.symm hj), ← List.get?_eq_getElem?]

/-- No contention: a thread with a call left can always take a step. -/
theorem athread_enabled (fs : FS) (ags : List Int) (programs : List (List AllocCall))
    (s : ASys) (i : Nat) (t : AThread) (hown : own_ags ags programs)
    (hinv : ainv fs ags programs s) (hget : s.threads.get? i = some t)
    (htodo : t.todo ≠ []) : (athread_step s i).isSome = true := by
  have hi : i < programs.length := by
    rw [← hinv.threads_length]; exact get_lt _ _ _ hget
  obtain ⟨hmi, hvi⟩ := own_getD_mem ags programs hown i hi
  cases hq : t.todo with
  | nil => exact absurd hq htodo
  | cons c rest =>
    have hca : call_ag c = ags.getD i 0 :=
      hown.2.2.2 i hi c (hinv.todo_sub i t hget c (by rw [hq]; exact List.mem_cons_self _ _))
    have hlock : ag_lock (ags.getD i 0) = 0 := by
      unfold ag_lock valid_ag NUM_AGS at *
      rw [if_neg (by omega)]
    have hmut := hinv.mutex i t hget
    unfold athread_step
    simp only [hget, hq, hca]
    cases hpc : t.pc with
    | idle =>
      have hfree : ¬ s.locks.getD (ags.getD i 0).toNat false = true := by
        rw [hmut, hpc]; simp
      simp only [hlock, ne_eq, not_true_eq_false, if_false, if_neg hfree]
      rfl
    | locked =>
      simp only
      split
      · rfl
      · split <;> rfl
    | loaded agf1 ret =>
      simp only
      split <;> rfl
    | written agf1 ret => rfl
    | unlocking ret => rfl

theorem replicate_getD_false (n m : Nat) : (List.replicate n false).getD m false = false := by
  rw [List.getD_eq_getElem?_getD, List.getElem?_replicate]
  split <;> rfl

theorem ainit_inv (fs : FS) (ags : List Int) (programs : List (List AllocCall)) :
    ainv fs ags programs (ainit fs programs) := by
  have hthread : ∀ i t, (ainit fs programs).threads.get? i = some t →
      t = { todo := programs.getD i [], pc := APc.idle, results := [] } := by
    intro i t h
    simp only [ainit, List.get?_eq_getElem?, List.getElem?_map] at h
    cases hp : programs[i]? with
    | none => rw [hp] at h; simp at h
    | some p =>
      rw [hp] at h
      simp only [Option.map_some', Option.some.injEq] at h
      rw [← h, List.getD_eq_getElem?_getD, hp]
      rfl
  refine ⟨by simp [ainit], by simp [ainit], ?_, ?_, ?_, ?_, ?_, ?_⟩
  · intro i t h c hc
    rw [hthread i t h] at hc
    exact hc
  · intro i t h hpc
    rw [hthread i t h] at hpc
    exact absurd rfl hpc
  · intro i t agf1 ret h hpc
    rw [hthread i t h] at hpc
    exact absurd hpc (by simp)
  · intro i t h
    rw [hthread i t h]
    have : (ainit fs programs).locks.getD (ags.getD i 0).toNat false = false :=
      replicate_getD_false _ _
    rw [this]
    simp
  · intro i t h
    rw [hthread i t h]
    rfl
  · intro ag _ _
    rfl

/-- The invariant holds along every run, and a schedule that picks every thread often
enough runs every program to its end. -/
theorem arun_finish (fs : FS) (ags : List Int) (programs : List (List AllocCall))
    (hown : own_ags ags programs) (sched : List Nat) (s : ASys)
    (hinv : ainv fs ags programs s) :
    ainv fs ags programs (arun s sched) ∧
    ((∀ i t, s.threads.get? i = some t → steps_left t ≤ sched.count i) →
      ∀ t ∈ (arun s sched).threads, t.todo = [] ∧ t.pc = APc.idle) := by
  induction sched generalizing s with
  | nil =>
    refine ⟨hinv, ?_⟩
    intro hcount t ht
    obtain ⟨i, hi⟩ := List.get?_of_mem ht
    have h0 := hcount i t hi
    have hnil : t.todo = [] := by
      by_contra hne
      have hpos : 0 < t.todo.length := List.length_pos.mpr hne
      simp only [List.count_nil, Nat.le_zero, steps_left] at h0
      cases hp : t.pc <;> simp only [hp, pc_offset] at h0 <;> omega
    refine ⟨hnil, ?_⟩
    by_contra hpc
    exact hinv.busy i t hi hpc hnil
  | cons i rest ih =>
    cases hstep : athread_step s i with
    | none =>
      have hrun : arun s (i :: rest) = arun s rest := by rw [arun, hstep]
      rw [hrun]
      refine ⟨(ih s hinv).1, ?_⟩
      intro hcount
      apply (ih s hinv).2
      intro j t hj
      by_cases e : j = i
      · subst e
        have hnil : t.todo = [] := by
          by_contra hne
          have := athread_enabled fs ags programs s j t hown hinv hj hne
          rw [hstep] at this
          exact absurd this (by simp)
        have hpc : t.pc = APc.idle := by
          by_contra hpc
          exact hinv.busy j t hj hpc hnil
        simp [steps_left, hnil, hpc, pc_offset]
      · have := hcount j t hj
        rwa [List.count_cons_of_ne e] at this
    | some s1 =>
      have hrun : arun s (i :: rest) = arun s1 rest := by rw [arun, hstep]
      rw [hrun]
      have hinv1 := athread_step_inv fs ags programs s s1 i hown hinv hstep
      refine ⟨(ih s1 hinv1).1, ?_⟩
      intro hcount
      apply (ih s1 hinv1).2
      obtain ⟨t, t1, hget, hget1, hless, hsame⟩ := athread_step_measure s s1 i hstep
      intro j t2 hj
      by_cases e : j = i
      · subst e
        rw [hget1] at hj
        simp only [Option.some.injEq] at hj
        subst hj
        have := hcount j t hget
        rw [List.count_cons_self] at this
        omega
      · rw [hsame j e] at hj
        have := hcount j t2 hj
        rwa [List.count_cons_of_ne e] at this

/-- With two free blocks or more in a well-kept AGF a single-block allocation finds a
slot (the scan stops short of slot 2399). -/
theorem single_alloc_scan (agf : xfs_agf_t) (hg : agf_good agf) (h2 : 2 ≤ agf.agf_freeblks) :
    ∃ r, alloc_scan agf.free_blocks 1 2400 2 = some r := by
  cases hs : alloc_scan agf.free_blocks 1 2400 2 with
  | some r => exact ⟨r, rfl⟩
  | none =>
    exfalso
    obtain ⟨hwf, hb, hinv, h0, h1⟩ := hg
    have hnone := alloc_scan_none agf.free_blocks 1 2400 2 (by omega) (by decide) hs
    have hlen : agf.free_blocks.length = 2400 := hwf.2.2.2.2
    have hused : ∀ k, k < 2399 → agf.free_blocks.getD k 0 = 1 := by
      intro k hk
      by_cases hk2 : k < 2
      · interval_cases k
        · exact h0
        · exact h1
      · have := hnone k (by omega) (by omega)
        unfold run_free at this
        by_contra hne
        apply this
        intro j hj
        have hj0 : j = 0 := by
          have : j < 1 := by simpa using hj
          omega
        subst hj0
        exact hne
    have hcount : (agf.free_blocks.take 2399).count 0 = 0 := by
      apply List.count_eq_zero_of_not_mem
      intro hm
      obtain ⟨k, hk, hkv⟩ := List.getElem_of_mem hm
      rw [List.length_take] at hk
      have hk1 : k < 2399 := by omega
      have := hused k hk1
      rw [List.getD_eq_getElem _ _ (by omega)] at this
      rw [List.getElem_take] at hkv
      omega
    have hzero : zero_slots agf.free_blocks ≤ 1 := by
      unfold zero_slots BITMAP_SLOTS
      rw [List.take_of_length_le (by omega)]
      have hsplit : agf.free_blocks = agf.free_blocks.take 2399 ++ agf.free_blocks.drop 2399 :=
        (List.take_append_drop 2399 _).symm
      rw [hsplit, List.count_append, hcount, Nat.zero_add]
      refine Nat.le_trans (List.count_le_length _ _) ?_
      rw [List.length_drop, hlen]
    rw [hinv] at h2
    omega

/-- Serially, `k` single-block allocations in a well-kept AG with more than `k` free
blocks all succeed and leave `k` free blocks fewer. -/
theorem singles_view (k : Nat) (ag : Int) (agf : xfs_agf_t) (hg : agf_good agf)
    (hk : k + 1 ≤ agf.agf_freeblks) :
    ∃ agf1, (List.replicate k (AllocCall.alloc ag 1)).foldl (fun w c => view_call c w)
        (some agf) = some agf1 ∧ agf1.agf_freeblks + k = agf.agf_freeblks := by
  induction k generalizing agf with
  | zero => exact ⟨agf, rfl, rfl⟩
  | succ k ih =>
    obtain ⟨r, hr⟩ := single_alloc_scan agf hg (by omega)
    obtain ⟨hgood, hfree⟩ := agf_allocate_good agf 1 r hg (by decide) hr
    have hfree1 : (agf_allocate agf (to_u64 r) 1).agf_freeblks + 1 = agf.agf_freeblks := hfree
    obtain ⟨agf1, h1, h2⟩ := ih (agf_allocate agf (to_u64 r) 1) hgood (by omega)
    refine ⟨agf1, ?_, by omega⟩
    rw [List.replicate_succ, List.foldl_cons]
    have : view_call (AllocCall.alloc ag 1) (some agf)
        = some (agf_allocate agf (to_u64 r) 1) := by
      simp only [view_call, call_update, hr]
    rw [this]
    exact h1

theorem ten_threads_own : own_ags ten_ags ten_threads := by
  refine ⟨by decide, by decide, by decide, ?_⟩
  intro i hi c hc
  have hi10 : i < 10 := hi
  interval_cases i <;>
  · simp only [ten_threads, ten_ags, List.map, List.getD_cons_zero, List.getD_cons_succ] at hc ⊢
    rw [List.eq_of_mem_replicate hc]
    rfl

theorem round_robin_count (n rounds i : Nat) (hi : i < n) :
    (round_robin n rounds).count i = rounds := by
  unfold round_robin
  induction rounds with
  | zero => simp
  | succ r ih =>
    rw [List.replicate_succ, List.flatten_cons, List.count_append, ih]
    have : (List.range n).count i = 1 :=
      List.count_eq_one_of_mem (List.nodup_range n) (List.mem_range.mpr hi)
    omega

/-- C25 (concurrency isolation).  Threads make allocator calls in parallel, thread `i` on
AG `ags[i]` only, the AGs valid and pairwise distinct; the threads interleave between
`ag_lock`, `disk_read`, `disk_write`, `trans_add_item` and `ag_unlock` in any order.
Then no thread ever waits for a mutex: in every reachable state every thread that has a
call left can take a step.  Under every schedule that picks each thread five times per
call of its program every call has returned.  Whenever every call has returned, the AGF
of the AG of each thread is the one the serial run of that thread's calls leaves behind,
and the AGF of every other AG is unchanged.  For ten threads that make 100 single-block
allocations each in their own AG after a successful `xfs_mkfs`, every AG ends with
`agf_freeblks = 2298`, so the sum over all AGs is `10 * 2398 - 1000`. -/
theorem C25_concurrency_isolation (fs : FS) (ags : List Int)
    (programs : List (List AllocCall)) (sched : List Nat) (hown : own_ags ags programs) :
    (∀ i t, (arun (ainit fs programs) sched).threads.get? i = some t → t.todo ≠ [] →
      (athread_step (arun (ainit fs programs) sched) i).isSome = true) ∧
    ((∀ i, i < programs.length → 5 * (programs.getD i []).length ≤ sched.count i) →
      ∀ t ∈ (arun (ainit fs programs) sched).threads, t.todo = [] ∧ t.pc = APc.idle) ∧
    ((∀ t ∈ (arun (ainit fs programs) sched).threads, t.todo = []) →
      (∀ i, i < programs.length →
        read_agf (arun (ainit fs programs) sched).disk (ags.getD i 0)
          = read_agf (run_calls fs (programs.getD i [])).disk (ags.getD i 0)) ∧
      (∀ ag, valid_ag ag → ag ∉ ags →
        read_agf (arun (ainit fs programs) sched).disk ag = read_agf fs.disk ag) ∧
      (∀ junk fs0 size, (xfs_mkfs junk fs0 size).1 = 0 →
        fs.disk = (xfs_mkfs junk fs0 size).2.disk → ags = ten_ags → programs = ten_threads →
        (∀ ag ∈ ten_ags, (read_agf (arun (ainit fs programs) sched).disk ag).map
          xfs_agf_t.agf_freeblks = some 2298) ∧
        total_freeblks (arun (ainit fs programs) sched).disk = 10 * 2398 - 1000)) := by
  have hinit := ainit_inv fs ags programs
  obtain ⟨hinv, hfin⟩ := arun_finish fs ags programs hown sched (ainit fs programs) hinit
  have hserial : (∀ t ∈ (arun (ainit fs programs) sched).threads, t.todo = []) →
      ∀ i, i < programs.length →
        read_agf (arun (ainit fs programs) sched).disk (ags.getD i 0)
          = read_agf (run_calls fs (programs.getD i [])).disk (ags.getD i 0) := by
    intro hdone i hi
    have hlt : i < (arun (ainit fs programs) sched).threads.length := by
      rw [hinv.threads_length]; exact hi
    obtain ⟨t, ht⟩ : ∃ t, (arun (ainit fs programs) sched).threads.get? i = some t :=
      ⟨_, List.get?_eq_get hlt⟩
    have hnil := hdone t (List.get?_mem ht)
    have hpc : t.pc = APc.idle := by
      by_contra hpc
      exact hinv.busy i t ht hpc hnil
    have hview := hinv.view i t ht
    simp only [rest_view, hpc, hnil, List.foldl_nil] at hview
    rw [hview, run_calls_view _ fs _ (own_getD_mem ags programs hown i hi).2
      (hown.2.2.2 i hi)]
  refine ⟨?_, ?_, ?_⟩
  · intro i t ht hne
    exact athread_enabled fs ags programs _ i t hown hinv ht hne
  · intro hfair
    apply hfin
    intro i t ht
    have hi : i < programs.length := by
      have := get_lt _ _ _ ht
      simpa [ainit] using this
    have hthread : t = { todo := programs.getD i [], pc := APc.idle, results := [] } := by
      simp only [ainit, List.get?_eq_getElem?, List.getElem?_map] at ht
      cases hp : programs[i]? with
      | none => rw [hp] at ht; simp at ht
      | some p =>
        rw [hp] at ht
        simp only [Option.map_some', Option.some.injEq] at ht
        rw [← ht, List.getD_eq_getElem?_getD, hp]
        rfl
    rw [hthread]
    simp only [steps_left, pc_offset, Nat.sub_zero]
    exact hfair i hi
  · intro hdone
    refine ⟨hserial hdone, hinv.others, ?_⟩
    intro junk fs0 size hmk hdisk hags hprog
    subst hags hprog
    have hfmt := (xfs_mkfs_formatted junk fs0 size hmk).1
    rw [← hdisk] at hfmt
    have hall : ∀ ag ∈ ten_ags, (read_agf (arun (ainit fs ten_threads) sched).disk ag).map
        xfs_agf_t.agf_freeblks = some 2298 := by
      intro ag hag
      obtain ⟨i, hi, rfl⟩ : ∃ i, i < 10 ∧ ag = ten_ags.getD i 0 := by
        obtain ⟨i, hi, hget⟩ := List.getElem_of_mem hag
        exact ⟨i, hi, by rw [List.getD_eq_getElem _ _ hi, hget]⟩
      have hv := (own_getD_mem ten_ags ten_threads hown i hi).2
      rw [hserial hdone i hi, run_calls_view _ fs _ hv (hown.2.2.2 i hi), hfmt _ hv]
      have hprog : ten_threads.getD i [] =
          List.replicate 100 (AllocCall.alloc (ten_ags.getD i 0) 1) := by
        interval_cases i <;> rfl
      rw [hprog]
      obtain ⟨agf1, h1, h2⟩ := singles_view 100 (ten_ags.getD i 0) formatted_agf
        formatted_agf_good (by decide)
      rw [h1]
      have h3 : formatted_agf.agf_freeblks = 2398 := rfl
      simp only [Option.map_some', Option.some.injEq]
      omega
    refine ⟨hall, ?_⟩
    unfold total_freeblks
    have hmap : ten_ags.map (fun ag => ((read_agf (arun (ainit fs ten_threads) sched).disk
        ag).map xfs_agf_t.agf_freeblks).getD 0) = ten_ags.map (fun _ => 2298) := by
      apply List.map_congr_left
      intro ag hag
      rw [hall ag hag]
      rfl
    rw [hmap]
    rfl

theorem ten_threads_fair (i : Nat) (hi : i < ten_threads.length) :
    5 * (ten_threads.getD i []).length ≤ (round_robin 10 500).count i := by
  have hi10 : i < 10 := hi
  rw [round_robin_count 10 500 i hi10]
  interval_cases i <;> decide

/-- Witness for C25: the ten threads of the specification on the freshly formatted
100 MiB device, scheduled in turn. -/
theorem C25_concurrency_isolation_witness :
    (∀ t ∈ (arun (ainit mounted_fs ten_threads) (round_robin 10 500)).threads,
      t.todo = [] ∧ t.pc = APc.idle) ∧
    total_freeblks (arun (ainit mounted_fs ten_threads) (round_robin 10 500)).disk
      = 10 * 2398 - 1000 := by
  have h := C25_concurrency_isolation mounted_fs ten_ags ten_threads (round_robin 10 500)
    ten_threads_own
  have hdone := h.2.1 ten_threads_fair
  exact ⟨hdone, (h.2.2 (fun t ht => (hdone t ht).1)).2.2 zero_junk boot_fs 104857600
    sample_ops_run.1 rfl rfl rfl |>.2⟩

/-! ## Allocation with a non-positive count -/

/-- The scan of `xfs_alloc_blocks` for `count <= 0`: the inner loop does not run, so the
first index, 2, is taken. -/
theorem alloc_scan_nonpos (fb : List Nat) (count : Int) (hc : count ≤ 0) :
    alloc_scan fb count 2400 2 = some 2 := by
  have h0 : count.toNat = 0 := Int.toNat_of_nonpos hc
  simp only [alloc_scan, h0, alloc_inner]
  rw [if_pos (by omega)]

theorem mark_used_nonpos (fb : List Nat) (start : Nat) (count : Int) (hc : count ≤ 0) :
    mark_used fb start count = fb := by
  have h0 : count.toNat = 0 := Int.toNat_of_nonpos hc
  simp [mark_used, h0]

/-- Claim C35 (non-positive counts): on a valid AG whose AGF can be read,
`xfs_alloc_blocks(ag, count)` with `count <= 0` returns 2 whatever the map holds, leaves
the map as it is, sets `agf_freeblks` to `agf_freeblks - count` modulo 2^32 (the same
value for `count = 0`, `agf_freeblks + |count|` for `count < 0`) and `agf_longest` to
that value, and logs the AGF; for `count < 0` an AGF with `agf_freeblks` = number of
zero slots no longer has that property afterwards.  The count is at least
`2400 - INT_MAX`, so that the loop bound `2400 - count` is an `int`. -/
theorem C35_nonpositive_count (fs : FS) (ag : Int) (count : Int) (agf : xfs_agf_t)
    (hv : valid_ag ag) (hr : read_agf fs.disk ag = some agf)
    (hc : count ≤ 0) (_hmin : 2400 - 2147483647 ≤ count) :
    (xfs_alloc_blocks fs ag count).1 = 2 ∧
    (xfs_alloc_blocks fs ag count).2.journal.queue.length = fs.journal.queue.length + 1 ∧
    ∃ agf1, read_agf (xfs_alloc_blocks fs ag count).2.disk ag = some agf1 ∧
      agf1.free_blocks = agf.free_blocks ∧
      agf1.agf_magicnum = agf.agf_magicnum ∧ agf1.agf_length = agf.agf_length ∧
      agf1.agf_freeblks = (agf.agf_freeblks + count.natAbs) % 4294967296 ∧
      agf1.agf_longest = agf1.agf_freeblks ∧
      (count = 0 → agf1.agf_freeblks = agf.agf_freeblks) ∧
      (count < 0 → agf.agf_freeblks + count.natAbs < 4294967296 →
        agf1.agf_freeblks = agf.agf_freeblks + count.natAbs) ∧
      (count < 0 → agf.agf_freeblks = zero_slots agf.free_blocks →
        agf1.agf_freeblks ≠ zero_slots agf1.free_blocks) := by
  have hwf := read_agf_wf hr
  have hfb : agf.agf_freeblks < 4294967296 := hwf.2.2.1
  have heq := xfs_alloc_blocks_eq hv hr count
  rw [alloc_scan_nonpos agf.free_blocks count hc] at heq
  simp only [] at heq
  have hu : to_u64 2 = 2 := by decide
  rw [hu] at heq
  have hback := (read_agf_write_same hr _ (agf_allocate_wf agf hwf 2 count)).2
  have hfree : (agf_allocate agf 2 count).agf_freeblks
      = (agf.agf_freeblks + count.natAbs) % 4294967296 := by
    simp only [agf_allocate]
    omega
  refine ⟨by rw [heq], ?_, agf_allocate agf 2 count, by rw [heq]; exact hback, ?_, rfl, rfl,
    hfree, ?_, ?_, ?_, ?_⟩
  · rw [heq]
    simp [trans_add_item]
  · simp only [agf_allocate, mark_used_nonpos _ _ _ hc]
  · simp only [agf_allocate]
    split <;> omega
  · intro h0
    rw [hfree, h0]
    simp only [Int.natAbs_zero, Nat.add_zero]
    exact Nat.mod_eq_of_lt hfb
  · intro _ hlt
    rw [hfree]
    exact Nat.mod_eq_of_lt hlt
  · intro hneg hinv
    rw [hfree]
    have hfbs : (agf_allocate agf 2 count).free_blocks = agf.free_blocks := by
      simp only [agf_allocate, mark_used_nonpos _ _ _ hc]
    rw [hfbs, ← hinv]
    omega

/-- Witness for C35: `xfs_alloc_blocks(0, -5)` on a freshly formatted AG 0. -/
theorem C35_nonpositive_count_witness :
    (xfs_alloc_blocks sample_fs 0 (-5)).1 = 2 ∧
    ∃ agf1, read_agf (xfs_alloc_blocks sample_fs 0 (-5)).2.disk 0 = some agf1 ∧
      agf1.free_blocks = formatted_agf.free_blocks ∧ agf1.agf_freeblks = 2403 := by
  obtain ⟨h1, _, agf1, h2, h3, _, _, _, _, _, h4, _⟩ :=
    C35_nonpositive_count sample_fs 0 (-5) formatted_agf (by decide) sample_read_agf
      (by decide) (by decide)
  exact ⟨h1, agf1, h2, h3, h4 (by decide) (by decide)⟩

/-! ## The last slot of an AG -/

theorem formatted_filled : filled_to 0 formatted_agf := by
  refine ⟨formatted_agf_good.1, rfl, ?_⟩
  intro s hs
  obtain ⟨_, h0, h1, h2⟩ := fresh_bitmap_spec
  by_cases h : s < 2
  · rw [if_pos (by omega)]
    have : s = 0 ∨ s = 1 := by omega
    rcases this with rfl | rfl
    · exact h0
    · exact h1
  · rw [if_neg (by omega)]
    exact h2 s (by omega) (by omega)

/-- The `(k+1)`-th single-block allocation on a freshly formatted AG takes slot `k + 2`,
as long as `k + 2 <= 2398`. -/
theorem filled_step (k : Nat) (agf : xfs_agf_t) (hk : k ≤ 2396) (h : filled_to k agf) :
    alloc_scan agf.free_blocks 1 2400 2 = some ((k + 2 : Nat) : Int) ∧
    filled_to (k + 1) (agf_allocate agf (k + 2) 1) := by
  obtain ⟨hwf, hfree, hmap⟩ := h
  have hlen : agf.free_blocks.length = 2400 := hwf.2.2.2.2
  have hrun : run_free agf.free_blocks (k + 2) 1 := by
    intro j hj
    have hj0 : j = 0 := by omega
    subst hj0
    rw [Nat.add_zero, hmap (k + 2) (by omega), if_neg (by omega)]
    decide
  have hscan : alloc_scan agf.free_blocks 1 2400 2 = some ((k + 2 : Nat) : Int) := by
    cases hs : alloc_scan agf.free_blocks 1 2400 2 with
    | none =>
      exfalso
      exact alloc_scan_none agf.free_blocks 1 2400 2 (by omega) (by decide) hs (k + 2)
        (by omega) (by omega) hrun
    | some r =>
      obtain ⟨h2, hlt, hrf, hleast⟩ := alloc_scan_some agf.free_blocks 1 2400 2 r (by omega) hs
      congr 1
      have hr1 : agf.free_blocks.getD r.toNat 0 ≠ 1 := by
        have := hrf 0 (by decide)
        simpa using this
      have hge : k + 2 ≤ r.toNat := by
        by_contra hlt2
        apply hr1
        rw [hmap r.toNat (by omega), if_pos (by omega)]
      by_contra hne
      exact hleast (k + 2) (by omega) (by omega) hrun
  refine ⟨hscan, agf_allocate_wf agf hwf _ _, ?_, ?_⟩
  · simp only [agf_allocate, hfree]
    omega
  · intro s hs
    simp only [agf_allocate, mark_used_getD, hlen]
    have h1 : (1 : Int).toNat = 1 := rfl
    rw [h1]
    by_cases e : s = k + 2
    · subst e
      rw [if_pos ⟨le_refl _, by omega, hs⟩, if_pos (by omega)]
    · rw [if_neg (by omega), hmap s hs]
      by_cases h3 : s < k + 2
      · rw [if_pos h3, if_pos (by omega)]
      · rw [if_neg h3, if_neg (by omega)]

/-- After 2397 single-block allocations the scan finds nothing: only slot 2399 is free,
and the scan stops before it. -/
theorem filled_full (agf : xfs_agf_t) (h : filled_to 2397 agf) :
    alloc_scan agf.free_blocks 1 2400 2 = none ∧ agf.agf_freeblks = 1 ∧
    agf.free_blocks.getD 2399 0 = 0 := by
  obtain ⟨hwf, hfree, hmap⟩ := h
  refine ⟨?_, hfree, by rw [hmap 2399 (by omega)]; rfl⟩
  cases hs : alloc_scan agf.free_blocks 1 2400 2 with
  | none => rfl
  | some r =>
    exfalso
    obtain ⟨h2, hlt, hrf, _⟩ := alloc_scan_some agf.free_blocks 1 2400 2 r (by omega) hs
    have hr1 : agf.free_blocks.getD r.toNat 0 ≠ 1 := by
      have := hrf 0 (by decide)
      simpa using this
    apply hr1
    rw [hmap r.toNat (by omega), if_pos (by omega)]

/-- The AGF after `k` further calls `xfs_alloc_blocks(ag, 1)`, starting after `j`. -/
theorem filled_run (k j : Nat) (ag : Int) (agf : xfs_agf_t)
    (h : filled_to (min j 2397) agf) :
    ∃ agf1, (List.replicate k (AllocCall.alloc ag 1)).foldl (fun w c => view_call c w)
        (some agf) = some agf1 ∧ filled_to (min (j + k) 2397) agf1 := by
  induction k generalizing j agf with
  | zero => exact ⟨agf, rfl, h⟩
  | succ k ih =>
    rw [List.replicate_succ, List.foldl_cons]
    by_cases hj : j < 2397
    · rw [Nat.min_eq_left (by omega)] at h
      obtain ⟨hscan, hnext⟩ := filled_step j agf (by omega) h
      have hv : view_call (AllocCall.alloc ag 1) (some agf)
          = some (agf_allocate agf (j + 2) 1) := by
        have hu : to_u64 ((j + 2 : Nat) : Int) = j + 2 := by unfold to_u64; omega
        simp only [view_call, call_update, hscan, hu]
      rw [hv]
      obtain ⟨agf1, h1, h2⟩ := ih (j + 1) (agf_allocate agf (j + 2) 1)
        (by rw [Nat.min_eq_left (by omega)]; exact hnext)
      exact ⟨agf1, h1, by rw [show j + (k + 1) = j + 1 + k by omega]; exact h2⟩
    · rw [Nat.min_eq_right (by omega)] at h
      obtain ⟨hscan, _, _⟩ := filled_full agf h
      have hv : view_call (AllocCall.alloc ag 1) (some agf) = some agf := by
        simp only [view_call, call_update, hscan]
      rw [hv]
      obtain ⟨agf1, h1, h2⟩ := ih j agf (by rw [Nat.min_eq_right (by omega)]; exact h)
      refine ⟨agf1, h1, ?_⟩
      rw [Nat.min_eq_right (by omega)] at h2 ⊢
      exact h2

/-- The scan does not start when its first index is not below `2400 - count`. -/
theorem alloc_scan_out (fb : List Nat) (count : Int) (fuel : Nat) (i : Int)
    (h : ¬ i < 2400 - count) : alloc_scan fb count fuel i = none := by
  cases fuel with
  | zero => rfl
  | succ n => simp only [alloc_scan, if_neg h]

/-- The AGF of a freshly formatted AG after `k` calls `xfs_alloc_blocks(ag, 1)`. -/
theorem singles_filled (fs : FS) (ag : Int) (k : Nat) (hv : valid_ag ag)
    (hr : read_agf fs.disk ag = some formatted_agf) :
    ∃ agf, read_agf (run_calls fs (List.replicate k (AllocCall.alloc ag 1))).disk ag
        = some agf ∧ filled_to (min k 2397) agf := by
  obtain ⟨agf, h1, h2⟩ := filled_run k 0 ag formatted_agf
    (by rw [Nat.min_eq_left (by omega)]; exact formatted_filled)
  refine ⟨agf, ?_, by rwa [Nat.zero_add] at h2⟩
  rw [run_calls_view _ fs ag hv (fun c hc => by rw [List.eq_of_mem_replicate hc]; rfl), hr]
  exact h1

/-- Claim C34 (the last slot is unreachable).  In any state, a call of
`xfs_alloc_blocks` with `count >= 1` that returns a block returns a run inside the slots
2..2398, and no call with `count >= 1` changes the map entry of slot 2399.  On an AG as
a successful `xfs_mkfs` leaves it, the 2398 slots 2..2399 are free,
`xfs_alloc_blocks(ag, 2397)` returns 2 and `xfs_alloc_blocks(ag, 2398)` returns 0; of a
series of single-block allocations the `k`-th returns slot `k + 1` for `k = 1..2397`,
and every later one returns 0 while `agf_freeblks` is 1 and slot 2399 is free. -/
theorem C34_last_slot_unreachable (junk : StackJunk) (fs0 : FS) (size : Nat) (ag : Int)
    (hfmt : (xfs_mkfs junk fs0 size).1 = 0) (hv : valid_ag ag) :
    (∀ (fs : FS) (ag1 count : Int), 1 ≤ count → (xfs_alloc_blocks fs ag1 count).1 ≠ 0 →
      2 ≤ (xfs_alloc_blocks fs ag1 count).1 ∧
      (xfs_alloc_blocks fs ag1 count).1 + count.toNat ≤ 2399) ∧
    (∀ (fs : FS) (ag1 count : Int) (agf : xfs_agf_t), 1 ≤ count → valid_ag ag1 →
      read_agf fs.disk ag1 = some agf →
      ∃ agf1, read_agf (xfs_alloc_blocks fs ag1 count).2.disk ag1 = some agf1 ∧
        agf1.free_blocks.getD 2399 0 = agf.free_blocks.getD 2399 0) ∧
    slots_free formatted_agf.free_blocks 2 2398 ∧
    (xfs_alloc_blocks (xfs_mkfs junk fs0 size).2 ag 2397).1 = 2 ∧
    (xfs_alloc_blocks (xfs_mkfs junk fs0 size).2 ag 2398).1 = 0 ∧
    (∀ k, 1 ≤ k → k ≤ 2397 →
      (xfs_alloc_blocks (run_calls (xfs_mkfs junk fs0 size).2
        (List.replicate (k - 1) (AllocCall.alloc ag 1))) ag 1).1 = k + 1) ∧
    (∀ k, 2397 < k →
      (xfs_alloc_blocks (run_calls (xfs_mkfs junk fs0 size).2
        (List.replicate (k - 1) (AllocCall.alloc ag 1))) ag 1).1 = 0 ∧
      ∃ agf, read_agf (run_calls (xfs_mkfs junk fs0 size).2
          (List.replicate (k - 1) (AllocCall.alloc ag 1))).disk ag = some agf ∧
        agf.agf_freeblks = 1 ∧ agf.free_blocks.getD 2399 0 = 0) := by
  have hr := (xfs_mkfs_formatted junk fs0 size hfmt).1 ag hv
  have hsuccess : ∀ (fs : FS) (ag1 count : Int), 1 ≤ count →
      (xfs_alloc_blocks fs ag1 count).1 ≠ 0 →
      2 ≤ (xfs_alloc_blocks fs ag1 count).1 ∧
      (xfs_alloc_blocks fs ag1 count).1 + count.toNat ≤ 2399 := by
    intro fs ag1 count hc hne
    obtain ⟨_, agf, r, _, _, h2, hlt, hres, _⟩ := xfs_alloc_blocks_success hc hne
    rw [hres]
    omega
  refine ⟨hsuccess, ?_, ?_, ?_, ?_, ?_, ?_⟩
  · intro fs ag1 count agf hc hv1 hread
    by_cases h0 : (xfs_alloc_blocks fs ag1 count).1 = 0
    · rw [xfs_alloc_blocks_zero hc h0]
      exact ⟨agf, hread, rfl⟩
    · obtain ⟨_, agf2, r, hread2, _, h2, hlt, _, _, _, hback⟩ :=
        xfs_alloc_blocks_success hc h0
      rw [hread] at hread2
      simp only [Option.some.injEq] at hread2
      subst hread2
      refine ⟨_, hback, ?_⟩
      simp only [agf_allocate, mark_used_getD]
      rw [if_neg (by omega)]
  · intro j hj
    exact fresh_bitmap_spec.2.2.2 (2 + j) (by omega) (by omega)
  · have hfree : run_free formatted_agf.free_blocks 2 2397 := by
      intro j hj
      have := fresh_bitmap_spec.2.2.2 (2 + j) (by omega) (by
        have : (2397 : Int).toNat = 2397 := rfl
        omega)
      show fresh_bitmap.getD (2 + j) 0 ≠ 1
      rw [this]
      decide
    have h2397 : (2397 : Int).toNat = 2397 := rfl
    have hscan : alloc_scan formatted_agf.free_blocks 2397 2400 2 = some 2 := by
      cases hs : alloc_scan formatted_agf.free_blocks 2397 2400 2 with
      | none =>
        exfalso
        exact alloc_scan_none formatted_agf.free_blocks 2397 2400 2 (by omega) (by decide) hs 2
          (by omega) (by omega) (by rw [h2397]; exact hfree)
      | some r =>
        obtain ⟨h2, hlt, _, _⟩ :=
          alloc_scan_some formatted_agf.free_blocks 2397 2400 2 r (by omega) hs
        have hr2 : r = 2 := by omega
        rw [hr2]
    rw [xfs_alloc_blocks_eq hv hr 2397, hscan]
    rfl
  · have hscan : alloc_scan formatted_agf.free_blocks 2398 2400 2 = none :=
      alloc_scan_out _ _ _ _ (by omega)
    rw [xfs_alloc_blocks_eq hv hr 2398, hscan]
  · intro k hk1 hk2
    obtain ⟨agf, hread, hfill⟩ := singles_filled _ ag (k - 1) hv hr
    rw [Nat.min_eq_left (by omega)] at hfill
    obtain ⟨hscan, _⟩ := filled_step (k - 1) agf (by omega) hfill
    rw [xfs_alloc_blocks_eq hv hread 1, hscan]
    simp only []
    unfold to_u64
    omega
  · intro k hk
    obtain ⟨agf, hread, hfill⟩ := singles_filled _ ag (k - 1) hv hr
    rw [Nat.min_eq_right (by omega)] at hfill
    obtain ⟨hscan, hf1, h2399⟩ := filled_full agf hfill
    refine ⟨?_, agf, hread, hf1, h2399⟩
    rw [xfs_alloc_blocks_eq hv hread 1, hscan]

/-- Witness for C34: AG 4 of the device formatted with 100 MiB. -/
theorem C34_last_slot_unreachable_witness :
    (xfs_alloc_blocks (xfs_mkfs zero_junk boot_fs 104857600).2 4 2397).1 = 2 ∧
    (xfs_alloc_blocks (xfs_mkfs zero_junk boot_fs 104857600).2 4 2398).1 = 0 ∧
    (xfs_alloc_blocks (run_calls (xfs_mkfs zero_junk boot_fs 104857600).2
      (List.replicate (2397 - 1) (AllocCall.alloc 4 1))) 4 1).1 = 2397 + 1 ∧
    (xfs_alloc_blocks (run_calls (xfs_mkfs zero_junk boot_fs 104857600).2
      (List.replicate (2398 - 1) (AllocCall.alloc 4 1))) 4 1).1 = 0 := by
  obtain ⟨_, _, _, h1, h2, h3, h4⟩ :=
    C34_last_slot_unreachable zero_junk boot_fs 104857600 4 sample_ops_run.1 (by decide)
  exact ⟨h1, h2, h3 2397 (by decide) (by decide), (h4 2398 (by decide)).1⟩

/-! ## The allocator invariant under well-formed use -/

/-- With the two reserved slots marked used, at most 2398 of the 2400 slots are free. -/
theorem agf_good_bound (agf : xfs_agf_t) (hg : agf_good agf) : agf.agf_freeblks ≤ 2398 := by
  obtain ⟨hwf, _, hinv, h0, h1⟩ := hg
  have hlen : agf.free_blocks.length = 2400 := hwf.2.2.2.2
  rw [hinv, zero_slots_eq_count _ hlen]
  match hfb : agf.free_blocks, hlen with
  | a :: b :: rest, hl =>
    rw [hfb] at h0 h1
    simp only [List.getD_cons_zero, List.getD_cons_succ] at h0 h1
    subst h0 h1
    simp only [List.length_cons] at hl
    have := List.count_le_length 0 rest
    simp only [List.count_cons]
    simp only [beq_iff_eq, OfNat.ofNat_ne_zero, if_false, Nat.add_zero, one_ne_zero]
    omega

/-- Claim C31 (invariant under well-formed use): after a successful `xfs_mkfs` and after
every sequence of allocator calls in which every `xfs_alloc_blocks` has a non-negative
count (`count >= 1` in particular) and every `xfs_free_blocks` gives back a run
`[start, start + count)` inside the slots 2..2399 whose slots are all used at that
moment, the AGF of every AG has `agf_freeblks` = number of zero map entries,
`free_blocks[0] = free_blocks[1] = 1`, every one of its 2400 map entries 0 or 1, and
`agf_freeblks <= 2398`. -/
theorem C31_wellformed_invariant (junk : StackJunk) (fs : FS) (size : Nat)
    (calls : List AllocCall) (ag : Int)
    (hfmt : (xfs_mkfs junk fs size).1 = 0)
    (hok : calls_ok (xfs_mkfs junk fs size).2 calls) (hv : valid_ag ag) :
    ∃ agf, read_agf (run_calls (xfs_mkfs junk fs size).2 calls).disk ag = some agf ∧
      agf.agf_freeblks = zero_slots agf.free_blocks ∧
      agf.free_blocks.getD 0 0 = 1 ∧ agf.free_blocks.getD 1 0 = 1 ∧
      agf.free_blocks.length = 2400 ∧
      (∀ x ∈ agf.free_blocks, x = 0 ∨ x = 1) ∧
      agf.agf_freeblks ≤ 2398 := by
  obtain ⟨agf, hr, hg⟩ :=
    run_calls_good _ calls (all_good_mkfs junk fs size hfmt) hok ag hv
  refine ⟨agf, hr, hg.2.2.1, hg.2.2.2.1, hg.2.2.2.2, hg.1.2.2.2.2, ?_, agf_good_bound agf hg⟩
  intro x hx
  have := hg.2.1 x hx
  omega

/-- Witness for C31: three allocations and two frees on the device formatted with
100 MiB. -/
theorem C31_wellformed_invariant_witness :
    calls_ok (xfs_mkfs zero_junk boot_fs 104857600).2
      [AllocCall.alloc 0 3, AllocCall.alloc 0 1, AllocCall.free 0 3 2, AllocCall.alloc 7 1,
        AllocCall.free 0 2 1] ∧
    ∃ agf, read_agf (run_calls (xfs_mkfs zero_junk boot_fs 104857600).2
        [AllocCall.alloc 0 3, AllocCall.alloc 0 1, AllocCall.free 0 3 2, AllocCall.alloc 7 1,
          AllocCall.free 0 2 1]).disk 0 = some agf ∧
      agf.agf_freeblks = zero_slots agf.free_blocks ∧
      agf.free_blocks.getD 0 0 = 1 ∧ agf.free_blocks.getD 1 0 = 1 ∧
      agf.free_blocks.length = 2400 ∧
      (∀ x ∈ agf.free_blocks, x = 0 ∨ x = 1) ∧
      agf.agf_freeblks ≤ 2398 :=
  ⟨by decide!,
    C31_wellformed_invariant zero_junk boot_fs 104857600
      [AllocCall.alloc 0 3, AllocCall.alloc 0 1, AllocCall.free 0 3 2, AllocCall.alloc 7 1,
        AllocCall.free 0 2 1] 0 sample_ops_run.1 (by decide!) (by decide)⟩

/-! ## File data and metadata -/

/-- A property of the device that every write into `[8192, 2399 * 4096)` preserves is
preserved by the data loop of `xfs_sim_write` on an inode whose extents come from the
allocator: the loop writes nowhere else. -/
theorem write_data_loop_writes {Q : Option Disk → Prop}
    (hQ : ∀ d off len buf, Q d → 8192 ≤ off → off + len ≤ 9826304 →
      Q (disk_write d off buf len).2)
    (inode : xfs_inode_t) (hx : extents_from_allocator inode)
    (buffer : List Nat) (size offset : Nat) (fuel bw : Nat) (d : Option Disk) (h : Q d) :
    Q (write_data_loop inode buffer size offset fuel bw d).2.2 := by
  induction fuel generalizing bw d with
  | zero => exact h
  | succ fuel ih =>
    simp only [write_data_loop]
    by_cases hlt : bw < size
    · rw [if_pos hlt]
      cases hf : find_extent_for_offset inode
          ((offset + bw) % 18446744073709551616 / XFS_BLOCK_SIZE) with
      | none => exact h
      | some e =>
        simp only []
        obtain ⟨_, haddr, hp1, hp2⟩ := data_address hx hf
          ((offset + bw) % 18446744073709551616 % XFS_BLOCK_SIZE)
          (Nat.mod_lt _ (by decide))
        rw [haddr]
        generalize hlen : (if XFS_BLOCK_SIZE - (offset + bw) % 18446744073709551616 %
          XFS_BLOCK_SIZE > size - bw then size - bw
          else XFS_BLOCK_SIZE - (offset + bw) % 18446744073709551616 % XFS_BLOCK_SIZE) = len
        have hlen_le : len ≤ 4096 - (offset + bw) % 18446744073709551616 % XFS_BLOCK_SIZE := by
          rw [← hlen]; simp only [XFS_BLOCK_SIZE]; split <;> omega
        have hoib : (offset + bw) % 18446744073709551616 % XFS_BLOCK_SIZE < 4096 :=
          Nat.mod_lt _ (by decide)
        generalize (offset + bw) % 18446744073709551616 % XFS_BLOCK_SIZE = oib at *
        have hstep : Q (disk_write d (e.start_block * 4096 + oib) (buffer.drop bw) len).2 :=
          hQ d _ _ _ h (by omega) (by omega)
        rcases disk_write_status d (e.start_block * 4096 + oib) len (buffer.drop bw)
          with ⟨hw, _⟩ | hw
        · have ew : disk_write d (e.start_block * 4096 + oib) (buffer.drop bw) len
              = (0, (disk_write d (e.start_block * 4096 + oib) (buffer.drop bw) len).2) :=
            Prod.ext hw rfl
          rw [ew]
          exact ih _ _ hstep
        · rw [hw]
          exact h
    · rw [if_neg hlt]
      exact h

/-- On a device that holds the blocks of the slots 2..2398, the data loop of
`xfs_sim_write` runs to its end when every block of the request is mapped and the
extents come from the allocator: no `disk_write` fails its bounds check. -/
theorem write_data_loop_ok (inode : xfs_inode_t) (hx : extents_from_allocator inode)
    (buffer : List Nat) (size offset : Nat) (hw : offset + size < 18446744073709551616)
    (fuel bw : Nat) (d : Option Disk) (s : Nat) (hs : d.map Disk.size = some s)
    (hbig : 9826304 ≤ s)
    (hcov : ∀ k, bw ≤ k → k < size →
      ∃ e, find_extent_for_offset inode ((offset + k) / 4096) = some e) :
    (write_data_loop inode buffer size offset fuel bw d).1 = 0 := by
  induction fuel generalizing bw d with
  | zero => rfl
  | succ fuel ih =>
    simp only [write_data_loop]
    by_cases hlt : bw < size
    · rw [if_pos hlt]
      have hmod : (offset + bw) % 18446744073709551616 = offset + bw :=
        Nat.mod_eq_of_lt (by omega)
      rw [hmod]
      obtain ⟨e, hf⟩ := hcov bw (le_refl _) hlt
      have hf2 : find_extent_for_offset inode ((offset + bw) / XFS_BLOCK_SIZE) = some e := hf
      rw [hf2]
      simp only []
      obtain ⟨_, haddr, hp1, hp2⟩ := data_address hx hf2
        ((offset + bw) % XFS_BLOCK_SIZE) (Nat.mod_lt _ (by decide))
      rw [haddr]
      generalize hlen : (if XFS_BLOCK_SIZE - (offset + bw) % XFS_BLOCK_SIZE > size - bw
        then size - bw else XFS_BLOCK_SIZE - (offset + bw) % XFS_BLOCK_SIZE) = len
      have hoib : (offset + bw) % XFS_BLOCK_SIZE < 4096 := Nat.mod_lt _ (by decide)
      have hlen_le : 1 ≤ len ∧ len ≤ 4096 - (offset + bw) % XFS_BLOCK_SIZE := by
        rw [← hlen]; simp only [XFS_BLOCK_SIZE] at hoib ⊢; split <;> omega
      generalize (offset + bw) % XFS_BLOCK_SIZE = oib at *
      obtain ⟨dk, hdk⟩ : ∃ dk, d = some dk := by
        cases d with
        | none => simp at hs
        | some dk => exact ⟨dk, rfl⟩
      have hsz : dk.size = s := by
        rw [hdk] at hs
        simpa using hs
      have hb : (e.start_block * 4096 + oib + len) % 18446744073709551616 ≤ dk.size := by
        rw [Nat.mod_eq_of_lt (by omega)]
        omega
      rw [hdk, disk_write_of_bounds dk _ _ _ hb]
      simp only []
      exact ih _ _ (by simp [hsz]) (fun k hk1 hk2 => hcov k (by omega) hk2)
    · rw [if_neg hlt]

/-- Reads of two devices of the same size that hold the same bytes in the range read
give the same result. -/
theorem disk_read_congr (d d1 : Option Disk) (off len : Nat)
    (hs : d.map Disk.size = d1.map Disk.size)
    (hb : ∀ a, off ≤ a → a < off + len → disk_byte d a = disk_byte d1 a) :
    disk_read d off len = disk_read d1 off len := by
  cases d with
  | none =>
    cases d1 with
    | none => rfl
    | some dk1 => simp at hs
  | some dk =>
    cases d1 with
    | none => simp at hs
    | some dk1 =>
      have hsz : dk.size = dk1.size := by simpa using hs
      simp only [disk_read, hsz]
      split
      · rfl
      · congr 1
        apply List.map_congr_left
        intro k hk
        have := hb (off + k) (by omega) (by have := List.mem_range.mp hk; omega)
        simpa [disk_byte] using this

/-- The loop of `xfs_sim_read` on an inode whose extents come from the allocator fetches
device bytes from `[8192, 2399 * 4096)` only. -/
theorem read_loop_congr (d d1 : Option Disk) (inode : xfs_inode_t)
    (hx : extents_from_allocator inode) (hs : d.map Disk.size = d1.map Disk.size)
    (hb : ∀ a, 8192 ≤ a → a < 9826304 → disk_byte d a = disk_byte d1 a)
    (n offset fuel br : Nat) (buffer : List Nat) :
    read_loop d inode n offset fuel br buffer = read_loop d1 inode n offset fuel br buffer := by
  induction fuel generalizing br buffer with
  | zero => rfl
  | succ fuel ih =>
    simp only [read_loop]
    by_cases hlt : br < n
    · rw [if_pos hlt, if_pos hlt]
      cases hf : find_extent_for_offset inode
          ((offset + br) % 18446744073709551616 / XFS_BLOCK_SIZE) with
      | none => exact ih _ _
      | some e =>
        simp only []
        obtain ⟨_, haddr, hp1, hp2⟩ := data_address hx hf
          ((offset + br) % 18446744073709551616 % XFS_BLOCK_SIZE)
          (Nat.mod_lt _ (by decide))
        rw [haddr]
        generalize hlen : (if XFS_BLOCK_SIZE - (offset + br) % 18446744073709551616 %
          XFS_BLOCK_SIZE > n - br then n - br
          else XFS_BLOCK_SIZE - (offset + br) % 18446744073709551616 % XFS_BLOCK_SIZE) = len
        have hlen_le : len ≤ 4096 - (offset + br) % 18446744073709551616 % XFS_BLOCK_SIZE := by
          rw [← hlen]; simp only [XFS_BLOCK_SIZE]; split <;> omega
        have hoib : (offset + br) % 18446744073709551616 % XFS_BLOCK_SIZE < 4096 :=
          Nat.mod_lt _ (by decide)
        generalize (offset + br) % 18446744073709551616 % XFS_BLOCK_SIZE = oib at *
        rw [disk_read_congr d d1 (e.start_block * 4096 + oib) len hs
          (fun a h1 h2 => hb a (by omega) (by omega))]
        cases disk_read d1 (e.start_block * 4096 + oib) len with
        | none => rfl
        | some bytes => exact ih _ _
    · rw [if_neg hlt, if_neg hlt]

/-- A device on which the AGF of AG 9 can be read, as after every successful `xfs_mkfs`,
holds the blocks of the slots 2..2398. -/
theorem formatted_device_size (junk : StackJunk) (fs0 : FS) (size : Nat)
    (h : (xfs_mkfs junk fs0 size).1 = 0) :
    ∃ dk, (xfs_mkfs junk fs0 size).2.disk = some dk ∧ 2399 * 4096 ≤ dk.size := by
  have hr := (xfs_mkfs_formatted junk fs0 size h).1 9 (by decide)
  obtain ⟨dk, _, hd, hb, _⟩ := read_agf_eq_some hr
  refine ⟨dk, hd, ?_⟩
  have hoff : ag_get_offset 9 = 94371840 := by decide
  rw [hoff] at hb
  simp only [SIZEOF_AGF] at hb
  omega

/-- The mapping loop of `xfs_sim_write` keeps the size of the device. -/
theorem write_map_loop_size (bs n i : Nat) (fs : FS) (inode : xfs_inode_t) :
    (write_map_loop bs n i fs inode).2.2.disk.map Disk.size = fs.disk.map Disk.size := by
  have := write_map_loop_agf_writes
    (Q := fun d => d.map Disk.size = fs.disk.map Disk.size)
    (fun d ag buf _ h => (disk_write_size d _ _ buf).trans h) bs n i fs inode rfl
  exact this

/-- Claim C33 (file data never overwrites metadata), for an inode in the state
`xfs_sim_write` keeps inodes in and valid C arguments.  The range `[8192, 2399 * 4096)`
holds no byte of the record at offset 0, of an AGF or of an AGI.  After every returning
`xfs_sim_write` every extent of the inode maps a single block to a slot in 2..2398, and
the call has changed no device byte outside that range and outside the AGF records; its
data loop changes no byte outside the range.  `xfs_sim_read` fetches bytes of that range
only: on two devices of the same size that agree there it returns the same.  On a device
of at least `2399 * 4096` bytes, as every successfully formatted one is, no data access
fails its bounds check: the data loop of a write whose mapping loop ran to its end runs
to its end, and so does the loop of every read. -/
theorem C33_data_outside_metadata (fs : FS) (inode : xfs_inode_t) (buffer : List Nat)
    (size offset : Nat) (hinv : inode_inv inode) (hsize : 1 ≤ size)
    (hoff : offset < 9223372036854775808) (hsz : size < 9223372036854775808) :
    (∀ a, 8192 ≤ a → a < 2399 * 4096 →
      SIZEOF_SB ≤ a ∧ ∀ ag, valid_ag ag → ¬ in_agf ag a ∧
        ¬ (ag_get_offset ag + 4096 ≤ a ∧ a < ag_get_offset ag + 4096 + SIZEOF_AGI)) ∧
    (∀ res, xfs_sim_write fs inode buffer size offset = some res →
      inode_inv res.2.1 ∧
      (∀ e ∈ stored_extents res.2.1,
        e.block_count = 1 ∧ 2 ≤ e.start_block ∧ e.start_block ≤ 2398) ∧
      ∀ a, ¬ (8192 ≤ a ∧ a < 2399 * 4096) → (∀ ag, valid_ag ag → ¬ in_agf ag a) →
        disk_byte res.2.2.disk a = disk_byte fs.disk a) ∧
    (∀ (fuel bw : Nat) (d : Option Disk) (a : Nat), ¬ (8192 ≤ a ∧ a < 2399 * 4096) →
      disk_byte (write_data_loop inode buffer size offset fuel bw d).2.2 a = disk_byte d a) ∧
    (∀ (d d1 : Option Disk) (buf : List Nat), d.map Disk.size = d1.map Disk.size →
      (∀ a, 8192 ≤ a → a < 2399 * 4096 → disk_byte d a = disk_byte d1 a) →
      xfs_sim_read d inode buf size offset = xfs_sim_read d1 inode buf size offset) ∧
    (∀ junk fs0 sz, (xfs_mkfs junk fs0 sz).1 = 0 →
      ∃ dk, (xfs_mkfs junk fs0 sz).2.disk = some dk ∧ 2399 * 4096 ≤ dk.size) ∧
    (∀ dk, fs.disk = some dk → 2399 * 4096 ≤ dk.size →
      (∀ inode1 fs1, write_map_loop (offset / 4096)
          ((offset + size - 1) / 4096 - offset / 4096 + 1) 0 fs inode = (0, inode1, fs1) →
        (write_data_loop inode1 buffer size offset size 0 fs1.disk).1 = 0) ∧
      ∀ (n : Nat) (buf : List Nat), n ≤ size → n ≤ buf.length →
        (read_loop fs.disk inode n offset n 0 buf).1 = 0) := by
  have hx : extents_from_allocator inode := hinv.2.2.2.1
  have hbound := valid_blocks_bound size offset hoff hsz
  have hmapinv := write_map_loop_inv (offset / 4096)
    ((offset + size - 1) / 4096 - offset / 4096 + 1) 0 fs inode hinv hbound
  have hdata : ∀ (ino : xfs_inode_t), extents_from_allocator ino →
      ∀ (fuel bw : Nat) (d : Option Disk) (a : Nat), ¬ (8192 ≤ a ∧ a < 2399 * 4096) →
      disk_byte (write_data_loop ino buffer size offset fuel bw d).2.2 a = disk_byte d a := by
    intro ino hxi fuel bw d a ha
    exact write_data_loop_writes (Q := fun d1 => disk_byte d1 a = disk_byte d a)
      (fun d1 off len buf h h1 h2 =>
        (disk_write_byte d1 off len buf a (by omega)).trans h)
      ino hxi buffer size offset fuel bw d rfl
  refine ⟨?_, ?_, hdata inode hx, ?_, formatted_device_size, ?_⟩
  · intro a h1 h2
    refine ⟨by simp only [SIZEOF_SB]; omega, ?_⟩
    intro ag hv
    have hoffv := ag_get_offset_valid hv
    unfold valid_ag at hv
    unfold in_agf
    rw [hoffv]
    simp only [SIZEOF_AGF, SIZEOF_AGI]
    constructor <;> omega
  · intro res hres
    have hinv1 := xfs_sim_write_inv fs inode buffer size offset res hoff hsz hinv hres
    refine ⟨hinv1, ?_, ?_⟩
    · intro e he
      obtain ⟨h1, h2, h3, _⟩ := hinv1.2.2.2.1 e he
      exact ⟨h1, h2, h3⟩
    · intro a ha hagf
      rcases xfs_sim_write_shape fs inode buffer size offset res hoff hsz hres
        with ⟨h0, _⟩ | ⟨_, _, _, hd | hd⟩
      · omega
      · rw [hd]
        exact write_map_loop_bytes _ _ _ fs inode a hagf
      · rw [hd, hdata _ hmapinv.1.2.2.2.1 _ _ _ a ha]
        exact write_map_loop_bytes _ _ _ fs inode a hagf
  · intro d d1 buf hs hb
    simp only [xfs_sim_read]
    rw [read_loop_congr d d1 inode hx hs hb]
  · intro dk hdk hbig
    refine ⟨?_, ?_⟩
    · intro inode1 fs1 hm
      rw [hm] at hmapinv
      obtain ⟨hinv1, _, _, hcov⟩ := hmapinv
      have hsz1 : fs1.disk.map Disk.size = some dk.size := by
        have := write_map_loop_size (offset / 4096)
          ((offset + size - 1) / 4096 - offset / 4096 + 1) 0 fs inode
        rw [hm, hdk] at this
        exact this
      apply write_data_loop_ok inode1 hinv1.2.2.2.1 buffer size offset (by omega) size 0
        fs1.disk dk.size hsz1 hbig
      intro k _ hk
      have hle : offset / 4096 ≤ (offset + k) / 4096 := Nat.div_le_div_right (by omega)
      have hle2 : (offset + k) / 4096 ≤ (offset + size - 1) / 4096 :=
        Nat.div_le_div_right (by omega)
      obtain ⟨e, he⟩ := hcov rfl ((offset + k) / 4096 - offset / 4096) (by omega)
      refine ⟨e, ?_⟩
      rw [← he]
      congr 1
      omega
    · intro n buf hn hbuf
      obtain ⟨data, _, hrd⟩ := read_loop_general fs.disk dk inode n offset hx hdk hbig
        (by omega) n 0 (by omega) (by omega)
      rw [hrd buf hbuf]

/-- Witness for C33: a three-byte write at offset 0 to the first file on the device
formatted with 100 MiB. -/
theorem C33_data_outside_metadata_witness :
    (∀ res, xfs_sim_write mounted_fs created_inode [1, 2, 3] 3 0 = some res →
      inode_inv res.2.1 ∧
      (∀ e ∈ stored_extents res.2.1,
        e.block_count = 1 ∧ 2 ≤ e.start_block ∧ e.start_block ≤ 2398) ∧
      ∀ a, ¬ (8192 ≤ a ∧ a < 2399 * 4096) → (∀ ag, valid_ag ag → ¬ in_agf ag a) →
        disk_byte res.2.2.disk a = disk_byte mounted_fs.disk a) ∧
    (xfs_sim_write mounted_fs created_inode [1, 2, 3] 3 0).isSome = true :=
  ⟨(C33_data_outside_metadata mounted_fs created_inode [1, 2, 3] 3 0 (by decide)
    (by decide) (by decide) (by decide)).2.1, by decide!⟩

/-! ## Two files, one device block -/

/-- Claim C32 fails on the code: blocks of different AGs share a device block.  On the
formatted and mounted 100 MiB device, write the byte 1 at offset 0 of the first file
(logical block 0, slot 2 of AG 0) and then the byte 2 at offset 4096 of the second file
(logical block 1, slot 2 of AG 1).  Both writes return 1, the files are distinct inodes
(numbers 1 and 2), and both extents name block 2, so both bytes are stored at device
byte 8192: reading offset 0 of the first file gives 1 before the second write and 2
after it.  The same happens between two blocks of one file: after the byte 2 is written
at offset 4096 of the first file, its offset 0 reads 2. -/
theorem C32_files_share_blocks :
    created_inode.inode_num = 1 ∧ second_inode.inode_num = 2 ∧
    (xfs_sim_write mounted_fs created_inode [1] 1 0).bind (fun r1 =>
      (xfs_sim_write r1.2.2 second_inode [2] 1 4096).map (fun r2 =>
        (r1.1, r2.1,
         (stored_extents r1.2.1).map (fun e => (e.start_off, e.start_block)),
         (stored_extents r2.2.1).map (fun e => (e.start_off, e.start_block)))))
      = some (1, 1, [(0, 2)], [(1, 2)]) ∧
    (xfs_sim_write mounted_fs created_inode [1] 1 0).bind (fun r1 =>
      (xfs_sim_write r1.2.2 second_inode [2] 1 4096).map (fun r2 =>
        (xfs_sim_read r1.2.2.disk r1.2.1 [0] 1 0,
         xfs_sim_read r2.2.2.disk r1.2.1 [0] 1 0,
         disk_byte r1.2.2.disk 8192, disk_byte r2.2.2.disk 8192)))
      = some ((1, [1]), (1, [2]), some 1, some 2) ∧
    (xfs_sim_write mounted_fs created_inode [1] 1 0).bind (fun r1 =>
      (xfs_sim_write r1.2.2 r1.2.1 [2] 1 4096).map (fun r2 =>
        (r1.1, r2.1,
         (stored_extents r2.2.1).map (fun e => (e.start_off, e.start_block)))))
      = some (1, 1, [(0, 2), (1, 2)]) ∧
    (xfs_sim_write mounted_fs created_inode [1] 1 0).bind (fun r1 =>
      (xfs_sim_write r1.2.2 r1.2.1 [2] 1 4096).map (fun r2 =>
        (xfs_sim_read r1.2.2.disk r1.2.1 [0] 1 0,
         xfs_sim_read r2.2.2.disk r2.2.1 [0] 1 0)))
      = some ((1, [1]), (1, [2])) := by
  refine ⟨by decide, by decide, ?_, ?_, ?_, ?_⟩
  · decide!
  · decide!
  · decide!
  · decide!

/-! ## The placeholder tree -/

theorem getD_set_nat (l : List Nat) (i j v : Nat) :
    (l.set i v).getD j 0 = if j = i ∧ i < l.length then v else l.getD j 0 := by
  simp only [List.getD_eq_getElem?_getD, List.getElem?_set]
  by_cases e : i = j
  · subst e
    by_cases h : i < l.length
    · simp [h]
    · simp [h, List.getElem?_eq_none (Nat.le_of_not_lt h)]
  · have e2 : ¬ j = i := fun h => e h.symm
    simp [e, e2]

/-- The position found by the first loop of `btree_insert`: the entries before it have
smaller keys, the entry at it (if any) has not. -/
theorem insert_pos_spec (node : xfs_btree_node_t) (key : Nat) (h0 : 0 ≤ node.num_keys)
    (n i : Nat) (hn : i + n = node.num_keys.toNat)
    (hlow : ∀ j, j < i → node.keys.getD j 0 < key) :
    i ≤ insert_pos_loop node key n i ∧
    insert_pos_loop node key n i ≤ node.num_keys.toNat ∧
    (∀ j, j < insert_pos_loop node key n i → node.keys.getD j 0 < key) ∧
    (insert_pos_loop node key n i < node.num_keys.toNat →
      ¬ node.keys.getD (insert_pos_loop node key n i) 0 < key) := by
  induction n generalizing i with
  | zero =>
    simp only [insert_pos_loop]
    exact ⟨le_refl _, by omega, hlow, fun h => by omega⟩
  | succ n ih =>
    simp only [insert_pos_loop]
    by_cases hc : (i : Int) < node.num_keys ∧ node.keys.getD i 0 < key
    · rw [if_pos hc]
      obtain ⟨h1, h2, h3, h4⟩ := ih (i + 1) (by omega) (fun j hj => by
        by_cases e : j = i
        · subst e; exact hc.2
        · exact hlow j (by omega))
      exact ⟨by omega, h2, h3, h4⟩
    · rw [if_neg hc]
      refine ⟨le_refl _, by omega, hlow, ?_⟩
      intro hlt hk
      exact hc ⟨by omega, hk⟩

/-- The shift loop of `btree_insert` moves the entries at `insert_pos..i-1` one place to
the right and leaves the others. -/
theorem shift_spec (pos n i : Nat) (ks vs : List Nat) (hn : i - pos ≤ n)
    (hk : i < ks.length) (hv : i < vs.length) :
    (shift_loop pos n i (ks, vs)).1.length = ks.length ∧
    (shift_loop pos n i (ks, vs)).2.length = vs.length ∧
    ∀ j, (shift_loop pos n i (ks, vs)).1.getD j 0
          = (if pos < j ∧ j ≤ i then ks.getD (j - 1) 0 else ks.getD j 0) ∧
        (shift_loop pos n i (ks, vs)).2.getD j 0
          = (if pos < j ∧ j ≤ i then vs.getD (j - 1) 0 else vs.getD j 0) := by
  induction n generalizing i ks vs with
  | zero =>
    simp only [shift_loop]
    refine ⟨trivial, trivial, ?_⟩
    intro j
    constructor <;>
    · split_ifs <;>
      first
      | rfl
      | (exfalso; omega)
  | succ n ih =>
    simp only [shift_loop]
    by_cases hc : i > pos
    · rw [if_pos hc]
      obtain ⟨h1, h2, h3⟩ := ih (i - 1) (ks.set i (ks.getD (i - 1) 0))
        (vs.set i (vs.getD (i - 1) 0)) (by omega) (by rw [List.length_set]; omega)
        (by rw [List.length_set]; omega)
      refine ⟨by rw [h1, List.length_set], by rw [h2, List.length_set], ?_⟩
      intro j
      obtain ⟨hj1, hj2⟩ := h3 j
      rw [hj1, hj2]
      simp only [getD_set_nat]
      constructor <;>
      · split_ifs <;>
        first
        | rfl
        | (exfalso; omega)
        | (have hji : j = i := by omega
           subst hji; rfl)
    · rw [if_neg hc]
      refine ⟨rfl, rfl, ?_⟩
      intro j
      constructor <;>
      · split_ifs <;>
        first
        | rfl
        | (exfalso; omega)

/-- What the insertion into a node with room leaves behind, entry by entry. -/
theorem node_insert_spec (node : xfs_btree_node_t) (key value : Nat) (hwf : node_wf node)
    (hroom : node.num_keys < 10) :
    ∃ p, p ≤ node.num_keys.toNat ∧
      (∀ j, j < p → node.keys.getD j 0 < key) ∧
      (p < node.num_keys.toNat → ¬ node.keys.getD p 0 < key) ∧
      (node_insert node key value).num_keys = node.num_keys + 1 ∧
      (node_insert node key value).keys.length = 10 ∧
      (node_insert node key value).values.length = 10 ∧
      ∀ j, (node_insert node key value).keys.getD j 0
            = (if j = p then key
               else if p < j ∧ j ≤ node.num_keys.toNat then node.keys.getD (j - 1) 0
               else node.keys.getD j 0) ∧
          (node_insert node key value).values.getD j 0
            = (if j = p then value
               else if p < j ∧ j ≤ node.num_keys.toNat then node.values.getD (j - 1) 0
               else node.values.getD j 0) := by
  obtain ⟨h0, h10, hkl, hvl, _⟩ := hwf
  obtain ⟨_, hp1, hp2, hp3⟩ := insert_pos_spec node key h0 node.num_keys.toNat 0
    (by omega) (fun j hj => by omega)
  obtain ⟨hs1, hs2, hs3⟩ := shift_spec (insert_pos_loop node key node.num_keys.toNat 0)
    node.num_keys.toNat node.num_keys.toNat node.keys node.values (by omega) (by omega)
    (by omega)
  refine ⟨insert_pos_loop node key node.num_keys.toNat 0, hp1, hp2, hp3, rfl, ?_, ?_, ?_⟩
  · simp only [node_insert, List.length_set]
    rw [hs1, hkl]
  · simp only [node_insert, List.length_set]
    rw [hs2, hvl]
  · intro j
    obtain ⟨hj1, hj2⟩ := hs3 j
    simp only [node_insert]
    rw [getD_set_nat, getD_set_nat, hs1, hs2, hj1, hj2]
    constructor <;>
    · split_ifs <;>
      first
      | rfl
      | (exfalso; omega)

/-- The entries of a node after an insertion: the new pair and the old entries. -/
theorem node_insert_has (node : xfs_btree_node_t) (key value : Nat) (hwf : node_wf node)
    (hroom : node.num_keys < 10) (k v : Nat) :
    node_has (node_insert node key value) k v ↔
      (k = key ∧ v = value) ∨ node_has node k v := by
  obtain ⟨p, hp1, _, _, hnum, _, _, hget⟩ := node_insert_spec node key value hwf hroom
  have h0 : 0 ≤ node.num_keys := hwf.1
  have hm : (node.num_keys + 1).toNat = node.num_keys.toNat + 1 := by omega
  unfold node_has
  rw [hnum, hm]
  constructor
  · rintro ⟨j, hj, hk, hv⟩
    obtain ⟨g1, g2⟩ := hget j
    rw [g1] at hk
    rw [g2] at hv
    by_cases e : j = p
    · rw [if_pos e] at hk hv
      exact Or.inl ⟨hk.symm, hv.symm⟩
    · rw [if_neg e] at hk hv
      by_cases c : p < j ∧ j ≤ node.num_keys.toNat
      · rw [if_pos c] at hk hv
        exact Or.inr ⟨j - 1, by omega, hk, hv⟩
      · rw [if_neg c] at hk hv
        exact Or.inr ⟨j, by omega, hk, hv⟩
  · rintro (⟨rfl, rfl⟩ | ⟨t, ht, hk, hv⟩)
    · obtain ⟨g1, g2⟩ := hget p
      exact ⟨p, by omega, by rw [g1, if_pos rfl], by rw [g2, if_pos rfl]⟩
    · by_cases c : t < p
      · obtain ⟨g1, g2⟩ := hget t
        refine ⟨t, by omega, ?_, ?_⟩
        · rw [g1, if_neg (by omega), if_neg (by omega)]; exact hk
        · rw [g2, if_neg (by omega), if_neg (by omega)]; exact hv
      · obtain ⟨g1, g2⟩ := hget (t + 1)
        refine ⟨t + 1, by omega, ?_, ?_⟩
        · rw [g1, if_neg (by omega), if_pos ⟨by omega, by omega⟩]; exact hk
        · rw [g2, if_neg (by omega), if_pos ⟨by omega, by omega⟩]; exact hv

/-- An insertion of a key the node does not hold keeps the shape of the node. -/
theorem node_insert_wf (node : xfs_btree_node_t) (key value : Nat) (hwf : node_wf node)
    (hroom : node.num_keys < 10) (hnew : ∀ v, ¬ node_has node key v) :
    node_wf (node_insert node key value) := by
  obtain ⟨p, hp1, hlow, hat, hnum, hkl, hvl, hget⟩ :=
    node_insert_spec node key value hwf hroom
  obtain ⟨h0, h10, _, _, hsorted⟩ := hwf
  have hm : (node.num_keys + 1).toNat = node.num_keys.toNat + 1 := by omega
  have hhigh : ∀ x, p ≤ x → x < node.num_keys.toNat → key < node.keys.getD x 0 := by
    intro x hx1 hx2
    have hpne : node.keys.getD p 0 ≠ key := fun e => hnew _ ⟨p, by omega, e, rfl⟩
    have hpge := hat (by omega)
    have hpx : node.keys.getD p 0 ≤ node.keys.getD x 0 := by
      by_cases e : x = p
      · rw [e]
      · exact Nat.le_of_lt (hsorted x hx2 p (by omega))
    omega
  refine ⟨by omega, by omega, hkl, hvl, ?_⟩
  rw [hnum, hm]
  intro j hj i hij
  rw [(hget i).1, (hget j).1]
  by_cases ej : j = p
  · rw [if_pos ej, if_neg (by omega), if_neg (by omega)]
    exact hlow i (by omega)
  · rw [if_neg ej]
    by_cases ei : i = p
    · rw [if_pos ei, if_pos ⟨by omega, by omega⟩]
      exact hhigh (j - 1) (by omega) (by omega)
    · rw [if_neg ei]
      by_cases cj : p < j ∧ j ≤ node.num_keys.toNat
      · rw [if_pos cj]
        by_cases ci : p < i ∧ i ≤ node.num_keys.toNat
        · rw [if_pos ci]
          exact hsorted (j - 1) (by omega) (i - 1) (by omega)
        · rw [if_neg ci]
          exact hsorted (j - 1) (by omega) i (by omega)
      · rw [if_neg cj, if_neg (by omega)]
        exact hsorted j (by omega) i hij

/-- The scan of `btree_lookup` finds every entry of a node with ascending keys. -/
theorem node_scan_found (node : xfs_btree_node_t) (key : Nat)
    (hsorted : ∀ j, j < node.num_keys.toNat → ∀ i, i < j →
      node.keys.getD i 0 < node.keys.getD j 0)
    (t : Nat) (ht : t < node.num_keys.toNat) (hk : node.keys.getD t 0 = key)
    (n i : Nat) (hn : i + n = node.num_keys.toNat) (hi : i ≤ t) :
    node_scan node key n i = some (node.values.getD t 0) := by
  induction n generalizing i with
  | zero => omega
  | succ n ih =>
    simp only [node_scan]
    by_cases e : node.keys.getD i 0 = key
    · rw [if_pos e]
      have hit : i = t := by
        by_contra hne
        have := hsorted t ht i (by omega)
        omega
      rw [hit]
    · rw [if_neg e]
      have hlt : i < t := by
        by_contra hge
        have : i = t := by omega
        rw [this] at e
        exact e hk
      have := hsorted t ht i hlt
      rw [if_neg (by omega)]
      exact ih (i + 1) (by omega) (by omega)

/-- A value the scan returns is `NULL` or the value of an entry with the key. -/
theorem node_scan_sound (node : xfs_btree_node_t) (key : Nat) (n i : Nat) (v : Nat)
    (h : node_scan node key n i = some v) :
    v = 0 ∨ ∃ t, i ≤ t ∧ t < i + n ∧ node.keys.getD t 0 = key ∧ node.values.getD t 0 = v := by
  induction n generalizing i with
  | zero => simp [node_scan] at h
  | succ n ih =>
    simp only [node_scan] at h
    by_cases e : node.keys.getD i 0 = key
    · rw [if_pos e] at h
      exact Or.inr ⟨i, le_refl _, by omega, e, Option.some.inj h⟩
    · rw [if_neg e] at h
      by_cases g : node.keys.getD i 0 > key
      · rw [if_pos g] at h
        exact Or.inl (Option.some.inj h).symm
      · rw [if_neg g] at h
        rcases ih (i + 1) h with h0 | ⟨t, h1, h2, h3, h4⟩
        · exact Or.inl h0
        · exact Or.inr ⟨t, by omega, by omega, h3, h4⟩

theorem btree_init_wf : node_wf btree_init := by decide

theorem btree_init_empty (k v : Nat) : ¬ node_has btree_init k v := by
  rintro ⟨i, hi, _⟩
  simp [btree_init] at hi

theorem tree_has_cons (node : xfs_btree_node_t) (rest : List xfs_btree_node_t) (k v : Nat) :
    tree_has (node :: rest) k v ↔ node_has node k v ∨ tree_has rest k v := by
  unfold tree_has
  constructor
  · rintro ⟨n, hn, h⟩
    rcases List.mem_cons.mp hn with e | hm
    · exact Or.inl (e ▸ h)
    · exact Or.inr ⟨n, hm, h⟩
  · rintro (h | ⟨n, hm, h⟩)
    · exact ⟨node, List.mem_cons_self _ _, h⟩
    · exact ⟨n, List.mem_cons_of_mem _ hm, h⟩

theorem tree_has_nil (k v : Nat) : ¬ tree_has [] k v := by
  rintro ⟨n, hn, _⟩
  exact List.not_mem_nil _ hn

/-- The pairs of the chain after the walk of `btree_insert`: the new pair and the old
ones. -/
theorem insert_walk_has (tree : List xfs_btree_node_t) (key value : Nat)
    (hwf : ∀ node, node ∈ tree → node_wf node) (k v : Nat) :
    tree_has (insert_walk tree key value) k v ↔
      (k = key ∧ v = value) ∨ tree_has tree k v := by
  induction tree with
  | nil =>
    simp only [insert_walk]
    rw [tree_has_cons, node_insert_has _ _ _ btree_init_wf (by decide)]
    constructor
    · rintro ((h | h) | h)
      · exact Or.inl h
      · exact absurd h (btree_init_empty k v)
      · exact absurd h (tree_has_nil k v)
    · rintro (h | h)
      · exact Or.inl (Or.inl h)
      · exact absurd h (tree_has_nil k v)
  | cons node rest ih =>
    simp only [insert_walk]
    by_cases hroom : node.num_keys < 10
    · rw [if_pos hroom, tree_has_cons, tree_has_cons,
        node_insert_has _ _ _ (hwf node (List.mem_cons_self _ _)) hroom]
      tauto
    · rw [if_neg hroom, tree_has_cons, tree_has_cons,
        ih (fun n hn => hwf n (List.mem_cons_of_mem _ hn))]
      tauto

/-- The walk of `btree_insert` with a key the chain does not hold keeps the shape of
every node. -/
theorem insert_walk_wf (tree : List xfs_btree_node_t) (key value : Nat)
    (hwf : ∀ node, node ∈ tree → node_wf node) (hnew : ∀ v, ¬ tree_has tree key v) :
    ∀ node, node ∈ insert_walk tree key value → node_wf node := by
  induction tree with
  | nil =>
    intro n hn
    simp only [insert_walk, List.mem_singleton] at hn
    rw [hn]
    exact node_insert_wf _ _ _ btree_init_wf (by decide) (fun v => btree_init_empty key v)
  | cons node rest ih =>
    have hnode : ∀ v, ¬ node_has node key v := fun v h =>
      hnew v ((tree_has_cons node rest key v).mpr (Or.inl h))
    have hrest : ∀ v, ¬ tree_has rest key v := fun v h =>
      hnew v ((tree_has_cons node rest key v).mpr (Or.inr h))
    intro n hn
    simp only [insert_walk] at hn
    by_cases hroom : node.num_keys < 10
    · rw [if_pos hroom] at hn
      rcases List.mem_cons.mp hn with e | hm
      · rw [e]
        exact node_insert_wf _ _ _ (hwf node (List.mem_cons_self _ _)) hroom hnode
      · exact hwf n (List.mem_cons_of_mem _ hm)
    · rw [if_neg hroom] at hn
      rcases List.mem_cons.mp hn with e | hm
      · rw [e]
        exact hwf node (List.mem_cons_self _ _)
      · exact ih (fun n hn => hwf n (List.mem_cons_of_mem _ hn)) hrest n hm

/-- The tree after one more call. -/
theorem btree_of_snoc (pairs : List (Nat × Nat)) (p : Nat × Nat) :
    btree_of (pairs ++ [p]) = (btree_insert (btree_of pairs) p.1 p.2).2 := by
  simp [btree_of, List.foldl_append]

theorem tree_inv_nil : tree_inv [] (btree_of []) := by
  refine ⟨by decide, ?_, btree_init, [], rfl, by decide, ?_⟩
  · intro k v
    constructor
    · intro h
      rcases (tree_has_cons _ _ _ _).mp h with h | h
      · exact absurd h (btree_init_empty k v)
      · exact absurd h (tree_has_nil k v)
    · intro h
      exact absurd h (List.not_mem_nil _)
  · intro k v h
    exact absurd h (List.not_mem_nil _)

/-- One call `btree_insert` with a new key returns 0 and keeps the state of the tree. -/
theorem tree_inv_step (pairs : List (Nat × Nat)) (tree : List xfs_btree_node_t)
    (p : Nat × Nat) (hinv : tree_inv pairs tree) (hnew : p.1 ∉ pairs.map Prod.fst) :
    (btree_insert tree p.1 p.2).1 = 0 ∧
      tree_inv (pairs ++ [p]) (btree_insert tree p.1 p.2).2 := by
  obtain ⟨hwf, hhas, root, rest, ht, hnum, hhead⟩ := hinv
  have hfresh : ∀ v, ¬ tree_has tree p.1 v := by
    intro v h
    exact hnew (List.mem_map.mpr ⟨(p.1, v), (hhas _ _).mp h, rfl⟩)
  have hins : btree_insert tree p.1 p.2 = (0, insert_walk tree p.1 p.2) := by
    rw [ht]; rfl
  rw [hins]
  refine ⟨rfl, insert_walk_wf tree _ _ hwf hfresh, ?_, ?_⟩
  · intro k v
    show tree_has (insert_walk tree p.1 p.2) k v ↔ _
    rw [insert_walk_has tree _ _ hwf, hhas, List.mem_append, List.mem_singleton]
    constructor
    · rintro (⟨rfl, rfl⟩ | h)
      · exact Or.inr rfl
      · exact Or.inl h
    · rintro (h | h)
      · exact Or.inr h
      · rw [← h]; exact Or.inl ⟨rfl, rfl⟩
  · have hrwf : node_wf root := hwf root (by rw [ht]; exact List.mem_cons_self _ _)
    show ∃ root1 rest1, insert_walk tree p.1 p.2 = root1 :: rest1 ∧ _
    rw [ht]
    simp only [insert_walk]
    by_cases hroom : root.num_keys < 10
    · rw [if_pos hroom]
      have hlen : pairs.length < 10 := by
        have h0 := hrwf.1
        omega
      refine ⟨_, _, rfl, ?_, ?_⟩
      · obtain ⟨_, _, _, _, hn1, _⟩ := node_insert_spec root p.1 p.2 hrwf hroom
        rw [hn1, List.length_append, List.length_singleton]
        have h0 := hrwf.1
        omega
      · intro k v hkv
        rw [List.take_of_length_le (by
          rw [List.length_append, List.length_singleton]; omega)] at hkv
        rw [node_insert_has _ _ _ hrwf hroom]
        rcases List.mem_append.mp hkv with h | h
        · exact Or.inr (hhead k v (by rw [List.take_of_length_le (by omega)]; exact h))
        · have e := List.mem_singleton.mp h
          rw [← e]
          exact Or.inl ⟨rfl, rfl⟩
    · rw [if_neg hroom]
      have hlen : 10 ≤ pairs.length := by
        have h0 := hrwf.1
        have h1 := hrwf.2.1
        omega
      refine ⟨_, _, rfl, ?_, ?_⟩
      · rw [hnum, List.length_append, List.length_singleton]
        omega
      · intro k v hkv
        rw [List.take_append_of_le_length hlen] at hkv
        exact hhead k v hkv

/-- The state of the tree after any sequence of calls with pairwise distinct keys. -/
theorem btree_of_inv (pairs : List (Nat × Nat)) (hd : (pairs.map Prod.fst).Nodup) :
    tree_inv pairs (btree_of pairs) := by
  induction pairs using List.reverseRecOn with
  | nil => exact tree_inv_nil
  | append_singleton ps p ih =>
    rw [List.map_append, List.nodup_append] at hd
    obtain ⟨hd1, _, hdis⟩ := hd
    rw [btree_of_snoc]
    refine (tree_inv_step ps _ p (ih hd1) ?_).2
    intro hmem
    exact hdis hmem (by simp)

/-- The tree always has a root after `btree_init`, so every call returns 0. -/
theorem btree_of_cons (pairs : List (Nat × Nat)) :
    ∃ root rest, btree_of pairs = root :: rest := by
  induction pairs using List.reverseRecOn with
  | nil => exact ⟨btree_init, [], rfl⟩
  | append_singleton ps p ih =>
    obtain ⟨root, rest, h⟩ := ih
    rw [btree_of_snoc, h]
    show ∃ root1 rest1, insert_walk (root :: rest) p.1 p.2 = root1 :: rest1
    simp only [insert_walk]
    split
    · exact ⟨_, _, rfl⟩
    · exact ⟨_, _, rfl⟩

/-- The lookup finds every pair of the root node. -/
theorem lookup_root (root : xfs_btree_node_t) (rest : List xfs_btree_node_t) (k v : Nat)
    (hwf : node_wf root) (h : node_has root k v) : btree_lookup (root :: rest) k = v := by
  obtain ⟨t, ht, hk, hv⟩ := h
  simp only [btree_lookup]
  rw [node_scan_found root k hwf.2.2.2.2 t ht hk root.num_keys.toNat 0 (by omega)
    (Nat.zero_le _)]
  exact hv

/-- The lookup returns `NULL` or the value of a pair of the chain. -/
theorem lookup_sound (tree : List xfs_btree_node_t) (k : Nat) :
    btree_lookup tree k = 0 ∨ tree_has tree k (btree_lookup tree k) := by
  induction tree with
  | nil => exact Or.inl rfl
  | cons node rest ih =>
    simp only [btree_lookup]
    cases hs : node_scan node k node.num_keys.toNat 0 with
    | some v =>
      rcases node_scan_sound node k _ 0 v hs with h0 | ⟨t, _, ht, hk, hv⟩
      · exact Or.inl h0
      · exact Or.inr ((tree_has_cons _ _ _ _).mpr (Or.inl ⟨t, by omega, hk, hv⟩))
    | none =>
      rcases ih with h | h
      · exact Or.inl h
      · exact Or.inr ((tree_has_cons _ _ _ _).mpr (Or.inr h))

/-- Claim C36 fails on the code: `btree_lookup` misses a key that `btree_insert` stored.
`btree_insert` puts a pair into the first node of the chain with fewer than 10 keys,
whatever the keys of the nodes before it, while `btree_lookup` returns `NULL` at the
first key larger than the one looked up ("it's not in this node or subsequent nodes
(since it's sorted)").  After `btree_init` and the inserts of the distinct keys 1..10
the root node is full; the insert of key 0 with value 100 returns 0 and stores the pair
in a second node, and `btree_lookup(root, 0)` returns `NULL` (the keys 1..10 are still
found).  What does hold for pairwise distinct keys: every insert returns 0; every pair
among the first ten inserted is found, whatever is inserted later, so the claim holds
for sequences of at most 10 inserts; the lookup returns `NULL` or the value inserted
with the key, never another value; a key never inserted gives `NULL`. -/
theorem C36_lookup_misses_inserted_key :
    ((eleven_pairs.map Prod.fst).Nodup ∧
      (∀ i, i < 11 →
        (btree_insert (btree_of (eleven_pairs.take i)) (eleven_pairs.getD i (0, 0)).1
          (eleven_pairs.getD i (0, 0)).2).1 = 0) ∧
      (0, 100) ∈ eleven_pairs ∧
      (btree_of eleven_pairs).map (fun node => node.num_keys) = [10, 1] ∧
      tree_has (btree_of eleven_pairs) 0 100 ∧
      btree_lookup (btree_of eleven_pairs) 0 = 0 ∧
      (eleven_pairs.take 10).map (fun p => btree_lookup (btree_of eleven_pairs) p.1)
        = (eleven_pairs.take 10).map Prod.snd) ∧
    (∀ (pairs : List (Nat × Nat)) (p : Nat × Nat),
      (btree_insert (btree_of pairs) p.1 p.2).1 = 0) ∧
    (∀ pairs : List (Nat × Nat), (pairs.map Prod.fst).Nodup →
      (∀ k v, (k, v) ∈ pairs.take 10 → btree_lookup (btree_of pairs) k = v) ∧
      (pairs.length ≤ 10 → ∀ k v, (k, v) ∈ pairs → btree_lookup (btree_of pairs) k = v) ∧
      (∀ k, btree_lookup (btree_of pairs) k = 0 ∨
        (k, btree_lookup (btree_of pairs) k) ∈ pairs) ∧
      (∀ k, k ∉ pairs.map Prod.fst → btree_lookup (btree_of pairs) k = 0)) := by
  refine ⟨⟨by decide, by decide, by decide, by decide, by decide, by decide, by decide⟩,
    ?_, ?_⟩
  · intro pairs p
    obtain ⟨root, rest, h⟩ := btree_of_cons pairs
    rw [h]
    rfl
  · intro pairs hd
    obtain ⟨hwf, hhas, root, rest, ht, _, hhead⟩ := btree_of_inv pairs hd
    have hfirst : ∀ k v, (k, v) ∈ pairs.take 10 → btree_lookup (btree_of pairs) k = v := by
      intro k v hkv
      rw [ht]
      exact lookup_root root rest k v (hwf root (by rw [ht]; exact List.mem_cons_self _ _))
        (hhead k v hkv)
    have hsound : ∀ k, btree_lookup (btree_of pairs) k = 0 ∨
        (k, btree_lookup (btree_of pairs) k) ∈ pairs := by
      intro k
      rcases lookup_sound (btree_of pairs) k with h | h
      · exact Or.inl h
      · exact Or.inr ((hhas _ _).mp h)
    refine ⟨hfirst, ?_, hsound, ?_⟩
    · intro hlen k v hkv
      exact hfirst k v (by rw [List.take_of_length_le hlen]; exact hkv)
    · intro k hk
      rcases hsound k with h | h
      · exact h
      · exact absurd (List.mem_map.mpr ⟨_, h, rfl⟩) hk

/-! ## The calls of a write, in order -/

theorem dev_apply_append (d : Option Disk) (a b : List WAct) :
    dev_apply d (a ++ b) = dev_apply (dev_apply d a) b := by
  induction a generalizing d with
  | nil => rfl
  | cons x rest ih =>
    cases x with
    | dev site off buf len => exact ih _
    | log data len => exact ih _
    | barrier => exact ih _

theorem agf_write_valid {ag : Int} (h : ag_lock ag = 0) :
    agf_write (ag_get_offset ag) SIZEOF_AGF := by
  have hv : 0 ≤ ag ∧ ag < 10 := by
    unfold ag_lock at h
    split at h
    · exact absurd h (by decide)
    · rename_i hn
      simp only [NUM_AGS] at hn
      omega
  refine ⟨⟨ag.toNat, by omega⟩, ?_, rfl⟩
  have e : ((ag.toNat : Nat) : Int) = ag := Int.toNat_of_nonneg hv.1
  simp only [e]

/-- The calls of `xfs_alloc_blocks`: their effect on the device is that of the
function, and each is the write-back of an AGF or a journal entry. -/
theorem alloc_acts_spec (fs : FS) (ag count : Int) :
    dev_apply fs.disk (xfs_alloc_blocks_acts fs ag count)
      = (xfs_alloc_blocks fs ag count).2.disk ∧
    ∀ a ∈ xfs_alloc_blocks_acts fs ag count, map_act a := by
  unfold xfs_alloc_blocks_acts xfs_alloc_blocks
  by_cases hl : ag_lock ag ≠ 0
  · rw [if_pos hl, if_pos hl]
    exact ⟨rfl, fun a ha => absurd ha (List.not_mem_nil _)⟩
  · rw [if_neg hl, if_neg hl]
    have hw := agf_write_valid (not_not.mp hl)
    simp only []
    cases hr : disk_read fs.disk (ag_get_offset ag) SIZEOF_AGF with
    | none => exact ⟨rfl, fun a ha => absurd ha (List.not_mem_nil _)⟩
    | some bytes =>
      simp only []
      cases hs : alloc_scan (agf_of_bytes bytes).free_blocks count 2400 2 with
      | none => exact ⟨rfl, fun a ha => absurd ha (List.not_mem_nil _)⟩
      | some i =>
        simp only []
        split
        · rename_i d1 hdw
          refine ⟨?_, ?_⟩
          · simp only [dev_apply, hdw]
          · intro a ha
            simp only [List.mem_cons, List.mem_singleton, List.not_mem_nil, or_false] at ha
            rcases ha with rfl | rfl
            · exact Or.inl ⟨_, _, _, rfl, hw⟩
            · exact Or.inr ⟨_, _, rfl⟩
        · rename_i st d1 hne hdw
          refine ⟨?_, ?_⟩
          · simp only [dev_apply, hdw]
          · intro a ha
            simp only [List.mem_singleton] at ha
            subst ha
            exact Or.inl ⟨_, _, _, rfl, hw⟩

/-- The calls of `xfs_free_blocks`. -/
theorem free_acts_spec (fs : FS) (ag : Int) (start : Nat) (count : Int) :
    dev_apply fs.disk (xfs_free_blocks_acts fs ag start count)
      = (xfs_free_blocks fs ag start count).2.disk ∧
    ∀ a ∈ xfs_free_blocks_acts fs ag start count, map_act a := by
  unfold xfs_free_blocks_acts xfs_free_blocks
  by_cases hl : ag_lock ag ≠ 0
  · rw [if_pos hl, if_pos hl]
    exact ⟨rfl, fun a ha => absurd ha (List.not_mem_nil _)⟩
  · rw [if_neg hl, if_neg hl]
    have hw := agf_write_valid (not_not.mp hl)
    simp only []
    cases hr : disk_read fs.disk (ag_get_offset ag) SIZEOF_AGF with
    | none => exact ⟨rfl, fun a ha => absurd ha (List.not_mem_nil _)⟩
    | some bytes =>
      simp only []
      split
      · rename_i d1 hdw
        refine ⟨?_, ?_⟩
        · simp only [dev_apply, hdw]
        · intro a ha
          simp only [List.mem_cons, List.mem_singleton, List.not_mem_nil, or_false] at ha
          rcases ha with rfl | rfl
          · exact Or.inl ⟨_, _, _, rfl, hw⟩
          · exact Or.inr ⟨_, _, rfl⟩
      · rename_i st d1 hne hdw
        refine ⟨?_, ?_⟩
        · simp only [dev_apply, hdw]
        · intro a ha
          simp only [List.mem_singleton] at ha
          subst ha
          exact Or.inl ⟨_, _, _, rfl, hw⟩

/-- The calls of the mapping loop: their effect on the device is that of the loop, and
each is the write-back of an AGF or a journal entry. -/
theorem map_loop_acts_spec (bs n i : Nat) (fs : FS) (inode : xfs_inode_t) :
    dev_apply fs.disk (write_map_loop_acts bs n i fs inode)
      = (write_map_loop bs n i fs inode).2.2.disk ∧
    ∀ a ∈ write_map_loop_acts bs n i fs inode, map_act a := by
  induction n generalizing i fs inode with
  | zero => exact ⟨rfl, fun a ha => absurd ha (List.not_mem_nil _)⟩
  | succ n ih =>
    simp only [write_map_loop_acts, write_map_loop]
    cases hf : find_extent_for_offset inode ((bs + i) % 18446744073709551616) with
    | some e => exact ih (i + 1) fs inode
    | none =>
      simp only []
      obtain ⟨ha1, ha2⟩ := alloc_acts_spec fs
        (((bs + i) % 18446744073709551616 % NUM_AGS : Nat) : Int) 1
      rw [dev_apply_append, ha1]
      by_cases hz : (xfs_alloc_blocks fs
          (((bs + i) % 18446744073709551616 % NUM_AGS : Nat) : Int) 1).1 = 0
      · rw [if_pos hz, if_pos hz]
        refine ⟨rfl, ?_⟩
        intro a ha
        rw [List.append_nil] at ha
        exact ha2 a ha
      · rw [if_neg hz, if_neg hz]
        generalize hadd : add_extent_to_inode inode ((bs + i) % 18446744073709551616)
          (xfs_alloc_blocks fs
            (((bs + i) % 18446744073709551616 % NUM_AGS : Nat) : Int) 1).1 1 = r
        obtain ⟨st, inode1⟩ := r
        by_cases h0 : st = 0
        · subst h0
          simp only []
          obtain ⟨h1, h2⟩ := ih (i + 1) (xfs_alloc_blocks fs
            (((bs + i) % 18446744073709551616 % NUM_AGS : Nat) : Int) 1).2 inode1
          refine ⟨h1, ?_⟩
          intro a ha
          rcases List.mem_append.mp ha with h | h
          · exact ha2 a h
          · exact h2 a h
        · obtain ⟨h1, h2⟩ := free_acts_spec (xfs_alloc_blocks fs
            (((bs + i) % 18446744073709551616 % NUM_AGS : Nat) : Int) 1).2
            (((bs + i) % 18446744073709551616 % NUM_AGS : Nat) : Int)
            (xfs_alloc_blocks fs
              (((bs + i) % 18446744073709551616 % NUM_AGS : Nat) : Int) 1).1 1
          have hmem : ∀ a, a ∈ xfs_alloc_blocks_acts fs
                (((bs + i) % 18446744073709551616 % NUM_AGS : Nat) : Int) 1 ++
              xfs_free_blocks_acts (xfs_alloc_blocks fs
                (((bs + i) % 18446744073709551616 % NUM_AGS : Nat) : Int) 1).2
                (((bs + i) % 18446744073709551616 % NUM_AGS : Nat) : Int)
                (xfs_alloc_blocks fs
                  (((bs + i) % 18446744073709551616 % NUM_AGS : Nat) : Int) 1).1 1 →
              map_act a := by
            intro a ha
            rcases List.mem_append.mp ha with h | h
            · exact ha2 a h
            · exact h2 a h
          split
          · rename_i heq
            simp only [Prod.mk.injEq] at heq
            exact absurd heq.1 h0
          · exact ⟨h1, hmem⟩

/-- The calls of the data loop: their effect on the device is that of the loop, and each
is a `disk_write` of file data. -/
theorem data_loop_acts_spec (inode : xfs_inode_t) (buffer : List Nat) (size offset : Nat)
    (fuel bw : Nat) (d : Option Disk) :
    dev_apply d (write_data_loop_acts inode buffer size offset fuel bw d)
      = (write_data_loop inode buffer size offset fuel bw d).2.2 ∧
    ∀ a ∈ write_data_loop_acts inode buffer size offset fuel bw d, data_act a := by
  induction fuel generalizing bw d with
  | zero => exact ⟨rfl, fun a ha => absurd ha (List.not_mem_nil _)⟩
  | succ fuel ih =>
    simp only [write_data_loop_acts, write_data_loop]
    by_cases hlt : bw < size
    · rw [if_pos hlt, if_pos hlt]
      cases hf : find_extent_for_offset inode
          ((offset + bw) % 18446744073709551616 / XFS_BLOCK_SIZE) with
      | none => exact ⟨rfl, fun a ha => absurd ha (List.not_mem_nil _)⟩
      | some extent =>
        simp only []
        split
        · rename_i d1 hdw
          obtain ⟨h1, h2⟩ := ih (bw + (if XFS_BLOCK_SIZE -
            (offset + bw) % 18446744073709551616 % XFS_BLOCK_SIZE > size - bw
            then size - bw
            else XFS_BLOCK_SIZE - (offset + bw) % 18446744073709551616 % XFS_BLOCK_SIZE)) d1
          refine ⟨?_, ?_⟩
          · simp only [dev_apply, hdw]
            exact h1
          · intro a ha
            rcases List.mem_cons.mp ha with rfl | h
            · exact ⟨_, _, _, rfl⟩
            · exact h2 a h
        · rename_i st d1 hne hdw
          refine ⟨?_, ?_⟩
          · simp only [dev_apply, hdw]
          · intro a ha
            simp only [List.mem_singleton] at ha
            subst ha
            exact ⟨_, _, _, rfl⟩
    · rw [if_neg hlt, if_neg hlt]
      exact ⟨rfl, fun a ha => absurd ha (List.not_mem_nil _)⟩

/-! ## Journal calls of a thread between two calls -/

/-- The state of the journal does not depend on what a client has left to do. -/
theorem jinv_todo (s : JSys) (tr : List JEvent) (i : Nat) (c : JClient) (todo : List JOp)
    (hc : s.clients.get? i = some c) (hinv : jinv s tr) :
    jinv { s with clients := s.clients.set i { c with todo := todo } } tr := by
  refine ⟨hinv.fifo, hinv.order, hinv.exited_of_discard, hinv.signaled_done,
    hinv.done_signaled, hinv.handle_bound, hinv.handle_once, ?_, ?_⟩
  · intro k c2 h hk hpc
    by_cases e : k = i
    · subst e
      have hlt : k < s.clients.length := by
        rw [List.get?_eq_getElem?] at hc
        exact (List.getElem?_eq_some_iff.mp hc).1
      simp only [List.get?_eq_getElem?, List.getElem?_set, hlt, if_true,
        Option.some.injEq] at hk
      subst hk
      exact hinv.own_node k c h hc hpc
    · have hk2 : s.clients.get? k = some c2 := by
        simp only [List.get?_eq_getElem?] at hk ⊢
        rw [List.getElem?_set_ne (fun h => e h.symm)] at hk
        exact hk
      exact hinv.own_node k c2 h hk2 hpc
  · intro hlen c2 h hm hpc
    simp only [List.length_set] at hlen
    rcases List.mem_or_eq_of_mem_set hm with hm | rfl
    · exact hinv.last_node hlen c2 h hm hpc
    · exact hinv.last_node hlen c h (List.get?_mem hc) hpc

theorem set_get_self (l : List JClient) (i : Nat) (c c1 : JClient)
    (hc : l.get? i = some c) : (l.set i c1).get? i = some c1 := by
  have hlt : i < l.length := by
    rw [List.get?_eq_getElem?] at hc
    exact (List.getElem?_eq_some_iff.mp hc).1
  simp [List.get?_eq_getElem?, List.getElem?_set, hlt]

theorem set_get_other (l : List JClient) (i k : Nat) (c1 : JClient) (h : k ≠ i) :
    (l.set i c1).get? k = l.get? k := by
  simp only [List.get?_eq_getElem?]
  exact List.getElem?_set_ne (fun e => h e.symm)

/-- A client between two calls that calls `trans_add_item`: the node is linked at the
tail and the call returns 0. -/
theorem client_call_add (s : JSys) (i : Nat) (c : JClient) (data : List Nat) (len : Int)
    (hc : s.clients.get? i = some c) (hpc : c.pc = ClientPc.ready) :
    client_call s i (JOp.add data len) =
      some ({ s with queue := s.queue ++ [JNode.data (data.take len.toNat) (to_u64 len)],
                     clients := s.clients.set i { c with results := c.results ++ [0] } },
            [JEvent.enq i (JNode.data (data.take len.toNat) (to_u64 len))]) := by
  obtain ⟨todo, pc, results⟩ := c
  simp only at hpc
  subst hpc
  simp only [client_call, hc, client_step, set_get_self _ _ _ _ hc, List.set_set]

/-- A client between two calls that calls `trans_commit_barrier`: the barrier node is
linked at the tail with a new handle and the client waits on the handle. -/
theorem client_call_barrier (s : JSys) (i : Nat) (c : JClient)
    (hc : s.clients.get? i = some c) (hpc : c.pc = ClientPc.ready) :
    client_call s i JOp.barrier =
      some ({ s with queue := s.queue ++ [JNode.barrier s.syncs.length],
                     syncs := s.syncs ++ [false],
                     clients := s.clients.set i
                       { c with pc := ClientPc.waiting s.syncs.length } },
            [JEvent.enq i (JNode.barrier s.syncs.length)]) := by
  obtain ⟨todo, pc, results⟩ := c
  simp only at hpc
  subst hpc
  simp only [client_call, hc, client_step, set_get_self _ _ _ _ hc, List.set_set]

/-- A journal call keeps the journal in order. -/
theorem client_call_inv (s s1 : JSys) (i : Nat) (op : JOp) (tr ev : List JEvent)
    (hinv : jinv s tr) (h : client_call s i op = some (s1, ev)) : jinv s1 (tr ++ ev) := by
  unfold client_call at h
  cases hc : s.clients.get? i with
  | none => rw [hc] at h; cases h
  | some c =>
    rw [hc] at h
    exact client_step_inv _ s1 i tr ev (jinv_todo s tr i c _ hc hinv) h

/-- A call of `trans_add_item` or `trans_commit_barrier` does not stop the worker. -/
theorem client_call_alive (s s1 : JSys) (i : Nat) (op : JOp) (ev : List JEvent)
    (ha : jalive s) (hop : op ≠ JOp.destroy) (h : client_call s i op = some (s1, ev)) :
    jalive s1 := by
  unfold client_call at h
  cases hc : s.clients.get? i with
  | none => rw [hc] at h; cases h
  | some c =>
    rw [hc] at h
    refine jstep_alive _ s1 (JThread.client i) ev ?_ h
    obtain ⟨hr, hw, hnd⟩ := ha
    refine ⟨hr, hw, ?_⟩
    intro c2 hm
    rcases List.mem_or_eq_of_mem_set hm with hm | rfl
    · exact hnd c2 hm
    · have := hnd c (List.get?_mem hc)
      refine ⟨?_, this.2⟩
      intro hmem
      rcases List.mem_cons.mp hmem with e | e
      · exact hop e.symm
      · exact this.1 e

/-- When the handle of a waiting client is signalled, its barrier node and every node
linked before it have been processed, in the order of linking; with a single client
everything linked so far has been processed. -/
theorem drained_of_signaled (s : JSys) (tr : List JEvent) (hinv : jinv s tr) (i h : Nat)
    (c : JClient) (hc : s.clients.get? i = some c) (hpc : c.pc = ClientPc.waiting h)
    (hsig : s.syncs.getD h false = true) :
    drained tr h ∧ (s.clients.length ≤ 1 → processed tr = enqueued tr) := by
  have hproc := hinv.signaled_done h hsig
  obtain ⟨before, pa, hsplit, hnb⟩ := List.eq_append_cons_of_mem hproc
  have henq : enqueued tr = before ++ JNode.barrier h ::
      (pa ++ (held s.worker ++ (discarded tr ++ s.queue))) := by
    rw [hinv.fifo, hinv.order, hsplit]
    simp
  have hafter : JNode.barrier h ∉ pa ++ (held s.worker ++ (discarded tr ++ s.queue)) := by
    intro hmem
    have hone := hinv.handle_once h
    rw [henq, List.count_append, List.count_cons_self] at hone
    have := List.count_pos_iff.mpr hmem
    omega
  refine ⟨⟨before, _, henq, hnb, hafter, ?_⟩, ?_⟩
  · rw [hsplit]
    exact ⟨pa, by simp⟩
  · intro hone
    obtain ⟨b, hb⟩ := hinv.last_node hone c h (List.get?_mem hc) hpc
    have hnil : pa ++ (held s.worker ++ (discarded tr ++ s.queue)) = [] := by
      rcases List.eq_nil_or_concat (pa ++ (held s.worker ++ (discarded tr ++ s.queue)))
        with hnil | ⟨a1, x, hcat⟩
      · exact hnil
      · exfalso
        rw [hcat] at henq hafter
        have hx : x = JNode.barrier h := by
          have h2 : (before ++ JNode.barrier h :: a1) ++ [x] = b ++ [JNode.barrier h] := by
            rw [← hb, henq]; simp
          exact List.singleton_inj.mp (List.append_inj_right' h2 rfl)
        exact hafter (by rw [hx]; simp)
    simp only [List.append_eq_nil] at hnil
    obtain ⟨hpa, _, _, _⟩ := hnil
    rw [henq, hsplit, hpa]
    simp [*]

/-! ## The order of events in a run of `xfs_sim_write` -/

theorem jevents_append (a b : List WEvent) : jevents (a ++ b) = jevents a ++ jevents b := by
  simp [jevents, List.filterMap_append]

theorem jevents_journal (jev : List JEvent) : jevents (jev.map WEvent.journal) = jev := by
  induction jev with
  | nil => rfl
  | cons e rest ih =>
    simp only [List.map_cons, jevents, List.filterMap_cons] at ih ⊢
    rw [ih]

theorem jevents_dev (site : WSite) (off len : Nat) :
    jevents [WEvent.dev site off len] = [] := rfl

theorem before_return_journal (tr : List WEvent) (jev : List JEvent)
    (h : before_return tr) (hcalm : ∀ je ∈ jev, ∀ h1, je ≠ JEvent.woken 0 h1) :
    before_return (tr ++ jev.map WEvent.journal) := by
  refine ⟨?_, ?_⟩
  · intro h1 hm
    rcases List.mem_append.mp hm with hm | hm
    · exact h.1 h1 hm
    · obtain ⟨je, hje, e⟩ := List.mem_map.mp hm
      simp only [WEvent.journal.injEq] at e
      exact hcalm je hje h1 e
  · intro site off len hm
    rcases List.mem_append.mp hm with hm | hm
    · exact h.2 site off len hm
    · obtain ⟨je, _, e⟩ := List.mem_map.mp hm
      cases e

theorem before_return_agf (tr : List WEvent) (off len : Nat)
    (h : before_return tr) (hw : agf_write off len) :
    before_return (tr ++ [WEvent.dev WSite.agf off len]) := by
  refine ⟨?_, ?_⟩
  · intro h1 hm
    rcases List.mem_append.mp hm with hm | hm
    · exact h.1 h1 hm
    · simp at hm
  · intro site off1 len1 hm
    rcases List.mem_append.mp hm with hm | hm
    · exact h.2 site off1 len1 hm
    · simp only [List.mem_singleton, WEvent.dev.injEq] at hm
      obtain ⟨rfl, rfl, rfl⟩ := hm
      exact ⟨rfl, hw⟩

theorem dev_apply_snoc_dev (d : Option Disk) (done : List WAct) (site : WSite)
    (off : Nat) (buf : List Nat) (len : Nat) :
    dev_apply d (done ++ [WAct.dev site off buf len])
      = (disk_write (dev_apply d done) off buf len).2 := by
  rw [dev_apply_append]
  rfl

theorem dev_apply_snoc_log (d : Option Disk) (done : List WAct) (data : List Nat)
    (len : Int) : dev_apply d (done ++ [WAct.log data len]) = dev_apply d done := by
  rw [dev_apply_append]
  rfl

/-- A step of the journal that is not a return of client 0 from its barrier and leaves
client 0 as it is keeps the state of the run. -/
theorem winv_calm (d0 : Option Disk) (M T D : List WAct) (tr0 : List JEvent) (s : WSys)
    (tr : List WEvent) (j1 : JSys) (jev : List JEvent)
    (hinv : winv d0 M T D tr0 s tr)
    (hj : jinv j1 (tr0 ++ jevents tr ++ jev))
    (hc : j1.clients.get? 0 = s.j.clients.get? 0)
    (hlen : j1.clients.length = s.j.clients.length)
    (hcalm : ∀ je ∈ jev, ∀ h1, je ≠ JEvent.woken 0 h1) :
    winv d0 M T D tr0 { s with j := j1 } (tr ++ jev.map WEvent.journal) := by
  obtain ⟨_, c, hc0, hphase⟩ := hinv
  refine ⟨by rw [jevents_append, jevents_journal, ← List.append_assoc]; exact hj, c,
    by rw [hc]; exact hc0, ?_⟩
  rcases hphase with ⟨hpc, hbr, hrest⟩ | ⟨h, hpc, hbr, hT, hacts, hdisk, henq⟩ |
    ⟨hpc, hT, hdone, pre, post, h, htr, hbr, henq, hdr, hsingle, hpost⟩
  · exact Or.inl ⟨hpc, before_return_journal tr jev hbr hcalm, hrest⟩
  · exact Or.inr (Or.inl ⟨h, hpc, before_return_journal tr jev hbr hcalm, hT, hacts, hdisk,
      List.mem_append_left _ henq⟩)
  · refine Or.inr (Or.inr ⟨hpc, hT, hdone, pre, post ++ jev.map WEvent.journal, h,
      by rw [htr]; simp, hbr, henq, hdr, by rw [hlen]; exact hsingle, ?_⟩)
    intro e he
    rcases List.mem_append.mp he with he | he
    · exact hpost e he
    · obtain ⟨je, hje, rfl⟩ := List.mem_map.mp he
      exact Or.inr ⟨je, rfl, hcalm je hje⟩

/-- The worker leaves the clients as they are and reports no return of a client. -/
theorem worker_step_clients (s s1 : JSys) (ev : List JEvent)
    (h : worker_step s = some (s1, ev)) :
    s1.clients = s.clients ∧ ∀ je ∈ ev, ∀ i h1, je ≠ JEvent.woken i h1 := by
  rcases worker_step_cases s s1 ev h with ⟨_, _, rfl, rfl⟩ | ⟨n, rest, _, _, _, rfl, rfl⟩ |
    ⟨n, _, rfl, rfl⟩ | ⟨hd, _, rfl, rfl⟩ | ⟨b, l, _, rfl, rfl⟩ <;>
  exact ⟨rfl, by simp⟩

/-- A step of client `k` leaves every other client as it is and reports no return of
another client. -/
theorem client_step_others (s s1 : JSys) (k : Nat) (ev : List JEvent)
    (h : client_step s k = some (s1, ev)) :
    (∀ i, i ≠ k → s1.clients.get? i = s.clients.get? i) ∧
    s1.clients.length = s.clients.length ∧
    ∀ je ∈ ev, ∀ i h1, i ≠ k → je ≠ JEvent.woken i h1 := by
  obtain ⟨c, hc, hcases⟩ := client_step_cases s s1 k ev h
  rcases hcases with ⟨hd, hpc, hsig, rfl, rfl⟩ | ⟨hpc, _, rfl, rfl⟩ |
    ⟨data, len, rest, hpc, htodo, rfl, rfl⟩ | ⟨rest, hpc, htodo, rfl, rfl⟩ |
    ⟨rest, hpc, htodo, rfl, rfl⟩ | ⟨rest, hpc, htodo, rfl, rfl⟩
  · refine ⟨fun i hi => set_get_other _ _ _ _ hi, List.length_set _ _ _, ?_⟩
    intro je hje i h1 hi
    simp only [List.mem_singleton] at hje
    subst hje
    simp only [ne_eq, JEvent.woken.injEq, not_and]
    intro e
    exact absurd e.symm hi
  · refine ⟨fun i hi => set_get_other _ _ _ _ hi, List.length_set _ _ _, ?_⟩
    intro je hje i h1 hi
    obtain ⟨n, _, rfl⟩ := List.mem_map.mp hje
    simp
  all_goals
    refine ⟨fun i hi => set_get_other _ _ _ _ hi, List.length_set _ _ _, ?_⟩
    intro je hje i h1 hi
    simp only [List.mem_singleton, List.not_mem_nil] at hje
    try subst hje
    try simp

/-- Every step of a thread keeps the state of the run: the mapping loop makes write-backs
of AGFs and journal entries, the barrier is linked after the mapping loop, the thread
leaves the barrier only when its handle is signalled, and the data loop follows. -/
theorem wstep_inv (d0 : Option Disk) (M T D : List WAct) (tr0 : List JEvent)
    (hM : ∀ a ∈ M, map_act a) (hD : ∀ a ∈ D, data_act a)
    (hT : T = [] ∨ T = WAct.barrier :: D)
    (s s1 : WSys) (t : WThread) (tr ev : List WEvent)
    (hinv : winv d0 M T D tr0 s tr) (hstep : wstep s t = some (s1, ev)) :
    winv d0 M T D tr0 s1 (tr ++ ev) := by
  cases t with
  | worker =>
    simp only [wstep, Option.map_eq_some'] at hstep
    obtain ⟨⟨j1, jev⟩, hw, heq⟩ := hstep
    simp only [Prod.mk.injEq] at heq
    obtain ⟨rfl, rfl⟩ := heq
    obtain ⟨hcl, hcalm⟩ := worker_step_clients s.j j1 jev hw
    exact winv_calm d0 M T D tr0 s tr j1 jev hinv
      (worker_step_inv s.j j1 _ jev hinv.1 hw) (by rw [hcl]) (by rw [hcl])
      (fun je hje h1 => hcalm je hje 0 h1)
  | other i =>
    simp only [wstep, Option.map_eq_some'] at hstep
    obtain ⟨⟨j1, jev⟩, hw, heq⟩ := hstep
    simp only [Prod.mk.injEq] at heq
    obtain ⟨rfl, rfl⟩ := heq
    obtain ⟨hcl, hlen, hcalm⟩ := client_step_others s.j j1 (i + 1) jev hw
    exact winv_calm d0 M T D tr0 s tr j1 jev hinv
      (client_step_inv s.j j1 (i + 1) _ jev hinv.1 hw) (hcl 0 (by omega)) hlen
      (fun je hje h1 => hcalm je hje 0 h1 (by omega))
  | writer =>
    obtain ⟨hj, c, hc0, hphase⟩ := hinv
    simp only [wstep, writer_step, hc0] at hstep
    rcases hphase with ⟨hpc, hbr, done, rest, hMs, hacts, hdisk⟩ |
      ⟨h, hpc, hbr, hTb, hacts, hdisk, henq⟩ |
      ⟨hpc, hTb, ⟨done, hDs, hdisk⟩, pre, post, h, htr, hbr, henq, hdr, hsingle, hpost⟩
    · -- the mapping loop
      rw [hpc] at hstep
      simp only [] at hstep
      cases rest with
      | nil =>
        rw [List.nil_append] at hacts
        rw [List.append_nil] at hMs
        rcases hT with hT0 | hTb
        · rw [hacts, hT0] at hstep
          cases hstep
        · rw [hacts, hTb] at hstep
          simp only [client_call_barrier s.j 0 c hc0 hpc, Option.map_some',
            Option.some.injEq, Prod.mk.injEq] at hstep
          obtain ⟨rfl, rfl⟩ := hstep
          have hj1 := client_call_inv s.j _ 0 JOp.barrier _ _ hj
            (client_call_barrier s.j 0 c hc0 hpc)
          refine ⟨by
            rw [jevents_append, ← List.append_assoc]
            exact hj1, _, set_get_self _ _ _ _ hc0, ?_⟩
          refine Or.inr (Or.inl ⟨s.j.syncs.length, rfl, ?_, hTb, rfl, by rw [hdisk, hMs],
            List.mem_append_right _ (by simp)⟩)
          exact before_return_journal tr [JEvent.enq 0 (JNode.barrier s.j.syncs.length)] hbr
            (by simp)
      | cons a rest1 =>
        rw [List.cons_append] at hacts
        have ha : map_act a := hM a (by rw [hMs]; simp)
        rcases ha with ⟨off, buf, len, rfl, hw⟩ | ⟨data, len, rfl⟩
        · rw [hacts] at hstep
          simp only [Option.some.injEq, Prod.mk.injEq] at hstep
          obtain ⟨rfl, rfl⟩ := hstep
          refine ⟨by rw [jevents_append, jevents_dev, List.append_nil]; exact hj, c, hc0, ?_⟩
          refine Or.inl ⟨hpc, before_return_agf tr off len hbr hw,
            done ++ [WAct.dev WSite.agf off buf len], rest1, by rw [hMs]; simp, rfl, ?_⟩
          rw [dev_apply_snoc_dev, ← hdisk]
        · rw [hacts] at hstep
          simp only [client_call_add s.j 0 c data len hc0 hpc, Option.map_some',
            Option.some.injEq, Prod.mk.injEq] at hstep
          obtain ⟨rfl, rfl⟩ := hstep
          have hj1 := client_call_inv s.j _ 0 (JOp.add data len) _ _ hj
            (client_call_add s.j 0 c data len hc0 hpc)
          refine ⟨by
            rw [jevents_append, ← List.append_assoc]
            exact hj1, _, set_get_self _ _ _ _ hc0, ?_⟩
          refine Or.inl ⟨hpc, ?_, done ++ [WAct.log data len], rest1, by rw [hMs]; simp, rfl,
            by rw [dev_apply_snoc_log]; exact hdisk⟩
          exact before_return_journal tr
            [JEvent.enq 0 (JNode.data (data.take len.toNat) (to_u64 len))] hbr (by simp)
    · -- the wait in the barrier
      rw [hpc] at hstep
      simp only [Option.map_eq_some'] at hstep
      obtain ⟨⟨j1, jev⟩, hw, heq⟩ := hstep
      simp only [Prod.mk.injEq] at heq
      obtain ⟨rfl, rfl⟩ := heq
      have hj1 := client_step_inv s.j j1 0 _ jev hj hw
      obtain ⟨c2, hc2, hcases⟩ := client_step_cases s.j j1 0 jev hw
      rw [hc0] at hc2
      simp only [Option.some.injEq] at hc2
      subst hc2
      rcases hcases with ⟨hd, hpc2, hsig, rfl, rfl⟩ | ⟨hpc2, _, rfl, rfl⟩ |
        ⟨data, len, rest, hpc2, htodo, rfl, rfl⟩ | ⟨rest, hpc2, htodo, rfl, rfl⟩ |
        ⟨rest, hpc2, htodo, rfl, rfl⟩ | ⟨rest, hpc2, htodo, rfl, rfl⟩
      · rw [hpc] at hpc2
        simp only [ClientPc.waiting.injEq] at hpc2
        subst hpc2
        obtain ⟨hdr, hsingle⟩ := drained_of_signaled s.j _ hj 0 h c hc0 hpc hsig
        refine ⟨by
          rw [jevents_append, ← List.append_assoc]
          exact hj1, _, set_get_self _ _ _ _ hc0, ?_⟩
        refine Or.inr (Or.inr ⟨rfl, hTb, ⟨[], by rw [hacts]; rfl, hdisk⟩, tr, [], h, rfl, hbr,
          henq, hdr, ?_, by simp⟩)
        intro hone
        exact hsingle (by simpa using hone)
      all_goals exact absurd (hpc.symm.trans hpc2) (by simp)
    · -- the data loop
      rw [hpc] at hstep
      simp only [] at hstep
      cases hsa : s.acts with
      | nil => rw [hsa] at hstep; cases hstep
      | cons a rest1 =>
        rw [hsa] at hstep hDs
        have ha : data_act a := hD a (by rw [hDs]; simp)
        obtain ⟨off, buf, len, rfl⟩ := ha
        simp only [Option.some.injEq, Prod.mk.injEq] at hstep
        obtain ⟨rfl, rfl⟩ := hstep
        refine ⟨by rw [jevents_append, jevents_dev, List.append_nil]; exact hj, c, hc0, ?_⟩
        refine Or.inr (Or.inr ⟨hpc, hTb, ⟨done ++ [WAct.dev WSite.data off buf len],
          by rw [hDs]; simp, by rw [dev_apply_snoc_dev, ← hdisk]⟩, pre,
          post ++ [WEvent.dev WSite.data off len], h, by rw [htr]; simp, hbr, henq, hdr,
          hsingle, ?_⟩)
        intro e he
        rcases List.mem_append.mp he with he | he
        · exact hpost e he
        · simp only [List.mem_singleton] at he
          exact Or.inl ⟨WSite.data, off, len, he, rfl⟩

theorem wrun_none (s : WSys) (t : WThread) (rest : List WThread) (h : wstep s t = none) :
    wrun s (t :: rest) = wrun s rest := by
  rw [wrun, h]

theorem wrun_some (s s1 : WSys) (t : WThread) (rest : List WThread) (ev : List WEvent)
    (h : wstep s t = some (s1, ev)) :
    wrun s (t :: rest) = ((wrun s1 rest).1, ev ++ (wrun s1 rest).2) := by
  rw [wrun, h]

/-- The state of the run holds along every schedule. -/
theorem wrun_inv (d0 : Option Disk) (M T D : List WAct) (tr0 : List JEvent)
    (hM : ∀ a ∈ M, map_act a) (hD : ∀ a ∈ D, data_act a)
    (hT : T = [] ∨ T = WAct.barrier :: D)
    (sched : List WThread) (s : WSys) (tr : List WEvent)
    (hinv : winv d0 M T D tr0 s tr) :
    winv d0 M T D tr0 (wrun s sched).1 (tr ++ (wrun s sched).2) := by
  induction sched generalizing s tr with
  | nil => simpa [wrun] using hinv
  | cons t rest ih =>
    cases hstep : wstep s t with
    | none => rw [wrun_none _ _ _ hstep]; exact ih s tr hinv
    | some p =>
      obtain ⟨s1, ev⟩ := p
      rw [wrun_some _ _ _ _ _ hstep]
      have := ih s1 (tr ++ ev) (wstep_inv d0 M T D tr0 hM hD hT s s1 t tr ev hinv hstep)
      simpa [List.append_assoc] using this

/-- The calls of a mapping loop change no device byte outside the AGF records. -/
theorem dev_apply_frame (d : Option Disk) (done : List WAct) (hM : ∀ a ∈ done, map_act a)
    (x : Nat) (hx : ∀ ag, valid_ag ag → ¬ in_agf ag x) :
    disk_byte (dev_apply d done) x = disk_byte d x := by
  induction done generalizing d with
  | nil => rfl
  | cons a rest ih =>
    have hrest : ∀ b ∈ rest, map_act b := fun b hb => hM b (List.mem_cons_of_mem _ hb)
    rcases hM a (List.mem_cons_self _ _) with ⟨off, buf, len, rfl, ag, hoff, hlen⟩ |
      ⟨data, len, rfl⟩
    · show disk_byte (dev_apply (disk_write d off buf len).2 rest) x = disk_byte d x
      rw [ih _ hrest]
      apply disk_write_byte
      intro hin
      have hv : valid_ag (ag.val : Int) := by
        have := ag.isLt
        unfold valid_ag
        omega
      apply hx _ hv
      unfold in_agf
      rw [← hoff, ← hlen]
      exact hin
    · exact ih d hrest

/-- While the barrier has not returned, the device differs from the initial one inside
AGF records only. -/
theorem winv_before_return (d0 : Option Disk) (M T D : List WAct) (tr0 : List JEvent)
    (hM : ∀ a ∈ M, map_act a) (s : WSys) (tr : List WEvent)
    (hinv : winv d0 M T D tr0 s tr) (hbr : ∀ h, WEvent.journal (JEvent.woken 0 h) ∉ tr) :
    before_return tr ∧
    ∀ x, (∀ ag, valid_ag ag → ¬ in_agf ag x) → disk_byte s.disk x = disk_byte d0 x := by
  obtain ⟨_, c, hc0, hphase⟩ := hinv
  rcases hphase with ⟨hpc, hb, done, rest, hMs, hacts, hdisk⟩ |
    ⟨h, hpc, hb, hTb, hacts, hdisk, henq⟩ |
    ⟨hpc, hTb, hdone, pre, post, h, htr, hb, henq, hdr, hsingle, hpost⟩
  · refine ⟨hb, fun x hx => ?_⟩
    rw [hdisk]
    exact dev_apply_frame d0 done (fun a ha => hM a (by rw [hMs]; exact List.mem_append_left _ ha))
      x hx
  · refine ⟨hb, fun x hx => ?_⟩
    rw [hdisk]
    exact dev_apply_frame d0 M hM x hx
  · exact absurd (by rw [htr]; simp) (hbr h)

/-- When the thread has made all its calls, the device is the initial one after the
`disk_write` calls of the whole sequence; if the sequence has a barrier, the barrier has
returned. -/
theorem winv_finished (d0 : Option Disk) (M T D : List WAct) (tr0 : List JEvent)
    (s : WSys) (tr : List WEvent) (hinv : winv d0 M T D tr0 s tr) (c : JClient)
    (hc : s.j.clients.get? 0 = some c) (hpc : c.pc = ClientPc.ready) (hacts : s.acts = []) :
    s.disk = dev_apply d0 (M ++ T) ∧
    (T = WAct.barrier :: D → ∃ h, WEvent.journal (JEvent.woken 0 h) ∈ tr) := by
  obtain ⟨_, c1, hc1, hphase⟩ := hinv
  rw [hc] at hc1
  simp only [Option.some.injEq] at hc1
  subst hc1
  rcases hphase with ⟨_, hb, done, rest, hMs, hacts1, hdisk⟩ |
    ⟨h, hpc1, hb, hTb, hacts1, hdisk, henq⟩ |
    ⟨_, hTb, ⟨done, hDs, hdisk⟩, pre, post, h, htr, hb, henq, hdr, hsingle, hpost⟩
  · rw [hacts] at hacts1
    have h2 := List.append_eq_nil.mp hacts1.symm
    rw [h2.1, List.append_nil] at hMs
    refine ⟨by rw [hdisk, h2.2, List.append_nil, hMs], ?_⟩
    intro hTb
    rw [h2.2] at hTb
    cases hTb
  · exact absurd (hpc.symm.trans hpc1) (by simp)
  · rw [hacts, List.append_nil] at hDs
    refine ⟨?_, fun _ => ⟨h, by rw [htr]; simp⟩⟩
    rw [hdisk, hTb, dev_apply_append, ← hDs]
    rfl

/-- The journal after `xfs_alloc_blocks`, `xfs_free_blocks` and the mapping loop has the
worker flag it had before. -/
theorem xfs_alloc_blocks_running (fs : FS) (ag count : Int) :
    (xfs_alloc_blocks fs ag count).2.journal.running = fs.journal.running := by
  simp only [xfs_alloc_blocks]
  split
  · rfl
  · split
    · rfl
    · split
      · rfl
      · split <;> rfl

theorem xfs_free_blocks_running (fs : FS) (ag : Int) (start : Nat) (count : Int) :
    (xfs_free_blocks fs ag start count).2.journal.running = fs.journal.running := by
  simp only [xfs_free_blocks]
  split
  · rfl
  · split
    · rfl
    · split <;> rfl

theorem write_map_loop_running (bs n i : Nat) (fs : FS) (inode : xfs_inode_t) :
    (write_map_loop bs n i fs inode).2.2.journal.running = fs.journal.running := by
  induction n generalizing i fs inode with
  | zero => rfl
  | succ n ih =>
    simp only [write_map_loop]
    split
    · exact ih _ _ _
    · split
      · exact xfs_alloc_blocks_running _ _ _
      · split
        · rw [ih]
          exact xfs_alloc_blocks_running _ _ _
        · show (xfs_free_blocks _ _ _ _).2.journal.running = _
          rw [xfs_free_blocks_running]
          exact xfs_alloc_blocks_running _ _ _

/-- The calls of `xfs_sim_write` and the function: with a running worker the call
returns, and the device it leaves is the initial one after the `disk_write` calls of the
sequence. -/
theorem xfs_sim_write_acts_disk (fs : FS) (inode : xfs_inode_t) (buffer : List Nat)
    (size offset : Nat) (hrun : fs.journal.running = true) :
    ∃ res, xfs_sim_write fs inode buffer size offset = some res ∧
      res.2.2.disk = dev_apply fs.disk (xfs_sim_write_acts fs inode buffer size offset) ∧
      ((write_map_result fs inode size offset).1 ≠ 0 → 1 ≤ size → res.1 = -1) := by
  unfold xfs_sim_write xfs_sim_write_acts
  by_cases h0 : size = 0
  · rw [if_pos h0, if_pos h0]
    exact ⟨_, rfl, rfl, fun _ h1 => by omega⟩
  · rw [if_neg h0, if_neg h0]
    simp only []
    have hmap := (map_loop_acts_spec (offset / XFS_BLOCK_SIZE)
      (to_u64 (((((offset + size - 1) % 18446744073709551616) / XFS_BLOCK_SIZE : Nat) : Int)
        - ((offset / XFS_BLOCK_SIZE : Nat) : Int) + 1)) 0 fs inode).1
    have hrn := write_map_loop_running (offset / XFS_BLOCK_SIZE)
      (to_u64 (((((offset + size - 1) % 18446744073709551616) / XFS_BLOCK_SIZE : Nat) : Int)
        - ((offset / XFS_BLOCK_SIZE : Nat) : Int) + 1)) 0 fs inode
    rw [dev_apply_append]
    unfold write_map_acts write_tail_acts write_data_acts write_map_result
    rw [hmap]
    generalize write_map_loop (offset / XFS_BLOCK_SIZE)
      (to_u64 (((((offset + size - 1) % 18446744073709551616) / XFS_BLOCK_SIZE : Nat) : Int)
        - ((offset / XFS_BLOCK_SIZE : Nat) : Int) + 1)) 0 fs inode = w at hrn ⊢
    obtain ⟨st, inode1, fs1⟩ := w
    simp only [] at hrn ⊢
    by_cases hst : st = 0
    · subst hst
      simp only [if_true]
      have hb : trans_commit_barrier fs1.journal
          = some (0, { fs1.journal with queue := [] }) := by
        unfold trans_commit_barrier
        exact if_pos (hrn.trans hrun)
      rw [hb]
      simp only []
      have hd := (data_loop_acts_spec inode1 buffer size offset size 0 fs1.disk).1
      have hda : dev_apply fs1.disk (WAct.barrier ::
          write_data_loop_acts inode1 buffer size offset size 0 fs1.disk)
          = (write_data_loop inode1 buffer size offset size 0 fs1.disk).2.2 := hd
      rw [hda]
      split
      · rename_i bw d hdata
        exact ⟨_, rfl, by rw [hdata], fun h => absurd rfl h⟩
      · rename_i x1 x2 d hne hdata
        exact ⟨_, rfl, by rw [hdata], fun h => absurd rfl h⟩
    · rw [if_neg hst]
      split
      · rename_i heq
        simp only [Prod.mk.injEq] at heq
        exact absurd heq.1 hst
      · rename_i x1 i1 f1 hne heq
        simp only [Prod.mk.injEq] at heq
        obtain ⟨_, rfl, rfl⟩ := heq
        exact ⟨_, rfl, rfl, fun _ _ => rfl⟩

/-! ## The call returns -/

theorem wrun_append (a b : List WThread) (s : WSys) :
    wrun s (a ++ b) = ((wrun (wrun s a).1 b).1, (wrun s a).2 ++ (wrun (wrun s a).1 b).2) := by
  induction a generalizing s with
  | nil => simp [wrun]
  | cons t rest ih =>
    simp only [List.cons_append]
    cases hstep : wstep s t with
    | none => rw [wrun_none _ _ _ hstep, wrun_none _ _ _ hstep]; exact ih s
    | some p =>
      obtain ⟨s1, ev⟩ := p
      rw [wrun_some _ _ _ _ _ hstep, wrun_some _ _ _ _ _ hstep]
      simp only [ih s1, List.append_assoc]

/-- A journal call of a client is a step of that client in a journal that differs in the
client's list of pending calls only. -/
theorem client_call_step (s s1 : JSys) (i : Nat) (op : JOp) (ev : List JEvent)
    (hop : op ≠ JOp.destroy) (h : client_call s i op = some (s1, ev)) :
    ∃ s2, jstep s2 (JThread.client i) = some (s1, ev) ∧ s2.queue = s.queue ∧
      s2.syncs = s.syncs ∧ s2.worker = s.worker ∧
      (∀ tr, jinv s tr → jinv s2 tr) ∧ (jalive s → jalive s2) := by
  unfold client_call at h
  cases hc : s.clients.get? i with
  | none => rw [hc] at h; cases h
  | some c =>
    rw [hc] at h
    refine ⟨_, h, rfl, rfl, rfl, fun tr hinv => jinv_todo s tr i c _ hc hinv, ?_⟩
    rintro ⟨hr, hw, hnd⟩
    refine ⟨hr, hw, ?_⟩
    intro c2 hm
    rcases List.mem_or_eq_of_mem_set hm with hm | rfl
    · exact hnd c2 hm
    · have := hnd c (List.get?_mem hc)
      refine ⟨?_, this.2⟩
      intro hmem
      rcases List.mem_cons.mp hmem with e | e
      · exact hop e.symm
      · exact this.1 e

/-- Every step of the system is a step of the journal, or a `disk_write` of the thread
in `xfs_sim_write` that leaves the journal alone. -/
theorem wstep_journal (s s1 : WSys) (t : WThread) (ev : List WEvent)
    (h : wstep s t = some (s1, ev)) :
    (s1.j = s.j ∧ jevents ev = [] ∧ t = WThread.writer) ∨
    ∃ s2 t2, jstep s2 t2 = some (s1.j, jevents ev) ∧
      (t2 = JThread.worker ↔ t = WThread.worker) ∧ s2.queue = s.j.queue ∧
      s2.syncs = s.j.syncs ∧ s2.worker = s.j.worker ∧
      (∀ tr, jinv s.j tr → jinv s2 tr) ∧ (jalive s.j → jalive s2) := by
  have keep : ∀ (t2 : JThread) (j1 : JSys) (jev : List JEvent),
      jstep s.j t2 = some (j1, jev) → (t2 = JThread.worker ↔ t = WThread.worker) →
      s1 = { s with j := j1 } → ev = jev.map WEvent.journal →
      ∃ s2 t2, jstep s2 t2 = some (s1.j, jevents ev) ∧
        (t2 = JThread.worker ↔ t = WThread.worker) ∧ s2.queue = s.j.queue ∧
        s2.syncs = s.j.syncs ∧ s2.worker = s.j.worker ∧
        (∀ tr, jinv s.j tr → jinv s2 tr) ∧ (jalive s.j → jalive s2) := by
    intro t2 j1 jev hj ht h1 h2
    subst h1 h2
    exact ⟨s.j, t2, by rw [jevents_journal]; exact hj, ht, rfl, rfl, rfl, fun _ h => h,
      fun h => h⟩
  cases t with
  | worker =>
    simp only [wstep, Option.map_eq_some'] at h
    obtain ⟨⟨j1, jev⟩, hw, heq⟩ := h
    simp only [Prod.mk.injEq] at heq
    exact Or.inr (keep JThread.worker j1 jev hw (by simp) heq.1.symm heq.2.symm)
  | other i =>
    simp only [wstep, Option.map_eq_some'] at h
    obtain ⟨⟨j1, jev⟩, hw, heq⟩ := h
    simp only [Prod.mk.injEq] at heq
    exact Or.inr (keep (JThread.client (i + 1)) j1 jev hw (by simp) heq.1.symm heq.2.symm)
  | writer =>
    simp only [wstep, writer_step] at h
    cases hc : s.j.clients.get? 0 with
    | none => rw [hc] at h; cases h
    | some c =>
      rw [hc] at h
      simp only [] at h
      have wake : (client_step s.j 0).map
          (fun r => (({ s with j := r.1 } : WSys), r.2.map WEvent.journal)) = some (s1, ev) →
          ∃ s2 t2, jstep s2 t2 = some (s1.j, jevents ev) ∧
            (t2 = JThread.worker ↔ WThread.writer = WThread.worker) ∧ s2.queue = s.j.queue ∧
            s2.syncs = s.j.syncs ∧ s2.worker = s.j.worker ∧
            (∀ tr, jinv s.j tr → jinv s2 tr) ∧ (jalive s.j → jalive s2) := by
        intro h
        simp only [Option.map_eq_some'] at h
        obtain ⟨⟨j1, jev⟩, hw, heq⟩ := h
        simp only [Prod.mk.injEq] at heq
        exact keep (JThread.client 0) j1 jev hw (by simp) heq.1.symm heq.2.symm
      cases hpc : c.pc with
      | ready =>
        rw [hpc] at h
        simp only [] at h
        cases hacts : s.acts with
        | nil => rw [hacts] at h; cases h
        | cons a rest =>
          rw [hacts] at h
          cases a with
          | dev site off buf len =>
            simp only [Option.some.injEq, Prod.mk.injEq] at h
            obtain ⟨rfl, rfl⟩ := h
            exact Or.inl ⟨rfl, rfl, rfl⟩
          | log data len =>
            simp only [Option.map_eq_some'] at h
            obtain ⟨⟨j1, jev⟩, hw, heq⟩ := h
            simp only [Prod.mk.injEq] at heq
            obtain ⟨rfl, rfl⟩ := heq
            obtain ⟨s2, hs2, h1, h2, h3, h4, h5⟩ :=
              client_call_step s.j j1 0 (JOp.add data len) jev (by simp) hw
            exact Or.inr ⟨s2, JThread.client 0, by rw [jevents_journal]; exact hs2, by simp,
              h1, h2, h3, h4, h5⟩
          | barrier =>
            simp only [Option.map_eq_some'] at h
            obtain ⟨⟨j1, jev⟩, hw, heq⟩ := h
            simp only [Prod.mk.injEq] at heq
            obtain ⟨rfl, rfl⟩ := heq
            obtain ⟨s2, hs2, h1, h2, h3, h4, h5⟩ :=
              client_call_step s.j j1 0 JOp.barrier jev (by simp) hw
            exact Or.inr ⟨s2, JThread.client 0, by rw [jevents_journal]; exact hs2, by simp,
              h1, h2, h3, h4, h5⟩
      | waiting hd =>
        rw [hpc] at h
        exact Or.inr (wake h)
      | joining =>
        rw [hpc] at h
        exact Or.inr (wake h)

theorem steps_congr (s s2 : JSys) (h : Nat) (hq : s2.queue = s.queue)
    (hs : s2.syncs = s.syncs) (hw : s2.worker = s.worker) :
    steps_to_signal s2 h = steps_to_signal s h := by
  unfold steps_to_signal
  rw [hq, hs, hw]

/-- Every step keeps the journal in order and the worker running, brings the signal of a
linked barrier one step closer when it is a step of the worker, and never delays it. -/
theorem wstep_progress (s s1 : WSys) (t : WThread) (ev : List WEvent) (jt : List JEvent)
    (hinv : jinv s.j jt) (ha : jalive s.j) (h : Nat) (hen : JNode.barrier h ∈ enqueued jt)
    (hstep : wstep s t = some (s1, ev)) :
    jinv s1.j (jt ++ jevents ev) ∧ jalive s1.j ∧
    steps_to_signal s1.j h ≤
      steps_to_signal s.j h - (if t = WThread.worker then 1 else 0) := by
  rcases wstep_journal s s1 t ev hstep with ⟨hj, hev, ht⟩ |
    ⟨s2, t2, hs2, ht, hq, hs, hw, hi, hal⟩
  · rw [hj, hev, List.append_nil, ht]
    exact ⟨hinv, ha, by simp⟩
  · refine ⟨jstep_inv s2 s1.j t2 jt _ (hi jt hinv) hs2,
      jstep_alive s2 s1.j t2 _ (hal ha) hs2, ?_⟩
    have := steps_step s2 s1.j t2 jt _ (hi jt hinv) (hal ha) h hen hs2
    rw [steps_congr s.j s2 h hq hs hw] at this
    by_cases e : t = WThread.worker
    · rw [if_pos (ht.mpr e)] at this
      rw [if_pos e]
      exact this
    · rw [if_neg (fun e2 => e (ht.mp e2))] at this
      rw [if_neg e]
      exact this

/-- Bounded progress: after enough steps of the worker the handle is signalled. -/
theorem wsignal_reached (sched : List WThread) (s : WSys) (jt : List JEvent)
    (hinv : jinv s.j jt) (ha : jalive s.j) (h : Nat) (hen : JNode.barrier h ∈ enqueued jt)
    (hcount : steps_to_signal s.j h ≤ sched.count WThread.worker) :
    (wrun s sched).1.j.syncs.getD h false = true := by
  induction sched generalizing s jt with
  | nil =>
    by_contra hs
    have := steps_pos s.j h hs
    simp at hcount
    omega
  | cons t rest ih =>
    cases hstep : wstep s t with
    | none =>
      rw [wrun_none _ _ _ hstep]
      by_cases hs : s.j.syncs.getD h false = true
      · exact ih s jt hinv ha hen (by rw [steps_zero s.j h hs]; exact Nat.zero_le _)
      · have htw : t ≠ WThread.worker := by
          intro e
          subst e
          simp only [wstep, Option.map_eq_none'] at hstep
          exact worker_enabled s.j jt hinv ha h hen hs hstep
        apply ih s jt hinv ha hen
        rw [List.count_cons_of_ne (Ne.symm htw)] at hcount
        exact hcount
    | some p =>
      obtain ⟨s1, ev⟩ := p
      rw [wrun_some _ _ _ _ _ hstep]
      obtain ⟨hinv1, ha1, hle⟩ := wstep_progress s s1 t ev jt hinv ha h hen hstep
      apply ih s1 (jt ++ jevents ev) hinv1 ha1
        (by rw [enqueued_append]; exact List.mem_append_left _ hen)
      by_cases htw : t = WThread.worker
      · subst htw
        simp only [if_true] at hle
        simp only [List.count_cons_self] at hcount
        omega
      · simp only [if_neg htw, Nat.sub_zero] at hle
        rw [List.count_cons_of_ne (Ne.symm htw)] at hcount
        omega

/-- The worker keeps running along every run in which nobody calls `trans_destroy`. -/
theorem wrun_alive (sched : List WThread) (s : WSys) (jt : List JEvent)
    (hinv : jinv s.j jt) (ha : jalive s.j) : jalive (wrun s sched).1.j := by
  induction sched generalizing s jt with
  | nil => exact ha
  | cons t rest ih =>
    cases hstep : wstep s t with
    | none => rw [wrun_none _ _ _ hstep]; exact ih s jt hinv ha
    | some p =>
      obtain ⟨s1, ev⟩ := p
      rw [wrun_some _ _ _ _ _ hstep]
      rcases wstep_journal s s1 t ev hstep with ⟨hj, hev, ht⟩ |
        ⟨s2, t2, hs2, ht, hq, hs, hw, hi, hal⟩
      · exact ih s1 jt (by rw [hj]; exact hinv) (by rw [hj]; exact ha)
      · exact ih s1 (jt ++ jevents ev) (jstep_inv s2 s1.j t2 jt _ (hi jt hinv) hs2)
          (jstep_alive s2 s1.j t2 _ (hal ha) hs2)

/-- The thread stays in `barrier_sync_wait` until its call returns. -/
theorem wwaiting_run (sched : List WThread) (s : WSys) (h : Nat) (c : JClient)
    (hc : s.j.clients.get? 0 = some c) (hpc : c.pc = ClientPc.waiting h) :
    ((wrun s sched).1.j.clients.get? 0 = some c ∧ (wrun s sched).1.acts = s.acts) ∨
    WEvent.journal (JEvent.woken 0 h) ∈ (wrun s sched).2 := by
  induction sched generalizing s with
  | nil => exact Or.inl ⟨hc, rfl⟩
  | cons t rest ih =>
    cases hstep : wstep s t with
    | none => rw [wrun_none _ _ _ hstep]; exact ih s hc
    | some p =>
      obtain ⟨s1, ev⟩ := p
      rw [wrun_some _ _ _ _ _ hstep]
      have key : (s1.j.clients.get? 0 = some c ∧ s1.acts = s.acts) ∨
          WEvent.journal (JEvent.woken 0 h) ∈ ev := by
        cases t with
        | worker =>
          simp only [wstep, Option.map_eq_some'] at hstep
          obtain ⟨⟨j1, jev⟩, hw, heq⟩ := hstep
          simp only [Prod.mk.injEq] at heq
          obtain ⟨rfl, rfl⟩ := heq
          exact Or.inl ⟨by rw [(worker_step_clients s.j j1 jev hw).1]; exact hc, rfl⟩
        | other i =>
          simp only [wstep, Option.map_eq_some'] at hstep
          obtain ⟨⟨j1, jev⟩, hw, heq⟩ := hstep
          simp only [Prod.mk.injEq] at heq
          obtain ⟨rfl, rfl⟩ := heq
          exact Or.inl ⟨by
            rw [(client_step_others s.j j1 (i + 1) jev hw).1 0 (by omega)]; exact hc, rfl⟩
        | writer =>
          simp only [wstep, writer_step, hc, hpc, Option.map_eq_some'] at hstep
          obtain ⟨⟨j1, jev⟩, hw, heq⟩ := hstep
          simp only [Prod.mk.injEq] at heq
          obtain ⟨rfl, rfl⟩ := heq
          obtain ⟨c2, hc2, hcases⟩ := client_step_cases s.j j1 0 jev hw
          rw [hc] at hc2
          simp only [Option.some.injEq] at hc2
          subst hc2
          rcases hcases with ⟨hd, hpc2, hsig, rfl, rfl⟩ | ⟨hpc2, _, rfl, rfl⟩ |
            ⟨data, len, rest, hpc2, htodo, rfl, rfl⟩ | ⟨rest, hpc2, htodo, rfl, rfl⟩ |
            ⟨rest, hpc2, htodo, rfl, rfl⟩ | ⟨rest, hpc2, htodo, rfl, rfl⟩
          · rw [hpc] at hpc2
            simp only [ClientPc.waiting.injEq] at hpc2
            subst hpc2
            exact Or.inr (by simp)
          all_goals exact absurd (hpc.symm.trans hpc2) (by simp)
      rcases key with ⟨hk, hka⟩ | hk
      · rcases ih s1 hk with ⟨h1, h2⟩ | h1
        · exact Or.inl ⟨h1, h2.trans hka⟩
        · exact Or.inr (List.mem_append_right _ h1)
      · exact Or.inr (List.mem_append_left _ hk)

/-- A thread between two calls always makes its next call: a `disk_write` or a
`trans_add_item` returns at once, and a `trans_commit_barrier` links its node. -/
theorem writer_step_ready (s : WSys) (c : JClient) (a : WAct) (rest : List WAct)
    (hc : s.j.clients.get? 0 = some c) (hpc : c.pc = ClientPc.ready)
    (hacts : s.acts = a :: rest) :
    ∃ s1 ev, wstep s WThread.writer = some (s1, ev) ∧ s1.acts = rest ∧
      s1.j.queue.length ≤ s.j.queue.length + 1 ∧
      ∃ c1, s1.j.clients.get? 0 = some c1 ∧
        (a ≠ WAct.barrier → c1.pc = ClientPc.ready) ∧
        (a = WAct.barrier → c1.pc = ClientPc.waiting s.j.syncs.length) := by
  simp only [wstep, writer_step, hc, hpc, hacts]
  cases a with
  | dev site off buf len =>
    exact ⟨_, _, rfl, rfl, Nat.le_succ _, c, hc, fun _ => hpc, fun h => by cases h⟩
  | log data len =>
    simp only [client_call_add s.j 0 c data len hc hpc, Option.map_some']
    exact ⟨_, _, rfl, rfl, by simp, _, set_get_self _ _ _ _ hc, fun _ => hpc,
      fun h => by cases h⟩
  | barrier =>
    simp only [client_call_barrier s.j 0 c hc hpc, Option.map_some']
    exact ⟨_, _, rfl, rfl, by simp, _, set_get_self _ _ _ _ hc, fun h => absurd rfl h,
      fun _ => rfl⟩

/-- A thread between two calls makes a sequence of calls without a barrier in as many
steps. -/
theorem wrun_calls (pre : List WAct) (s : WSys) (c : JClient) (rest : List WAct)
    (hnb : WAct.barrier ∉ pre)
    (hc : s.j.clients.get? 0 = some c) (hpc : c.pc = ClientPc.ready)
    (hacts : s.acts = pre ++ rest) :
    (wrun s (List.replicate pre.length WThread.writer)).1.acts = rest ∧
    (wrun s (List.replicate pre.length WThread.writer)).1.j.queue.length
      ≤ s.j.queue.length + pre.length ∧
    ∃ c1, (wrun s (List.replicate pre.length WThread.writer)).1.j.clients.get? 0 = some c1 ∧
      c1.pc = ClientPc.ready := by
  induction pre generalizing s c with
  | nil => exact ⟨hacts, Nat.le_refl _, c, hc, hpc⟩
  | cons a pre1 ih =>
    obtain ⟨s1, ev, hstep, ha1, hq1, c1, hc1, hr1, _⟩ :=
      writer_step_ready s c a (pre1 ++ rest) hc hpc hacts
    have hab : a ≠ WAct.barrier := fun e => hnb (by rw [e]; exact List.mem_cons_self _ _)
    obtain ⟨h1, h2, h3⟩ := ih s1 c1 (fun h => hnb (List.mem_cons_of_mem _ h)) hc1 (hr1 hab)
      ha1
    simp only [List.length_cons, List.replicate_succ]
    rw [wrun_some _ _ _ _ _ hstep]
    exact ⟨h1, by simp only [] at h2 ⊢; omega, h3⟩

/-- Once the thread is past its barrier, or waits on a signalled handle, it makes its
remaining calls in as many steps and one more for the return from the barrier. -/
theorem wrun_rest (n : Nat) (s : WSys) (c : JClient)
    (hnb : WAct.barrier ∉ s.acts) (hc : s.j.clients.get? 0 = some c)
    (hpc : (c.pc = ClientPc.ready ∧ s.acts.length ≤ n) ∨
      ∃ h, c.pc = ClientPc.waiting h ∧ s.j.syncs.getD h false = true ∧
        s.acts.length + 1 ≤ n) :
    (wrun s (List.replicate n WThread.writer)).1.acts = [] ∧
    ∃ c1, (wrun s (List.replicate n WThread.writer)).1.j.clients.get? 0 = some c1 ∧
      c1.pc = ClientPc.ready := by
  induction n generalizing s c with
  | zero =>
    rcases hpc with ⟨hr, hl⟩ | ⟨h, _, _, hl⟩
    · exact ⟨List.length_eq_zero.mp (Nat.le_zero.mp hl), c, hc, hr⟩
    · omega
  | succ n ih =>
    simp only [List.replicate_succ]
    rcases hpc with ⟨hr, hl⟩ | ⟨h, hw, hsig, hl⟩
    · cases hacts : s.acts with
      | nil =>
        have hnone : wstep s WThread.writer = none := by
          simp only [wstep, writer_step, hc, hr, hacts]
        rw [wrun_none _ _ _ hnone]
        exact ih s c hnb hc (Or.inl ⟨hr, by rw [hacts]; exact Nat.zero_le _⟩)
      | cons a rest =>
        obtain ⟨s1, ev, hstep, ha1, _, c1, hc1, hr1, _⟩ :=
          writer_step_ready s c a rest hc hr hacts
        rw [wrun_some _ _ _ _ _ hstep]
        rw [hacts] at hnb hl
        have hab : a ≠ WAct.barrier := fun e => hnb (by rw [e]; exact List.mem_cons_self _ _)
        exact ih s1 c1 (by rw [ha1]; exact fun h => hnb (List.mem_cons_of_mem _ h)) hc1
          (Or.inl ⟨hr1 hab, by rw [ha1]; simp only [List.length_cons] at hl; omega⟩)
    · obtain ⟨s1, hstep, ha1, hc1⟩ : ∃ s1, wstep s WThread.writer
            = some (s1, [WEvent.journal (JEvent.woken 0 h)]) ∧ s1.acts = s.acts ∧
          s1.j.clients.get? 0
            = some { c with pc := ClientPc.ready, results := c.results ++ [0] } := by
        simp only [wstep, writer_step, hc, hw, client_step, hsig, if_true, Option.map_some',
          List.map_cons, List.map_nil]
        exact ⟨_, rfl, rfl, set_get_self _ _ _ _ hc⟩
      rw [wrun_some _ _ _ _ _ hstep]
      exact ih s1 _ (by rw [ha1]; exact hnb) hc1 (Or.inl ⟨rfl, by rw [ha1]; omega⟩)

theorem map_act_not_barrier (l : List WAct) (h : ∀ a ∈ l, map_act a) : WAct.barrier ∉ l := by
  intro hm
  rcases h _ hm with ⟨_, _, _, e, _⟩ | ⟨_, _, e⟩ <;> cases e

theorem data_act_not_barrier (l : List WAct) (h : ∀ a ∈ l, data_act a) :
    WAct.barrier ∉ l := by
  intro hm
  obtain ⟨_, _, _, e⟩ := h _ hm
  cases e

/-- The state of the run at the start of the call. -/
theorem winv_start (d0 : Option Disk) (M T D : List WAct) (tr0 : List JEvent) (j0 : JSys)
    (c0 : JClient) (hj : jinv j0 tr0) (hc : j0.clients.get? 0 = some c0)
    (hpc : c0.pc = ClientPc.ready) :
    winv d0 M T D tr0 { j := j0, disk := d0, acts := M ++ T } [] :=
  ⟨by simpa [jevents] using hj, c0, hc,
    Or.inl ⟨hpc, And.intro (fun _ h => by cases h) (fun _ _ _ h => by cases h), [], M, rfl,
      rfl, rfl⟩⟩

/-- The call returns.  With a running worker and nobody calling `trans_destroy`: the
thread makes the calls of its mapping loop and links its barrier in as many steps; after
any stretch of the run in which the worker makes three steps for each node that can be
queued by then, the remaining steps of the thread are the return from the barrier and
the data loop; and a mapping loop that ends with `return -1` is over after its calls. -/
theorem wrun_returns (d0 : Option Disk) (M T D : List WAct) (tr0 : List JEvent)
    (hM : ∀ a ∈ M, map_act a) (hD : ∀ a ∈ D, data_act a) (j0 : JSys) (c0 : JClient)
    (hj : jinv j0 tr0) (hc : j0.clients.get? 0 = some c0) (hpc : c0.pc = ClientPc.ready)
    (ha : jalive j0) :
    (T = [] →
      (wrun { j := j0, disk := d0, acts := M ++ T }
        (List.replicate M.length WThread.writer)).1.acts = [] ∧
      ∃ c1, (wrun { j := j0, disk := d0, acts := M ++ T }
          (List.replicate M.length WThread.writer)).1.j.clients.get? 0 = some c1 ∧
        c1.pc = ClientPc.ready) ∧
    (T = WAct.barrier :: D → ∀ more : List WThread,
      3 * (j0.queue.length + M.length + 2) ≤ more.count WThread.worker →
      (wrun { j := j0, disk := d0, acts := M ++ T }
        (List.replicate (M.length + 1) WThread.writer ++ more ++
          List.replicate (D.length + 1) WThread.writer)).1.acts = [] ∧
      ∃ c1, (wrun { j := j0, disk := d0, acts := M ++ T }
          (List.replicate (M.length + 1) WThread.writer ++ more ++
            List.replicate (D.length + 1) WThread.writer)).1.j.clients.get? 0 = some c1 ∧
        c1.pc = ClientPc.ready) := by
  have hstart := winv_start d0 M T D tr0 j0 c0 hj hc hpc
  have hMnb := map_act_not_barrier M hM
  have hDnb := data_act_not_barrier D hD
  obtain ⟨hA1, hA2, cA, hcA, hpcA⟩ :=
    wrun_calls M { j := j0, disk := d0, acts := M ++ T } c0 T hMnb hc hpc rfl
  refine ⟨?_, ?_⟩
  · intro hT0
    rw [hT0] at hA1 hcA ⊢
    exact ⟨hA1, cA, hcA, hpcA⟩
  · intro hTb more hcount
    rw [hTb] at hA1 hA2 hcA hstart
    rw [hTb]
    generalize hs0 : ({ j := j0, disk := d0, acts := M ++ WAct.barrier :: D } : WSys) = s0
      at hA1 hA2 hcA hstart
    have hj0 : s0.j = j0 := by rw [← hs0]
    -- after the mapping loop
    have hinvA := wrun_inv d0 M (WAct.barrier :: D) D tr0 hM hD (Or.inr rfl)
      (List.replicate M.length WThread.writer) s0 [] hstart
    have haA := wrun_alive (List.replicate M.length WThread.writer) s0 tr0
      (by rw [hj0]; exact hj) (by rw [hj0]; exact ha)
    generalize htA : (wrun s0 (List.replicate M.length WThread.writer)).2 = trA at hinvA
    generalize hsA : (wrun s0 (List.replicate M.length WThread.writer)).1 = sA
      at hA1 hA2 hcA hinvA haA
    rw [List.nil_append] at hinvA
    -- the barrier is linked
    obtain ⟨sB, evB, hstepB, hB1, hB2, cB, hcB, _, hpcB⟩ :=
      writer_step_ready sA cA WAct.barrier D hcA hpcA hA1
    have hpcB := hpcB rfl
    have hinvB := wstep_inv d0 M (WAct.barrier :: D) D tr0 hM hD (Or.inr rfl) sA sB
      WThread.writer trA evB hinvA hstepB
    have haB : jalive sB.j := by
      rcases wstep_journal sA sB WThread.writer evB hstepB with ⟨hj1, _, _⟩ |
        ⟨s2, t2, hs2, _, _, _, _, _, hal⟩
      · rw [hj1]; exact haA
      · exact jstep_alive s2 sB.j t2 _ (hal haA) hs2
    have henB : JNode.barrier sA.j.syncs.length ∈ enqueued (tr0 ++ jevents (trA ++ evB)) :=
      enq_mem_enqueued _ 0 _ (hinvB.1.own_node 0 cB _ hcB hpcB)
    have hstepsB : steps_to_signal sB.j sA.j.syncs.length
        ≤ more.count WThread.worker := by
      by_cases hs : sB.j.syncs.getD sA.j.syncs.length false = true
      · rw [steps_zero sB.j _ hs]; exact Nat.zero_le _
      · refine Nat.le_trans (steps_bound sB.j _
          (pending_of_unsignaled sB.j _ hinvB.1 haB _ henB hs)) (Nat.le_trans ?_ hcount)
        rw [hj0] at hA2
        omega
    -- the worker drains the queue
    have hsig := wsignal_reached more sB _ hinvB.1 haB _ henB hstepsB
    have hinvC := wrun_inv d0 M (WAct.barrier :: D) D tr0 hM hD (Or.inr rfl) more sB
      (trA ++ evB) hinvB
    have hwait := wwaiting_run more sB _ cB hcB hpcB
    have hsched : wrun s0 (List.replicate (M.length + 1) WThread.writer ++ more ++
        List.replicate (D.length + 1) WThread.writer)
        = ((wrun (wrun sB more).1 (List.replicate (D.length + 1) WThread.writer)).1,
           trA ++ (evB ++ ((wrun sB more).2 ++
             (wrun (wrun sB more).1 (List.replicate (D.length + 1) WThread.writer)).2))) := by
      rw [List.replicate_succ', List.append_assoc, List.append_assoc, wrun_append, hsA, htA,
        List.singleton_append, wrun_some _ _ _ _ _ hstepB, wrun_append]
    rw [hsched]
    simp only []
    generalize (wrun sB more).1 = sC at hsig hinvC hwait ⊢
    generalize (wrun sB more).2 = trC at hinvC hwait
    rcases hwait with ⟨hcC, hactsC⟩ | hwoken
    · exact wrun_rest (D.length + 1) sC cB (by rw [hactsC, hB1]; exact hDnb) hcC
        (Or.inr ⟨_, hpcB, hsig, by rw [hactsC, hB1]⟩)
    · obtain ⟨_, cC, hcC, hphase⟩ := hinvC
      rcases hphase with ⟨_, hb, _⟩ | ⟨h, _, hb, _⟩ |
        ⟨hpcC, _, ⟨done, hDs, _⟩, _⟩
      · exact absurd (List.mem_append_right _ hwoken) (hb.1 _)
      · exact absurd (List.mem_append_right _ hwoken) (hb.1 _)
      · have hsub : ∀ a ∈ sC.acts, a ∈ D := fun a ha => by
          rw [hDs]; exact List.mem_append_right _ ha
        exact wrun_rest (D.length + 1) sC cC (fun h => hDnb (hsub _ h)) hcC
          (Or.inl ⟨hpcC, by
            have := congrArg List.length hDs
            rw [List.length_append] at this
            omega⟩)

/-! ## Without the worker the barrier does not return -/

/-- A step of a client does not touch the worker and signals no handle. -/
theorem client_step_frame (s s1 : JSys) (k : Nat) (ev : List JEvent)
    (h : client_step s k = some (s1, ev)) :
    s1.worker = s.worker ∧
    ∀ hd, s.syncs.getD hd false = false → s1.syncs.getD hd false = false := by
  obtain ⟨c, hc, hcases⟩ := client_step_cases s s1 k ev h
  rcases hcases with ⟨hd, hpc, hsig, rfl, rfl⟩ | ⟨hpc, _, rfl, rfl⟩ |
    ⟨data, len, rest, hpc, htodo, rfl, rfl⟩ | ⟨rest, hpc, htodo, rfl, rfl⟩ |
    ⟨rest, hpc, htodo, rfl, rfl⟩ | ⟨rest, hpc, htodo, rfl, rfl⟩
  · exact ⟨rfl, fun _ h => h⟩
  · exact ⟨rfl, fun _ h => h⟩
  · exact ⟨rfl, fun _ h => h⟩
  · refine ⟨rfl, fun hd h => ?_⟩
    show (s.syncs ++ [false]).getD hd false = false
    rw [getD_append_false]
    exact h
  · exact ⟨rfl, fun _ h => h⟩
  · exact ⟨rfl, fun _ h => h⟩

/-- When the worker has exited, no step signals the handle the thread in
`xfs_sim_write` waits on, and the thread does not return from its barrier. -/
theorem wstep_stuck (s s1 : WSys) (t : WThread) (ev : List WEvent)
    (hw : s.j.worker = WorkerPc.exited)
    (hwait : ∀ c h, s.j.clients.get? 0 = some c → c.pc = ClientPc.waiting h →
      s.j.syncs.getD h false = false)
    (hstep : wstep s t = some (s1, ev)) :
    s1.j.worker = WorkerPc.exited ∧
    (∀ c h, s1.j.clients.get? 0 = some c → c.pc = ClientPc.waiting h →
      s1.j.syncs.getD h false = false) ∧
    ∀ h, WEvent.journal (JEvent.woken 0 h) ∉ ev := by
  cases t with
  | worker =>
    simp only [wstep, worker_step, hw] at hstep
    exact absurd hstep (by simp)
  | other i =>
    simp only [wstep, Option.map_eq_some'] at hstep
    obtain ⟨⟨j1, jev⟩, hcs, heq⟩ := hstep
    simp only [Prod.mk.injEq] at heq
    obtain ⟨rfl, rfl⟩ := heq
    obtain ⟨hcl, _, hcalm⟩ := client_step_others s.j j1 (i + 1) jev hcs
    obtain ⟨hwk, hsy⟩ := client_step_frame s.j j1 (i + 1) jev hcs
    refine ⟨by rw [hwk]; exact hw, ?_, ?_⟩
    · intro c h hc hpc
      rw [hcl 0 (by omega)] at hc
      exact hsy h (hwait c h hc hpc)
    · intro h hm
      obtain ⟨je, hje, e⟩ := List.mem_map.mp hm
      simp only [WEvent.journal.injEq] at e
      exact hcalm je hje 0 h (by omega) e
  | writer =>
    simp only [wstep, writer_step] at hstep
    cases hc : s.j.clients.get? 0 with
    | none => rw [hc] at hstep; cases hstep
    | some c =>
      rw [hc] at hstep
      simp only [] at hstep
      have wake : (client_step s.j 0).map
          (fun r => (({ s with j := r.1 } : WSys), r.2.map WEvent.journal)) = some (s1, ev) →
          c.pc ≠ ClientPc.ready →
          s1.j.worker = WorkerPc.exited ∧
          (∀ c h, s1.j.clients.get? 0 = some c → c.pc = ClientPc.waiting h →
            s1.j.syncs.getD h false = false) ∧
          ∀ h, WEvent.journal (JEvent.woken 0 h) ∉ ev := by
        intro hstep hnr
        simp only [Option.map_eq_some'] at hstep
        obtain ⟨⟨j1, jev⟩, hcs, heq⟩ := hstep
        simp only [Prod.mk.injEq] at heq
        obtain ⟨rfl, rfl⟩ := heq
        obtain ⟨c2, hc2, hcases⟩ := client_step_cases s.j j1 0 jev hcs
        rw [hc] at hc2
        simp only [Option.some.injEq] at hc2
        subst hc2
        rcases hcases with ⟨hd, hpc2, hsig, rfl, rfl⟩ | ⟨hpc2, _, rfl, rfl⟩ |
          ⟨data, len, rest, hpc2, htodo, rfl, rfl⟩ | ⟨rest, hpc2, htodo, rfl, rfl⟩ |
          ⟨rest, hpc2, htodo, rfl, rfl⟩ | ⟨rest, hpc2, htodo, rfl, rfl⟩
        · rw [hwait c hd hc hpc2] at hsig
          exact absurd hsig (by simp)
        · refine ⟨hw, ?_, ?_⟩
          · intro c1 h hc1 hpc1
            rw [set_get_self _ _ _ _ hc] at hc1
            simp only [Option.some.injEq] at hc1
            subst hc1
            exact absurd hpc1 (by simp)
          · intro h hm
            obtain ⟨je, hje, e⟩ := List.mem_map.mp hm
            simp only [WEvent.journal.injEq] at e
            subst e
            obtain ⟨n, _, e2⟩ := List.mem_map.mp hje
            cases e2
        all_goals exact absurd hpc2 hnr
      cases hpc : c.pc with
      | ready =>
        rw [hpc] at hstep
        simp only [] at hstep
        cases hacts : s.acts with
        | nil => rw [hacts] at hstep; cases hstep
        | cons a rest =>
          rw [hacts] at hstep
          cases a with
          | dev site off buf len =>
            simp only [Option.some.injEq, Prod.mk.injEq] at hstep
            obtain ⟨rfl, rfl⟩ := hstep
            exact ⟨hw, hwait, by simp⟩
          | log data len =>
            simp only [client_call_add s.j 0 c data len hc hpc, Option.map_some',
              Option.some.injEq, Prod.mk.injEq] at hstep
            obtain ⟨rfl, rfl⟩ := hstep
            refine ⟨hw, ?_, by simp⟩
            intro c1 h hc1 hpc1
            rw [set_get_self _ _ _ _ hc] at hc1
            simp only [Option.some.injEq] at hc1
            subst hc1
            exact absurd (hpc.symm.trans hpc1) (by simp)
          | barrier =>
            simp only [client_call_barrier s.j 0 c hc hpc, Option.map_some',
              Option.some.injEq, Prod.mk.injEq] at hstep
            obtain ⟨rfl, rfl⟩ := hstep
            refine ⟨hw, ?_, by simp⟩
            intro c1 h hc1 hpc1
            rw [set_get_self _ _ _ _ hc] at hc1
            simp only [Option.some.injEq] at hc1
            subst hc1
            simp only [ClientPc.waiting.injEq] at hpc1
            subst hpc1
            show (s.j.syncs ++ [false]).getD s.j.syncs.length false = false
            rw [getD_append_false, List.getD_eq_getElem?_getD,
              List.getElem?_eq_none (Nat.le_refl _)]
            rfl
      | waiting hd =>
        rw [hpc] at hstep
        exact wake hstep (by rw [hpc]; simp)
      | joining =>
        rw [hpc] at hstep
        exact wake hstep (by rw [hpc]; simp)

/-- When the worker has exited, the thread never returns from its barrier, whatever the
schedule. -/
theorem wrun_stuck (sched : List WThread) (s : WSys)
    (hw : s.j.worker = WorkerPc.exited)
    (hwait : ∀ c h, s.j.clients.get? 0 = some c → c.pc = ClientPc.waiting h →
      s.j.syncs.getD h false = false) :
    ∀ h, WEvent.journal (JEvent.woken 0 h) ∉ (wrun s sched).2 := by
  induction sched generalizing s with
  | nil => intro h hm; cases hm
  | cons t rest ih =>
    cases hstep : wstep s t with
    | none => rw [wrun_none _ _ _ hstep]; exact ih s hw hwait
    | some p =>
      obtain ⟨s1, ev⟩ := p
      rw [wrun_some _ _ _ _ _ hstep]
      obtain ⟨h1, h2, h3⟩ := wstep_stuck s s1 t ev hw hwait hstep
      intro h hm
      rcases List.mem_append.mp hm with hm | hm
      · exact h3 h hm
      · exact ih s1 h1 h2 h hm

/-! ## Barrier before data -/

theorem wstep_clients_length (s s1 : WSys) (t : WThread) (ev : List WEvent)
    (h : wstep s t = some (s1, ev)) : s1.j.clients.length = s.j.clients.length := by
  rcases wstep_journal s s1 t ev h with ⟨hj, _, _⟩ | ⟨s2, t2, hs2, _, _, _, _, _, _⟩
  · rw [hj]
  · cases t with
    | worker =>
      simp only [wstep, Option.map_eq_some'] at h
      obtain ⟨⟨j1, jev⟩, hw, heq⟩ := h
      simp only [Prod.mk.injEq] at heq
      obtain ⟨rfl, rfl⟩ := heq
      rw [(worker_step_clients s.j j1 jev hw).1]
    | other i =>
      simp only [wstep, Option.map_eq_some'] at h
      obtain ⟨⟨j1, jev⟩, hw, heq⟩ := h
      simp only [Prod.mk.injEq] at heq
      obtain ⟨rfl, rfl⟩ := heq
      exact (client_step_others s.j j1 (i + 1) jev hw).2.1
    | writer =>
      simp only [wstep, writer_step] at h
      cases hc : s.j.clients.get? 0 with
      | none => rw [hc] at h; cases h
      | some c =>
        rw [hc] at h
        simp only [] at h
        have wake : (client_step s.j 0).map
            (fun r => (({ s with j := r.1 } : WSys), r.2.map WEvent.journal)) = some (s1, ev) →
            s1.j.clients.length = s.j.clients.length := by
          intro h
          simp only [Option.map_eq_some'] at h
          obtain ⟨⟨j1, jev⟩, hw, heq⟩ := h
          simp only [Prod.mk.injEq] at heq
          obtain ⟨rfl, rfl⟩ := heq
          exact (client_step_others s.j j1 0 jev hw).2.1
        cases hpc : c.pc with
        | ready =>
          rw [hpc] at h
          simp only [] at h
          cases hacts : s.acts with
          | nil => rw [hacts] at h; cases h
          | cons a rest =>
            rw [hacts] at h
            cases a with
            | dev site off buf len =>
              simp only [Option.some.injEq, Prod.mk.injEq] at h
              obtain ⟨rfl, rfl⟩ := h
              rfl
            | log data len =>
              simp only [client_call_add s.j 0 c data len hc hpc, Option.map_some',
                Option.some.injEq, Prod.mk.injEq] at h
              obtain ⟨rfl, rfl⟩ := h
              exact List.length_set _ _ _
            | barrier =>
              simp only [client_call_barrier s.j 0 c hc hpc, Option.map_some',
                Option.some.injEq, Prod.mk.injEq] at h
              obtain ⟨rfl, rfl⟩ := h
              exact List.length_set _ _ _
        | waiting hd => rw [hpc] at h; exact wake h
        | joining => rw [hpc] at h; exact wake h

theorem wrun_clients_length (sched : List WThread) (s : WSys) :
    (wrun s sched).1.j.clients.length = s.j.clients.length := by
  induction sched generalizing s with
  | nil => rfl
  | cons t rest ih =>
    cases hstep : wstep s t with
    | none => rw [wrun_none _ _ _ hstep]; exact ih s
    | some p =>
      obtain ⟨s1, ev⟩ := p
      rw [wrun_some _ _ _ _ _ hstep]
      exact (ih s1).trans (wstep_clients_length s s1 t ev hstep)

/-- The calls of `xfs_sim_write` with `size >= 1`: those of the mapping loop, write-backs
of AGFs and journal entries, followed by nothing or by the barrier and the `disk_write`
calls of the data loop. -/
theorem write_acts_shape (fs : FS) (inode : xfs_inode_t) (buffer : List Nat)
    (size offset : Nat) (hsize : 1 ≤ size) :
    xfs_sim_write_acts fs inode buffer size offset
      = write_map_acts fs inode size offset ++ write_tail_acts fs inode buffer size offset ∧
    (∀ a ∈ write_map_acts fs inode size offset, map_act a) ∧
    (∀ a ∈ write_data_acts fs inode buffer size offset, data_act a) ∧
    ((write_map_result fs inode size offset).1 ≠ 0 →
      write_tail_acts fs inode buffer size offset = []) ∧
    ((write_map_result fs inode size offset).1 = 0 →
      write_tail_acts fs inode buffer size offset
        = WAct.barrier :: write_data_acts fs inode buffer size offset) := by
  refine ⟨?_, (map_loop_acts_spec _ _ _ _ _).2, (data_loop_acts_spec _ _ _ _ _ _ _).2, ?_, ?_⟩
  · unfold xfs_sim_write_acts
    rw [if_neg (by omega)]
  · intro h
    unfold write_tail_acts
    rw [if_neg h]
  · intro h
    unfold write_tail_acts
    rw [if_pos h]

/-- Claim C22, amended (barrier before data), on the interleaving model of one call of
`xfs_sim_write` (`size >= 1`) next to the journal worker and any other journal clients,
started in any state of the journal reachable from `trans_init` in which the calling
thread (client 0) is between two calls.  Along every schedule: as long as the call's
`trans_commit_barrier` has not returned, every `disk_write` of the run is the write-back
of an AGF by `xfs_alloc_blocks` or `xfs_free_blocks`, and the device differs from the
initial one inside AGF records only; when the barrier returns, the thread has linked its
barrier node, and that node and every node linked before it (also before the call) have
been fully processed by the worker, in the order of linking (with one client,
everything linked so far has been processed); the `disk_write` calls of the data loop
come after that return.  If the mapping loop ends with `return -1`, no barrier is
committed and no file data is written; if the worker has exited, the barrier never
returns and no file data is written.  When the call has made all its calls, the device
is the one `xfs_sim_write` computes.  And the call does return: with a running worker
and nobody calling `trans_destroy`, the thread reaches its barrier in as many steps as
its mapping loop makes calls, and after the worker has made three steps per node that
can be queued by then, the thread's remaining steps are the return from the barrier and
the data loop. -/
theorem C22_barrier_before_data (fs : FS) (inode : xfs_inode_t) (buffer : List Nat)
    (size offset : Nat) (programs : List (List JOp)) (sched0 : List JThread)
    (j0 : JSys) (tr0 : List JEvent) (c0 : JClient)
    (hsize : 1 ≤ size)
    (hrun : jrun (jinit programs) sched0 = (j0, tr0))
    (hc : j0.clients.get? 0 = some c0) (hpc : c0.pc = ClientPc.ready) :
    (∀ sched : List WThread,
      (before_return (wrun (write_start j0 fs inode buffer size offset) sched).2 ∨
        ∃ pre post h,
          (wrun (write_start j0 fs inode buffer size offset) sched).2
            = pre ++ WEvent.journal (JEvent.woken 0 h) :: post ∧
          before_return pre ∧
          WEvent.journal (JEvent.enq 0 (JNode.barrier h)) ∈ pre ∧
          drained (tr0 ++ jevents pre) h ∧
          (programs.length ≤ 1 →
            processed (tr0 ++ jevents pre) = enqueued (tr0 ++ jevents pre)) ∧
          ∀ e ∈ post, (∃ site off len, e = WEvent.dev site off len ∧ site = WSite.data) ∨
            ∃ je, e = WEvent.journal je ∧ ∀ h1, je ≠ JEvent.woken 0 h1) ∧
      ((∀ h, WEvent.journal (JEvent.woken 0 h)
          ∉ (wrun (write_start j0 fs inode buffer size offset) sched).2) →
        ∀ x, (∀ ag, valid_ag ag → ¬ in_agf ag x) →
          disk_byte (wrun (write_start j0 fs inode buffer size offset) sched).1.disk x
            = disk_byte fs.disk x) ∧
      ((write_map_result fs inode size offset).1 ≠ 0 →
        before_return (wrun (write_start j0 fs inode buffer size offset) sched).2) ∧
      (j0.worker = WorkerPc.exited →
        before_return (wrun (write_start j0 fs inode buffer size offset) sched).2) ∧
      (∀ c, (wrun (write_start j0 fs inode buffer size offset) sched).1.j.clients.get? 0
          = some c → c.pc = ClientPc.ready →
        (wrun (write_start j0 fs inode buffer size offset) sched).1.acts = [] →
        (wrun (write_start j0 fs inode buffer size offset) sched).1.disk
          = dev_apply fs.disk (xfs_sim_write_acts fs inode buffer size offset) ∧
        ((write_map_result fs inode size offset).1 = 0 →
          ∃ h, WEvent.journal (JEvent.woken 0 h)
            ∈ (wrun (write_start j0 fs inode buffer size offset) sched).2))) ∧
    (fs.journal.running = true →
      ∃ res, xfs_sim_write fs inode buffer size offset = some res ∧
        res.2.2.disk = dev_apply fs.disk (xfs_sim_write_acts fs inode buffer size offset) ∧
        ((write_map_result fs inode size offset).1 ≠ 0 → res.1 = -1)) ∧
    (jalive j0 →
      ((write_map_result fs inode size offset).1 ≠ 0 →
        (wrun (write_start j0 fs inode buffer size offset)
          (List.replicate (write_map_acts fs inode size offset).length
            WThread.writer)).1.acts = [] ∧
        ∃ c1, (wrun (write_start j0 fs inode buffer size offset)
            (List.replicate (write_map_acts fs inode size offset).length
              WThread.writer)).1.j.clients.get? 0 = some c1 ∧
          c1.pc = ClientPc.ready) ∧
      ((write_map_result fs inode size offset).1 = 0 → ∀ more : List WThread,
        3 * (j0.queue.length + (write_map_acts fs inode size offset).length + 2)
          ≤ more.count WThread.worker →
        (wrun (write_start j0 fs inode buffer size offset)
          (List.replicate ((write_map_acts fs inode size offset).length + 1) WThread.writer
            ++ more ++
            List.replicate ((write_data_acts fs inode buffer size offset).length + 1)
              WThread.writer)).1.acts = [] ∧
        ∃ c1, (wrun (write_start j0 fs inode buffer size offset)
            (List.replicate ((write_map_acts fs inode size offset).length + 1) WThread.writer
              ++ more ++
              List.replicate ((write_data_acts fs inode buffer size offset).length + 1)
                WThread.writer)).1.j.clients.get? 0 = some c1 ∧
          c1.pc = ClientPc.ready)) := by
  obtain ⟨hacts, hM, hD, hT0, hTb⟩ := write_acts_shape fs inode buffer size offset hsize
  have hj : jinv j0 tr0 := by
    have := reachable_inv programs sched0
    rw [hrun] at this
    exact this
  have hlen : j0.clients.length = programs.length := by
    have := jrun_clients_length sched0 (jinit programs)
    rw [hrun] at this
    simpa [jinit] using this
  have hT : write_tail_acts fs inode buffer size offset = [] ∨
      write_tail_acts fs inode buffer size offset
        = WAct.barrier :: write_data_acts fs inode buffer size offset := by
    by_cases h : (write_map_result fs inode size offset).1 = 0
    · exact Or.inr (hTb h)
    · exact Or.inl (hT0 h)
  have hs0 : write_start j0 fs inode buffer size offset
      = { j := j0, disk := fs.disk,
          acts := write_map_acts fs inode size offset
            ++ write_tail_acts fs inode buffer size offset } := by
    unfold write_start
    rw [hacts]
  have hstart := winv_start fs.disk (write_map_acts fs inode size offset)
    (write_tail_acts fs inode buffer size offset)
    (write_data_acts fs inode buffer size offset) tr0 j0 c0 hj hc hpc
  rw [← hs0] at hstart
  have hseq : fs.journal.running = true →
      ∃ res, xfs_sim_write fs inode buffer size offset = some res ∧
        res.2.2.disk = dev_apply fs.disk (xfs_sim_write_acts fs inode buffer size offset) ∧
        ((write_map_result fs inode size offset).1 ≠ 0 → res.1 = -1) := by
    intro hr
    obtain ⟨res, h1, h2, h3⟩ := xfs_sim_write_acts_disk fs inode buffer size offset hr
    exact ⟨res, h1, h2, fun hst => h3 hst hsize⟩
  refine ⟨?_, hseq, ?_⟩
  · intro sched
    have hinv := wrun_inv fs.disk _ _ _ tr0 hM hD hT sched _ [] hstart
    rw [List.nil_append] at hinv
    have hcl := wrun_clients_length sched (write_start j0 fs inode buffer size offset)
    have hcl0 : (write_start j0 fs inode buffer size offset).j.clients.length
        = programs.length := hlen
    rw [hcl0] at hcl
    have hquiet := winv_before_return fs.disk _ _ _ tr0 hM _ _ hinv
    obtain ⟨_, c, hc1, hphase⟩ := hinv
    refine ⟨?_, fun hno => (hquiet hno).2, ?_, ?_, ?_⟩
    · rcases hphase with ⟨_, hb, _⟩ | ⟨h, _, hb, _⟩ |
        ⟨_, _, _, pre, post, h, htr, hb, henq, hdr, hsingle, hpost⟩
      · exact Or.inl hb
      · exact Or.inl hb
      · exact Or.inr ⟨pre, post, h, htr, hb, henq, hdr,
          fun hone => hsingle (by rw [hcl]; exact hone), hpost⟩
    · intro hst
      rcases hphase with ⟨_, hb, _⟩ | ⟨h, _, hb, hTb1, _⟩ | ⟨_, hTb1, _⟩
      · exact hb
      · rw [hT0 hst] at hTb1
        cases hTb1
      · rw [hT0 hst] at hTb1
        cases hTb1
    · intro hw
      refine (hquiet (wrun_stuck sched _ hw ?_)).1
      intro c1 h hc2 hpc2
      have hc3 : j0.clients.get? 0 = some c1 := hc2
      rw [hc] at hc3
      simp only [Option.some.injEq] at hc3
      subst hc3
      exact absurd (hpc.symm.trans hpc2) (by simp)
    · intro c2 hc2 hpc2 hdone
      have hinv2 := wrun_inv fs.disk _ _ _ tr0 hM hD hT sched _ [] hstart
      rw [List.nil_append] at hinv2
      obtain ⟨h1, h2⟩ := winv_finished fs.disk _ _ _ tr0 _ _ hinv2 c2 hc2 hpc2 hdone
      refine ⟨by rw [h1, hacts], fun hst => h2 (hTb hst)⟩
  · intro ha
    have hret := wrun_returns fs.disk (write_map_acts fs inode size offset)
      (write_tail_acts fs inode buffer size offset)
      (write_data_acts fs inode buffer size offset) tr0 hM hD j0 c0 hj hc hpc ha
    rw [← hs0] at hret
    exact ⟨fun hst => hret.1 (hT0 hst), fun hst => hret.2 (hTb hst)⟩

/-- Witness for C22: on the formatted and mounted 100 MiB device, a thread that has
queued two journal entries calls `xfs_sim_write(inode, buf, 3, 0)` on a fresh inode.
The mapping loop makes two calls (the write-back of the AGF of AG 0 and its journal
entry) and the data loop one.  With three steps of the thread, eighteen of the worker
and two more of the thread the call has returned; the `disk_write` calls of the run are
the write-back at offset 0, then, after the return from the barrier, the three data
bytes at offset 8192. -/
theorem C22_barrier_before_data_witness :
    jalive (jrun (jinit [[JOp.add [1] 1, JOp.add [2] 1]])
      [JThread.client 0, JThread.client 0]).1 ∧
    (write_map_result mounted_fs created_inode 3 0).1 = 0 ∧
    (write_map_acts mounted_fs created_inode 3 0).length = 2 ∧
    (write_data_acts mounted_fs created_inode [1, 2, 3] 3 0).length = 1 ∧
    ((wrun (write_start (jrun (jinit [[JOp.add [1] 1, JOp.add [2] 1]])
          [JThread.client 0, JThread.client 0]).1 mounted_fs created_inode [1, 2, 3] 3 0)
        (List.replicate (2 + 1) WThread.writer ++ List.replicate 18 WThread.worker ++
          List.replicate (1 + 1) WThread.writer)).2.filterMap
      (fun e => match e with
        | WEvent.dev site off len => some (some (site, off, len))
        | WEvent.journal (JEvent.woken 0 _) => some none
        | _ => none))
      = [some (WSite.agf, 0, 2416), none, some (WSite.data, 8192, 3)] ∧
    (wrun (write_start (jrun (jinit [[JOp.add [1] 1, JOp.add [2] 1]])
          [JThread.client 0, JThread.client 0]).1 mounted_fs created_inode [1, 2, 3] 3 0)
        (List.replicate (2 + 1) WThread.writer ++ List.replicate 18 WThread.worker ++
          List.replicate (1 + 1) WThread.writer)).1.acts = [] ∧
    ∃ c1, (wrun (write_start (jrun (jinit [[JOp.add [1] 1, JOp.add [2] 1]])
          [JThread.client 0, JThread.client 0]).1 mounted_fs created_inode [1, 2, 3] 3 0)
        (List.replicate (2 + 1) WThread.writer ++ List.replicate 18 WThread.worker ++
          List.replicate (1 + 1) WThread.writer)).1.j.clients.get? 0 = some c1 ∧
      c1.pc = ClientPc.ready := by
  have hl : (write_map_acts mounted_fs created_inode 3 0).length = 2 := by decide!
  have hd : (write_data_acts mounted_fs created_inode [1, 2, 3] 3 0).length = 1 := by decide!
  have hst : (write_map_result mounted_fs created_inode 3 0).1 = 0 := by decide!
  have h := (C22_barrier_before_data mounted_fs created_inode [1, 2, 3] 3 0
    [[JOp.add [1] 1, JOp.add [2] 1]] [JThread.client 0, JThread.client 0]
    (jrun (jinit [[JOp.add [1] 1, JOp.add [2] 1]]) [JThread.client 0, JThread.client 0]).1
    (jrun (jinit [[JOp.add [1] 1, JOp.add [2] 1]]) [JThread.client 0, JThread.client 0]).2
    { todo := [], pc := ClientPc.ready, results := [0, 0] }
    (by decide) rfl (by decide) rfl).2.2 (by decide)
  have h2 := h.2 hst (List.replicate 18 WThread.worker) (by rw [hl]; decide)
  rw [hl, hd] at h2
  exact ⟨by decide, hst, hl, hd, by decide!, h2⟩

/-- Claim C22 as stated fails for a write that allocates: on the formatted and mounted
100 MiB device, the first call `xfs_sim_write(inode, buf, 3, 0)` on a freshly created
inode makes is the `disk_write` of the AGF of AG 0 in `xfs_alloc_blocks`, before any
journal entry is queued and before `trans_commit_barrier` is called: device byte 18 (the
map entry of slot 2) goes from 0 to 1.  At the end of the mapping loop the journal entry
of that allocation is still queued and the barrier has not yet been enqueued. -/
theorem C22_counterexample :
    in_agf 0 18 ∧ disk_byte mounted_fs.disk 18 = some 0 ∧
    (wrun (write_start (jinit [[]]) mounted_fs created_inode [1, 2, 3] 3 0)
      [WThread.writer]).2 = [WEvent.dev WSite.agf 0 2416] ∧
    disk_byte (wrun (write_start (jinit [[]]) mounted_fs created_inode [1, 2, 3] 3 0)
      [WThread.writer]).1.disk 18 = some 1 ∧
    (wrun (write_start (jinit [[]]) mounted_fs created_inode [1, 2, 3] 3 0)
      [WThread.writer]).1.j.queue = [] ∧
    disk_byte (write_map_loop (0 / 4096) ((0 + 3 - 1) / 4096 - 0 / 4096 + 1) 0
      mounted_fs created_inode).2.2.disk 18 = some 1 ∧
    (write_map_loop (0 / 4096) ((0 + 3 - 1) / 4096 - 0 / 4096 + 1) 0
      mounted_fs created_inode).2.2.journal.queue.length = 1 ∧
    (xfs_sim_write mounted_fs created_inode [1, 2, 3] 3 0).isSome = true := by
  decide!

end XfsSim
